import Mathlib

/-! # A red-black tree map with a sentinel head node

Shallow embedding of `Map.h`.  Nodes live in an object store indexed by
addresses; address `0` is the sentinel `_head` that is embedded in the map
object.  A pointer is an `Option Nat` (`none` is `nullptr`).  Every member
function is a function on the store that returns `none` when the C++ code
would dereference a null or a freed pointer, or when a loop or recursion does
not finish within the fuel it is given.
-/

namespace StdMap

/-- Colour tag of a node (`enum class Color`). -/
inductive Color where
  | Red
  | Black
deriving DecidableEq, Repr

/-- Node of the tree (`struct RB_Node`). -/
structure RB_Node (K V : Type) where
  value : K × V
  parent : Option Nat
  left : Option Nat
  right : Option Nat
  color : Color
deriving DecidableEq, Repr

/-- The map object: the object store (cell `0` is `_head`, a freed cell is
`none`) and the member `_size`.  The comparator `_comp` is passed to the
member functions that use it. -/
structure Map (K V : Type) where
  mem : List (Option (RB_Node K V))
  _size : Nat
deriving DecidableEq, Repr

variable {K V : Type}

/-- Read the node stored at an address (fails on a freed or unallocated cell). -/
def rd (m : Map K V) (a : Nat) : Option (RB_Node K V) :=
  m.mem.getD a none

/-- Overwrite the cell at an address. -/
def wr (m : Map K V) (a : Nat) (n : RB_Node K V) : Map K V :=
  { m with mem := m.mem.set a (some n) }

/-- Assignment `a->parent = p`. -/
def setParent (m : Map K V) (a : Nat) (p : Option Nat) : Option (Map K V) :=
  (rd m a).map fun n => wr m a { n with parent := p }

/-- Assignment `a->left = p`. -/
def setLeft (m : Map K V) (a : Nat) (p : Option Nat) : Option (Map K V) :=
  (rd m a).map fun n => wr m a { n with left := p }

/-- Assignment `a->right = p`. -/
def setRight (m : Map K V) (a : Nat) (p : Option Nat) : Option (Map K V) :=
  (rd m a).map fun n => wr m a { n with right := p }

/-- Assignment `a->color = c`. -/
def setColor (m : Map K V) (a : Nat) (c : Color) : Option (Map K V) :=
  (rd m a).map fun n => wr m a { n with color := c }

/-- Assignment `a->value.second = v`. -/
def setSecond (m : Map K V) (a : Nat) (v : V) : Option (Map K V) :=
  (rd m a).map fun n => wr m a { n with value := (n.value.1, v) }

/-- Allocation `new RB_Node(...)`: the node is put in a fresh cell. -/
def alloc (m : Map K V) (n : RB_Node K V) : Map K V × Nat :=
  ({ m with mem := m.mem ++ [some n] }, m.mem.length)

/-- Deallocation `delete a`. -/
def free (m : Map K V) (a : Nat) : Option (Map K V) :=
  (rd m a).map fun _ => { m with mem := m.mem.set a none }

/-- Fuel given to the loops and recursions of the public member functions. -/
def fuelOf (m : Map K V) : Nat :=
  2 * m.mem.length + 8

/-- Default constructor `Map()`: the sentinel with `left` and `right`
referring to itself, and `_size` zero. -/
def empty [Inhabited K] [Inhabited V] : Map K V :=
  { mem := [some ⟨(default, default), none, some 0, some 0, Color.Red⟩], _size := 0 }

/-! ## In-order navigation -/

/-- Loop `while (node->left) node = node->left;`. -/
def leftmost (m : Map K V) : Nat → Nat → Option Nat
  | 0, _ => none
  | fuel + 1, node => do
    let n ← rd m node
    match n.left with
    | some l => leftmost m fuel l
    | none => pure node

/-- Loop `while (node->right) node = node->right;`. -/
def rightmost (m : Map K V) : Nat → Nat → Option Nat
  | 0, _ => none
  | fuel + 1, node => do
    let n ← rd m node
    match n.right with
    | some r => rightmost m fuel r
    | none => pure node

/-- Loop `while (node == p->right) { node = p; p = p->parent; }`; the result
is the final pair `(node, p)`. -/
def climbRight (m : Map K V) : Nat → Nat → Nat → Option (Nat × Nat)
  | 0, _, _ => none
  | fuel + 1, node, p => do
    let pn ← rd m p
    if pn.right = some node then
      let pp ← pn.parent
      climbRight m fuel p pp
    else
      pure (node, p)

/-- Loop `while (node == p->left) { node = p; p = p->parent; }`; the result
is the final pair `(node, p)`. -/
def climbLeft (m : Map K V) : Nat → Nat → Nat → Option (Nat × Nat)
  | 0, _, _ => none
  | fuel + 1, node, p => do
    let pn ← rd m p
    if pn.left = some node then
      let pp ← pn.parent
      climbLeft m fuel p pp
    else
      pure (node, p)

/-- Statement `if (node->right != p) node = p;` that follows the loop of
`inorderSuccessor`, applied to the pair `(node, p)` the loop ends with. -/
def afterClimbRight (m : Map K V) (np : Nat × Nat) : Option Nat := do
  let n ← rd m np.1
  if n.right ≠ some np.2 then pure np.2 else pure np.1

/-- Statement `if (node->left != p) node = p;` that follows the loop of
`inorderPredecessor`, applied to the pair `(node, p)` the loop ends with. -/
def afterClimbLeft (m : Map K V) (np : Nat × Nat) : Option Nat := do
  let n ← rd m np.1
  if n.left ≠ some np.2 then pure np.2 else pure np.1

/-- Member `inorderSuccessor`; `RB_tree_iterator::operator++` has the same body. -/
def inorderSuccessor (m : Map K V) (fuel : Nat) (node : Nat) : Option Nat := do
  let n ← rd m node
  match n.right with
  | some r => leftmost m fuel r
  | none =>
    let p ← n.parent
    let np ← climbRight m fuel node p
    afterClimbRight m np

/-- Member `inorderPredecessor`; `RB_tree_iterator::operator--` has the same body. -/
def inorderPredecessor (m : Map K V) (fuel : Nat) (node : Nat) : Option Nat := do
  let n ← rd m node
  match n.left with
  | some l => rightmost m fuel l
  | none =>
    let p ← n.parent
    let np ← climbLeft m fuel node p
    afterClimbLeft m np

/-- Prefix increment of the iterator, `RB_tree_iterator::operator++`. -/
def increment (m : Map K V) (it : Nat) : Option Nat :=
  inorderSuccessor m (fuelOf m) it

/-- Prefix decrement of the iterator, `RB_tree_iterator::operator--`. -/
def decrement (m : Map K V) (it : Nat) : Option Nat :=
  inorderPredecessor m (fuelOf m) it

/-- Iterator returned by `begin()`: it holds `_head.left`. -/
def beginIt (m : Map K V) : Option Nat := do
  let h ← rd m 0
  h.left

/-- Iterator returned by `end()`: it holds `&_head`. -/
def endIt : Nat := 0

/-- Iterator returned by `rbegin()`: it holds `_head.right`. -/
def rbeginIt (m : Map K V) : Option Nat := do
  let h ← rd m 0
  h.right

/-- Member `size()`. -/
def size (m : Map K V) : Nat := m._size

/-- The loop `for (i = it; i != end(); i++)` collecting `*i`. -/
def walkFrom (m : Map K V) : Nat → Nat → Option (List (K × V))
  | 0, _ => none
  | fuel + 1, it =>
    if it = endIt then some []
    else do
      let n ← rd m it
      let next ← increment m it
      let rest ← walkFrom m fuel next
      pure (n.value :: rest)

/-- The sequence of elements visited from `begin()` to `end()`. -/
def toList (m : Map K V) : Option (List (K × V)) := do
  let b ← beginIt m
  walkFrom m (fuelOf m) b

/-! ## Lookup -/

/-- Member `findHelper`. -/
def findHelper (comp : K → K → Bool) [DecidableEq K] (m : Map K V) :
    Nat → Option Nat → K → Option (Option Nat)
  | 0, _, _ => none
  | _ + 1, none, _ => some none
  | fuel + 1, some node, x => do
    let n ← rd m node
    if n.value.1 = x then pure (some node)
    else if comp x n.value.1 then findHelper comp m fuel n.left x
    else findHelper comp m fuel n.right x

/-- Member `find`: the iterator at the node found, or `end()`. -/
def find (comp : K → K → Bool) [DecidableEq K] (m : Map K V) (k : K) : Option Nat := do
  let h ← rd m 0
  let temp ← findHelper comp m (fuelOf m) h.parent k
  match temp with
  | some t => pure t
  | none => pure endIt

/-- Member `at`: the mapped value of the node found; the inner `none` stands
for the exception `std::out_of_range`. -/
def at_ (comp : K → K → Bool) [DecidableEq K] (m : Map K V) (k : K) : Option (Option V) := do
  let h ← rd m 0
  let x ← findHelper comp m (fuelOf m) h.parent k
  match x with
  | none => pure none
  | some a =>
    let n ← rd m a
    pure (some n.value.2)

/-- Member `count`. -/
def count (comp : K → K → Bool) [DecidableEq K] (m : Map K V) (k : K) : Option Nat := do
  let h ← rd m 0
  let temp ← findHelper comp m (fuelOf m) h.parent k
  pure (if temp.isSome then 1 else 0)

/-! ## Insertion and the whole-tree rebalancing pass -/

/-- Member `insertHelper`. -/
def insertHelper (comp : K → K → Bool) [DecidableEq K] :
    Nat → Map K V → Nat → K × V → Option (Map K V × Nat × Bool)
  | 0, _, _, _ => none
  | fuel + 1, m, node, x => do
    let n ← rd m node
    if x.1 = n.value.1 then pure (m, node, false)
    else if comp x.1 n.value.1 then
      match n.left with
      | none =>
        let (m, a) := alloc m ⟨x, some node, none, none, Color.Red⟩
        let m ← setLeft m node (some a)
        let m ← setParent m a (some node)
        pure ({ m with _size := m._size + 1 }, a, true)
      | some l => insertHelper comp fuel m l x
    else
      match n.right with
      | none =>
        let (m, a) := alloc m ⟨x, some node, none, none, Color.Red⟩
        let m ← setRight m node (some a)
        let m ← setParent m a (some node)
        pure ({ m with _size := m._size + 1 }, a, true)
      | some r => insertHelper comp fuel m r x

/-- Statement `if (p) p->parent = q;`. -/
def adopt (m : Map K V) (p q : Option Nat) : Option (Map K V) :=
  match p with
  | some c => setParent m c q
  | none => some m

/-- Member `rightRotation`. -/
def rightRotation (m : Map K V) (root : Nat) : Option (Map K V × Nat) := do
  let r ← rd m root
  let newRoot ← r.left
  let nr ← rd m newRoot
  let temp := nr.right
  let m ← setRight m newRoot (some root)
  let m ← setLeft m root temp
  let m ← setParent m root (some newRoot)
  let m ← adopt m temp (some root)
  pure (m, newRoot)

/-- Member `leftRotation`. -/
def leftRotation (m : Map K V) (root : Nat) : Option (Map K V × Nat) := do
  let r ← rd m root
  let newRoot ← r.right
  let nr ← rd m newRoot
  let temp := nr.left
  let m ← setLeft m newRoot (some root)
  let m ← setRight m root temp
  let m ← setParent m root (some newRoot)
  let m ← adopt m temp (some root)
  pure (m, newRoot)

/-- Member `recolor`. -/
def recolor (m : Map K V) (root : Nat) : Option (Map K V) := do
  let m ← setColor m root Color.Red
  let r ← rd m root
  let l ← r.left
  let m ← setColor m l Color.Black
  let r ← rd m root
  let rt ← r.right
  setColor m rt Color.Black

/-- Test `c != nullptr && c->g != nullptr && c->color == Red && c->g->color == Red`
for a child `c` and the grandchild selected by `g`. -/
def redRed (m : Map K V) (c : Option Nat) (g : RB_Node K V → Option Nat) : Option Bool :=
  match c with
  | none => some false
  | some c => do
    let cn ← rd m c
    match g cn with
    | none => pure false
    | some gc => do
      let gn ← rd m gc
      pure (decide (cn.color = Color.Red) && decide (gn.color = Color.Red))

/-- Test `u != nullptr && u->color == Red`. -/
def isRedPtr (m : Map K V) (u : Option Nat) : Option Bool :=
  match u with
  | none => some false
  | some u => do
    let un ← rd m u
    pure (decide (un.color = Color.Red))

/-- Straight left-left conflict: `rightRotation(node)`, the new root Black, `node` Red. -/
def fixLeftLeft (m : Map K V) (node : Nat) : Option (Map K V × Option Nat) := do
  let (m, newRoot) ← rightRotation m node
  let m ← setColor m newRoot Color.Black
  let m ← setColor m node Color.Red
  pure (m, some newRoot)

/-- Zig-zag left-right conflict: rotate the left child to the left, then `node` to the right. -/
def fixLeftRight (m : Map K V) (node : Nat) : Option (Map K V × Option Nat) := do
  let n ← rd m node
  let l ← n.left
  let (m, nl) ← leftRotation m l
  let m ← setLeft m node (some nl)
  let m ← setParent m nl (some node)
  let (m, newRoot) ← rightRotation m node
  let m ← setColor m node Color.Red
  let m ← setColor m newRoot Color.Black
  pure (m, some newRoot)

/-- Straight right-right conflict: `leftRotation(node)`, the new root Black, `node` Red. -/
def fixRightRight (m : Map K V) (node : Nat) : Option (Map K V × Option Nat) := do
  let (m, newRoot) ← leftRotation m node
  let m ← setColor m newRoot Color.Black
  let m ← setColor m node Color.Red
  pure (m, some newRoot)

/-- Zig-zag right-left conflict: rotate the right child to the right, then `node` to the left. -/
def fixRightLeft (m : Map K V) (node : Nat) : Option (Map K V × Option Nat) := do
  let n ← rd m node
  let r ← n.right
  let (m, nr) ← rightRotation m r
  let m ← setRight m node (some nr)
  let m ← setParent m nr (some node)
  let (m, newRoot) ← leftRotation m node
  let m ← setColor m node Color.Red
  let m ← setColor m newRoot Color.Black
  pure (m, some newRoot)

/-- Uncle Red: `recolor(node); return node;`. -/
def fixRecolor (m : Map K V) (node : Nat) : Option (Map K V × Option Nat) :=
  (recolor m node).map fun m => (m, some node)

/-- The part of `rebalanceHelper` that follows the two recursive calls: the
four checks for a Red child with a Red grandchild, in the order of the source. -/
def rebalanceNode (m : Map K V) (node : Nat) : Option (Map K V × Option Nat) :=
  (rd m node).bind fun n =>
  (redRed m n.left (fun c => c.left)).bind fun ll =>
  if ll then
    (isRedPtr m n.right).bind fun ur => if ur then fixRecolor m node else fixLeftLeft m node
  else
  (redRed m n.left (fun c => c.right)).bind fun lr =>
  if lr then
    (isRedPtr m n.right).bind fun ur => if ur then fixRecolor m node else fixLeftRight m node
  else
  (redRed m n.right (fun c => c.right)).bind fun rr =>
  if rr then
    (isRedPtr m n.left).bind fun ul => if ul then fixRecolor m node else fixRightRight m node
  else
  (redRed m n.right (fun c => c.left)).bind fun rl =>
  if rl then
    (isRedPtr m n.left).bind fun ul => if ul then fixRecolor m node else fixRightLeft m node
  else
    some (m, some node)

/-- Member `rebalanceHelper`. -/
def rebalanceHelper : Nat → Map K V → Option Nat → Option (Map K V × Option Nat)
  | 0, _, _ => none
  | _ + 1, m, none => some (m, none)
  | fuel + 1, m, some node => do
    let n ← rd m node
    let (m, l) ← rebalanceHelper fuel m n.left
    let m ← setLeft m node l
    let m ← adopt m l (some node)
    let n ← rd m node
    let (m, r) ← rebalanceHelper fuel m n.right
    let m ← setRight m node r
    let m ← adopt m r (some node)
    rebalanceNode m node

/-- Member `rebalance`. -/
def rebalance (m : Map K V) : Option (Map K V) := do
  let h ← rd m 0
  let (m, root) ← rebalanceHelper (fuelOf m) m h.parent
  let m ← setParent m 0 root
  let root ← root
  let m ← setParent m root (some 0)
  let r ← rd m root
  if r.color ≠ Color.Black then setColor m root Color.Black else pure m

/-- Branch of `insert` for an empty tree: the new node becomes the Black root
and both extrema of the sentinel. -/
def insertRoot (m : Map K V) (val : K × V) : Option (Map K V × Nat × Bool) := do
  let (m, a) := alloc m ⟨val, none, none, none, Color.Red⟩
  let m ← setParent m 0 (some a)
  let m ← setColor m a Color.Black
  let m ← setRight m 0 (some a)
  let m ← setLeft m 0 (some a)
  let m ← setParent m a (some 0)
  pure ({ m with _size := m._size + 1 }, a, true)

/-- Statement `if (_comp(t->value.first, _head.left->value.first)) _head.left = t;`. -/
def noteMin (comp : K → K → Bool) (m : Map K V) (t : Nat) : Option (Map K V) := do
  let tn ← rd m t
  let h ← rd m 0
  let mn ← h.left
  let mnn ← rd m mn
  if comp tn.value.1 mnn.value.1 then setLeft m 0 (some t) else pure m

/-- Statement `if (_comp(_head.right->value.first, t->value.first)) _head.right = t;`. -/
def noteMax (comp : K → K → Bool) (m : Map K V) (t : Nat) : Option (Map K V) := do
  let h ← rd m 0
  let mx ← h.right
  let mxn ← rd m mx
  let tn ← rd m t
  if comp mxn.value.1 tn.value.1 then setRight m 0 (some t) else pure m

/-- Member `insert`: the new map, the iterator and the flag of the returned pair. -/
def insert (comp : K → K → Bool) [DecidableEq K] (m : Map K V) (val : K × V) :
    Option (Map K V × Nat × Bool) :=
  (rd m 0).bind fun h =>
  match h.parent with
  | none => insertRoot m val
  | some root =>
    (insertHelper comp (fuelOf m) m root val).bind fun r =>
    (if !r.2.2 then setSecond r.1 r.2.1 val.2 else some r.1).bind fun m =>
    (noteMin comp m r.2.1).bind fun m =>
    (noteMax comp m r.2.1).bind fun m =>
    (rebalance m).map fun m => (m, r.2.1, r.2.2)

/-! ## Erasure -/

/-- Statement `if (a->parent->right == a) a->parent->right = b;`. -/
def relinkRight (m : Map K V) (a b : Nat) : Option (Map K V) := do
  let an ← rd m a
  let p ← an.parent
  let pn ← rd m p
  if pn.right = some a then setRight m p (some b) else pure m

/-- Statement `if (a->parent->left == a) a->parent->left = b;`. -/
def relinkLeft (m : Map K V) (a b : Nat) : Option (Map K V) := do
  let an ← rd m a
  let p ← an.parent
  let pn ← rd m p
  if pn.left = some a then setLeft m p (some b) else pure m

/-- Statement `if (a->parent->parent == a) a->parent->parent = b;`. -/
def relinkParent (m : Map K V) (a b : Nat) : Option (Map K V) := do
  let an ← rd m a
  let p ← an.parent
  let pn ← rd m p
  if pn.parent = some a then setParent m p (some b) else pure m

/-- Statement `if (a->left) a->left->parent = a;`. -/
def adoptLeft (m : Map K V) (a : Nat) : Option (Map K V) := do
  let an ← rd m a
  match an.left with
  | some l => setParent m l (some a)
  | none => pure m

/-- Statement `if (a->right) a->right->parent = a;`. -/
def adoptRight (m : Map K V) (a : Nat) : Option (Map K V) := do
  let an ← rd m a
  match an.right with
  | some r => setParent m r (some a)
  | none => pure m

/-- The three-assignment exchange of `n1->parent` and `n2->parent`. -/
def swapParentFields (m : Map K V) (n1 n2 : Nat) : Option (Map K V) := do
  let b ← rd m n2
  let temp := b.parent
  let a ← rd m n1
  let m ← setParent m n2 a.parent
  setParent m n1 temp

/-- The three-assignment exchange of `n1->left` and `n2->left`. -/
def swapLeftFields (m : Map K V) (n1 n2 : Nat) : Option (Map K V) := do
  let b ← rd m n2
  let temp := b.left
  let a ← rd m n1
  let m ← setLeft m n2 a.left
  setLeft m n1 temp

/-- The three-assignment exchange of `n1->right` and `n2->right`. -/
def swapRightFields (m : Map K V) (n1 n2 : Nat) : Option (Map K V) := do
  let b ← rd m n2
  let temp := b.right
  let a ← rd m n1
  let m ← setRight m n2 a.right
  setRight m n1 temp

/-- The three-assignment exchange of `n1->color` and `n2->color` (also `std::swap`). -/
def swapColorFields (m : Map K V) (n1 n2 : Nat) : Option (Map K V) := do
  let a ← rd m n1
  let c := a.color
  let b ← rd m n2
  let m ← setColor m n1 b.color
  setColor m n2 c

/-- The three statements of `swapNodes` that redirect the links of `a->parent`
that refer to `a` so that they refer to `b`. -/
def relinkFrom (m : Map K V) (a b : Nat) : Option (Map K V) := do
  let m ← relinkRight m a b
  let m ← relinkLeft m a b
  relinkParent m a b

/-- Block "Assign new left children" of `swapNodes`. -/
def exchangeLeft (m : Map K V) (n1 n2 : Nat) : Option (Map K V) := do
  let m ← swapLeftFields m n1 n2
  let m ← adoptLeft m n1
  adoptLeft m n2

/-- Block "Assign new right children" of `swapNodes`. -/
def exchangeRight (m : Map K V) (n1 n2 : Nat) : Option (Map K V) := do
  let m ← swapRightFields m n1 n2
  let m ← adoptRight m n1
  adoptRight m n2

/-- Member `swapNodes`. -/
def swapNodes (m : Map K V) (n1 n2 : Nat) : Option (Map K V) :=
  if n1 = n2 then some m
  else do
    let m ← relinkFrom m n1 n2
    let m ← relinkFrom m n2 n1
    let m ← swapParentFields m n1 n2
    let m ← exchangeLeft m n1 n2
    let m ← exchangeRight m n1 n2
    swapColorFields m n1 n2

/-- Member `bothChildBlack`. -/
def bothChildBlack (m : Map K V) (n : Nat) : Option Bool := do
  let nn ← rd m n
  match nn.left, nn.right with
  | none, none => pure true
  | none, some _ => pure false
  | some _, none => pure false
  | some l, some r =>
    let ln ← rd m l
    let rn ← rd m r
    pure (decide (ln.color = Color.Black) && decide (rn.color = Color.Black))

/-- Branch of `resolveDB`: sibling Black with two Black (or absent) children.
The second component is the argument of the recursive call, if there is one. -/
def dbBothBlack (m : Map K V) (n sibling : Nat) : Option (Map K V × Option Nat) := do
  let m ← setColor m sibling Color.Red
  let nn ← rd m n
  let p ← nn.parent
  let pn ← rd m p
  if pn.color = Color.Red then (setColor m p Color.Black).map fun m => (m, none)
  else pure (m, some p)

/-- Statements `n->parent->right = rightRotation(sibling); n->parent->right->parent = n->parent;`. -/
def dbRotateSiblingRight (m : Map K V) (n sibling : Nat) : Option (Map K V) := do
  let (m, r) ← rightRotation m sibling
  let nn ← rd m n
  let p ← nn.parent
  let m ← setRight m p (some r)
  let pn ← rd m p
  let c ← pn.right
  setParent m c (some p)

/-- Statements `n->parent->left = leftRotation(sibling); n->parent->left->parent = n->parent;`. -/
def dbRotateSiblingLeft (m : Map K V) (n sibling : Nat) : Option (Map K V) := do
  let (m, r) ← leftRotation m sibling
  let nn ← rd m n
  let p ← nn.parent
  let m ← setLeft m p (some r)
  let pn ← rd m p
  let c ← pn.left
  setParent m c (some p)

/-- Branch of `resolveDB`: sibling Black, far child Black or absent, near child Red. -/
def dbNearRed (m : Map K V) (n sibling nearChild : Nat) (onLeft : Bool) :
    Option (Map K V × Option Nat) := do
  let m ← swapColorFields m nearChild sibling
  let m ← if onLeft then dbRotateSiblingRight m n sibling else dbRotateSiblingLeft m n sibling
  pure (m, some n)

/-- The `if / else if / else if` chain of the far-child-Red branch that stores
the rotated subtree in `grandparent->left`, `grandparent->right` or
`grandparent->parent`, whichever is found equal to `n->parent` first. -/
def hookRotation3 (rot : Map K V → Nat → Option (Map K V × Nat)) (m : Map K V)
    (grandparent p : Nat) : Option (Map K V) := do
  let g ← rd m grandparent
  if g.left = some p then
    let (m, r) ← rot m p
    setLeft m grandparent (some r)
  else if g.right = some p then
    let (m, r) ← rot m p
    setRight m grandparent (some r)
  else if g.parent = some p then
    let (m, r) ← rot m p
    setParent m grandparent (some r)
  else pure m

/-- The `if / else if` chain of the sibling-Red branch: it has no case for
`grandparent->parent`. -/
def hookRotation2 (rot : Map K V → Nat → Option (Map K V × Nat)) (m : Map K V)
    (grandparent p : Nat) : Option (Map K V) := do
  let g ← rd m grandparent
  if g.left = some p then
    let (m, r) ← rot m p
    setLeft m grandparent (some r)
  else if g.right = some p then
    let (m, r) ← rot m p
    setRight m grandparent (some r)
  else pure m

/-- Statement `n->parent->parent->parent = grandparent;`. -/
def setGreatParent (m : Map K V) (n grandparent : Nat) : Option (Map K V) := do
  let nn ← rd m n
  let p ← nn.parent
  let pn ← rd m p
  let pp ← pn.parent
  setParent m pp (some grandparent)

/-- Branch of `resolveDB`: sibling Black with a Red far child. -/
def dbFarRed (m : Map K V) (n sibling farChild : Nat) (onLeft : Bool) :
    Option (Map K V × Option Nat) := do
  let nn ← rd m n
  let p ← nn.parent
  let m ← swapColorFields m p sibling
  let pn ← rd m p
  let grandparent ← pn.parent
  let m ← hookRotation3 (if onLeft then leftRotation else rightRotation) m grandparent p
  let m ← setGreatParent m n grandparent
  let m ← setColor m farChild Color.Black
  pure (m, none)

/-- Branch of `resolveDB`: sibling Red. -/
def dbRedSibling (m : Map K V) (n sibling : Nat) (onLeft : Bool) :
    Option (Map K V × Option Nat) := do
  let nn ← rd m n
  let p ← nn.parent
  let m ← swapColorFields m p sibling
  let pn ← rd m p
  let grandparent ← pn.parent
  let m ← hookRotation2 (if onLeft then leftRotation else rightRotation) m grandparent p
  let m ← setGreatParent m n grandparent
  pure (m, some n)

/-- Test `!farChild || farChild->color == Color::Black`. -/
def isBlackOrNull (m : Map K V) (p : Option Nat) : Option Bool :=
  match p with
  | none => some true
  | some a => (rd m a).map fun n => decide (n.color = Color.Black)

/-- Test `c->color == Color::Red` for a pointer that is dereferenced unchecked. -/
def derefRed (m : Map K V) (p : Option Nat) : Option Bool :=
  p.bind fun a => (rd m a).map fun n => decide (n.color = Color.Red)

/-- The branches of `resolveDB` for a Black sibling. -/
def dbBlackSibling (m : Map K V) (n sibling : Nat) (farChild nearChild : Option Nat)
    (onLeft : Bool) : Option (Map K V × Option Nat) :=
  (bothChildBlack m sibling).bind fun bb =>
  if bb then dbBothBlack m n sibling
  else
  (isBlackOrNull m farChild).bind fun fb =>
  (if fb then derefRed m nearChild else some false).bind fun nearRed =>
  if nearRed then nearChild.bind fun nc => dbNearRed m n sibling nc onLeft
  else
  (derefRed m farChild).bind fun farRed =>
  if farRed then farChild.bind fun fc => dbFarRed m n sibling fc onLeft
  else some (m, none)

/-- One activation of `resolveDB`: the store it leaves and the argument of its
(tail) recursive call, if it makes one. -/
def resolveDBStep (m : Map K V) (n : Nat) : Option (Map K V × Option Nat) := do
  let h ← rd m 0
  if h.parent = some n then pure (m, none)
  else
    let nn ← rd m n
    let p ← nn.parent
    let pn ← rd m p
    let onLeft := decide (pn.left = some n)
    let sibling ← if onLeft then pn.right else pn.left
    let sn ← rd m sibling
    let farChild := if onLeft then sn.right else sn.left
    let nearChild := if onLeft then sn.left else sn.right
    if sn.color = Color.Black then dbBlackSibling m n sibling farChild nearChild onLeft
    else dbRedSibling m n sibling onLeft

/-- Member `resolveDB`. -/
def resolveDB : Nat → Map K V → Nat → Option (Map K V)
  | 0, _, _ => none
  | fuel + 1, m, n =>
    (resolveDBStep m n).bind fun r =>
      match r.2 with
      | none => some r.1
      | some next => resolveDB fuel r.1 next

/-- Branch `_size == 1` of `eraseHelper`. -/
def eraseLast (comp : K → K → Bool) (m : Map K V) (node : Nat) (x : K) :
    Option (Map K V × Bool) := do
  let n ← rd m node
  if !comp n.value.1 x && !comp x n.value.1 then
    let m ← free m node
    let m ← setParent m 0 none
    let m ← setLeft m 0 (some 0)
    let m ← setRight m 0 (some 0)
    pure ({ m with _size := m._size - 1 }, true)
  else pure (m, false)

/-- Statement `if (node == _head.left) _head.left = inorderSuccessor(node);`. -/
def updateMin (m : Map K V) (node : Nat) : Option (Map K V) := do
  let h ← rd m 0
  if h.left = some node then
    let s ← inorderSuccessor m (fuelOf m) node
    setLeft m 0 (some s)
  else pure m

/-- Statement `if (node == _head.right) _head.right = inorderPredecessor(node);`. -/
def updateMax (m : Map K V) (node : Nat) : Option (Map K V) := do
  let h ← rd m 0
  if h.right = some node then
    let s ← inorderPredecessor m (fuelOf m) node
    setRight m 0 (some s)
  else pure m

/-- Removal of a Red leaf in `eraseHelper`: the three-way unlink, `delete node`, `_size--`. -/
def removeRedLeaf (m : Map K V) (node : Nat) : Option (Map K V × Bool) := do
  let n ← rd m node
  let p ← n.parent
  let pn ← rd m p
  let m ← if pn.left = some node then setLeft m p none
    else if pn.right = some node then setRight m p none
    else setParent m p none
  let m ← free m node
  pure ({ m with _size := m._size - 1 }, true)

/-- Removal of a Black leaf in `eraseHelper`: `resolveDB(node)`, the two-way
unlink, `delete node`, `_size--`. -/
def removeBlackLeaf (m : Map K V) (node : Nat) : Option (Map K V × Bool) := do
  let m ← resolveDB (fuelOf m) m node
  let n ← rd m node
  let p ← n.parent
  let pn ← rd m p
  let m ← if pn.left = some node then setLeft m p none else setRight m p none
  let m ← free m node
  pure ({ m with _size := m._size - 1 }, true)

/-- Replacement step of `eraseHelper`: `swapNodes(node, inorderSuccessor(node))`. -/
def swapWithSuccessor (m : Map K V) (node : Nat) : Option (Map K V) := do
  let replacement ← inorderSuccessor m (fuelOf m) node
  swapNodes m node replacement

/-- Replacement step of `eraseHelper`: `swapNodes(node, inorderPredecessor(node))`. -/
def swapWithPredecessor (m : Map K V) (node : Nat) : Option (Map K V) := do
  let replacement ← inorderPredecessor m (fuelOf m) node
  swapNodes m node replacement

/-- Member `eraseHelper`. -/
def eraseHelper (comp : K → K → Bool) :
    Nat → Map K V → Option Nat → K → Option (Map K V × Bool)
  | 0, _, _, _ => none
  | _ + 1, m, none, _ => some (m, false)
  | fuel + 1, m, some node, x =>
    if m._size = 1 then eraseLast comp m node x
    else
    (rd m node).bind fun n =>
    if comp x n.value.1 then eraseHelper comp fuel m n.left x
    else if comp n.value.1 x then eraseHelper comp fuel m n.right x
    else
    (updateMin m node).bind fun m =>
    (updateMax m node).bind fun m =>
    (rd m node).bind fun n =>
    if n.right.isSome then
      (swapWithSuccessor m node).bind fun m => eraseHelper comp fuel m (some node) x
    else if n.left.isSome then
      (swapWithPredecessor m node).bind fun m => eraseHelper comp fuel m (some node) x
    else if n.color = Color.Red then removeRedLeaf m node
    else removeBlackLeaf m node

/-- Member `erase(const key_type&)`: the new map and the returned count. -/
def erase (comp : K → K → Bool) (m : Map K V) (k : K) : Option (Map K V × Nat) := do
  let h ← rd m 0
  let (m, b) ← eraseHelper comp (fuelOf m) m h.parent k
  pure (m, if b then 1 else 0)

/-! ## Bounds -/

/-- Member `boundHelper`: the node with the key, or the last node on the
search path for the key. -/
def boundHelper (comp : K → K → Bool) [DecidableEq K] (m : Map K V) :
    Nat → Option Nat → K → Option (Option Nat)
  | 0, _, _ => none
  | _ + 1, none, _ => some none
  | fuel + 1, some node, x => do
    let n ← rd m node
    if n.value.1 = x then pure (some node)
    else if comp x n.value.1 then
      match n.left with
      | some l => boundHelper comp m fuel (some l) x
      | none => pure (some node)
    else
      match n.right with
      | some r => boundHelper comp m fuel (some r) x
      | none => pure (some node)

/-- Member `lower_bound`. -/
def lower_bound (comp : K → K → Bool) [DecidableEq K] (m : Map K V) (k : K) : Option Nat := do
  let h ← rd m 0
  let temp ← boundHelper comp m (fuelOf m) h.parent k
  match temp with
  | some t =>
    let n ← rd m t
    if comp n.value.1 k then increment m t else pure t
  | none => pure endIt

/-- Member `upper_bound`. -/
def upper_bound (comp : K → K → Bool) [DecidableEq K] (m : Map K V) (k : K) : Option Nat := do
  let h ← rd m 0
  let temp ← boundHelper comp m (fuelOf m) h.parent k
  match temp with
  | some t =>
    let n ← rd m t
    if comp k n.value.1 then decrement m t else pure t
  | none => pure endIt

/-- Member `equal_range`: the two iterators of the returned pair. -/
def equal_range (comp : K → K → Bool) [DecidableEq K] (m : Map K V) (k : K) :
    Option (Nat × Nat) := do
  let h ← rd m 0
  let temp ← boundHelper comp m (fuelOf m) h.parent k
  match temp with
  | some t =>
    let n ← rd m t
    if comp n.value.1 k then
      let f ← increment m t
      pure (f, f)
    else if comp k n.value.1 then pure (t, t)
    else
      let s ← increment m t
      pure (t, s)
  | none => pure (endIt, endIt)

/-! ## `operator[]` and `clear` -/

/-- Member `operator[]`: the new map and the node whose mapped value the
returned reference refers to.  The mapped value of a new node is
`mapped_type()`, the default value. -/
def operatorIndex (comp : K → K → Bool) [DecidableEq K] [Inhabited V] (m : Map K V) (k : K) :
    Option (Map K V × Nat) :=
  (rd m 0).bind fun h =>
  match h.parent with
  | none => (insertRoot m (k, default)).map fun r => (r.1, r.2.1)
  | some root =>
    (insertHelper comp (fuelOf m) m root (k, default)).bind fun r =>
    (noteMin comp r.1 r.2.1).bind fun m =>
    (noteMax comp m r.2.1).bind fun m =>
    (rebalance m).map fun m => (m, r.2.1)

/-- Member `deleteHelper`, called on a pointer variable that holds `node`; the
final assignment `node = nullptr` to that variable is made by the caller. -/
def deleteHelper : Nat → Map K V → Option Nat → Option (Map K V)
  | 0, _, _ => none
  | _ + 1, m, none => some m
  | fuel + 1, m, some node => do
    let n ← rd m node
    let m ← if n.left.isSome then (deleteHelper fuel m n.left).bind fun m => setLeft m node none
      else pure m
    let n ← rd m node
    let m ← if n.right.isSome then (deleteHelper fuel m n.right).bind fun m => setRight m node none
      else pure m
    free m node

/-- Member `clear`. -/
def clear (m : Map K V) : Option (Map K V) := do
  let h ← rd m 0
  let m ← deleteHelper (fuelOf m) m h.parent
  let m ← setParent m 0 none
  let m ← setLeft m 0 (some 0)
  let m ← setRight m 0 (some 0)
  pure { m with _size := 0 }

/-- Dereference `*it` of an iterator. -/
def deref (m : Map K V) (it : Nat) : Option (K × V) :=
  (rd m it).map fun n => n.value

/-! ## Sequences of calls -/

/-- Constructor `Map(std::initializer_list<value_type>)`: `insert` of each
element, in order, into an empty map. -/
def ofList (comp : K → K → Bool) [DecidableEq K] [Inhabited K] [Inhabited V]
    (il : List (K × V)) : Option (Map K V) :=
  il.foldlM (fun m val => (insert comp m val).map fun r => r.1) empty

/-- A call of one of the two modifiers `insert(val)` and `erase(k)`. -/
inductive Call (K V : Type) where
  | insert (val : K × V)
  | erase (k : K)

/-- The map after one modifier call. -/
def call (comp : K → K → Bool) [DecidableEq K] (m : Map K V) : Call K V → Option (Map K V)
  | Call.insert val => (insert comp m val).map fun r => r.1
  | Call.erase k => (erase comp m k).map fun r => r.1

/-- The map obtained from the empty map by a sequence of modifier calls. -/
def run (comp : K → K → Bool) [DecidableEq K] [Inhabited K] [Inhabited V]
    (calls : List (Call K V)) : Option (Map K V) :=
  calls.foldlM (call comp) empty

/-- The comparator `std::less<int>` on natural-number keys. -/
def natLess (a b : Nat) : Bool := decide (a < b)

/-- Number of nodes of the tree that hangs from a pointer through `left` /
`right` links: `none` when a link leads to a freed cell or the links do not
form a finite tree within the fuel. -/
def countNodes (m : Map K V) : Nat → Option Nat → Option Nat
  | 0, _ => none
  | _ + 1, none => some 0
  | fuel + 1, some a =>
    (rd m a).bind fun n =>
    (countNodes m fuel n.left).bind fun l =>
    (countNodes m fuel n.right).map fun r => l + 1 + r

/-- Number of data nodes reachable from the sentinel's root slot by child links. -/
def reachable (m : Map K V) : Option Nat :=
  (rd m 0).bind fun h => countNodes m (fuelOf m) h.parent

/-- A strict weak ordering on natural-number keys whose equivalence is coarser
than equality: keys are compared by their tens. -/
def lessTens (a b : Nat) : Bool := decide (a / 10 < b / 10)

/-- The calls `insert` of the keys 1, 2, 3, 4 in ascending order followed by `erase(1)`. -/
def callsErase1 : List (Call Nat Nat) :=
  [Call.insert (1, 10), Call.insert (2, 20), Call.insert (3, 30), Call.insert (4, 40),
   Call.erase 1]

/-! ## The tree represented by a store

The abstract view used to state and prove properties: a binary tree whose
nodes carry the address of the cell that holds them. -/

/-- Binary tree of nodes labelled with their address, colour and value. -/
inductive Tree (K V : Type) where
  | nil
  | node (a : Nat) (c : Color) (l : Tree K V) (kv : K × V) (r : Tree K V)

namespace Tree

/-- Pointer to the root of the tree (`none` for the empty tree). -/
def root : Tree K V → Option Nat
  | nil => none
  | node a _ _ _ _ => some a

/-- Addresses of the nodes, in in-order. -/
def addrs : Tree K V → List Nat
  | nil => []
  | node a _ l _ r => l.addrs ++ a :: r.addrs

/-- Values of the nodes, in in-order. -/
def toList : Tree K V → List (K × V)
  | nil => []
  | node _ _ l kv r => l.toList ++ kv :: r.toList

/-- Keys of the nodes, in in-order. -/
def keys (t : Tree K V) : List K := t.toList.map Prod.fst

/-- Number of nodes. -/
def size : Tree K V → Nat
  | nil => 0
  | node _ _ l _ r => l.size + 1 + r.size

/-- Number of nodes on the longest path from the root to an absent child. -/
def height : Tree K V → Nat
  | nil => 0
  | node _ _ l _ r => max l.height r.height + 1

/-- The root exists and is Red. -/
def isRed : Tree K V → Bool
  | node _ Color.Red _ _ _ => true
  | _ => false

/-- No Red node has a Red child. -/
def noRedRed : Tree K V → Prop
  | nil => True
  | node _ c l _ r => (c = Color.Red → l.isRed = false ∧ r.isRed = false) ∧ l.noRedRed ∧ r.noRedRed

/-- Every path from the root to an absent child passes through `n` Black nodes,
and the same holds, with its own count, in every subtree. -/
def blackHeight : Tree K V → Nat → Prop
  | nil, n => n = 0
  | node _ Color.Red l _ r, n => l.blackHeight n ∧ r.blackHeight n
  | node _ Color.Black l _ r, n => ∃ k, n = k + 1 ∧ l.blackHeight k ∧ r.blackHeight k

/-- The red-black colour invariants: the root is Black (or the tree is empty),
no Red node has a Red child, and all paths to absent children count the same
number of Black nodes. -/
def RedBlack (t : Tree K V) : Prop :=
  t.isRed = false ∧ t.noRedRed ∧ ∃ n, t.blackHeight n

/-- In-order key invariant: every key of the left subtree compares less than the
key of the node, every key of the right subtree compares greater, recursively. -/
def Ordered (comp : K → K → Bool) : Tree K V → Prop
  | nil => True
  | node _ _ l kv r =>
    (∀ k ∈ l.keys, comp k kv.1 = true) ∧ (∀ k ∈ r.keys, comp kv.1 k = true) ∧
    l.Ordered comp ∧ r.Ordered comp

/-- Address of the leftmost node, or the given default for the empty tree. -/
def first (d : Nat) : Tree K V → Nat
  | nil => d
  | node a _ l _ _ => l.first a

/-- Address of the rightmost node, or the given default for the empty tree. -/
def last (d : Nat) : Tree K V → Nat
  | nil => d
  | node a _ _ _ r => r.last a

end Tree

namespace Tree

/-- The tree with the colour of its root replaced. -/
def paint (c : Color) : Tree K V → Tree K V
  | nil => nil
  | node a _ l kv r => node a c l kv r

/-- The tree with the value of the node at address `t` given the mapped value `v`. -/
def setSecond (t : Nat) (v : V) : Tree K V → Tree K V
  | nil => nil
  | node a c l kv r =>
    node a c (l.setSecond t v) (if a = t then (kv.1, v) else kv) (r.setSecond t v)

/-- Effect of `insertHelper` on the tree below its argument: the new tree, the
address returned and the flag.  The new leaf is put in the cell `fresh`. -/
def insertHelper (comp : K → K → Bool) [DecidableEq K] (fresh : Nat) (x : K × V) :
    Tree K V → Tree K V × Nat × Bool
  | nil => (node fresh Color.Red nil x nil, fresh, true)
  | node a c l kv r =>
    if x.1 = kv.1 then (node a c l kv r, a, false)
    else if comp x.1 kv.1 then
      ((node a c (insertHelper comp fresh x l).1 kv r), (insertHelper comp fresh x l).2)
    else
      ((node a c l kv (insertHelper comp fresh x r).1), (insertHelper comp fresh x r).2)

/-- The root and its left child exist and both are Red. -/
def redLeft : Tree K V → Bool
  | node _ Color.Red (node _ Color.Red _ _ _) _ _ => true
  | _ => false

/-- The root and its right child exist and both are Red. -/
def redRight : Tree K V → Bool
  | node _ Color.Red _ _ (node _ Color.Red _ _ _) => true
  | _ => false

/-- Effect of `recolor`. -/
def recolor : Tree K V → Tree K V
  | node a _ l kv r => node a Color.Red (l.paint Color.Black) kv (r.paint Color.Black)
  | nil => nil

/-- Effect of the left-left fix: rotation to the right, new root Black, old root Red. -/
def fixLeftLeft : Tree K V → Tree K V
  | node a _ (node la _ ll lkv lr) kv r => node la Color.Black ll lkv (node a Color.Red lr kv r)
  | t => t

/-- Effect of the left-right fix: double rotation, new root Black, old root Red. -/
def fixLeftRight : Tree K V → Tree K V
  | node a _ (node la lc ll lkv (node ma _ ml mkv mr)) kv r =>
    node ma Color.Black (node la lc ll lkv ml) mkv (node a Color.Red mr kv r)
  | t => t

/-- Effect of the right-right fix: rotation to the left, new root Black, old root Red. -/
def fixRightRight : Tree K V → Tree K V
  | node a _ l kv (node ra _ rl rkv rr) => node ra Color.Black (node a Color.Red l kv rl) rkv rr
  | t => t

/-- Effect of the right-left fix: double rotation, new root Black, old root Red. -/
def fixRightLeft : Tree K V → Tree K V
  | node a _ l kv (node ra rc (node ma _ ml mkv mr) rkv rr) =>
    node ma Color.Black (node a Color.Red l kv ml) mkv (node ra rc mr rkv rr)
  | t => t

/-- Effect of the four checks of `rebalanceHelper` at a node whose subtrees
have been rebalanced. -/
def rebalanceNode : Tree K V → Tree K V
  | nil => nil
  | node a c l kv r =>
    if l.redLeft then
      (if r.isRed then recolor (node a c l kv r) else fixLeftLeft (node a c l kv r))
    else if l.redRight then
      (if r.isRed then recolor (node a c l kv r) else fixLeftRight (node a c l kv r))
    else if r.redRight then
      (if l.isRed then recolor (node a c l kv r) else fixRightRight (node a c l kv r))
    else if r.redLeft then
      (if l.isRed then recolor (node a c l kv r) else fixRightLeft (node a c l kv r))
    else node a c l kv r

/-- Effect of `rebalanceHelper` on the tree below its argument. -/
def rebalanceHelper : Tree K V → Tree K V
  | nil => nil
  | node a c l kv r => rebalanceNode (node a c (rebalanceHelper l) kv (rebalanceHelper r))

/-- Effect of `insert` on the tree of a map: `insertHelper`, the overwrite of
the mapped value when the key was found, the whole-tree pass, and the root
forced Black.  For the empty tree, a Black root. -/
def insert (comp : K → K → Bool) [DecidableEq K] (fresh : Nat) (x : K × V) :
    Tree K V → Tree K V
  | nil => node fresh Color.Black nil x nil
  | node a c l kv r =>
    let res := insertHelper comp fresh x (node a c l kv r)
    paint Color.Black
      (rebalanceHelper (if res.2.2 then res.1 else res.1.setSecond res.2.1 x.2))

end Tree

namespace Tree

/-- Addresses paired with the values stored there, in in-order. -/
def cells : Tree K V → List (Nat × (K × V))
  | nil => []
  | node a _ l kv r => l.cells ++ (a, kv) :: r.cells

/-- Effect of `findHelper` on the tree below its argument. -/
def findHelper (comp : K → K → Bool) [DecidableEq K] (x : K) : Tree K V → Option Nat
  | nil => none
  | node a _ l kv r =>
    if kv.1 = x then some a
    else if comp x kv.1 then l.findHelper comp x
    else r.findHelper comp x

end Tree

namespace Tree

/-- A tree whose only possible Red-Red conflict is between its root and one of
its children: both subtrees are free of conflicts and at most one is Red. -/
def Almost : Tree K V → Prop
  | nil => True
  | node _ _ l _ r => l.noRedRed ∧ r.noRedRed ∧ (l.isRed = false ∨ r.isRed = false)

end Tree

/-- The store holds the tree below a parent pointer: every node of the tree
is in the cell of its address, with its value and colour, with the links
`left` and `right` referring to the roots of its subtrees and the link `parent`
referring to the node above it (`par` for the root of the tree). -/
def Rep (m : Map K V) : Option Nat → Tree K V → Prop
  | _, Tree.nil => True
  | par, Tree.node a c l kv r =>
    rd m a = some ⟨kv, par, l.root, r.root, c⟩ ∧ Rep m (some a) l ∧ Rep m (some a) r

/-- The map object holds the tree: the sentinel's root slot refers to the root
of the tree, the root's parent link refers to the sentinel, no cell is shared
by two nodes and the sentinel is not a node of the tree. -/
structure Shape (m : Map K V) (t : Tree K V) : Prop where
  head : ∃ h, rd m 0 = some h ∧ h.parent = t.root
  rep : Rep m (some 0) t
  nodup : t.addrs.Nodup
  notHead : 0 ∉ t.addrs

/-- The sentinel's extrema cache: `_head.left` refers to the leftmost node and
`_head.right` to the rightmost node, and both refer to the sentinel itself when
the tree is empty. -/
def Cached (m : Map K V) (t : Tree K V) : Prop :=
  ∃ h, rd m 0 = some h ∧ h.left = some (t.first 0) ∧ h.right = some (t.last 0)

/-- Comparator for which exactly one of `a < b`, `a = b`, `b < a` holds: a
strict total order, as `std::less` on an arithmetic key type. -/
structure StrictTotal (comp : K → K → Bool) : Prop where
  irrefl : ∀ a, comp a a = false
  trans : ∀ a b c, comp a b = true → comp b c = true → comp a c = true
  total : ∀ a b, a = b ∨ comp a b = true ∨ comp b a = true

/-- Two stores agree outside a set of addresses, and have the same number of
cells and the same `_size`. -/
def Same (m m' : Map K V) (S : List Nat) : Prop :=
  m'.mem.length = m.mem.length ∧ m'._size = m._size ∧ ∀ x, x ∉ S → rd m' x = rd m x

/-- Invariant of a map built by insertions: the store holds a tree, the
sentinel caches its extrema, the keys are in order, the colours are those of a
red-black tree, and `_size` counts the nodes. -/
structure Inv (comp : K → K → Bool) (m : Map K V) (t : Tree K V) : Prop where
  shape : Shape m t
  cached : Cached m t
  ordered : t.Ordered comp
  redBlack : t.RedBlack
  size : m._size = t.size

/-- The sentinel's extrema links are usable: when the tree is not empty,
`_head.left` and `_head.right` refer to nodes of the tree. -/
def Ends (m : Map K V) (t : Tree K V) : Prop :=
  ∃ h lo hi, rd m 0 = some h ∧ h.left = some lo ∧ h.right = some hi ∧
    (t ≠ Tree.nil → lo ∈ t.addrs ∧ hi ∈ t.addrs)

/-- Comparator that is a strict weak ordering: irreflexive, transitive, and
such that whenever `a < b`, every `c` has `a < c` or `c < b` (so that
equivalence, neither key comparing less than the other, is transitive). -/
structure StrictWeak (comp : K → K → Bool) : Prop where
  irrefl : ∀ a, comp a a = false
  trans : ∀ a b c, comp a b = true → comp b c = true → comp a c = true
  cotrans : ∀ a b c, comp a b = true → comp a c = true ∨ comp c b = true

/-- Invariant of a map built by insertions under a strict weak ordering: the
store holds a tree, the sentinel's two extrema links refer to nodes of the tree
when there is one, no key of the in-order sequence compares less than a key
before it, and `_size` counts the nodes. -/
structure InvW (comp : K → K → Bool) (m : Map K V) (t : Tree K V) : Prop where
  shape : Shape m t
  ends : Ends m t
  sorted : t.keys.Pairwise fun a b => comp b a = false
  size : m._size = t.size

/-- The pair `(k, v)` is the last pair with key `k` in the list. -/
def IsLast (L : List (K × V)) (k : K) (v : V) : Prop :=
  ∃ L1 L2, L = L1 ++ (k, v) :: L2 ∧ ∀ p ∈ L2, p.1 ≠ k

/-- The map that holds the single pair `(1, 10)`: the sentinel and one Black node. -/
def oneNodeMap : Map Nat Nat :=
  { mem := [some ⟨(0, 0), some 1, some 1, some 1, Color.Red⟩,
            some ⟨(1, 10), some 0, none, none, Color.Black⟩],
    _size := 1 }

/-- The tree held by `oneNodeMap`. -/
def oneNodeTree : Tree Nat Nat :=
  Tree.node 1 Color.Black Tree.nil (1, 10) Tree.nil

/-- The map left by `clear()` on `oneNodeMap`: the sentinel and one freed cell. -/
def clearedMap : Map Nat Nat :=
  { mem := [some ⟨(0, 0), none, some 0, some 0, Color.Red⟩, none], _size := 0 }

namespace Tree

/-- Effect of `boundHelper` on the tree below its argument. -/
def boundHelper (comp : K → K → Bool) [DecidableEq K] (x : K) : Tree K V → Option Nat
  | nil => none
  | node a _ l kv r =>
    if kv.1 = x then some a
    else if comp x kv.1 then
      if l.root.isSome then l.boundHelper comp x else some a
    else
      if r.root.isSome then r.boundHelper comp x else some a

end Tree

/-- A call of one of the two members that add elements: `insert(val)` and
`operator[](k)`. -/
inductive Put (K V : Type) where
  | insert (val : K × V)
  | index (k : K)

/-- The map after one call that adds an element. -/
def put (comp : K → K → Bool) [DecidableEq K] [Inhabited V] (m : Map K V) :
    Put K V → Option (Map K V)
  | Put.insert val => (insert comp m val).map fun r => r.1
  | Put.index k => (operatorIndex comp m k).map fun r => r.1

/-- The map obtained from the empty map by a sequence of `insert` and
`operator[]` calls. -/
def build (comp : K → K → Bool) [DecidableEq K] [Inhabited K] [Inhabited V]
    (calls : List (Put K V)) : Option (Map K V) :=
  calls.foldlM (put comp) empty

/-! ## Erasure through iterators -/

/-- Member `erase(iterator pos)` (and `erase(const_iterator pos)`, which has
the same body): the new map and the returned iterator. -/
def eraseIt (comp : K → K → Bool) (m : Map K V) (pos : Nat) : Option (Map K V × Nat) := do
  let temp ← increment m pos
  let n ← rd m pos
  let r ← eraseHelper comp (fuelOf m) m (some pos) n.value.1
  pure (r.1, temp)

/-- The loop of the driver that erases the elements with an even key through
the iterator that `erase` returns:
`for (it = begin(); it != end();) if (it->first % 2 == 0) it = erase(it); else it++;`. -/
def eraseEven (m : Map Nat V) : Nat → Nat → Option (Map Nat V)
  | 0, _ => none
  | fuel + 1, it =>
    if it = endIt then some m
    else (rd m it).bind fun n =>
      if n.value.1 % 2 = 0 then (eraseIt natLess m it).bind fun r => eraseEven r.1 fuel r.2
      else (increment m it).bind fun next => eraseEven m fuel next

/-- Iterator returned by `rend()`: it holds `&_head`. -/
def rendIt : Nat := 0

/-- The loop `for (i = it; i != rend(); i++)` on reverse iterators, collecting
`*i`; `reverse_RB_tree_iterator::operator++` has the body of
`RB_tree_iterator::operator--`. -/
def rwalkFrom (m : Map K V) : Nat → Nat → Option (List (K × V))
  | 0, _ => none
  | fuel + 1, it =>
    if it = rendIt then some []
    else do
      let n ← rd m it
      let next ← decrement m it
      let rest ← rwalkFrom m fuel next
      pure (n.value :: rest)

/-- The sequence of elements visited from `rbegin()` to `rend()`. -/
def rtoList (m : Map K V) : Option (List (K × V)) := do
  let b ← rbeginIt m
  rwalkFrom m (fuelOf m) b

/-- Member `empty()`. -/
def Map.empty (m : Map K V) : Bool := m._size == 0

/-! ## Several map objects in one store

Copying, moving and swapping involve two map objects whose nodes live in the
same store.  An object is named by the address of its sentinel `_head`. -/

/-- A store that holds several map objects: the cells of the sentinels and of
the nodes are those of `mem` (the field `_size` of `mem` is not used), and
`sizes` gives the member `_size` of the object whose sentinel is at the given
address. -/
structure Heap (K V : Type) where
  mem : Map K V
  sizes : Nat → Nat

/-- Assignment `_size = n` in the object at `this`. -/
def Heap.setSize (w : Heap K V) (this n : Nat) : Heap K V :=
  { w with sizes := fun x => if x = this then n else w.sizes x }

/-- The store of a single map, seen as a store with the one object at
address 0. -/
def Heap.ofMap (m : Map K V) : Heap K V :=
  { mem := m, sizes := fun x => if x = 0 then m._size else 0 }

/-- Member `size()` of the object at `this`. -/
def sizeAt (w : Heap K V) (this : Nat) : Nat := w.sizes this

/-- Iterator returned by `begin()` of the object at `this`. -/
def beginAt (m : Map K V) (this : Nat) : Option Nat :=
  (rd m this).bind fun h => h.left

/-- The loop `for (i = it; i != end(); i++)` collecting `*i`, for the object
whose `end()` holds `stop`. -/
def walkTo (m : Map K V) (stop : Nat) : Nat → Nat → Option (List (K × V))
  | 0, _ => none
  | fuel + 1, it =>
    if it = stop then some []
    else do
      let n ← rd m it
      let next ← increment m it
      let rest ← walkTo m stop fuel next
      pure (n.value :: rest)

/-- The sequence of elements visited from `begin()` to `end()` of the object at
`this`. -/
def toListAt (w : Heap K V) (this : Nat) : Option (List (K × V)) :=
  (beginAt w.mem this).bind fun b => walkTo w.mem this (fuelOf w.mem) b

/-- Statements `_head.parent = nullptr; _head.left = &_head;
_head.right = &_head;` on the sentinel at `this`. -/
def resetHead (m : Map K V) (this : Nat) : Option (Map K V) :=
  (setParent m this none).bind fun m =>
  (setLeft m this (some this)).bind fun m => setRight m this (some this)

/-- Member `clear` of the object at `this`. -/
def clearAt (w : Heap K V) (this : Nat) : Option (Heap K V) :=
  (rd w.mem this).bind fun h =>
  (deleteHelper (fuelOf w.mem) w.mem h.parent).bind fun m =>
  (resetHead m this).map fun m => Heap.setSize ⟨m, w.sizes⟩ this 0

/-- Statements `other._head.parent->parent = &_head;
_head.left = other._head.left; _head.right = other._head.right;` of the move
constructor and the move assignment. -/
def takeLinks (m : Map K V) (this other : Nat) : Option (Map K V) :=
  (rd m other).bind fun oh => oh.parent.bind fun r =>
  (setParent m r (some this)).bind fun m =>
  (rd m other).bind fun oh => (setLeft m this oh.left).bind fun m =>
  (rd m other).bind fun oh => setRight m this oh.right

/-- The statements on the links that the move constructor and the move
assignment share, from `_head.parent = other._head.parent;` to
`other._head.right = &other._head;`; `n` is the value of the `_size` that is
compared with 0. -/
def takeNodes (m : Map K V) (this other n : Nat) : Option (Map K V) :=
  (rd m other).bind fun oh =>
  (setParent m this oh.parent).bind fun m =>
  (if 0 < n then takeLinks m this other else resetHead m this).bind fun m =>
  resetHead m other

/-- Move constructor `Map(Map&& other)`.  The sentinel `_head()` of the new
object is put in a fresh cell, whose address is returned with the store. -/
def moveConstruct [Inhabited K] [Inhabited V] (w : Heap K V) (other : Nat) :
    Option (Heap K V × Nat) :=
  let a := alloc w.mem ⟨(default, default), none, none, none, Color.Red⟩
  let w1 := Heap.setSize ⟨a.1, w.sizes⟩ a.2 (w.sizes other)
  (takeNodes w1.mem a.2 other (w1.sizes a.2)).map fun m =>
    (Heap.setSize ⟨m, w1.sizes⟩ other 0, a.2)

/-- Move assignment `operator=(Map&& other)` of the object at `this`. -/
def moveAssign (w : Heap K V) (this other : Nat) : Option (Heap K V) :=
  if this = other then some w
  else
    (if w.sizes this = 0 then some w else clearAt w this).bind fun w =>
    (takeNodes w.mem this other (w.sizes other)).map fun m =>
      Heap.setSize (Heap.setSize ⟨m, w.sizes⟩ this (w.sizes other)) other 0

/-- Destructor `~Map()` of the object at `this`, followed by the release of
the storage of the object. -/
def destroy (w : Heap K V) (this : Nat) : Option (Heap K V) :=
  (clearAt w this).bind fun w => (free w.mem this).map fun m => { w with mem := m }

/-- Member `swap` of the object at `this`; the local `temp` is destroyed at the
end of the body. -/
def swap [Inhabited K] [Inhabited V] (w : Heap K V) (this x : Nat) : Option (Heap K V) :=
  (moveConstruct w this).bind fun r =>
  (moveAssign r.1 this x).bind fun w =>
  (moveAssign w x r.2).bind fun w => destroy w r.2

/-- The statements of `copyHelper` that follow the two recursive calls, whose
results are `left` and `right`. -/
def copyNode (m : Map K V) (this otherRoot otherHead : Nat) (left right : Option Nat) :
    Option (Map K V × Option Nat) :=
  (rd m otherRoot).bind fun o =>
  let a := alloc m ⟨o.value, none, left, right, o.color⟩
  (adopt a.1 left (some a.2)).bind fun m =>
  (adopt m right (some a.2)).bind fun m =>
  (rd m otherHead).bind fun oh =>
  (if oh.left = some otherRoot then setLeft m this (some a.2) else some m).bind fun m =>
  (rd m otherHead).bind fun oh =>
  (if oh.right = some otherRoot then setRight m this (some a.2) else some m).map fun m =>
    (m, some a.2)

/-- Member `copyHelper` of the object at `this`. -/
def copyHelper : Nat → Map K V → Nat → Option Nat → Nat → Option (Map K V × Option Nat)
  | 0, _, _, _, _ => none
  | _ + 1, m, _, none, _ => some (m, none)
  | fuel + 1, m, this, some otherRoot, otherHead =>
    (rd m otherRoot).bind fun o =>
    (copyHelper fuel m this o.left otherHead).bind fun l =>
    (rd l.1 otherRoot).bind fun o =>
    (copyHelper fuel l.1 this o.right otherHead).bind fun r =>
    copyNode r.1 this otherRoot otherHead l.2 r.2

/-- Statements `_head.parent = copyHelper(other._head.parent, &other._head);
_head.parent->parent = &_head;` of the copy constructor and the copy
assignment. -/
def copyTree (m : Map K V) (this other : Nat) : Option (Map K V) :=
  (rd m other).bind fun oh =>
  (copyHelper (fuelOf m) m this oh.parent other).bind fun r =>
  (setParent r.1 this r.2).bind fun m =>
  (rd m this).bind fun h => h.parent.bind fun root => setParent m root (some this)

/-- Copy constructor `Map(const Map& other)`.  The sentinel `_head()` of the
new object is put in a fresh cell, whose address is returned with the store. -/
def copyConstruct [Inhabited K] [Inhabited V] (w : Heap K V) (other : Nat) :
    Option (Heap K V × Nat) :=
  let a := alloc w.mem ⟨(default, default), none, none, none, Color.Red⟩
  let w1 := Heap.setSize ⟨a.1, w.sizes⟩ a.2 (w.sizes other)
  (copyTree w1.mem a.2 other).map fun m => (⟨m, w1.sizes⟩, a.2)

/-- Copy assignment `operator=(const Map& other)` of the object at `this`. -/
def copyAssign (w : Heap K V) (this other : Nat) : Option (Heap K V) :=
  if this = other then some w
  else
    (if w.sizes this = 0 then some w else clearAt w this).bind fun w =>
    (copyTree w.mem this other).map fun m => Heap.setSize ⟨m, w.sizes⟩ this (w.sizes other)

/-- A store with two map objects: the object at address 0 holds the key 1 and
the object at address 2 is empty. -/
def twoMaps : Heap Nat Nat :=
  { mem := { mem := [some ⟨(0, 0), some 1, some 1, some 1, Color.Red⟩,
                     some ⟨(1, 10), some 0, none, none, Color.Black⟩,
                     some ⟨(0, 0), none, some 2, some 2, Color.Red⟩],
             _size := 0 },
    sizes := fun x => if x = 0 then 1 else 0 }

/-- The object at `this` holds the tree: the root slot of its sentinel refers
to the root of the tree, the root's parent link refers to the sentinel, no cell
is shared by two nodes and the sentinel is not a node of the tree. -/
structure ShapeAt (m : Map K V) (this : Nat) (t : Tree K V) : Prop where
  head : ∃ h, rd m this = some h ∧ h.parent = t.root
  rep : Rep m (some this) t
  nodup : t.addrs.Nodup
  notHead : this ∉ t.addrs

/-- The extrema cache of the sentinel at `this`: its left link refers to the
leftmost node and its right link to the rightmost node, and both refer to the
sentinel itself when the tree is empty. -/
def CachedAt (m : Map K V) (this : Nat) (t : Tree K V) : Prop :=
  ∃ h, rd m this = some h ∧ h.left = some (t.first this) ∧ h.right = some (t.last this)

/-- The object at `this` is a well-formed map that holds the tree `t`, and its
`_size` counts the nodes.  With the empty tree this is the canonical empty
state: the root slot is empty, the sentinel's left and right links refer to the
sentinel itself and `_size` is zero. -/
structure Holds (w : Heap K V) (this : Nat) (t : Tree K V) : Prop where
  shape : ShapeAt w.mem this t
  cached : CachedAt w.mem this t
  size : w.sizes this = t.size

/-- A store with a two-node subtree whose root, at address 2, has a left child,
at address 1; the sentinel is at address 0. -/
def leftPairMap : Map Nat Nat :=
  { mem := [some ⟨(0, 0), some 2, some 1, some 2, Color.Red⟩,
            some ⟨(1, 10), some 2, none, none, Color.Red⟩,
            some ⟨(2, 20), some 0, some 1, none, Color.Black⟩],
    _size := 2 }

/-- The tree held by `leftPairMap`. -/
def leftPairTree : Tree Nat Nat :=
  Tree.node 2 Color.Black (Tree.node 1 Color.Red Tree.nil (1, 10) Tree.nil) (2, 20) Tree.nil

/-- A store with a two-node subtree whose root, at address 1, has a right
child, at address 2; the sentinel is at address 0. -/
def rightPairMap : Map Nat Nat :=
  { mem := [some ⟨(0, 0), some 1, some 1, some 2, Color.Red⟩,
            some ⟨(1, 10), some 0, none, some 2, Color.Black⟩,
            some ⟨(2, 20), some 1, none, none, Color.Red⟩],
    _size := 2 }

/-- The tree held by `rightPairMap`. -/
def rightPairTree : Tree Nat Nat :=
  Tree.node 1 Color.Black Tree.nil (1, 10) (Tree.node 2 Color.Red Tree.nil (2, 20) Tree.nil)

/-! ## Position of a subtree in a tree -/

/-- Way from a subtree up to the root of the tree: for every ancestor, from the
nearest one, whether the subtree hangs on its left or on its right, together
with the ancestor's address, colour and value and its other subtree. -/
inductive Path (K V : Type) where
  | top
  | left (a : Nat) (c : Color) (kv : K × V) (sib : Tree K V) (up : Path K V)
  | right (a : Nat) (c : Color) (kv : K × V) (sib : Tree K V) (up : Path K V)

namespace Path

/-- The tree that has the subtree `s` at the position the path describes. -/
def plug : Path K V → Tree K V → Tree K V
  | top, s => s
  | left a c kv sib up, s => up.plug (Tree.node a c s kv sib)
  | right a c kv sib up, s => up.plug (Tree.node a c sib kv s)

/-- Address of the node the subtree hangs from: the nearest ancestor, or the
sentinel for the subtree that is the whole tree. -/
def parent : Path K V → Nat
  | top => 0
  | left a _ _ _ _ => a
  | right a _ _ _ _ => a

/-- Addresses of the ancestors and of the nodes of their other subtrees. -/
def addrs : Path K V → List Nat
  | top => []
  | left a _ _ sib up => a :: (sib.addrs ++ up.addrs)
  | right a _ _ sib up => a :: (sib.addrs ++ up.addrs)

/-- Number of ancestors. -/
def depth : Path K V → Nat
  | top => 0
  | left _ _ _ _ up => up.depth + 1
  | right _ _ _ _ up => up.depth + 1

/-- The path `p` continued above its topmost ancestor by the path `q`. -/
def append : Path K V → Path K V → Path K V
  | top, q => q
  | left a c kv sib up, q => left a c kv sib (up.append q)
  | right a c kv sib up, q => right a c kv sib (up.append q)

/-- Colour conditions on the surroundings of a subtree of black height `k`
in a red-black tree: the other subtree of every ancestor is a red-black
coloured tree of the black height of the subtree below that ancestor, and
a Red ancestor has no Red child on the other side. -/
def Around : Path K V → Nat → Prop
  | top, _ => True
  | left _ c _ sib up, k =>
    sib.noRedRed ∧ sib.blackHeight k ∧ (c = Color.Red → sib.isRed = false) ∧
      up.Around (if c = Color.Black then k + 1 else k)
  | right _ c _ sib up, k =>
    sib.noRedRed ∧ sib.blackHeight k ∧ (c = Color.Red → sib.isRed = false) ∧
      up.Around (if c = Color.Black then k + 1 else k)

end Path

/-- Parent link of the node at an address. -/
def parentOf (m : Map K V) (x : Nat) : Option Nat :=
  (rd m x).bind fun n => n.parent

/-- The branches of `resolveDB`: the node is the root; the sibling is Black
with two Black or absent children; the sibling is Black with a Red near child
and no Red far child; the sibling is Black with a Red far child; the sibling
is Red; and no branch at all (a Black sibling for which no test holds). -/
inductive Branch where
  | atRoot
  | bothBlack
  | nearRed
  | farRed
  | redSibling
  | noCase
  deriving DecidableEq, Repr

/-- The branch that `dbBlackSibling` takes: the tests of `dbBlackSibling`
in their order. -/
def blackBranch (m : Map K V) (sibling : Nat) (farChild nearChild : Option Nat) :
    Option Branch :=
  (bothChildBlack m sibling).bind fun bb =>
  if bb then some Branch.bothBlack
  else
  (isBlackOrNull m farChild).bind fun fb =>
  (if fb then derefRed m nearChild else some false).bind fun nearRed =>
  if nearRed then some Branch.nearRed
  else
  (derefRed m farChild).bind fun farRed =>
  if farRed then some Branch.farRed
  else some Branch.noCase

/-- The branch that an activation of `resolveDB` takes: the tests of
`resolveDBStep` in their order. -/
def branchOf (m : Map K V) (n : Nat) : Option Branch := do
  let h ← rd m 0
  if h.parent = some n then pure Branch.atRoot
  else
    let nn ← rd m n
    let p ← nn.parent
    let pn ← rd m p
    let onLeft := decide (pn.left = some n)
    let sibling ← if onLeft then pn.right else pn.left
    let sn ← rd m sibling
    let farChild := if onLeft then sn.right else sn.left
    let nearChild := if onLeft then sn.left else sn.right
    if sn.color = Color.Black then blackBranch m sibling farChild nearChild
    else pure Branch.redSibling

/-- The activations of `resolveDB` in their order: for each one, the branch
it takes and its argument. -/
def resolveDBTrace : Nat → Map K V → Nat → Option (List (Branch × Nat))
  | 0, _, _ => none
  | fuel + 1, m, n =>
    (branchOf m n).bind fun b =>
    (resolveDBStep m n).bind fun r =>
      match r.2 with
      | none => some [(b, n)]
      | some next => (resolveDBTrace fuel r.1 next).map fun tr => (b, n) :: tr

/-- Relation between an activation of `resolveDB` and the one it calls: after
the sibling-Red branch comes a branch for a Black sibling at the same node,
after the near-child-Red branch comes the far-child-Red branch at the same
node, and after the both-children-Black branch comes an activation at the
parent of the node.  No other branch makes a call. -/
def Follows (m : Map K V) (x y : Branch × Nat) : Prop :=
  match x.1 with
  | Branch.redSibling =>
    y.2 = x.2 ∧ (y.1 = Branch.bothBlack ∨ y.1 = Branch.nearRed ∨ y.1 = Branch.farRed)
  | Branch.nearRed => y.2 = x.2 ∧ y.1 = Branch.farRed
  | Branch.bothBlack => parentOf m x.2 = some y.2
  | _ => False

/-- A store with three Black nodes: the root at address 2 with the leaves at
addresses 1 and 3; the sentinel is at address 0.  It is the map left by the
insertions of the keys 1, 2, 3, 4 followed by the removal of the Red leaf 4. -/
def blackTripleMap : Map Nat Nat :=
  { mem := [some ⟨(0, 0), some 2, some 1, some 3, Color.Red⟩,
            some ⟨(1, 10), some 2, none, none, Color.Black⟩,
            some ⟨(2, 20), some 0, some 1, some 3, Color.Black⟩,
            some ⟨(3, 30), some 2, none, none, Color.Black⟩],
    _size := 3 }

/-- The tree held by `blackTripleMap`. -/
def blackTripleTree : Tree Nat Nat :=
  Tree.node 2 Color.Black (Tree.node 1 Color.Black Tree.nil (1, 10) Tree.nil) (2, 20)
    (Tree.node 3 Color.Black Tree.nil (3, 30) Tree.nil)

/-- The node with every link that refers to `a` made to refer to `b`: the
effect on `a->parent` of the three statements of `swapNodes`
`if (a->parent->right == a) a->parent->right = b;`,
`if (a->parent->left == a) a->parent->left = b;` and
`if (a->parent->parent == a) a->parent->parent = b;`. -/
def redirect (a b : Nat) (n : RB_Node K V) : RB_Node K V :=
  { n with
    parent := if n.parent = some a then some b else n.parent
    left := if n.left = some a then some b else n.left
    right := if n.right = some a then some b else n.right }

/-- Address of the node the subtree at the end of a path hangs from, for a
path that starts below the node at address `d`. -/
def Path.parentOr (d : Nat) : Path K V → Nat
  | Path.top => d
  | Path.left a _ _ _ _ => a
  | Path.right a _ _ _ _ => a

/-- The subtree at the end of the path is the whole tree or a left child. -/
def Path.hangsLeft : Path K V → Prop
  | Path.right _ _ _ _ _ => False
  | _ => True

/-- The subtree at the end of the path is the whole tree or a right child. -/
def Path.hangsRight : Path K V → Prop
  | Path.left _ _ _ _ _ => False
  | _ => True

/-- The tree in which the nodes at the addresses `a` and `b` have exchanged
their positions: the position of `a` holds the address `b` with the value
`kvb`, the position of `b` holds the address `a` with the value `kva`, and
every position keeps its colour. -/
def Tree.exchange (a b : Nat) (kva kvb : K × V) : Tree K V → Tree K V
  | Tree.nil => Tree.nil
  | Tree.node x c l kv r =>
    if x = a then Tree.node b c (l.exchange a b kva kvb) kvb (r.exchange a b kva kvb)
    else if x = b then Tree.node a c (l.exchange a b kva kvb) kva (r.exchange a b kva kvb)
    else Tree.node x c (l.exchange a b kva kvb) kv (r.exchange a b kva kvb)

/-! ## Removal observed

Copies of the removal branches of `eraseHelper` that also report what the
cell of the node holds when `delete node` is reached, and how many times
`swapNodes` ran before. -/

/-- Removal of a Red leaf as in `removeRedLeaf`, with the observation, taken
right before `delete node`, whether the node has neither a left nor a right
child. -/
def removeRedLeafObs (m : Map K V) (node : Nat) : Option (Map K V × Bool × Bool) := do
  let n ← rd m node
  let p ← n.parent
  let pn ← rd m p
  let m ← if pn.left = some node then setLeft m p none
    else if pn.right = some node then setRight m p none
    else setParent m p none
  let nd ← rd m node
  let m ← free m node
  pure ({ m with _size := m._size - 1 }, true, nd.left.isNone && nd.right.isNone)

/-- Removal of a Black leaf as in `removeBlackLeaf`, with the observation,
taken right before `delete node`, whether the node has neither a left nor a
right child. -/
def removeBlackLeafObs (m : Map K V) (node : Nat) : Option (Map K V × Bool × Bool) := do
  let m ← resolveDB (fuelOf m) m node
  let n ← rd m node
  let p ← n.parent
  let pn ← rd m p
  let m ← if pn.left = some node then setLeft m p none else setRight m p none
  let nd ← rd m node
  let m ← free m node
  pure ({ m with _size := m._size - 1 }, true, nd.left.isNone && nd.right.isNone)

/-- Member `eraseHelper` with two observations added to its result: the number
of calls of `swapNodes` made on the way (counted from `k`), and, when a node
was unlinked and deleted by one of the two leaf branches, whether that node had
no left and no right child when `delete node` was reached. -/
def eraseHelperObs (comp : K → K → Bool) :
    Nat → Map K V → Option Nat → K → Nat → Option (Map K V × Bool × Nat × Option Bool)
  | 0, _, _, _, _ => none
  | _ + 1, m, none, _, k => some (m, false, k, none)
  | fuel + 1, m, some node, x, k =>
    if m._size = 1 then
      (eraseLast comp m node x).map fun (r : Map K V × Bool) => (r.1, r.2, k, none)
    else
    (rd m node).bind fun n =>
    if comp x n.value.1 then eraseHelperObs comp fuel m n.left x k
    else if comp n.value.1 x then eraseHelperObs comp fuel m n.right x k
    else
    (updateMin m node).bind fun m =>
    (updateMax m node).bind fun m =>
    (rd m node).bind fun n =>
    if n.right.isSome then
      (swapWithSuccessor m node).bind fun m => eraseHelperObs comp fuel m (some node) x (k + 1)
    else if n.left.isSome then
      (swapWithPredecessor m node).bind fun m => eraseHelperObs comp fuel m (some node) x (k + 1)
    else if n.color = Color.Red then
      (removeRedLeafObs m node).map fun (r : Map K V × Bool × Bool) =>
        (r.1, r.2.1, k, some r.2.2)
    else (removeBlackLeafObs m node).map fun (r : Map K V × Bool × Bool) =>
      (r.1, r.2.1, k, some r.2.2)

/-! # Theorems -/

open Tree (node nil)

/-! ## Evaluation of `erase` and `find` at concrete inputs -/

/-- C1: after `insert` of the keys 1, 2, 3, 4 and `erase(1)`, the walk from
`begin()` to `end()` visits only the keys 3 and 4: key 2, which was inserted
and never erased, is not visited. -/
theorem C1_walk_after_erase_misses_key :
    (run natLess callsErase1).bind toList = some [(3, 30), (4, 40)] := by
  decide

/-- C4: after `insert` of the keys 1, 2, 3, 4, `erase(1)` and `erase(2)`, the
sentinel's root slot still holds the address of the node of key 2, and that
node has been deleted: no tree hangs from the root slot. -/
theorem C4_root_slot_dangles_after_erase :
    ((run natLess callsErase1).bind fun m => erase natLess m 2).bind
      (fun r => (rd r.1 0).map fun h => (h.parent, h.parent.bind (rd r.1)))
      = some (some 2, none) := by
  decide

/-- C5: in the map built from the keys 1, 2, 3, 4, `find(3)` is at the node of
key 3, and after `erase(1)` the size is 3 but `find(3)` returns `end()`. -/
theorem C5_erase_hides_other_key :
    ((ofList natLess [(1, 10), (2, 20), (3, 30), (4, 40)]).bind fun m =>
      (find natLess m 3).bind fun before =>
      (erase natLess m 1).bind fun r =>
      (find natLess r.1 3).map fun after => (before, r.2, size r.1, after))
      = some (3, 1, 3, endIt) := by
  decide

/-- C6: `find(k)` after `erase(k)` does not return `end()` at two inputs.
With `std::less`: after `insert` of the keys 1, 2, 3, 4 and `erase(1)`, the call
`erase(2)` returns 1 and the following `find(2)` reads the deleted node through
the root slot.  With the comparator `lessTens`: in the map built from the keys
5 and 7, `erase(7)` returns 1 and the following `find(7)` returns the iterator
at the node that holds key 7. -/
theorem C6_find_after_erase_not_end :
    ((run natLess callsErase1).bind fun m =>
      (erase natLess m 2).map fun r => (r.2, find natLess r.1 2))
      = some (1, none) ∧
    ((ofList lessTens [(5, 50), (7, 70)]).bind fun m =>
      (erase lessTens m 7).map fun r =>
        (r.2, (find lessTens r.1 7).bind fun it => (rd r.1 it).map fun n => (it, n.value)))
      = some (1, some (2, (7, 70))) := by
  decide

/-- C9: after `insert` of the keys 1, 2, 3, 4 and `erase(1)`, `size()` is 3,
one data node is reachable from the root slot, and the walk from `begin()` to
`end()` visits two elements. -/
theorem C9_size_differs_from_node_count :
    ((run natLess callsErase1).bind fun m =>
      (reachable m).bind fun n =>
      (toList m).map fun l => (size m, n, l.length))
      = some (3, 1, 2) := by
  decide

/-- C10: under the comparator `lessTens` the keys 5 and 7 are equivalent, and
in the map that holds the single key 5, `find(7)` returns `end()` and
`count(7)` is 0. -/
theorem C10_find_misses_equivalent_key :
    (lessTens 5 7 = false ∧ lessTens 7 5 = false) ∧
    ((ofList lessTens [(5, 50)]).bind fun m =>
      (find lessTens m 7).bind fun it =>
      (count lessTens m 7).map fun c => (toList m, it, c))
      = some (some [(5, 50)], endIt, 0) := by
  decide

/-! ## The object store -/

theorem rd_lt {m : Map K V} {a : Nat} {n : RB_Node K V} (h : rd m a = some n) :
    a < m.mem.length := by
  unfold rd at h
  by_contra hlt
  rw [List.getD_eq_default _ _ (Nat.le_of_not_lt hlt)] at h
  cases h

theorem rd_wr (m : Map K V) (a x : Nat) (n : RB_Node K V) :
    rd (wr m a n) x = if x = a ∧ a < m.mem.length then some n else rd m x := by
  unfold rd wr
  simp only [List.getD_eq_getElem?_getD, List.getElem?_set]
  by_cases h : a = x
  · subst h
    by_cases hl : a < m.mem.length
    · simp [hl]
    · simp [hl, List.getElem?_eq_none (Nat.le_of_not_lt hl)]
  · have h' : ¬ x = a := fun e => h e.symm
    simp [h, h']

@[simp] theorem wr_length (m : Map K V) (a : Nat) (n : RB_Node K V) :
    (wr m a n).mem.length = m.mem.length := by
  simp [wr]

@[simp] theorem wr_size (m : Map K V) (a : Nat) (n : RB_Node K V) :
    (wr m a n)._size = m._size := rfl

@[simp] theorem fuelOf_wr (m : Map K V) (a : Nat) (n : RB_Node K V) :
    fuelOf (wr m a n) = fuelOf m := by
  simp [fuelOf]

theorem rd_alloc (m : Map K V) (n : RB_Node K V) (x : Nat) :
    rd (alloc m n).1 x = if x = m.mem.length then some n else rd m x := by
  unfold rd alloc
  simp only [List.getD_eq_getElem?_getD]
  by_cases h : x = m.mem.length
  · subst h
    simp
  · rcases Nat.lt_or_gt_of_ne h with hlt | hgt
    · simp [h, List.getElem?_append_left hlt]
    · have h1 : m.mem.length + 1 ≤ x := hgt
      rw [List.getElem?_eq_none (by simpa using h1), List.getElem?_eq_none (Nat.le_of_lt hgt)]
      simp [h]

theorem Same.refl (m : Map K V) (S : List Nat) : Same m m S :=
  ⟨rfl, rfl, fun _ _ => rfl⟩

theorem Same.mono {m m' : Map K V} {S S' : List Nat} (h : Same m m' S)
    (hs : ∀ x ∈ S, x ∈ S') : Same m m' S' :=
  ⟨h.1, h.2.1, fun x hx => h.2.2 x (fun hx' => hx (hs x hx'))⟩

theorem Same.trans {m m' m'' : Map K V} {S : List Nat} (h : Same m m' S)
    (h' : Same m' m'' S) : Same m m'' S :=
  ⟨h'.1.trans h.1, h'.2.1.trans h.2.1, fun x hx => (h'.2.2 x hx).trans (h.2.2 x hx)⟩

theorem Same.fuelOf {m m' : Map K V} {S : List Nat} (h : Same m m' S) :
    fuelOf m' = fuelOf m := by
  simp [StdMap.fuelOf, h.1]

theorem Same.wr {m : Map K V} {a : Nat} (n : RB_Node K V) {S : List Nat} (ha : a ∈ S) :
    Same m (wr m a n) S :=
  ⟨wr_length m a n, rfl, fun x hx => by
    rw [rd_wr]
    have : x ≠ a := fun e => hx (e ▸ ha)
    simp [this]⟩

/-! ## Trees -/

@[simp] theorem Tree.root_nil : (Tree.nil : Tree K V).root = none := rfl

@[simp] theorem Tree.root_node {a : Nat} {c : Color} {l r : Tree K V} {kv : K × V} :
    (Tree.node a c l kv r).root = some a := rfl

@[simp] theorem Tree.addrs_nil : (Tree.nil : Tree K V).addrs = [] := rfl

theorem Tree.mem_addrs_node {a : Nat} {c : Color} {l r : Tree K V} {kv : K × V} {x : Nat} :
    x ∈ (Tree.node a c l kv r).addrs ↔ x = a ∨ x ∈ l.addrs ∨ x ∈ r.addrs := by
  simp only [Tree.addrs, List.mem_append, List.mem_cons]
  tauto

theorem Tree.nodup_node {a : Nat} {c : Color} {l r : Tree K V} {kv : K × V} :
    (Tree.node a c l kv r).addrs.Nodup ↔
      a ∉ l.addrs ∧ a ∉ r.addrs ∧ (∀ x ∈ l.addrs, x ∉ r.addrs) ∧
      l.addrs.Nodup ∧ r.addrs.Nodup := by
  simp only [Tree.addrs, List.nodup_append, List.nodup_cons, List.disjoint_cons_right]
  constructor
  · rintro ⟨h1, ⟨h2, h3⟩, h4, h5⟩
    exact ⟨h4, h2, fun x hx hx' => h5 hx hx', h1, h3⟩
  · rintro ⟨h1, h2, h3, h4, h5⟩
    exact ⟨h4, ⟨h2, h5⟩, h1, fun x hx hx' => h3 x hx hx'⟩

theorem Tree.root_mem {t : Tree K V} {a : Nat} (h : t.root = some a) : a ∈ t.addrs := by
  cases t with
  | nil => cases h
  | node b c l kv r =>
    simp only [Tree.root_node, Option.some.injEq] at h
    subst h
    exact Tree.mem_addrs_node.mpr (Or.inl rfl)

/-! ## Representation -/

theorem Rep.frame {m m' : Map K V} {t : Tree K V} {par : Option Nat} (h : Rep m par t)
    (hf : ∀ x ∈ t.addrs, rd m' x = rd m x) : Rep m' par t := by
  induction t generalizing par with
  | nil => trivial
  | node a c l kv r ihl ihr =>
    obtain ⟨ha, hl, hr⟩ := h
    refine ⟨?_, ihl hl ?_, ihr hr ?_⟩
    · rw [hf a (Tree.mem_addrs_node.mpr (Or.inl rfl)), ha]
    · intro x hx; exact hf x (Tree.mem_addrs_node.mpr (Or.inr (Or.inl hx)))
    · intro x hx; exact hf x (Tree.mem_addrs_node.mpr (Or.inr (Or.inr hx)))

theorem Rep.same {m m' : Map K V} {t : Tree K V} {par : Option Nat} {S : List Nat}
    (h : Rep m par t) (hs : Same m m' S) (hd : ∀ x ∈ t.addrs, x ∉ S) : Rep m' par t :=
  h.frame fun x hx => hs.2.2 x (hd x hx)

theorem Rep.lt {m : Map K V} {t : Tree K V} {par : Option Nat} (h : Rep m par t) :
    ∀ x ∈ t.addrs, x < m.mem.length := by
  induction t generalizing par with
  | nil => intro x hx; cases hx
  | node a c l kv r ihl ihr =>
    obtain ⟨ha, hl, hr⟩ := h
    intro x hx
    rcases Tree.mem_addrs_node.mp hx with rfl | hx | hx
    · exact rd_lt ha
    · exact ihl hl x hx
    · exact ihr hr x hx

/-- Overwriting the root cell with a node that has the same child links. -/
theorem Rep.wr_root {m : Map K V} {par par' : Option Nat} {a : Nat} {c c' : Color}
    {l r : Tree K V} {kv kv' : K × V} (h : Rep m par (node a c l kv r))
    (hl : a ∉ l.addrs) (hr : a ∉ r.addrs) :
    Rep (wr m a ⟨kv', par', l.root, r.root, c'⟩) par' (node a c' l kv' r) := by
  obtain ⟨ha, h1, h2⟩ := h
  refine ⟨by simp [rd_wr, rd_lt ha], h1.frame ?_, h2.frame ?_⟩
  · intro x hx
    simp [rd_wr, ne_of_mem_of_not_mem hx hl]
  · intro x hx
    simp [rd_wr, ne_of_mem_of_not_mem hx hr]

/-- Statement `if (p) p->parent = q;` applied to the root of a represented tree. -/
theorem Rep.adopt_spec {m : Map K V} {par : Option Nat} {t : Tree K V} (q : Option Nat)
    (h : Rep m par t) (hnd : t.addrs.Nodup) :
    ∃ m', adopt m t.root q = some m' ∧ Rep m' q t ∧ Same m m' t.addrs := by
  cases t with
  | nil => exact ⟨m, rfl, trivial, Same.refl _ _⟩
  | node a c l kv r =>
    have ha := h.1
    rw [Tree.nodup_node] at hnd
    refine ⟨wr m a ⟨kv, q, l.root, r.root, c⟩, by simp [StdMap.adopt, setParent, ha],
      h.wr_root hnd.1 hnd.2.1,
      Same.wr _ (Tree.mem_addrs_node.mpr (Or.inl rfl))⟩

theorem Rep.setColor {m : Map K V} {par : Option Nat} {a : Nat} {c : Color}
    {l r : Tree K V} {kv : K × V} (c' : Color) (h : Rep m par (node a c l kv r))
    (hnd : (node a c l kv r).addrs.Nodup) :
    ∃ m', StdMap.setColor m a c' = some m' ∧ Rep m' par (node a c' l kv r) ∧ Same m m' [a] := by
  have ha := h.1
  rw [Tree.nodup_node] at hnd
  exact ⟨wr m a ⟨kv, par, l.root, r.root, c'⟩, by simp [StdMap.setColor, ha],
    h.wr_root hnd.1 hnd.2.1, Same.wr _ (List.mem_singleton.mpr rfl)⟩

theorem rightRotation_spec {m : Map K V} {par : Option Nat} {a la : Nat} {c lc : Color}
    {ll lr r : Tree K V} {kv lkv : K × V}
    (h : Rep m par (node a c (node la lc ll lkv lr) kv r))
    (hnd : (node a c (node la lc ll lkv lr) kv r).addrs.Nodup) :
    ∃ m', rightRotation m a = some (m', la) ∧
      Rep m' (some a) (node la lc ll lkv (node a c lr kv r)) ∧
      Same m m' (node a c (node la lc ll lkv lr) kv r).addrs := by
  obtain ⟨ha, ⟨hla, hll, hlr⟩, hr⟩ := h
  have lta := rd_lt ha
  have ltla := rd_lt hla
  simp only [Tree.nodup_node, Tree.mem_addrs_node, not_or] at hnd
  obtain ⟨⟨hne, h1, h2⟩, har, hdis, ⟨h3, h4, h5, h6, h7⟩, h8⟩ := hnd
  have hne' := Ne.symm hne
  cases lr with
  | nil =>
    simp only [rightRotation, adopt, setRight, setLeft, setParent, rd_wr, ha, hla, lta, ltla, hne,
      hne', Tree.root_node, Tree.root_nil, Option.bind_eq_bind, Option.some_bind, Option.map_some',
      Option.pure_def, and_self, and_true, if_true, if_false, wr_length, false_and, true_and]
    refine ⟨_, rfl, ?_, by simp, by simp, ?_⟩
    · simp only [Rep, Tree.root_node, Tree.root_nil, rd_wr, wr_length, lta, ltla, hne, hne',
        and_self, and_true, if_true, if_false, false_and, true_and]
      refine ⟨hll.frame ?_, hr.frame ?_⟩
      · intro x hx
        simp [rd_wr, ne_of_mem_of_not_mem hx h1, ne_of_mem_of_not_mem hx h3]
      · intro x hx
        simp [rd_wr, ne_of_mem_of_not_mem hx har, ne_of_mem_of_not_mem hx (hdis la (Or.inl rfl))]
    · intro x hx
      simp only [Tree.mem_addrs_node, not_or] at hx
      simp [rd_wr, hx.1, hx.2.1.1]
  | node t tc tl tkv tr =>
    obtain ⟨ht, htl, htr⟩ := hlr
    have ltt := rd_lt ht
    simp only [Tree.nodup_node, Tree.mem_addrs_node, not_or] at h2 h4 h5 h7 hdis
    have hta : t ≠ a := Ne.symm h2.1
    have htla : t ≠ la := Ne.symm h4.1
    simp only [rightRotation, adopt, setRight, setLeft, setParent, rd_wr, ha, hla, ht, lta, ltla, ltt,
      hne, hne', hta, htla, Ne.symm hta, Ne.symm htla, Tree.root_node, Tree.root_nil, Option.bind_eq_bind,
      Option.some_bind, Option.map_some', Option.pure_def, and_self, and_true, if_true, if_false,
      wr_length, false_and, true_and]
    refine ⟨_, rfl, ?_, by simp, by simp, ?_⟩
    · simp only [Rep, Tree.root_node, Tree.root_nil, rd_wr, wr_length, lta, ltla, ltt, hne, hne', hta, htla,
        Ne.symm hta, Ne.symm htla, and_self, and_true, if_true, if_false, false_and, true_and]
      refine ⟨hll.frame ?_, ⟨htl.frame ?_, htr.frame ?_⟩, hr.frame ?_⟩
      · intro x hx
        have := h5 x hx
        simp [rd_wr, ne_of_mem_of_not_mem hx h1, ne_of_mem_of_not_mem hx h3, this.1]
      · intro x hx
        simp [rd_wr, ne_of_mem_of_not_mem hx h2.2.1, ne_of_mem_of_not_mem hx h4.2.1,
          ne_of_mem_of_not_mem hx h7.1]
      · intro x hx
        simp [rd_wr, ne_of_mem_of_not_mem hx h2.2.2, ne_of_mem_of_not_mem hx h4.2.2,
          ne_of_mem_of_not_mem hx h7.2.1]
      · intro x hx
        simp [rd_wr, ne_of_mem_of_not_mem hx har,
          ne_of_mem_of_not_mem hx (hdis la (Or.inl rfl)),
          ne_of_mem_of_not_mem hx (hdis t (Or.inr (Or.inr (Or.inl rfl))))]
    · intro x hx
      simp only [Tree.mem_addrs_node, not_or] at hx
      simp [rd_wr, hx.1, hx.2.1.1, hx.2.1.2.2.1]

theorem leftRotation_spec {m : Map K V} {par : Option Nat} {a ra : Nat} {c rc : Color}
    {l rl rr : Tree K V} {kv rkv : K × V}
    (h : Rep m par (node a c l kv (node ra rc rl rkv rr)))
    (hnd : (node a c l kv (node ra rc rl rkv rr)).addrs.Nodup) :
    ∃ m', leftRotation m a = some (m', ra) ∧
      Rep m' (some a) (node ra rc (node a c l kv rl) rkv rr) ∧
      Same m m' (node a c l kv (node ra rc rl rkv rr)).addrs := by
  obtain ⟨ha, hl, ⟨hra, hrl, hrr⟩⟩ := h
  have lta := rd_lt ha
  have ltra := rd_lt hra
  simp only [Tree.nodup_node, Tree.mem_addrs_node, not_or] at hnd
  obtain ⟨hal, ⟨hne, h1, h2⟩, hdis, h8, ⟨h3, h4, h5, h6, h7⟩⟩ := hnd
  have hne' := Ne.symm hne
  cases rl with
  | nil =>
    simp only [leftRotation, adopt, setRight, setLeft, setParent, rd_wr, ha, hra, lta, ltra, hne,
      hne', Tree.root_node, Tree.root_nil, Option.bind_eq_bind, Option.some_bind, Option.map_some',
      Option.pure_def, and_self, and_true, if_true, if_false, wr_length, false_and, true_and]
    refine ⟨_, rfl, ?_, by simp, by simp, ?_⟩
    · simp only [Rep, Tree.root_node, Tree.root_nil, rd_wr, wr_length, lta, ltra, hne, hne',
        and_self, and_true, if_true, if_false, false_and, true_and]
      refine ⟨hl.frame ?_, hrr.frame ?_⟩
      · intro x hx
        simp [rd_wr, ne_of_mem_of_not_mem hx hal, (hdis x hx).1]
      · intro x hx
        simp [rd_wr, ne_of_mem_of_not_mem hx h2, ne_of_mem_of_not_mem hx h4]
    · intro x hx
      simp only [Tree.mem_addrs_node, not_or] at hx
      simp [rd_wr, hx.1, hx.2.2.1]
  | node t tc tl tkv tr =>
    obtain ⟨ht, htl, htr⟩ := hrl
    have ltt := rd_lt ht
    simp only [Tree.nodup_node, Tree.mem_addrs_node, not_or] at h1 h3 h5 h6 hdis
    have hta : t ≠ a := Ne.symm h1.1
    have htra : t ≠ ra := Ne.symm h3.1
    simp only [leftRotation, adopt, setRight, setLeft, setParent, rd_wr, ha, hra, ht, lta, ltra, ltt,
      hne, hne', hta, htra, Ne.symm hta, Ne.symm htra, Tree.root_node, Tree.root_nil, Option.bind_eq_bind,
      Option.some_bind, Option.map_some', Option.pure_def, and_self, and_true, if_true, if_false,
      wr_length, false_and, true_and]
    refine ⟨_, rfl, ?_, by simp, by simp, ?_⟩
    · simp only [Rep, Tree.root_node, Tree.root_nil, rd_wr, wr_length, lta, ltra, ltt, hne, hne', hta, htra,
        Ne.symm hta, Ne.symm htra, and_self, and_true, if_true, if_false, false_and, true_and]
      refine ⟨⟨hl.frame ?_, htl.frame ?_, htr.frame ?_⟩, hrr.frame ?_⟩
      · intro x hx
        have := hdis x hx
        simp [rd_wr, ne_of_mem_of_not_mem hx hal, this.1, this.2.1.1]
      · intro x hx
        simp [rd_wr, ne_of_mem_of_not_mem hx h1.2.1, ne_of_mem_of_not_mem hx h3.2.1,
          ne_of_mem_of_not_mem hx h6.1]
      · intro x hx
        simp [rd_wr, ne_of_mem_of_not_mem hx h1.2.2, ne_of_mem_of_not_mem hx h3.2.2,
          ne_of_mem_of_not_mem hx h6.2.1]
      · intro x hx
        have := h5 t (Or.inl rfl)
        simp [rd_wr, ne_of_mem_of_not_mem hx h2, ne_of_mem_of_not_mem hx h4,
          ne_of_mem_of_not_mem hx this]
    · intro x hx
      simp only [Tree.mem_addrs_node, not_or] at hx
      simp [rd_wr, hx.1, hx.2.2.1, hx.2.2.2.1.1]

/-- Replacing the left subtree by a tree with the same root that is represented
in a store that differs only inside the old left subtree. -/
theorem Rep.replace_left {m m' : Map K V} {par : Option Nat} {a : Nat} {c : Color}
    {l l' r : Tree K V} {kv : K × V} {S : List Nat}
    (h : Rep m par (node a c l kv r)) (hl : Rep m' (some a) l') (hroot : l'.root = l.root)
    (hs : Same m m' S) (ha : a ∉ S) (hr : ∀ x ∈ r.addrs, x ∉ S) :
    Rep m' par (node a c l' kv r) := by
  obtain ⟨h1, _, h3⟩ := h
  exact ⟨by rw [hs.2.2 a ha, h1, hroot], hl, h3.same hs hr⟩

/-- Replacing the right subtree by a tree with the same root that is represented
in a store that differs only inside the old right subtree. -/
theorem Rep.replace_right {m m' : Map K V} {par : Option Nat} {a : Nat} {c : Color}
    {l r r' : Tree K V} {kv : K × V} {S : List Nat}
    (h : Rep m par (node a c l kv r)) (hr : Rep m' (some a) r') (hroot : r'.root = r.root)
    (hs : Same m m' S) (ha : a ∉ S) (hl : ∀ x ∈ l.addrs, x ∉ S) :
    Rep m' par (node a c l kv r') := by
  obtain ⟨h1, h2, _⟩ := h
  exact ⟨by rw [hs.2.2 a ha, h1, hroot], h2.same hs hl, hr⟩

theorem recolor_spec {m : Map K V} {par : Option Nat} {a la ra : Nat} {c lc rc : Color}
    {ll lr rl rr : Tree K V} {kv lkv rkv : K × V}
    (h : Rep m par (node a c (node la lc ll lkv lr) kv (node ra rc rl rkv rr)))
    (hnd : (node a c (node la lc ll lkv lr) kv (node ra rc rl rkv rr)).addrs.Nodup) :
    ∃ m', recolor m a = some m' ∧
      Rep m' par (Tree.recolor (node a c (node la lc ll lkv lr) kv (node ra rc rl rkv rr))) ∧
      Same m m' (node a c (node la lc ll lkv lr) kv (node ra rc rl rkv rr)).addrs := by
  obtain ⟨ha, ⟨hla, hll, hlr⟩, ⟨hra, hrl, hrr⟩⟩ := h
  have lta := rd_lt ha
  have ltla := rd_lt hla
  have ltra := rd_lt hra
  simp only [Tree.nodup_node, Tree.mem_addrs_node, not_or] at hnd
  obtain ⟨⟨h1, h2, h3⟩, ⟨h4, h5, h6⟩, hdis, ⟨h7, h8, -, -, -⟩, ⟨h9, h10, -, -, -⟩⟩ := hnd
  have h11 : la ≠ ra := (hdis la (Or.inl rfl)).1
  simp only [recolor, setColor, rd_wr, ha, hla, hra, lta, ltla, ltra, h1, h4, h11, Ne.symm h1,
    Ne.symm h4, Ne.symm h11, Tree.root_node, Option.bind_eq_bind, Option.some_bind,
    Option.map_some', and_self, and_true, if_true, if_false, wr_length, false_and, true_and]
  refine ⟨_, rfl, ?_, by simp, by simp, ?_⟩
  · simp only [Tree.recolor, Tree.paint, Rep, Tree.root_node, rd_wr, wr_length, lta, ltla, ltra,
      h1, h4, h11, Ne.symm h1, Ne.symm h4, Ne.symm h11, and_self, and_true, if_true, if_false,
      false_and, true_and]
    refine ⟨⟨hll.frame ?_, hlr.frame ?_⟩, hrl.frame ?_, hrr.frame ?_⟩
    · intro x hx
      have := hdis x (Or.inr (Or.inl hx))
      simp [rd_wr, ne_of_mem_of_not_mem hx h2, ne_of_mem_of_not_mem hx h7, this.1]
    · intro x hx
      have := hdis x (Or.inr (Or.inr hx))
      simp [rd_wr, ne_of_mem_of_not_mem hx h3, ne_of_mem_of_not_mem hx h8, this.1]
    · intro x hx
      have := (hdis la (Or.inl rfl)).2.1
      simp [rd_wr, ne_of_mem_of_not_mem hx h5, ne_of_mem_of_not_mem hx h9,
        ne_of_mem_of_not_mem hx this]
    · intro x hx
      have := (hdis la (Or.inl rfl)).2.2
      simp [rd_wr, ne_of_mem_of_not_mem hx h6, ne_of_mem_of_not_mem hx h10,
        ne_of_mem_of_not_mem hx this]
  · intro x hx
    simp only [Tree.mem_addrs_node, not_or] at hx
    simp [rd_wr, hx.1, hx.2.1.1, hx.2.2.1]

theorem fixLeftLeft_spec {m : Map K V} {par : Option Nat} {a la : Nat} {c lc : Color}
    {ll lr r : Tree K V} {kv lkv : K × V}
    (h : Rep m par (node a c (node la lc ll lkv lr) kv r))
    (hnd : (node a c (node la lc ll lkv lr) kv r).addrs.Nodup) :
    ∃ m', fixLeftLeft m a = some (m', some la) ∧
      Rep m' (some a) (Tree.fixLeftLeft (node a c (node la lc ll lkv lr) kv r)) ∧
      Same m m' (node a c (node la lc ll lkv lr) kv r).addrs := by
  obtain ⟨m1, e1, r1, s1⟩ := rightRotation_spec h hnd
  have hnd1 : (node la lc ll lkv (node a c lr kv r)).addrs.Nodup := by
    simpa [Tree.addrs] using hnd
  obtain ⟨m2, e2, r2, s2⟩ := Rep.setColor Color.Black r1 hnd1
  have hnd2 := hnd1
  simp only [Tree.nodup_node, Tree.mem_addrs_node, not_or] at hnd2
  obtain ⟨hla, ⟨hne, -, -⟩, hdis, -, hnda⟩ := hnd2
  obtain ⟨m3, e3, r3, s3⟩ := Rep.setColor Color.Red r2.2.2 (Tree.nodup_node.mpr hnda)
  refine ⟨m3, by simp [fixLeftLeft, e1, e2, e3], ?_, ?_⟩
  · exact Rep.replace_right r2 r3 rfl s3 (by simpa using hne) (fun x hx => by
      simpa using (hdis x hx).1)
  · refine (s1.trans (s2.mono ?_)).trans (s3.mono ?_)
    · intro x hx
      simp only [List.mem_singleton] at hx
      simp [Tree.mem_addrs_node, hx]
    · intro x hx
      simp only [List.mem_singleton] at hx
      simp [Tree.mem_addrs_node, hx]

theorem fixRightRight_spec {m : Map K V} {par : Option Nat} {a ra : Nat} {c rc : Color}
    {l rl rr : Tree K V} {kv rkv : K × V}
    (h : Rep m par (node a c l kv (node ra rc rl rkv rr)))
    (hnd : (node a c l kv (node ra rc rl rkv rr)).addrs.Nodup) :
    ∃ m', fixRightRight m a = some (m', some ra) ∧
      Rep m' (some a) (Tree.fixRightRight (node a c l kv (node ra rc rl rkv rr))) ∧
      Same m m' (node a c l kv (node ra rc rl rkv rr)).addrs := by
  obtain ⟨m1, e1, r1, s1⟩ := leftRotation_spec h hnd
  have hnd1 : (node ra rc (node a c l kv rl) rkv rr).addrs.Nodup := by
    simpa [Tree.addrs] using hnd
  obtain ⟨m2, e2, r2, s2⟩ := Rep.setColor Color.Black r1 hnd1
  have hnd2 := hnd1
  simp only [Tree.nodup_node, Tree.mem_addrs_node, not_or] at hnd2
  obtain ⟨⟨hne, -, -⟩, hra, hdis, hnda, -⟩ := hnd2
  obtain ⟨m3, e3, r3, s3⟩ := Rep.setColor Color.Red r2.2.1 (Tree.nodup_node.mpr hnda)
  refine ⟨m3, by simp [fixRightRight, e1, e2, e3], ?_, ?_⟩
  · exact Rep.replace_left r2 r3 rfl s3 (by simpa using hne) (fun x hx => by
      have := hdis a (Or.inl rfl)
      simpa using (ne_of_mem_of_not_mem hx this))
  · refine (s1.trans (s2.mono ?_)).trans (s3.mono ?_)
    · intro x hx
      simp only [List.mem_singleton] at hx
      simp [Tree.mem_addrs_node, hx]
    · intro x hx
      simp only [List.mem_singleton] at hx
      simp [Tree.mem_addrs_node, hx]

/-- Statements `node->left = p; if (node->left) node->left->parent = node;` where
`p` is the root of a tree that replaces the left subtree and occupies its cells. -/
theorem hookLeft_spec {m m1 : Map K V} {par q : Option Nat} {a : Nat} {c : Color}
    {l l' r : Tree K V} {kv : K × V}
    (h : Rep m par (node a c l kv r)) (hnd : (node a c l kv r).addrs.Nodup)
    (h1 : Rep m1 q l') (hperm : l'.addrs.Perm l.addrs) (s1 : Same m m1 l.addrs) :
    ∃ m3, ((setLeft m1 a l'.root).bind fun m2 => adopt m2 l'.root (some a)) = some m3 ∧
      Rep m3 par (node a c l' kv r) ∧ Same m m3 (node a c l kv r).addrs := by
  obtain ⟨ha, hl, hr⟩ := h
  obtain ⟨hal, har, hdis, hndl, hndr⟩ := Tree.nodup_node.mp hnd
  have ha1 : rd m1 a = some ⟨kv, par, l.root, r.root, c⟩ := by rw [s1.2.2 a hal, ha]
  have hal' : a ∉ l'.addrs := fun hx => hal (hperm.mem_iff.mp hx)
  have hndl' : l'.addrs.Nodup := hperm.nodup_iff.mpr hndl
  have s2 : Same m1 (wr m1 a ⟨kv, par, l'.root, r.root, c⟩) [a] :=
    Same.wr _ (List.mem_singleton.mpr rfl)
  have h2 : Rep (wr m1 a ⟨kv, par, l'.root, r.root, c⟩) q l' :=
    h1.same s2 (fun x hx => by simpa using ne_of_mem_of_not_mem hx hal')
  obtain ⟨m3, e3, r3, s3⟩ := Rep.adopt_spec (some a) h2 hndl'
  refine ⟨m3, ?_, ⟨?_, r3, ?_⟩, ?_⟩
  · simp only [setLeft, ha1, Option.map_some', Option.some_bind]
    exact e3
  · rw [s3.2.2 a hal']
    simp [rd_wr, rd_lt ha1]
  · refine hr.frame fun x hx => ?_
    have hxl : x ∉ l.addrs := fun hx' => hdis x hx' hx
    have hxl' : x ∉ l'.addrs := fun hx' => hxl (hperm.mem_iff.mp hx')
    rw [s3.2.2 x hxl', s2.2.2 x (by simpa using ne_of_mem_of_not_mem hx har), s1.2.2 x hxl]
  · refine (s1.mono ?_).trans ((s2.mono ?_).trans (s3.mono ?_))
    · intro x hx
      exact Tree.mem_addrs_node.mpr (Or.inr (Or.inl hx))
    · intro x hx
      simp only [List.mem_singleton] at hx
      exact Tree.mem_addrs_node.mpr (Or.inl hx)
    · intro x hx
      exact Tree.mem_addrs_node.mpr (Or.inr (Or.inl (hperm.mem_iff.mp hx)))

/-- Statements `node->right = p; if (node->right) node->right->parent = node;` where
`p` is the root of a tree that replaces the right subtree and occupies its cells. -/
theorem hookRight_spec {m m1 : Map K V} {par q : Option Nat} {a : Nat} {c : Color}
    {l r r' : Tree K V} {kv : K × V}
    (h : Rep m par (node a c l kv r)) (hnd : (node a c l kv r).addrs.Nodup)
    (h1 : Rep m1 q r') (hperm : r'.addrs.Perm r.addrs) (s1 : Same m m1 r.addrs) :
    ∃ m3, ((setRight m1 a r'.root).bind fun m2 => adopt m2 r'.root (some a)) = some m3 ∧
      Rep m3 par (node a c l kv r') ∧ Same m m3 (node a c l kv r).addrs := by
  obtain ⟨ha, hl, hr⟩ := h
  obtain ⟨hal, har, hdis, hndl, hndr⟩ := Tree.nodup_node.mp hnd
  have ha1 : rd m1 a = some ⟨kv, par, l.root, r.root, c⟩ := by rw [s1.2.2 a har, ha]
  have har' : a ∉ r'.addrs := fun hx => har (hperm.mem_iff.mp hx)
  have hndr' : r'.addrs.Nodup := hperm.nodup_iff.mpr hndr
  have s2 : Same m1 (wr m1 a ⟨kv, par, l.root, r'.root, c⟩) [a] :=
    Same.wr _ (List.mem_singleton.mpr rfl)
  have h2 : Rep (wr m1 a ⟨kv, par, l.root, r'.root, c⟩) q r' :=
    h1.same s2 (fun x hx => by simpa using ne_of_mem_of_not_mem hx har')
  obtain ⟨m3, e3, r3, s3⟩ := Rep.adopt_spec (some a) h2 hndr'
  refine ⟨m3, ?_, ⟨?_, ?_, r3⟩, ?_⟩
  · simp only [setRight, ha1, Option.map_some', Option.some_bind]
    exact e3
  · rw [s3.2.2 a har']
    simp [rd_wr, rd_lt ha1]
  · refine hl.frame fun x hx => ?_
    have hxr : x ∉ r.addrs := hdis x hx
    have hxr' : x ∉ r'.addrs := fun hx' => hxr (hperm.mem_iff.mp hx')
    rw [s3.2.2 x hxr', s2.2.2 x (by simpa using ne_of_mem_of_not_mem hx hal), s1.2.2 x hxr]
  · refine (s1.mono ?_).trans ((s2.mono ?_).trans (s3.mono ?_))
    · intro x hx
      exact Tree.mem_addrs_node.mpr (Or.inr (Or.inr hx))
    · intro x hx
      simp only [List.mem_singleton] at hx
      exact Tree.mem_addrs_node.mpr (Or.inl hx)
    · intro x hx
      exact Tree.mem_addrs_node.mpr (Or.inr (Or.inr (hperm.mem_iff.mp hx)))

theorem fixLeftRight_spec {m : Map K V} {par : Option Nat} {a la ma : Nat} {c lc mc : Color}
    {ll ml mr r : Tree K V} {kv lkv mkv : K × V}
    (h : Rep m par (node a c (node la lc ll lkv (node ma mc ml mkv mr)) kv r))
    (hnd : (node a c (node la lc ll lkv (node ma mc ml mkv mr)) kv r).addrs.Nodup) :
    ∃ m', fixLeftRight m a = some (m', some ma) ∧
      Rep m' (some a)
        (Tree.fixLeftRight (node a c (node la lc ll lkv (node ma mc ml mkv mr)) kv r)) ∧
      Same m m' (node a c (node la lc ll lkv (node ma mc ml mkv mr)) kv r).addrs := by
  have ha := h.1
  obtain ⟨m1, e1, r1, s1⟩ := leftRotation_spec h.2.1 (Tree.nodup_node.mp hnd).2.2.2.1
  have hp : (node ma mc (node la lc ll lkv ml) mkv mr).addrs.Perm
      (node la lc ll lkv (node ma mc ml mkv mr)).addrs := by
    simp [Tree.addrs]
  obtain ⟨m3, e3, r3, s3⟩ := hookLeft_spec h hnd r1 hp s1
  simp only [Tree.root_node, Option.bind_eq_some, adopt] at e3
  obtain ⟨m2, e2, e3⟩ := e3
  have hnd3 : (node a c (node ma mc (node la lc ll lkv ml) mkv mr) kv r).addrs.Nodup := by
    simpa [Tree.addrs] using hnd
  obtain ⟨m4, e4, r4, s4⟩ := rightRotation_spec r3 hnd3
  have hnd4 : (node ma mc (node la lc ll lkv ml) mkv (node a c mr kv r)).addrs.Nodup := by
    simpa [Tree.addrs] using hnd
  have hnd4' := hnd4
  simp only [Tree.nodup_node, Tree.mem_addrs_node, not_or] at hnd4'
  obtain ⟨-, ⟨hne, -, -⟩, hdis, -, hnda⟩ := hnd4'
  obtain ⟨m5, e5, r5, s5⟩ := Rep.setColor Color.Red r4.2.2 (Tree.nodup_node.mpr hnda)
  have r5' : Rep m5 (some a) (node ma mc (node la lc ll lkv ml) mkv (node a Color.Red mr kv r)) :=
    Rep.replace_right r4 r5 rfl s5 (by simpa using hne) (fun x hx => by
      simpa using (hdis x (Tree.mem_addrs_node.mp hx)).1)
  have hnd5 : (node ma mc (node la lc ll lkv ml) mkv (node a Color.Red mr kv r)).addrs.Nodup := by
    simpa [Tree.addrs] using hnd
  obtain ⟨m6, e6, r6, s6⟩ := Rep.setColor Color.Black r5' hnd5
  refine ⟨m6, by simp [fixLeftRight, ha, e1, e2, e3, e4, e5, e6], r6, ?_⟩
  refine (s3.trans (s4.mono ?_)).trans ((s5.mono ?_).trans (s6.mono ?_))
  · intro x hx
    simpa [Tree.addrs] using hx
  · intro x hx
    simp only [List.mem_singleton] at hx
    simp [Tree.mem_addrs_node, hx]
  · intro x hx
    simp only [List.mem_singleton] at hx
    simp [Tree.mem_addrs_node, hx]

theorem fixRightLeft_spec {m : Map K V} {par : Option Nat} {a ra ma : Nat} {c rc mc : Color}
    {l ml mr rr : Tree K V} {kv rkv mkv : K × V}
    (h : Rep m par (node a c l kv (node ra rc (node ma mc ml mkv mr) rkv rr)))
    (hnd : (node a c l kv (node ra rc (node ma mc ml mkv mr) rkv rr)).addrs.Nodup) :
    ∃ m', fixRightLeft m a = some (m', some ma) ∧
      Rep m' (some a)
        (Tree.fixRightLeft (node a c l kv (node ra rc (node ma mc ml mkv mr) rkv rr))) ∧
      Same m m' (node a c l kv (node ra rc (node ma mc ml mkv mr) rkv rr)).addrs := by
  have ha := h.1
  obtain ⟨m1, e1, r1, s1⟩ := rightRotation_spec h.2.2 (Tree.nodup_node.mp hnd).2.2.2.2
  have hp : (node ma mc ml mkv (node ra rc mr rkv rr)).addrs.Perm
      (node ra rc (node ma mc ml mkv mr) rkv rr).addrs := by
    simp [Tree.addrs]
  obtain ⟨m3, e3, r3, s3⟩ := hookRight_spec h hnd r1 hp s1
  simp only [Tree.root_node, Option.bind_eq_some, adopt] at e3
  obtain ⟨m2, e2, e3⟩ := e3
  have hnd3 : (node a c l kv (node ma mc ml mkv (node ra rc mr rkv rr))).addrs.Nodup := by
    simpa [Tree.addrs] using hnd
  obtain ⟨m4, e4, r4, s4⟩ := leftRotation_spec r3 hnd3
  have hnd4 : (node ma mc (node a c l kv ml) mkv (node ra rc mr rkv rr)).addrs.Nodup := by
    simpa [Tree.addrs] using hnd
  have hnd4' := hnd4
  simp only [Tree.nodup_node, Tree.mem_addrs_node, not_or] at hnd4'
  obtain ⟨⟨hne, -, -⟩, -, hdis, hnda, -⟩ := hnd4'
  obtain ⟨m5, e5, r5, s5⟩ := Rep.setColor Color.Red r4.2.1 (Tree.nodup_node.mpr hnda)
  have r5' : Rep m5 (some a) (node ma mc (node a Color.Red l kv ml) mkv (node ra rc mr rkv rr)) :=
    Rep.replace_left r4 r5 rfl s5 (by simpa using hne) (fun x hx => by
      have := hdis a (Or.inl rfl)
      simp only [Tree.mem_addrs_node, not_or] at this
      simp only [Tree.mem_addrs_node] at hx
      rcases hx with rfl | hx | hx
      · simpa using Ne.symm this.1
      · simpa using ne_of_mem_of_not_mem hx this.2.1
      · simpa using ne_of_mem_of_not_mem hx this.2.2)
  have hnd5 : (node ma mc (node a Color.Red l kv ml) mkv (node ra rc mr rkv rr)).addrs.Nodup := by
    simpa [Tree.addrs] using hnd
  obtain ⟨m6, e6, r6, s6⟩ := Rep.setColor Color.Black r5' hnd5
  refine ⟨m6, by simp [fixRightLeft, ha, e1, e2, e3, e4, e5, e6], r6, ?_⟩
  refine (s3.trans (s4.mono ?_)).trans ((s5.mono ?_).trans (s6.mono ?_))
  · intro x hx
    simpa [Tree.addrs] using hx
  · intro x hx
    simp only [List.mem_singleton] at hx
    simp [Tree.mem_addrs_node, hx]
  · intro x hx
    simp only [List.mem_singleton] at hx
    simp [Tree.mem_addrs_node, hx]

/-! ## The checks of `rebalanceHelper` -/

theorem Tree.isRed_eq_true {t : Tree K V} (h : t.isRed = true) :
    ∃ a l kv r, t = node a Color.Red l kv r := by
  cases t with
  | nil => cases h
  | node a c l kv r =>
    cases c with
    | Red => exact ⟨a, l, kv, r, rfl⟩
    | Black => cases h

theorem Tree.redLeft_eq_true {t : Tree K V} (h : t.redLeft = true) :
    ∃ a la ll lkv lr kv r, t = node a Color.Red (node la Color.Red ll lkv lr) kv r := by
  cases t with
  | nil => cases h
  | node a c l kv r =>
    cases c with
    | Black => cases h
    | Red =>
      cases l with
      | nil => cases h
      | node la lc ll lkv lr =>
        cases lc with
        | Black => cases h
        | Red => exact ⟨a, la, ll, lkv, lr, kv, r, rfl⟩

theorem Tree.redRight_eq_true {t : Tree K V} (h : t.redRight = true) :
    ∃ a l kv ra rl rkv rr, t = node a Color.Red l kv (node ra Color.Red rl rkv rr) := by
  cases t with
  | nil => cases h
  | node a c l kv r =>
    cases c with
    | Black => cases h
    | Red =>
      cases r with
      | nil => cases h
      | node ra rc rl rkv rr =>
        cases rc with
        | Black => cases h
        | Red => exact ⟨a, l, kv, ra, rl, rkv, rr, rfl⟩

theorem isRedPtr_spec {m : Map K V} {par : Option Nat} {t : Tree K V} (h : Rep m par t) :
    isRedPtr m t.root = some t.isRed := by
  cases t with
  | nil => rfl
  | node a c l kv r =>
    cases c <;> simp [isRedPtr, h.1, Tree.isRed]

theorem redRed_left_spec {m : Map K V} {par : Option Nat} {t : Tree K V} (h : Rep m par t) :
    redRed m t.root (fun c => c.left) = some t.redLeft := by
  cases t with
  | nil => rfl
  | node a c l kv r =>
    cases l with
    | nil => cases c <;> simp [redRed, h.1, Tree.redLeft]
    | node la lc ll lkv lr =>
      cases c <;> cases lc <;> simp [redRed, h.1, h.2.1.1, Tree.redLeft]

theorem redRed_right_spec {m : Map K V} {par : Option Nat} {t : Tree K V} (h : Rep m par t) :
    redRed m t.root (fun c => c.right) = some t.redRight := by
  cases t with
  | nil => rfl
  | node a c l kv r =>
    cases r with
    | nil => cases c <;> simp [redRed, h.1, Tree.redRight]
    | node ra rc rl rkv rr =>
      cases c <;> cases rc <;> simp [redRed, h.1, h.2.2.1, Tree.redRight]

theorem Tree.rebalanceNode_addrs (t : Tree K V) : t.rebalanceNode.addrs = t.addrs := by
  cases t with
  | nil => rfl
  | node a c l kv r =>
    simp only [Tree.rebalanceNode]
    split_ifs with h1 h2 h3 h4 h5 h6 h7 h8
    · obtain ⟨_, _, _, _, rfl⟩ := Tree.isRed_eq_true h2
      obtain ⟨_, _, _, _, _, _, _, rfl⟩ := Tree.redLeft_eq_true h1
      simp [Tree.recolor, Tree.paint, Tree.addrs]
    · obtain ⟨_, _, _, _, _, _, _, rfl⟩ := Tree.redLeft_eq_true h1
      simp [Tree.fixLeftLeft, Tree.addrs]
    · obtain ⟨_, _, _, _, rfl⟩ := Tree.isRed_eq_true h4
      obtain ⟨_, _, _, _, _, _, _, rfl⟩ := Tree.redRight_eq_true h3
      simp [Tree.recolor, Tree.paint, Tree.addrs]
    · obtain ⟨_, _, _, _, _, _, _, rfl⟩ := Tree.redRight_eq_true h3
      simp [Tree.fixLeftRight, Tree.addrs]
    · obtain ⟨_, _, _, _, rfl⟩ := Tree.isRed_eq_true h6
      obtain ⟨_, _, _, _, _, _, _, rfl⟩ := Tree.redRight_eq_true h5
      simp [Tree.recolor, Tree.paint, Tree.addrs]
    · obtain ⟨_, _, _, _, _, _, _, rfl⟩ := Tree.redRight_eq_true h5
      simp [Tree.fixRightRight, Tree.addrs]
    · obtain ⟨_, _, _, _, rfl⟩ := Tree.isRed_eq_true h8
      obtain ⟨_, _, _, _, _, _, _, rfl⟩ := Tree.redLeft_eq_true h7
      simp [Tree.recolor, Tree.paint, Tree.addrs]
    · obtain ⟨_, _, _, _, _, _, _, rfl⟩ := Tree.redLeft_eq_true h7
      simp [Tree.fixRightLeft, Tree.addrs]
    · rfl

theorem rebalanceNode_spec {m : Map K V} {par : Option Nat} {a : Nat} {c : Color}
    {l r : Tree K V} {kv : K × V} (h : Rep m par (node a c l kv r))
    (hnd : (node a c l kv r).addrs.Nodup) :
    ∃ m' par', rebalanceNode m a = some (m', (Tree.rebalanceNode (node a c l kv r)).root) ∧
      Rep m' par' (Tree.rebalanceNode (node a c l kv r)) ∧
      Same m m' (node a c l kv r).addrs := by
  have ha := h.1
  simp only [rebalanceNode, Tree.rebalanceNode, ha, Option.some_bind, redRed_left_spec h.2.1,
    redRed_right_spec h.2.1, redRed_left_spec h.2.2, redRed_right_spec h.2.2,
    isRedPtr_spec h.2.1, isRedPtr_spec h.2.2]
  split_ifs with h1 h2 h3 h4 h5 h6 h7 h8
  · obtain ⟨_, _, _, _, rfl⟩ := Tree.isRed_eq_true h2
    obtain ⟨_, _, _, _, _, _, _, rfl⟩ := Tree.redLeft_eq_true h1
    obtain ⟨m', e, r', s⟩ := recolor_spec h hnd
    exact ⟨m', par, by simp [fixRecolor, e, Tree.recolor], r', s⟩
  · obtain ⟨_, _, _, _, _, _, _, rfl⟩ := Tree.redLeft_eq_true h1
    obtain ⟨m', e, r', s⟩ := fixLeftLeft_spec h hnd
    exact ⟨m', some a, by simp [e, Tree.fixLeftLeft], r', s⟩
  · obtain ⟨_, _, _, _, rfl⟩ := Tree.isRed_eq_true h4
    obtain ⟨_, _, _, _, _, _, _, rfl⟩ := Tree.redRight_eq_true h3
    obtain ⟨m', e, r', s⟩ := recolor_spec h hnd
    exact ⟨m', par, by simp [fixRecolor, e, Tree.recolor], r', s⟩
  · obtain ⟨_, _, _, _, _, _, _, rfl⟩ := Tree.redRight_eq_true h3
    obtain ⟨m', e, r', s⟩ := fixLeftRight_spec h hnd
    exact ⟨m', some a, by simp [e, Tree.fixLeftRight], r', s⟩
  · obtain ⟨_, _, _, _, rfl⟩ := Tree.isRed_eq_true h6
    obtain ⟨_, _, _, _, _, _, _, rfl⟩ := Tree.redRight_eq_true h5
    obtain ⟨m', e, r', s⟩ := recolor_spec h hnd
    exact ⟨m', par, by simp [fixRecolor, e, Tree.recolor], r', s⟩
  · obtain ⟨_, _, _, _, _, _, _, rfl⟩ := Tree.redRight_eq_true h5
    obtain ⟨m', e, r', s⟩ := fixRightRight_spec h hnd
    exact ⟨m', some a, by simp [e, Tree.fixRightRight], r', s⟩
  · obtain ⟨_, _, _, _, rfl⟩ := Tree.isRed_eq_true h8
    obtain ⟨_, _, _, _, _, _, _, rfl⟩ := Tree.redLeft_eq_true h7
    obtain ⟨m', e, r', s⟩ := recolor_spec h hnd
    exact ⟨m', par, by simp [fixRecolor, e, Tree.recolor], r', s⟩
  · obtain ⟨_, _, _, _, _, _, _, rfl⟩ := Tree.redLeft_eq_true h7
    obtain ⟨m', e, r', s⟩ := fixRightLeft_spec h hnd
    exact ⟨m', some a, by simp [e, Tree.fixRightLeft], r', s⟩
  · exact ⟨m, par, rfl, h, Same.refl _ _⟩

theorem Tree.rebalanceHelper_addrs (t : Tree K V) : t.rebalanceHelper.addrs = t.addrs := by
  induction t with
  | nil => rfl
  | node a c l kv r ihl ihr =>
    simp only [Tree.rebalanceHelper, Tree.rebalanceNode_addrs]
    simp only [Tree.addrs, ihl, ihr]

theorem rebalanceHelper_spec (t : Tree K V) :
    ∀ (fuel : Nat) (m : Map K V) (par : Option Nat), t.height < fuel → Rep m par t →
      t.addrs.Nodup →
      ∃ m' par', rebalanceHelper fuel m t.root = some (m', t.rebalanceHelper.root) ∧
        Rep m' par' t.rebalanceHelper ∧ Same m m' t.addrs := by
  induction t with
  | nil =>
    intro fuel m par hf _ _
    cases fuel with
    | zero => cases hf
    | succ f => exact ⟨m, par, rfl, trivial, Same.refl _ _⟩
  | node a c l kv r ihl ihr =>
    intro fuel m par hf h hnd
    cases fuel with
    | zero => cases hf
    | succ f =>
      simp only [Tree.height, add_lt_add_iff_right, max_lt_iff] at hf
      have ha := h.1
      obtain ⟨hal, har, hdis, hndl, hndr⟩ := Tree.nodup_node.mp hnd
      obtain ⟨m1, q1, e1, r1, s1⟩ := ihl f m (some a) hf.1 h.2.1 hndl
      obtain ⟨m3, e3, r3, s3⟩ := hookLeft_spec h hnd r1
        (by rw [Tree.rebalanceHelper_addrs]) s1
      obtain ⟨m2, e2, e3⟩ := Option.bind_eq_some.mp e3
      have hnd3 : (node a c l.rebalanceHelper kv r).addrs.Nodup := by
        simpa [Tree.addrs, Tree.rebalanceHelper_addrs] using hnd
      obtain ⟨m4, q4, e4, r4, s4⟩ := ihr f m3 (some a) hf.2 r3.2.2 hndr
      obtain ⟨m6, e6, r6, s6⟩ := hookRight_spec r3 hnd3 r4
        (by rw [Tree.rebalanceHelper_addrs]) s4
      obtain ⟨m5, e5, e6⟩ := Option.bind_eq_some.mp e6
      have hnd6 : (node a c l.rebalanceHelper kv r.rebalanceHelper).addrs.Nodup := by
        simpa [Tree.addrs, Tree.rebalanceHelper_addrs] using hnd
      obtain ⟨m7, q7, e7, r7, s7⟩ := rebalanceNode_spec r6 hnd6
      refine ⟨m7, q7, ?_, r7, ?_⟩
      · have ha3 := r3.1
        simp only [Tree.root_node, rebalanceHelper, ha, Option.bind_eq_bind, Option.some_bind,
          e1, e2, e3, ha3, e4, e5, e6]
        exact e7
      · have hsub : ∀ t' : Tree K V, t'.addrs = (node a c l kv r).addrs →
            ∀ x ∈ t'.addrs, x ∈ (node a c l kv r).addrs := fun t' ht x hx => ht ▸ hx
        refine s3.trans ((s6.mono (hsub _ ?_)).trans (s7.mono (hsub _ ?_)))
        · simp [Tree.addrs, Tree.rebalanceHelper_addrs]
        · simp [Tree.addrs, Tree.rebalanceHelper_addrs]

/-! ## `insertHelper` -/

@[simp] theorem rd_size (m : Map K V) (s x : Nat) :
    rd { m with _size := s } x = rd m x := rfl

theorem Tree.insertHelper_root (comp : K → K → Bool) [DecidableEq K] (f : Nat) (x : K × V)
    {t : Tree K V} {a : Nat} (h : t.root = some a) :
    (t.insertHelper comp f x).1.root = some a := by
  cases t with
  | nil => cases h
  | node b c l kv r =>
    simp only [Tree.insertHelper]
    split_ifs <;> exact h

theorem rd_append (m : Map K V) (n : RB_Node K V) (s x : Nat) :
    rd { mem := m.mem ++ [some n], _size := s } x
      = if x = m.mem.length then some n else rd m x :=
  rd_alloc m n x

/-- Creation of a Red leaf in the empty left slot of the node at `b`. -/
theorem insertLeaf_left {m : Map K V} {par rr : Option Nat} {b : Nat} {c : Color}
    {kv : K × V} (x : K × V) (hb : rd m b = some ⟨kv, par, none, rr, c⟩) :
    ∃ m', (setLeft (alloc m ⟨x, some b, none, none, Color.Red⟩).1 b (some m.mem.length)).bind
        (fun m1 => (setParent m1 m.mem.length (some b)).bind fun m2 =>
          some ({ m2 with _size := m2._size + 1 }, m.mem.length, true))
        = some (m', m.mem.length, true) ∧
      rd m' m.mem.length = some ⟨x, some b, none, none, Color.Red⟩ ∧
      rd m' b = some ⟨kv, par, some m.mem.length, rr, c⟩ ∧
      (∀ y, y ≠ b → y < m.mem.length → rd m' y = rd m y) ∧
      m'.mem.length = m.mem.length + 1 ∧ m'._size = m._size + 1 := by
  have ltb := rd_lt hb
  have hne : b ≠ m.mem.length := Nat.ne_of_lt ltb
  have hlt : b < m.mem.length + 1 := Nat.lt_succ_of_lt ltb
  simp only [alloc, setLeft, setParent, rd_wr, rd_append, hb, hne, Ne.symm hne, if_false,
    if_true, Option.map_some', Option.some_bind, false_and, wr_length, List.length_append,
    List.length_singleton, lt_add_iff_pos_right, Nat.lt_one_iff, pos_of_gt, and_self]
  refine ⟨_, rfl, ?_, ?_, ?_, ?_, ?_⟩
  · simp [rd_wr, rd_append, hne]
  · simp [rd_wr, rd_append, hne, Ne.symm hne, hlt]
  · intro y hy hlt'
    simp [rd_wr, rd_append, hy, Nat.ne_of_lt hlt']
  · simp
  · simp

/-- Creation of a Red leaf in the empty right slot of the node at `b`. -/
theorem insertLeaf_right {m : Map K V} {par ll : Option Nat} {b : Nat} {c : Color}
    {kv : K × V} (x : K × V) (hb : rd m b = some ⟨kv, par, ll, none, c⟩) :
    ∃ m', (setRight (alloc m ⟨x, some b, none, none, Color.Red⟩).1 b (some m.mem.length)).bind
        (fun m1 => (setParent m1 m.mem.length (some b)).bind fun m2 =>
          some ({ m2 with _size := m2._size + 1 }, m.mem.length, true))
        = some (m', m.mem.length, true) ∧
      rd m' m.mem.length = some ⟨x, some b, none, none, Color.Red⟩ ∧
      rd m' b = some ⟨kv, par, ll, some m.mem.length, c⟩ ∧
      (∀ y, y ≠ b → y < m.mem.length → rd m' y = rd m y) ∧
      m'.mem.length = m.mem.length + 1 ∧ m'._size = m._size + 1 := by
  have ltb := rd_lt hb
  have hne : b ≠ m.mem.length := Nat.ne_of_lt ltb
  have hlt : b < m.mem.length + 1 := Nat.lt_succ_of_lt ltb
  simp only [alloc, setRight, setParent, rd_wr, rd_append, hb, hne, Ne.symm hne, if_false,
    if_true, Option.map_some', Option.some_bind, false_and, wr_length, List.length_append,
    List.length_singleton, lt_add_iff_pos_right, Nat.lt_one_iff, pos_of_gt, and_self]
  refine ⟨_, rfl, ?_, ?_, ?_, ?_, ?_⟩
  · simp [rd_wr, rd_append, hne]
  · simp [rd_wr, rd_append, hne, Ne.symm hne, hlt]
  · intro y hy hlt'
    simp [rd_wr, rd_append, hy, Nat.ne_of_lt hlt']
  · simp
  · simp

theorem insertHelper_spec (comp : K → K → Bool) [DecidableEq K] (x : K × V) (t : Tree K V) :
    ∀ (fuel : Nat) (m : Map K V) (par : Option Nat) (a : Nat), t.root = some a →
      t.height ≤ fuel → Rep m par t → t.addrs.Nodup →
      ∃ m', insertHelper comp fuel m a x
          = some (m', (t.insertHelper comp m.mem.length x).2) ∧
        Rep m' par (t.insertHelper comp m.mem.length x).1 ∧
        (∀ y, y ∉ t.addrs → y < m.mem.length → rd m' y = rd m y) ∧
        m'.mem.length = m.mem.length + (if (t.insertHelper comp m.mem.length x).2.2 then 1 else 0) ∧
        m'._size = m._size + (if (t.insertHelper comp m.mem.length x).2.2 then 1 else 0) := by
  induction t with
  | nil => intro fuel m par a h; cases h
  | node b c l kv r ihl ihr =>
    intro fuel m par a h hf hrep hnd
    simp only [Tree.root_node, Option.some.injEq] at h
    subst h
    have hlt := hrep.lt
    obtain ⟨hb, hl, hr⟩ := hrep
    obtain ⟨hbl, hbr, hdis, hndl, hndr⟩ := Tree.nodup_node.mp hnd
    have ltb := rd_lt hb
    cases fuel with
    | zero => simp [Tree.height] at hf
    | succ f =>
      simp only [Tree.height, add_le_add_iff_right, max_le_iff] at hf
      simp only [insertHelper, hb, Option.bind_eq_bind, Option.some_bind, Tree.insertHelper]
      by_cases h1 : x.1 = kv.1
      · simp only [h1, if_true]
        exact ⟨m, rfl, ⟨hb, hl, hr⟩, fun _ _ _ => rfl, by simp, by simp⟩
      · simp only [h1, if_false]
        by_cases h2 : comp x.1 kv.1 = true
        · simp only [h2, if_true]
          cases l with
          | nil =>
            obtain ⟨m', e, h3, h4, h5, h6, h7⟩ := insertLeaf_left x hb
            simp only [Tree.root_nil, Tree.insertHelper, Option.pure_def, Option.bind_eq_bind]
            refine ⟨m', e, ⟨h4, ⟨h3, trivial, trivial⟩, hr.frame ?_⟩, ?_, by simp [h6],
              by simp [h7]⟩
            · intro y hy
              exact h5 y (ne_of_mem_of_not_mem hy hbr)
                (hlt y (Tree.mem_addrs_node.mpr (Or.inr (Or.inr hy))))
            · intro y hy hy'
              exact h5 y (fun e => hy (Tree.mem_addrs_node.mpr (Or.inl e))) hy'
          | node la lc ll lkv lr =>
            obtain ⟨m', e, r', hfr, hlen, hsz⟩ := ihl f m (some b) la rfl hf.1 hl hndl
            simp only [Tree.root_node]
            refine ⟨m', e, ⟨?_, r', hr.frame ?_⟩, ?_, hlen, hsz⟩
            · rw [hfr b hbl ltb, hb,
                Tree.insertHelper_root comp _ x
                  (show (node la lc ll lkv lr).root = some la from rfl), Tree.root_node]
            · intro y hy
              exact hfr y (fun hy' => hdis y hy' hy)
                (hlt y (Tree.mem_addrs_node.mpr (Or.inr (Or.inr hy))))
            · intro y hy hy'
              exact hfr y (fun h => hy (Tree.mem_addrs_node.mpr (Or.inr (Or.inl h)))) hy'
        · simp only [h2, if_false]
          cases r with
          | nil =>
            obtain ⟨m', e, h3, h4, h5, h6, h7⟩ := insertLeaf_right x hb
            simp only [Tree.root_nil, Tree.insertHelper, Option.pure_def, Option.bind_eq_bind]
            refine ⟨m', e, ⟨h4, hl.frame ?_, ⟨h3, trivial, trivial⟩⟩, ?_, by simp [h6],
              by simp [h7]⟩
            · intro y hy
              exact h5 y (ne_of_mem_of_not_mem hy hbl)
                (hlt y (Tree.mem_addrs_node.mpr (Or.inr (Or.inl hy))))
            · intro y hy hy'
              exact h5 y (fun e => hy (Tree.mem_addrs_node.mpr (Or.inl e))) hy'
          | node ra rc rl rkv rr =>
            obtain ⟨m', e, r', hfr, hlen, hsz⟩ := ihr f m (some b) ra rfl hf.2 hr hndr
            simp only [Tree.root_node]
            refine ⟨m', e, ⟨?_, hl.frame ?_, r'⟩, ?_, hlen, hsz⟩
            · rw [hfr b hbr ltb, hb,
                Tree.insertHelper_root comp _ x
                  (show (node ra rc rl rkv rr).root = some ra from rfl), Tree.root_node]
            · intro y hy
              exact hfr y (hdis y hy)
                (hlt y (Tree.mem_addrs_node.mpr (Or.inr (Or.inl hy))))
            · intro y hy hy'
              exact hfr y (fun h => hy (Tree.mem_addrs_node.mpr (Or.inr (Or.inr h)))) hy'

/-! ## Fuel -/

theorem Tree.length_addrs (t : Tree K V) : t.addrs.length = t.size := by
  induction t with
  | nil => rfl
  | node a c l kv r ihl ihr => simp [Tree.addrs, Tree.size, ihl, ihr]; omega

theorem Tree.height_le_size (t : Tree K V) : t.height ≤ t.size := by
  induction t with
  | nil => exact Nat.le_refl _
  | node a c l kv r ihl ihr =>
    simp only [Tree.height, Tree.size]
    have := max_le (Nat.le_trans ihl (Nat.le_add_right l.size r.size))
      (Nat.le_trans ihr (Nat.le_add_left r.size l.size))
    omega

theorem Rep.size_le {m : Map K V} {t : Tree K V} {par : Option Nat} (h : Rep m par t)
    (hnd : t.addrs.Nodup) : t.size ≤ m.mem.length := by
  have hsub : t.addrs ⊆ List.range m.mem.length := fun x hx =>
    List.mem_range.mpr (h.lt x hx)
  have := (List.subperm_of_subset hnd hsub).length_le
  rwa [Tree.length_addrs, List.length_range] at this

theorem Rep.height_lt_fuel {m : Map K V} {t : Tree K V} {par : Option Nat} (h : Rep m par t)
    (hnd : t.addrs.Nodup) : t.height < fuelOf m := by
  have h1 := t.height_le_size
  have h2 := h.size_le hnd
  simp only [fuelOf]
  omega

/-! ## `rebalance` -/

@[simp] theorem Tree.paint_root (c : Color) (t : Tree K V) : (t.paint c).root = t.root := by
  cases t <;> rfl

@[simp] theorem Tree.paint_addrs (c : Color) (t : Tree K V) : (t.paint c).addrs = t.addrs := by
  cases t <;> rfl

theorem Tree.rebalanceHelper_ne_nil {t : Tree K V} {a : Nat} (h : t.root = some a) :
    ∃ b c l kv r, t.rebalanceHelper = node b c l kv r := by
  have h1 : t.rebalanceHelper.addrs ≠ [] := by
    rw [Tree.rebalanceHelper_addrs]
    exact List.ne_nil_of_mem (Tree.root_mem h)
  cases h2 : t.rebalanceHelper with
  | nil => rw [h2] at h1; exact absurd rfl h1
  | node b c l kv r => exact ⟨b, c, l, kv, r, rfl⟩

theorem rebalance_spec {m : Map K V} {t : Tree K V} {q : Option Nat} {h : RB_Node K V} {a : Nat}
    (hh : rd m 0 = some h) (hp : h.parent = t.root) (hroot : t.root = some a)
    (hrep : Rep m q t) (hnd : t.addrs.Nodup) (h0 : 0 ∉ t.addrs) :
    ∃ m', rebalance m = some m' ∧
      Rep m' (some 0) (t.rebalanceHelper.paint Color.Black) ∧
      rd m' 0 = some { h with parent := t.rebalanceHelper.root } ∧
      Same m m' (0 :: t.addrs) := by
  obtain ⟨m1, q1, e1, r1, s1⟩ := rebalanceHelper_spec t (fuelOf m) m q
    (hrep.height_lt_fuel hnd) hrep hnd
  obtain ⟨b, c, l, kv, r, hb⟩ := Tree.rebalanceHelper_ne_nil hroot
  have hnd1 : t.rebalanceHelper.addrs.Nodup := by rw [Tree.rebalanceHelper_addrs]; exact hnd
  have h01 : 0 ∉ t.rebalanceHelper.addrs := by rw [Tree.rebalanceHelper_addrs]; exact h0
  have hadd : t.rebalanceHelper.addrs = t.addrs := Tree.rebalanceHelper_addrs t
  rw [hb] at r1 hnd1 h01 hadd
  have hh1 : rd m1 0 = some h := by rw [s1.2.2 0 h0, hh]
  have hb0 : b ≠ 0 := fun e => h01 (Tree.mem_addrs_node.mpr (Or.inl e.symm))
  have hbl : b ∉ l.addrs := (Tree.nodup_node.mp hnd1).1
  have hbr : b ∉ r.addrs := (Tree.nodup_node.mp hnd1).2.1
  have rb := r1.1
  have lt0 := rd_lt hh1
  have ltb := rd_lt rb
  refine ⟨wr (wr m1 0 { h with parent := some b }) b ⟨kv, some 0, l.root, r.root, Color.Black⟩,
    ?_, ?_, ?_, ?_⟩
  · simp only [rebalance, hh, hp, e1, hb, Tree.root_node, Option.bind_eq_bind, Option.some_bind,
      setParent, hh1, Option.map_some', rd_wr, hb0, false_and, if_false, rb, wr_length, lt0, ltb,
      and_self, if_true, setColor, ne_eq, ite_not, Option.pure_def]
    cases c <;> simp [wr, rb, List.set_set]
  · rw [hb]
    have r2 : Rep (wr m1 0 { h with parent := some b }) q1 (node b c l kv r) :=
      r1.frame fun x hx => by
        have : x ≠ 0 := fun e => h01 (e ▸ hx)
        simp [rd_wr, this]
    exact r2.wr_root hbl hbr
  · rw [hb]
    simp [rd_wr, Ne.symm hb0, lt0]
  · have hbt : b ∈ t.addrs := hadd ▸ Tree.mem_addrs_node.mpr (Or.inl rfl)
    refine (s1.mono fun x hx => List.mem_cons_of_mem _ hx).trans
      ((Same.wr _ (List.mem_cons_self _ _)).trans (Same.wr _ (List.mem_cons_of_mem _ hbt)))

/-! ## Cells of a tree -/

theorem Tree.cells_map_fst (t : Tree K V) : t.cells.map Prod.fst = t.addrs := by
  induction t with
  | nil => rfl
  | node a c l kv r ihl ihr => simp [Tree.cells, Tree.addrs, ihl, ihr]

theorem Tree.cells_map_snd (t : Tree K V) : t.cells.map Prod.snd = t.toList := by
  induction t with
  | nil => rfl
  | node a c l kv r ihl ihr => simp [Tree.cells, Tree.toList, ihl, ihr]

theorem Tree.mem_cells_node {a : Nat} {c : Color} {l r : Tree K V} {kv : K × V}
    {p : Nat × (K × V)} :
    p ∈ (node a c l kv r).cells ↔ p = (a, kv) ∨ p ∈ l.cells ∨ p ∈ r.cells := by
  simp only [Tree.cells, List.mem_append, List.mem_cons]
  tauto

theorem Tree.addr_mem_of_mem_cells {t : Tree K V} {p : Nat × (K × V)} (h : p ∈ t.cells) :
    p.1 ∈ t.addrs := by
  rw [← Tree.cells_map_fst]
  exact List.mem_map_of_mem _ h

theorem Tree.exists_cell_of_mem_addrs {t : Tree K V} {a : Nat} (h : a ∈ t.addrs) :
    ∃ kv, (a, kv) ∈ t.cells := by
  rw [← Tree.cells_map_fst] at h
  obtain ⟨⟨a', kv⟩, hp, rfl⟩ := List.mem_map.mp h
  exact ⟨kv, hp⟩

theorem Rep.rd_cell {m : Map K V} {t : Tree K V} {par : Option Nat} (h : Rep m par t)
    {a : Nat} {kv : K × V} (hc : (a, kv) ∈ t.cells) :
    ∃ n, rd m a = some n ∧ n.value = kv := by
  induction t generalizing par with
  | nil => cases hc
  | node b c l kv' r ihl ihr =>
    rcases Tree.mem_cells_node.mp hc with e | hc | hc
    · cases e
      exact ⟨_, h.1, rfl⟩
    · exact ihl h.2.1 hc
    · exact ihr h.2.2 hc

/-! ## `setSecond` -/

theorem Tree.setSecond_root (a : Nat) (v : V) (t : Tree K V) :
    (t.setSecond a v).root = t.root := by
  cases t <;> rfl

theorem Tree.setSecond_addrs (a : Nat) (v : V) (t : Tree K V) :
    (t.setSecond a v).addrs = t.addrs := by
  induction t with
  | nil => rfl
  | node b c l kv r ihl ihr => simp [Tree.setSecond, Tree.addrs, ihl, ihr]

theorem Tree.setSecond_of_not_mem {a : Nat} (v : V) {t : Tree K V} (h : a ∉ t.addrs) :
    t.setSecond a v = t := by
  induction t with
  | nil => rfl
  | node b c l kv r ihl ihr =>
    simp only [Tree.mem_addrs_node, not_or] at h
    simp [Tree.setSecond, ihl h.2.1, ihr h.2.2, Ne.symm h.1]

theorem setSecond_spec {m : Map K V} {t : Tree K V} {par : Option Nat} {a : Nat} (v : V)
    (h : Rep m par t) (hnd : t.addrs.Nodup) (ha : a ∈ t.addrs) :
    ∃ m', setSecond m a v = some m' ∧ Rep m' par (t.setSecond a v) ∧ Same m m' [a] := by
  induction t generalizing par with
  | nil => cases ha
  | node b c l kv r ihl ihr =>
    obtain ⟨hbl, hbr, hdis, hndl, hndr⟩ := Tree.nodup_node.mp hnd
    rcases Tree.mem_addrs_node.mp ha with e | hl | hr
    · subst e
      have hb := h.1
      refine ⟨wr m a ⟨(kv.1, v), par, l.root, r.root, c⟩, by simp [setSecond, hb], ?_,
        Same.wr _ (List.mem_singleton.mpr rfl)⟩
      simp only [Tree.setSecond, if_true, Tree.setSecond_of_not_mem v hbl,
        Tree.setSecond_of_not_mem v hbr]
      exact h.wr_root hbl hbr
    · obtain ⟨m', e, r', s⟩ := ihl h.2.1 hndl hl
      have hab : a ≠ b := ne_of_mem_of_not_mem hl hbl
      refine ⟨m', e, ?_, s⟩
      simp only [Tree.setSecond, Ne.symm hab, if_false,
        Tree.setSecond_of_not_mem v (hdis a hl)]
      exact Rep.replace_left h r' (Tree.setSecond_root _ _ _) s
        (by simpa using Ne.symm hab)
        (fun x hx => by simpa using ne_of_mem_of_not_mem hx (hdis a hl))
    · obtain ⟨m', e, r', s⟩ := ihr h.2.2 hndr hr
      have hab : a ≠ b := ne_of_mem_of_not_mem hr hbr
      have hal : a ∉ l.addrs := fun hx => hdis a hx hr
      refine ⟨m', e, ?_, s⟩
      simp only [Tree.setSecond, Ne.symm hab, if_false, Tree.setSecond_of_not_mem v hal]
      exact Rep.replace_right h r' (Tree.setSecond_root _ _ _) s
        (by simpa using Ne.symm hab)
        (fun x hx => by simpa using ne_of_mem_of_not_mem hx hal)

/-! ## Structure of the tree after `insertHelper` -/

theorem Tree.insertHelper_found (comp : K → K → Bool) [DecidableEq K] (f : Nat) (x : K × V)
    (t : Tree K V) (h : (t.insertHelper comp f x).2.2 = false) :
    (t.insertHelper comp f x).1 = t := by
  induction t with
  | nil => simp [Tree.insertHelper] at h
  | node a c l kv r ihl ihr =>
    simp only [Tree.insertHelper] at h ⊢
    split_ifs with h1 h2
    · rfl
    · rw [if_neg h1, if_pos h2] at h
      simp only [ihl h]
    · rw [if_neg h1, if_neg h2] at h
      simp only [ihr h]

theorem Tree.insertHelper_new (comp : K → K → Bool) [DecidableEq K] (f : Nat) (x : K × V)
    (t : Tree K V) (h : (t.insertHelper comp f x).2.2 = true) :
    (t.insertHelper comp f x).2.1 = f := by
  induction t with
  | nil => rfl
  | node a c l kv r ihl ihr =>
    simp only [Tree.insertHelper] at h ⊢
    split_ifs with h1 h2
    · rw [if_pos h1] at h
      cases h
    · rw [if_neg h1, if_pos h2] at h
      exact ihl h
    · rw [if_neg h1, if_neg h2] at h
      exact ihr h

theorem Tree.mem_insertHelper_addrs (comp : K → K → Bool) [DecidableEq K] (f : Nat)
    (x : K × V) (t : Tree K V) (y : Nat) :
    y ∈ (t.insertHelper comp f x).1.addrs ↔
      y ∈ t.addrs ∨ ((t.insertHelper comp f x).2.2 = true ∧ y = f) := by
  induction t with
  | nil => simp [Tree.insertHelper, Tree.addrs]
  | node a c l kv r ihl ihr =>
    simp only [Tree.insertHelper]
    split_ifs with h1 h2
    · simp
    · simp only [Tree.mem_addrs_node, ihl]
      tauto
    · simp only [Tree.mem_addrs_node, ihr]
      tauto

theorem Tree.insertHelper_nodup (comp : K → K → Bool) [DecidableEq K] (f : Nat) (x : K × V)
    (t : Tree K V) (hnd : t.addrs.Nodup) (hf : f ∉ t.addrs) :
    (t.insertHelper comp f x).1.addrs.Nodup := by
  induction t with
  | nil => simp [Tree.insertHelper, Tree.addrs]
  | node a c l kv r ihl ihr =>
    obtain ⟨hal, har, hdis, hndl, hndr⟩ := Tree.nodup_node.mp hnd
    simp only [Tree.mem_addrs_node, not_or] at hf
    simp only [Tree.insertHelper]
    split_ifs with h1 h2
    · exact hnd
    · refine Tree.nodup_node.mpr ⟨?_, har, ?_, ihl hndl hf.2.1, hndr⟩
      · rw [Tree.mem_insertHelper_addrs]
        rintro (h | ⟨-, h⟩)
        · exact hal h
        · exact hf.1 h.symm
      · intro y hy
        rw [Tree.mem_insertHelper_addrs] at hy
        rcases hy with h | ⟨-, h⟩
        · exact hdis y h
        · exact h ▸ hf.2.2
    · refine Tree.nodup_node.mpr ⟨hal, ?_, ?_, hndl, ihr hndr hf.2.2⟩
      · rw [Tree.mem_insertHelper_addrs]
        rintro (h | ⟨-, h⟩)
        · exact har h
        · exact hf.1 h.symm
      · intro y hy
        rw [Tree.mem_insertHelper_addrs]
        rintro (h | ⟨-, h⟩)
        · exact hdis y hy h
        · exact hf.2.1 (h ▸ hy)

theorem Tree.insertHelper_cell (comp : K → K → Bool) [DecidableEq K] (f : Nat) (x : K × V)
    (t : Tree K V) :
    ∃ v, ((t.insertHelper comp f x).2.1, (x.1, v)) ∈ (t.insertHelper comp f x).1.cells := by
  induction t with
  | nil => exact ⟨x.2, by simp [Tree.insertHelper, Tree.cells]⟩
  | node a c l kv r ihl ihr =>
    simp only [Tree.insertHelper]
    split_ifs with h1 h2
    · exact ⟨kv.2, Tree.mem_cells_node.mpr (Or.inl (by rw [h1]))⟩
    · obtain ⟨v, hv⟩ := ihl
      exact ⟨v, Tree.mem_cells_node.mpr (Or.inr (Or.inl hv))⟩
    · obtain ⟨v, hv⟩ := ihr
      exact ⟨v, Tree.mem_cells_node.mpr (Or.inr (Or.inr hv))⟩

theorem Tree.insertHelper_mem (comp : K → K → Bool) [DecidableEq K] (f : Nat) (x : K × V)
    (t : Tree K V) : (t.insertHelper comp f x).2.1 ∈ (t.insertHelper comp f x).1.addrs := by
  obtain ⟨v, hv⟩ := Tree.insertHelper_cell comp f x t
  exact Tree.addr_mem_of_mem_cells hv

theorem Tree.insertHelper_cells_subset (comp : K → K → Bool) [DecidableEq K] (f : Nat)
    (x : K × V) (t : Tree K V) {p : Nat × (K × V)} (h : p ∈ t.cells) :
    p ∈ (t.insertHelper comp f x).1.cells := by
  induction t with
  | nil => cases h
  | node a c l kv r ihl ihr =>
    simp only [Tree.insertHelper]
    split_ifs with h1 h2
    · exact h
    · rcases Tree.mem_cells_node.mp h with e | h | h
      · exact Tree.mem_cells_node.mpr (Or.inl e)
      · exact Tree.mem_cells_node.mpr (Or.inr (Or.inl (ihl h)))
      · exact Tree.mem_cells_node.mpr (Or.inr (Or.inr h))
    · rcases Tree.mem_cells_node.mp h with e | h | h
      · exact Tree.mem_cells_node.mpr (Or.inl e)
      · exact Tree.mem_cells_node.mpr (Or.inr (Or.inl h))
      · exact Tree.mem_cells_node.mpr (Or.inr (Or.inr (ihr h)))

theorem Tree.setSecond_cell_key (b : Nat) (w : V) {t : Tree K V} {a : Nat} {k : K} {v : V}
    (h : (a, (k, v)) ∈ t.cells) : ∃ v', (a, (k, v')) ∈ (t.setSecond b w).cells := by
  induction t with
  | nil => cases h
  | node c cc l kv r ihl ihr =>
    simp only [Tree.setSecond]
    rcases Tree.mem_cells_node.mp h with e | h | h
    · cases e
      by_cases hc : a = b
      · exact ⟨w, Tree.mem_cells_node.mpr (Or.inl (by simp [hc]))⟩
      · exact ⟨v, Tree.mem_cells_node.mpr (Or.inl (by simp [hc]))⟩
    · obtain ⟨v', hv⟩ := ihl h
      exact ⟨v', Tree.mem_cells_node.mpr (Or.inr (Or.inl hv))⟩
    · obtain ⟨v', hv⟩ := ihr h
      exact ⟨v', Tree.mem_cells_node.mpr (Or.inr (Or.inr hv))⟩

/-! ## `insert` -/

theorem noteMin_spec (comp : K → K → Bool) {m : Map K V} {t mn : Nat} {h tn mnn : RB_Node K V}
    (ht : rd m t = some tn) (hh : rd m 0 = some h) (hl : h.left = some mn)
    (hmn : rd m mn = some mnn) :
    noteMin comp m t
      = some (if comp tn.value.1 mnn.value.1 then wr m 0 { h with left := some t } else m) := by
  simp only [noteMin, ht, hh, hl, hmn, Option.bind_eq_bind, Option.some_bind, setLeft,
    Option.map_some', Option.pure_def]
  split_ifs <;> rfl

theorem noteMax_spec (comp : K → K → Bool) {m : Map K V} {t mx : Nat} {h tn mxn : RB_Node K V}
    (ht : rd m t = some tn) (hh : rd m 0 = some h) (hr : h.right = some mx)
    (hmx : rd m mx = some mxn) :
    noteMax comp m t
      = some (if comp mxn.value.1 tn.value.1 then wr m 0 { h with right := some t } else m) := by
  simp only [noteMax, ht, hh, hr, hmx, Option.bind_eq_bind, Option.some_bind, setRight,
    Option.map_some', Option.pure_def]
  split_ifs <;> rfl

/-- First insertion: the new node is the Black root and both extrema of the sentinel. -/
theorem insertRoot_spec {m : Map K V} {h : RB_Node K V} (val : K × V) (hh : rd m 0 = some h) :
    ∃ m', insertRoot m val = some (m', m.mem.length, true) ∧
      rd m' 0 = some ⟨h.value, some m.mem.length, some m.mem.length, some m.mem.length, h.color⟩ ∧
      rd m' m.mem.length = some ⟨val, some 0, none, none, Color.Black⟩ ∧
      (∀ y, y ≠ 0 → y < m.mem.length → rd m' y = rd m y) ∧
      m'.mem.length = m.mem.length + 1 ∧ m'._size = m._size + 1 := by
  have lt0 := rd_lt hh
  have hne : 0 ≠ m.mem.length := Nat.ne_of_lt lt0
  have hlt : 0 < m.mem.length + 1 := Nat.succ_pos _
  simp only [insertRoot, alloc, setLeft, setRight, setParent, setColor, rd_wr, rd_append, hh, hne,
    Ne.symm hne, if_false, if_true, Option.map_some', Option.some_bind, false_and, wr_length,
    List.length_append, List.length_singleton, lt_add_iff_pos_right, Nat.lt_one_iff, pos_of_gt,
    and_self, Option.bind_eq_bind, Option.pure_def, hlt]
  refine ⟨_, rfl, ?_, ?_, ?_, ?_, ?_⟩
  · simp [rd_wr, rd_append, hne, Ne.symm hne, hlt]
  · simp [rd_wr, rd_append, hne, Ne.symm hne, hlt]
  · intro y hy hlt'
    simp [rd_wr, rd_append, hy, Nat.ne_of_lt hlt']
  · simp
  · simp

/-- The tree handed to `rebalance` by `insert`: the result of `insertHelper`,
with the mapped value overwritten when the key was found. -/
theorem insert_prepare (comp : K → K → Bool) [DecidableEq K] {m : Map K V} {t : Tree K V}
    {h : RB_Node K V} {a : Nat} (val : K × V) (hs : Shape m t) (hh : rd m 0 = some h)
    (hroot : t.root = some a) :
    ∃ m1 m2 t1 tn,
      insertHelper comp (fuelOf m) m a val
        = some (m1, (t.insertHelper comp m.mem.length val).2) ∧
      (if !(t.insertHelper comp m.mem.length val).2.2
        then setSecond m1 (t.insertHelper comp m.mem.length val).2.1 val.2 else some m1)
        = some m2 ∧
      t1 = (if (t.insertHelper comp m.mem.length val).2.2
        then (t.insertHelper comp m.mem.length val).1
        else (t.insertHelper comp m.mem.length val).1.setSecond
          (t.insertHelper comp m.mem.length val).2.1 val.2) ∧
      Rep m2 (some 0) t1 ∧ t1.addrs.Nodup ∧ 0 ∉ t1.addrs ∧
      t1.root = some a ∧
      rd m2 0 = some h ∧
      rd m2 (t.insertHelper comp m.mem.length val).2.1 = some tn ∧ tn.value.1 = val.1 ∧
      (∀ y n, y ∈ t.addrs → rd m y = some n → ∃ n', rd m2 y = some n' ∧ n'.value.1 = n.value.1) ∧
      m2.mem.length = m.mem.length
        + (if (t.insertHelper comp m.mem.length val).2.2 then 1 else 0) ∧
      m2._size = m._size + (if (t.insertHelper comp m.mem.length val).2.2 then 1 else 0) := by
  have hlt := hs.rep.lt
  have lt0 := rd_lt hh
  have hf : m.mem.length ∉ t.addrs := fun hx => Nat.lt_irrefl _ (hlt _ hx)
  obtain ⟨m1, e1, r1, fr1, len1, sz1⟩ := insertHelper_spec comp val t (fuelOf m) m (some 0) a
    hroot (Nat.le_of_lt (hs.rep.height_lt_fuel hs.nodup)) hs.rep hs.nodup
  have hnd1 := Tree.insertHelper_nodup comp m.mem.length val t hs.nodup hf
  have h01 : 0 ∉ (t.insertHelper comp m.mem.length val).1.addrs := by
    rw [Tree.mem_insertHelper_addrs]
    rintro (h | ⟨-, h⟩)
    · exact hs.notHead h
    · exact Nat.ne_of_lt lt0 h
  have hh1 : rd m1 0 = some h := by rw [fr1 0 hs.notHead lt0, hh]
  have hmem := Tree.insertHelper_mem comp m.mem.length val t
  have hroot1 := Tree.insertHelper_root comp m.mem.length val hroot
  obtain ⟨v, hv⟩ := Tree.insertHelper_cell comp m.mem.length val t
  have hkeep1 : ∀ y n, y ∈ t.addrs → rd m y = some n →
      ∃ kv, (y, kv) ∈ (t.insertHelper comp m.mem.length val).1.cells ∧ kv = n.value := by
    intro y n hy hn
    obtain ⟨kv, hkv⟩ := Tree.exists_cell_of_mem_addrs hy
    obtain ⟨n', hn', e⟩ := hs.rep.rd_cell hkv
    rw [hn] at hn'
    cases hn'
    exact ⟨kv, Tree.insertHelper_cells_subset comp _ val t hkv, e.symm⟩
  cases hb : (t.insertHelper comp m.mem.length val).2.2 with
  | true =>
    obtain ⟨tn, htn, etn⟩ := r1.rd_cell hv
    refine ⟨m1, m1, _, tn, e1, by simp [hb], rfl, by simpa [hb] using r1, by simpa [hb] using hnd1,
      by simpa [hb] using h01, by simpa [hb] using hroot1, hh1, htn, by rw [etn], ?_,
      by simpa [hb] using len1, by simpa [hb] using sz1⟩
    intro y n hy hn
    obtain ⟨kv, hkv, e⟩ := hkeep1 y n hy hn
    obtain ⟨n', hn', e'⟩ := r1.rd_cell hkv
    exact ⟨n', hn', by rw [e', e]⟩
  | false =>
    obtain ⟨m2, e2, r2, s2⟩ := setSecond_spec val.2 r1 hnd1 hmem
    obtain ⟨v', hv'⟩ := Tree.setSecond_cell_key (t.insertHelper comp m.mem.length val).2.1
      val.2 hv
    obtain ⟨tn, htn, etn⟩ := r2.rd_cell hv'
    have hne : (t.insertHelper comp m.mem.length val).2.1 ≠ 0 := fun e => h01 (e ▸ hmem)
    refine ⟨m1, m2, _, tn, e1, by simp [hb, e2], rfl, by simpa [hb] using r2,
      by simpa [hb, Tree.setSecond_addrs] using hnd1,
      by simpa [hb, Tree.setSecond_addrs] using h01,
      by simpa [hb, Tree.setSecond_root] using hroot1, ?_, htn, by rw [etn], ?_,
      by simpa [hb, s2.1] using len1, by simpa [hb, s2.2.1] using sz1⟩
    · rw [s2.2.2 0 (by simpa using Ne.symm hne), hh1]
    · intro y n hy hn
      obtain ⟨⟨k, w⟩, hkv, e⟩ := hkeep1 y n hy hn
      obtain ⟨w', hw'⟩ := Tree.setSecond_cell_key (t.insertHelper comp m.mem.length val).2.1
        val.2 hkv
      obtain ⟨n', hn', e'⟩ := r2.rd_cell hw'
      exact ⟨n', hn', by rw [e', ← e]⟩
theorem insert_spec_node (comp : K → K → Bool) [DecidableEq K] {m : Map K V} {t : Tree K V}
    {h nlo nhi : RB_Node K V} {a lo hi : Nat} (val : K × V) (hs : Shape m t)
    (hh : rd m 0 = some h) (hroot : t.root = some a)
    (hl : h.left = some lo) (hr : h.right = some hi) (hlo : lo ∈ t.addrs) (hhi : hi ∈ t.addrs)
    (hnlo : rd m lo = some nlo) (hnhi : rd m hi = some nhi) :
    ∃ m', insert comp m val = some (m', (t.insertHelper comp m.mem.length val).2) ∧
      Shape m' (t.insert comp m.mem.length val) ∧
      rd m' 0 = some ⟨h.value, (t.insert comp m.mem.length val).root,
        some (if comp val.1 nlo.value.1 then (t.insertHelper comp m.mem.length val).2.1 else lo),
        some (if comp nhi.value.1 val.1 then (t.insertHelper comp m.mem.length val).2.1 else hi),
        h.color⟩ ∧
      m'.mem.length = m.mem.length
        + (if (t.insertHelper comp m.mem.length val).2.2 then 1 else 0) ∧
      m'._size = m._size + (if (t.insertHelper comp m.mem.length val).2.2 then 1 else 0) := by
  obtain ⟨m1, m2, t1, tn, e1, e2, ht1, r2, hnd2, h02, hroot2, hh2, htn, hkey, hkeep, len2, sz2⟩ :=
    insert_prepare comp val hs hh hroot
  have hp : h.parent = some a := by
    obtain ⟨h', hh', hp'⟩ := hs.head
    rw [hh] at hh'
    cases hh'
    rw [hp', hroot]
  obtain ⟨nlo2, hnlo2, klo⟩ := hkeep lo nlo hlo hnlo
  obtain ⟨nhi2, hnhi2, khi⟩ := hkeep hi nhi hhi hnhi
  have lt0 := rd_lt hh2
  -- `noteMin`
  have e3 := noteMin_spec comp htn hh2 hl hnlo2
  rw [hkey, klo] at e3
  -- `noteMax`
  obtain ⟨m3, hm3, hh3, s3⟩ : ∃ m3, noteMin comp m2 (t.insertHelper comp m.mem.length val).2.1
      = some m3 ∧ rd m3 0 = some ⟨h.value, h.parent, some
        (if comp val.1 nlo.value.1 then (t.insertHelper comp m.mem.length val).2.1 else lo),
        h.right, h.color⟩ ∧
      Same m2 m3 [0] := by
    refine ⟨_, e3, ?_, ?_⟩
    · by_cases hc : comp val.1 nlo.value.1 = true
      · simp only [hc, if_true]
        simp [rd_wr, lt0]
      · simp only [hc, Bool.false_eq_true, if_false]
        rw [hh2, ← hl]
    · by_cases hc : comp val.1 nlo.value.1 = true
      · simp only [hc, if_true]
        exact Same.wr _ (List.mem_singleton.mpr rfl)
      · simp only [hc, Bool.false_eq_true, if_false]
        exact Same.refl _ _
  have ne0 : ∀ y ∈ t1.addrs, y ∉ [0] := fun y hy => by
    simpa using ne_of_mem_of_not_mem hy h02
  have hin : (t.insertHelper comp m.mem.length val).2.1 ∈ t1.addrs := by
    rw [ht1]
    split_ifs
    · exact Tree.insertHelper_mem comp _ val t
    · rw [Tree.setSecond_addrs]
      exact Tree.insertHelper_mem comp _ val t
  have hre : ∀ y ∈ t.addrs, y ∈ t1.addrs := by
    intro y hy
    rw [ht1]
    split_ifs
    · exact (Tree.mem_insertHelper_addrs comp _ val t y).mpr (Or.inl hy)
    · rw [Tree.setSecond_addrs]
      exact (Tree.mem_insertHelper_addrs comp _ val t y).mpr (Or.inl hy)
  have htn3 : rd m3 (t.insertHelper comp m.mem.length val).2.1 = some tn := by
    rw [s3.2.2 _ (ne0 _ hin), htn]
  have hnhi3 : rd m3 hi = some nhi2 := by
    rw [s3.2.2 _ (ne0 _ (hre hi hhi)), hnhi2]
  have e4 := noteMax_spec comp htn3 hh3 hr hnhi3
  rw [hkey, khi] at e4
  have lt03 := rd_lt hh3
  obtain ⟨m4, hm4, hh4, s4⟩ : ∃ m4, noteMax comp m3 (t.insertHelper comp m.mem.length val).2.1
      = some m4 ∧ rd m4 0 = some ⟨h.value, h.parent, some
        (if comp val.1 nlo.value.1 then (t.insertHelper comp m.mem.length val).2.1 else lo),
        some (if comp nhi.value.1 val.1 then (t.insertHelper comp m.mem.length val).2.1 else hi),
        h.color⟩ ∧ Same m3 m4 [0] := by
    refine ⟨_, e4, ?_, ?_⟩
    · by_cases hc : comp nhi.value.1 val.1 = true
      · simp only [hc, if_true]
        simp [rd_wr, lt03]
      · simp only [hc, Bool.false_eq_true, if_false]
        rw [hh3, ← hr]
    · by_cases hc : comp nhi.value.1 val.1 = true
      · simp only [hc, if_true]
        exact Same.wr _ (List.mem_singleton.mpr rfl)
      · simp only [hc, Bool.false_eq_true, if_false]
        exact Same.refl _ _
  have r4 : Rep m4 (some 0) t1 := (r2.same s3 ne0).same s4 ne0
  obtain ⟨m', e5, r5, hh5, s5⟩ := rebalance_spec hh4 (by rw [hroot2]; exact hp) hroot2 r4
    hnd2 h02
  have hins : t.insert comp m.mem.length val = t1.rebalanceHelper.paint Color.Black := by
    cases t with
    | nil => cases hroot
    | node b c l kv r => rw [ht1]; rfl
  refine ⟨m', ?_, ⟨⟨_, hh5, ?_⟩, ?_, ?_, ?_⟩, ?_, ?_, ?_⟩
  · simp only [insert, hh, hp, e1, Option.some_bind, e2, hm3, hm4, e5, Option.map_some']
  · rw [hins, Tree.paint_root]
  · rw [hins]
    exact r5
  · rw [hins, Tree.paint_addrs, Tree.rebalanceHelper_addrs]
    exact hnd2
  · rw [hins, Tree.paint_addrs, Tree.rebalanceHelper_addrs]
    exact h02
  · rw [hh5, hins, Tree.paint_root]
  · rw [s5.1, s4.1, s3.1, len2]
  · rw [s5.2.1, s4.2.1, s3.2.1, sz2]
theorem insert_spec_nil (comp : K → K → Bool) [DecidableEq K] {m : Map K V}
    {h : RB_Node K V} (val : K × V) (hs : Shape m nil) (hh : rd m 0 = some h) :
    ∃ m', insert comp m val = some (m', m.mem.length, true) ∧
      Shape m' (Tree.insert comp m.mem.length val nil) ∧
      rd m' 0 = some ⟨h.value, some m.mem.length, some m.mem.length, some m.mem.length,
        h.color⟩ ∧
      m'.mem.length = m.mem.length + 1 ∧ m'._size = m._size + 1 := by
  have hp : h.parent = none := by
    obtain ⟨h', hh', hp'⟩ := hs.head
    rw [hh] at hh'
    cases hh'
    exact hp'
  obtain ⟨m', e, h1, h2, h3, h4, h5⟩ := insertRoot_spec val hh
  have hne : m.mem.length ≠ 0 := Nat.ne_of_gt (rd_lt hh)
  refine ⟨m', by simp only [insert, hh, hp, Option.some_bind, e], ⟨⟨_, h1, rfl⟩, ?_, ?_, ?_⟩,
    h1, h4, h5⟩
  · exact ⟨h2, trivial, trivial⟩
  · simp [Tree.insert, Tree.addrs]
  · simp only [Tree.insert, Tree.addrs, List.nil_append, List.mem_singleton]
    exact fun e => hne e.symm

/-! ## Colour invariants under the whole-tree pass -/

theorem Tree.noRedRed_redLeft {t : Tree K V} (h : t.noRedRed) : t.redLeft = false := by
  cases hr : t.redLeft with
  | false => rfl
  | true =>
    obtain ⟨_, _, _, _, _, _, _, rfl⟩ := Tree.redLeft_eq_true hr
    exact absurd (h.1 rfl).1 (by simp [Tree.isRed])

theorem Tree.noRedRed_redRight {t : Tree K V} (h : t.noRedRed) : t.redRight = false := by
  cases hr : t.redRight with
  | false => rfl
  | true =>
    obtain ⟨_, _, _, _, _, _, _, rfl⟩ := Tree.redRight_eq_true hr
    exact absurd (h.1 rfl).2 (by simp [Tree.isRed])

theorem Tree.rebalanceNode_noRedRed {t : Tree K V} (h : t.noRedRed) : t.rebalanceNode = t := by
  cases t with
  | nil => rfl
  | node a c l kv r =>
    simp [Tree.rebalanceNode, Tree.noRedRed_redLeft h.2.1, Tree.noRedRed_redRight h.2.1,
      Tree.noRedRed_redLeft h.2.2, Tree.noRedRed_redRight h.2.2]

theorem Tree.rebalanceHelper_noRedRed {t : Tree K V} (h : t.noRedRed) :
    t.rebalanceHelper = t := by
  induction t with
  | nil => rfl
  | node a c l kv r ihl ihr =>
    rw [Tree.rebalanceHelper, ihl h.2.1, ihr h.2.2, Tree.rebalanceNode_noRedRed h]
theorem Tree.almost_noRedRed {t : Tree K V} (h : t.Almost) (h1 : t.redLeft = false)
    (h2 : t.redRight = false) : t.noRedRed := by
  cases t with
  | nil => trivial
  | node a c l kv r =>
    refine ⟨?_, h.1, h.2.1⟩
    rintro rfl
    constructor
    · cases l with
      | nil => rfl
      | node la lc ll lkv lr =>
        cases lc with
        | Black => rfl
        | Red => simp [Tree.redLeft] at h1
    · cases r with
      | nil => rfl
      | node ra rc rl rkv rr =>
        cases rc with
        | Black => rfl
        | Red => cases l <;> simp [Tree.redRight] at h2

/-- The checks change nothing at a node whose subtrees have no conflict inside
and no conflict with their own children. -/
theorem Tree.rebalanceNode_clean {a : Nat} {c : Color} {kv : K × V} {l r : Tree K V}
    (hl : l.noRedRed) (hr : r.noRedRed) :
    (node a c l kv r).rebalanceNode = node a c l kv r := by
  simp [Tree.rebalanceNode, Tree.noRedRed_redLeft hl, Tree.noRedRed_redRight hl,
    Tree.noRedRed_redLeft hr, Tree.noRedRed_redRight hr]

/-- The checks at a Black node whose left subtree comes back from the pass
with at most a conflict at its root. -/
theorem Tree.rebalanceNode_black_left (a : Nat) (kv : K × V) {l r : Tree K V} {k : Nat}
    (hl : l.blackHeight k) (hr : r.blackHeight k) (hrr : r.noRedRed)
    (hla' : l.noRedRed ∨ l.Almost) :
    (node a Color.Black l kv r).rebalanceNode.blackHeight (k + 1) ∧
      (node a Color.Black l kv r).rebalanceNode.noRedRed := by
  rcases hla' with hll | hla
  · rw [Tree.rebalanceNode_clean hll hrr]
    exact ⟨⟨k, rfl, hl, hr⟩, by simp, hll, hrr⟩
  simp only [Tree.rebalanceNode, Tree.noRedRed_redLeft hrr, Tree.noRedRed_redRight hrr,
    Bool.false_eq_true, if_false]
  split_ifs with h1 h2 h3 h4
  · obtain ⟨ra, rl, rkv, rr, rfl⟩ := Tree.isRed_eq_true h2
    obtain ⟨la, lla, lll, llkv, llr, lkv, lr, rfl⟩ := Tree.redLeft_eq_true h1
    simp_all [Tree.recolor, Tree.paint, Tree.blackHeight, Tree.noRedRed, Tree.Almost,
      Tree.isRed]
  · obtain ⟨la, lla, lll, llkv, llr, lkv, lr, rfl⟩ := Tree.redLeft_eq_true h1
    simp_all [Tree.fixLeftLeft, Tree.blackHeight, Tree.noRedRed, Tree.Almost, Tree.isRed]
  · obtain ⟨ra, rl, rkv, rr, rfl⟩ := Tree.isRed_eq_true h4
    obtain ⟨la, ll, lkv, ma, ml, mkv, mr, rfl⟩ := Tree.redRight_eq_true h3
    simp_all [Tree.recolor, Tree.paint, Tree.blackHeight, Tree.noRedRed, Tree.Almost,
      Tree.isRed]
  · obtain ⟨la, ll, lkv, ma, ml, mkv, mr, rfl⟩ := Tree.redRight_eq_true h3
    simp_all [Tree.fixLeftRight, Tree.blackHeight, Tree.noRedRed, Tree.Almost, Tree.isRed]
  · exact ⟨⟨k, rfl, hl, hr⟩, by simp, Tree.almost_noRedRed hla (by simpa using h1)
      (by simpa using h3), hrr⟩
/-- The checks at a Black node whose right subtree comes back from the pass
with at most a conflict at its root. -/
theorem Tree.rebalanceNode_black_right (a : Nat) (kv : K × V) {l r : Tree K V} {k : Nat}
    (hl : l.blackHeight k) (hr : r.blackHeight k) (hll : l.noRedRed)
    (hra' : r.noRedRed ∨ r.Almost) :
    (node a Color.Black l kv r).rebalanceNode.blackHeight (k + 1) ∧
      (node a Color.Black l kv r).rebalanceNode.noRedRed := by
  rcases hra' with hrr | hra
  · rw [Tree.rebalanceNode_clean hll hrr]
    exact ⟨⟨k, rfl, hl, hr⟩, by simp, hll, hrr⟩
  simp only [Tree.rebalanceNode, Tree.noRedRed_redLeft hll, Tree.noRedRed_redRight hll,
    Bool.false_eq_true, if_false]
  split_ifs with h1 h2 h3 h4
  · obtain ⟨la, ll, lkv, lr, rfl⟩ := Tree.isRed_eq_true h2
    obtain ⟨ra, rl, rkv, rra, rrl, rrkv, rrr, rfl⟩ := Tree.redRight_eq_true h1
    simp_all [Tree.recolor, Tree.paint, Tree.blackHeight, Tree.noRedRed, Tree.Almost,
      Tree.isRed]
  · obtain ⟨ra, rl, rkv, rra, rrl, rrkv, rrr, rfl⟩ := Tree.redRight_eq_true h1
    simp_all [Tree.fixRightRight, Tree.blackHeight, Tree.noRedRed, Tree.Almost, Tree.isRed]
  · obtain ⟨la, ll, lkv, lr, rfl⟩ := Tree.isRed_eq_true h4
    obtain ⟨ra, ma, ml, mkv, mr, rkv, rr, rfl⟩ := Tree.redLeft_eq_true h3
    simp_all [Tree.recolor, Tree.paint, Tree.blackHeight, Tree.noRedRed, Tree.Almost,
      Tree.isRed]
  · obtain ⟨ra, ma, ml, mkv, mr, rkv, rr, rfl⟩ := Tree.redLeft_eq_true h3
    simp_all [Tree.fixRightLeft, Tree.blackHeight, Tree.noRedRed, Tree.Almost, Tree.isRed]
  · exact ⟨⟨k, rfl, hl, hr⟩, by simp, hll, Tree.almost_noRedRed hra (by simpa using h3)
      (by simpa using h1)⟩

/-- Colours after `insertHelper` followed by the whole-tree pass, in a subtree
of a red-black tree: the black height is kept; below a Black root no conflict
is left; below a Red root the only possible conflict is at the root. -/
theorem Tree.colors_insertHelper (comp : K → K → Bool) [DecidableEq K] (f : Nat) (x : K × V)
    (t : Tree K V) : ∀ n, t.noRedRed → t.blackHeight n →
      (t.insertHelper comp f x).1.rebalanceHelper.blackHeight n ∧
      (t.isRed = false → (t.insertHelper comp f x).1.rebalanceHelper.noRedRed) ∧
      (t.isRed = true → (t.insertHelper comp f x).1.rebalanceHelper.isRed = true ∧
        (t.insertHelper comp f x).1.rebalanceHelper.Almost) := by
  induction t with
  | nil =>
    intro n _ hn
    simp only [Tree.blackHeight] at hn
    subst hn
    simp [Tree.insertHelper, Tree.rebalanceHelper, Tree.rebalanceNode, Tree.redLeft,
      Tree.redRight, Tree.blackHeight, Tree.noRedRed, Tree.isRed]
  | node a c l kv r ihl ihr =>
    intro n hrr hbh
    simp only [Tree.insertHelper]
    split_ifs with h1 h2
    · rw [Tree.rebalanceHelper_noRedRed hrr]
      refine ⟨hbh, fun _ => hrr, fun h => ⟨h, ?_⟩⟩
      obtain ⟨_, _, _, _, e⟩ := Tree.isRed_eq_true h
      cases e
      exact ⟨hrr.2.1, hrr.2.2, Or.inl (hrr.1 rfl).1⟩
    · simp only [Tree.rebalanceHelper, Tree.rebalanceHelper_noRedRed hrr.2.2]
      cases c with
      | Red =>
        simp only [Tree.blackHeight] at hbh
        obtain ⟨i1, i2, -⟩ := ihl n hrr.2.1 hbh.1
        have i2 := i2 (hrr.1 rfl).1
        rw [Tree.rebalanceNode_clean i2 hrr.2.2]
        exact ⟨by simp only [Tree.blackHeight]; exact ⟨i1, hbh.2⟩, by simp [Tree.isRed],
          fun _ => ⟨rfl, i2, hrr.2.2, Or.inr (hrr.1 rfl).2⟩⟩
      | Black =>
        simp only [Tree.blackHeight] at hbh
        obtain ⟨k, rfl, hl, hr⟩ := hbh
        obtain ⟨i1, i2, i3⟩ := ihl k hrr.2.1 hl
        have ha : (Tree.insertHelper comp f x l).1.rebalanceHelper.noRedRed ∨
            (Tree.insertHelper comp f x l).1.rebalanceHelper.Almost := by
          cases hc : l.isRed with
          | false => exact Or.inl (i2 hc)
          | true => exact Or.inr (i3 hc).2
        obtain ⟨j1, j2⟩ := Tree.rebalanceNode_black_left a kv i1 hr hrr.2.2 ha
        exact ⟨j1, fun _ => j2, by simp [Tree.isRed]⟩
    · simp only [Tree.rebalanceHelper, Tree.rebalanceHelper_noRedRed hrr.2.1]
      cases c with
      | Red =>
        simp only [Tree.blackHeight] at hbh
        obtain ⟨i1, i2, -⟩ := ihr n hrr.2.2 hbh.2
        have i2 := i2 (hrr.1 rfl).2
        rw [Tree.rebalanceNode_clean hrr.2.1 i2]
        exact ⟨by simp only [Tree.blackHeight]; exact ⟨hbh.1, i1⟩, by simp [Tree.isRed],
          fun _ => ⟨rfl, hrr.2.1, i2, Or.inl (hrr.1 rfl).1⟩⟩
      | Black =>
        simp only [Tree.blackHeight] at hbh
        obtain ⟨k, rfl, hl, hr⟩ := hbh
        obtain ⟨i1, i2, i3⟩ := ihr k hrr.2.2 hr
        have ha : (Tree.insertHelper comp f x r).1.rebalanceHelper.noRedRed ∨
            (Tree.insertHelper comp f x r).1.rebalanceHelper.Almost := by
          cases hc : r.isRed with
          | false => exact Or.inl (i2 hc)
          | true => exact Or.inr (i3 hc).2
        obtain ⟨j1, j2⟩ := Tree.rebalanceNode_black_right a kv hl i1 hrr.2.1 ha
        exact ⟨j1, fun _ => j2, by simp [Tree.isRed]⟩
theorem Tree.isRed_setSecond (a : Nat) (v : V) (t : Tree K V) :
    (t.setSecond a v).isRed = t.isRed := by
  cases t with
  | nil => rfl
  | node b c l kv r => cases c <;> rfl

theorem Tree.noRedRed_setSecond (a : Nat) (v : V) {t : Tree K V} (h : t.noRedRed) :
    (t.setSecond a v).noRedRed := by
  induction t with
  | nil => trivial
  | node b c l kv r ihl ihr =>
    simp only [Tree.setSecond, Tree.noRedRed, Tree.isRed_setSecond]
    exact ⟨h.1, ihl h.2.1, ihr h.2.2⟩

theorem Tree.blackHeight_setSecond (a : Nat) (v : V) {t : Tree K V} :
    ∀ {n : Nat}, t.blackHeight n → (t.setSecond a v).blackHeight n := by
  induction t with
  | nil => intro n h; exact h
  | node b c l kv r ihl ihr =>
    intro n h
    cases c with
    | Red =>
      simp only [Tree.setSecond, Tree.blackHeight] at h ⊢
      exact ⟨ihl h.1, ihr h.2⟩
    | Black =>
      simp only [Tree.setSecond, Tree.blackHeight] at h ⊢
      obtain ⟨k, e, h1, h2⟩ := h
      exact ⟨k, e, ihl h1, ihr h2⟩

theorem Tree.redBlack_paint {t : Tree K V} {n : Nat} (h1 : t.noRedRed) (h2 : t.blackHeight n) :
    (t.paint Color.Black).RedBlack := by
  cases t with
  | nil => exact ⟨rfl, trivial, 0, rfl⟩
  | node a c l kv r =>
    refine ⟨rfl, ⟨by simp, h1.2.1, h1.2.2⟩, ?_⟩
    cases c with
    | Red => exact ⟨n + 1, n, rfl, h2.1, h2.2⟩
    | Black => exact ⟨n, h2⟩

/-- The tree after `insert` satisfies the red-black colour invariants if the
tree before does. -/
theorem Tree.insert_redBlack (comp : K → K → Bool) [DecidableEq K] (f : Nat) (x : K × V)
    {t : Tree K V} (h : t.RedBlack) : (t.insert comp f x).RedBlack := by
  cases t with
  | nil => exact ⟨rfl, ⟨by simp, trivial, trivial⟩, 1, 0, rfl, rfl, rfl⟩
  | node a c l kv r =>
    obtain ⟨h1, h2, n, h3⟩ := h
    simp only [Tree.insert]
    cases hb : (Tree.insertHelper comp f x (node a c l kv r)).2.2 with
    | true =>
      obtain ⟨i1, i2, -⟩ := Tree.colors_insertHelper comp f x _ n h2 h3
      simpa using Tree.redBlack_paint (i2 h1) i1
    | false =>
      rw [Tree.insertHelper_found comp f x _ hb]
      have j1 := Tree.noRedRed_setSecond (Tree.insertHelper comp f x (node a c l kv r)).2.1
        x.2 h2
      have j2 := Tree.blackHeight_setSecond (Tree.insertHelper comp f x (node a c l kv r)).2.1
        x.2 h3
      simp only [Bool.false_eq_true, if_false]
      rw [Tree.rebalanceHelper_noRedRed j1]
      exact Tree.redBlack_paint j1 j2

/-! ## Cells are kept by the whole-tree pass -/

theorem Tree.rebalanceNode_cells (t : Tree K V) : t.rebalanceNode.cells = t.cells := by
  cases t with
  | nil => rfl
  | node a c l kv r =>
    simp only [Tree.rebalanceNode]
    split_ifs with h1 h2 h3 h4 h5 h6 h7 h8
    · obtain ⟨_, _, _, _, rfl⟩ := Tree.isRed_eq_true h2
      obtain ⟨_, _, _, _, _, _, _, rfl⟩ := Tree.redLeft_eq_true h1
      simp [Tree.recolor, Tree.paint, Tree.cells]
    · obtain ⟨_, _, _, _, _, _, _, rfl⟩ := Tree.redLeft_eq_true h1
      simp [Tree.fixLeftLeft, Tree.cells]
    · obtain ⟨_, _, _, _, rfl⟩ := Tree.isRed_eq_true h4
      obtain ⟨_, _, _, _, _, _, _, rfl⟩ := Tree.redRight_eq_true h3
      simp [Tree.recolor, Tree.paint, Tree.cells]
    · obtain ⟨_, _, _, _, _, _, _, rfl⟩ := Tree.redRight_eq_true h3
      simp [Tree.fixLeftRight, Tree.cells]
    · obtain ⟨_, _, _, _, rfl⟩ := Tree.isRed_eq_true h6
      obtain ⟨_, _, _, _, _, _, _, rfl⟩ := Tree.redRight_eq_true h5
      simp [Tree.recolor, Tree.paint, Tree.cells]
    · obtain ⟨_, _, _, _, _, _, _, rfl⟩ := Tree.redRight_eq_true h5
      simp [Tree.fixRightRight, Tree.cells]
    · obtain ⟨_, _, _, _, rfl⟩ := Tree.isRed_eq_true h8
      obtain ⟨_, _, _, _, _, _, _, rfl⟩ := Tree.redLeft_eq_true h7
      simp [Tree.recolor, Tree.paint, Tree.cells]
    · obtain ⟨_, _, _, _, _, _, _, rfl⟩ := Tree.redLeft_eq_true h7
      simp [Tree.fixRightLeft, Tree.cells]
    · rfl

theorem Tree.rebalanceHelper_cells (t : Tree K V) : t.rebalanceHelper.cells = t.cells := by
  induction t with
  | nil => rfl
  | node a c l kv r ihl ihr =>
    simp only [Tree.rebalanceHelper, Tree.rebalanceNode_cells]
    simp only [Tree.cells, ihl, ihr]

@[simp] theorem Tree.paint_cells (c : Color) (t : Tree K V) : (t.paint c).cells = t.cells := by
  cases t <;> rfl

theorem Tree.setSecond_cells (a : Nat) (w : V) (t : Tree K V) :
    (t.setSecond a w).cells
      = t.cells.map fun p => if p.1 = a then (p.1, (p.2.1, w)) else p := by
  induction t with
  | nil => rfl
  | node b c l kv r ihl ihr =>
    simp only [Tree.setSecond, Tree.cells, ihl, ihr, List.map_append, List.map_cons]
    by_cases h : b = a <;> simp [h]

/-! ## Comparators -/

theorem StrictTotal.asymm {comp : K → K → Bool} (hc : StrictTotal comp) {a b : K}
    (h : comp a b = true) : comp b a = false := by
  cases hb : comp b a with
  | false => rfl
  | true =>
    have := hc.trans a b a h hb
    rw [hc.irrefl] at this
    cases this

theorem StrictTotal.ne {comp : K → K → Bool} (hc : StrictTotal comp) {a b : K}
    (h : comp a b = true) : a ≠ b := by
  rintro rfl
  rw [hc.irrefl] at h
  cases h

theorem StrictTotal.of_not {comp : K → K → Bool} (hc : StrictTotal comp) {a b : K}
    (h1 : a ≠ b) (h2 : ¬ comp a b = true) : comp b a = true := by
  rcases hc.total a b with h | h | h
  · exact absurd h h1
  · exact absurd h h2
  · exact h

theorem natLess_strictTotal : StrictTotal natLess where
  irrefl := fun a => by simp [natLess]
  trans := fun a b c h1 h2 => by
    simp only [natLess, decide_eq_true_eq] at *
    omega
  total := fun a b => by
    simp only [natLess, decide_eq_true_eq]
    omega

/-! ## The in-order sequence after `insertHelper` -/

theorem Tree.key_mem_of_mem_cells {t : Tree K V} {p : Nat × (K × V)} (h : p ∈ t.cells) :
    p.2.1 ∈ t.keys := by
  simp only [Tree.keys, ← Tree.cells_map_snd, List.map_map]
  exact List.mem_map_of_mem _ h

/-- The in-order sequence splits around the place of the key: the cells
before it hold smaller keys, the cells after it greater keys; `insertHelper`
either puts the new cell there or finds the cell of the key there. -/
theorem Tree.insertHelper_split {comp : K → K → Bool} [DecidableEq K] (hc : StrictTotal comp)
    (f : Nat) (x : K × V) (t : Tree K V) (ho : t.Ordered comp) :
    ∃ l1 old l2, t.cells = l1 ++ old ++ l2 ∧
      (t.insertHelper comp f x).1.cells
        = l1 ++ (if (t.insertHelper comp f x).2.2 then [(f, x)] else old) ++ l2 ∧
      (∀ p ∈ l1, comp p.2.1 x.1 = true) ∧ (∀ p ∈ l2, comp x.1 p.2.1 = true) ∧
      (((t.insertHelper comp f x).2.2 = true ∧ old = [] ∧ (t.insertHelper comp f x).2.1 = f) ∨
        ((t.insertHelper comp f x).2.2 = false ∧
          ∃ v, old = [((t.insertHelper comp f x).2.1, (x.1, v))])) := by
  induction t with
  | nil =>
    exact ⟨[], [], [], rfl, by simp [Tree.insertHelper, Tree.cells], by simp, by simp,
      Or.inl ⟨rfl, rfl, rfl⟩⟩
  | node a c l kv r ihl ihr =>
    obtain ⟨hlk, hrk, hol, hor⟩ := ho
    simp only [Tree.insertHelper]
    by_cases h1 : x.1 = kv.1
    · simp only [if_pos h1]
      refine ⟨l.cells, [(a, kv)], r.cells, by simp [Tree.cells], by simp [Tree.cells], ?_, ?_,
        Or.inr ⟨by simp, kv.2, ?_⟩⟩
      · intro p hp
        rw [h1]
        exact hlk _ (Tree.key_mem_of_mem_cells hp)
      · intro p hp
        rw [h1]
        exact hrk _ (Tree.key_mem_of_mem_cells hp)
      · rw [h1]
    · simp only [if_neg h1]
      by_cases h2 : comp x.1 kv.1 = true
      · simp only [if_pos h2]
        obtain ⟨l1, old, l2, e1, e2, b1, b2, hcase⟩ := ihl hol
        refine ⟨l1, old, l2 ++ (a, kv) :: r.cells, by simp [Tree.cells, e1],
          by simp [Tree.cells, e2], b1, ?_, hcase⟩
        intro p hp
        rcases List.mem_append.mp hp with hp | hp
        · exact b2 p hp
        · rcases List.mem_cons.mp hp with rfl | hp
          · exact h2
          · exact hc.trans _ _ _ h2 (hrk _ (Tree.key_mem_of_mem_cells hp))
      · simp only [if_neg h2]
        obtain ⟨l1, old, l2, e1, e2, b1, b2, hcase⟩ := ihr hor
        have h3 : comp kv.1 x.1 = true := hc.of_not h1 h2
        refine ⟨l.cells ++ (a, kv) :: l1, old, l2, by simp [Tree.cells, e1],
          by simp [Tree.cells, e2], ?_, b2, hcase⟩
        intro p hp
        rcases List.mem_append.mp hp with hp | hp
        · exact hc.trans _ _ _ (hlk _ (Tree.key_mem_of_mem_cells hp)) h3
        · rcases List.mem_cons.mp hp with rfl | hp
          · exact h3
          · exact b1 p hp

theorem Tree.keys_eq (t : Tree K V) : t.keys = t.cells.map fun p => p.2.1 := by
  simp only [Tree.keys, ← Tree.cells_map_snd, List.map_map]
  rfl

theorem Tree.keys_node (a : Nat) (c : Color) (l r : Tree K V) (kv : K × V) :
    (node a c l kv r).keys = l.keys ++ kv.1 :: r.keys := by
  simp [Tree.keys, Tree.toList]

theorem Tree.ordered_of_pairwise {comp : K → K → Bool} {t : Tree K V}
    (h : t.keys.Pairwise fun a b => comp a b = true) : t.Ordered comp := by
  induction t with
  | nil => trivial
  | node a c l kv r ihl ihr =>
    rw [Tree.keys_node, List.pairwise_append] at h
    obtain ⟨h1, h2, h3⟩ := h
    rw [List.pairwise_cons] at h2
    exact ⟨fun k hk => h3 k hk kv.1 (List.mem_cons_self _ _), h2.1, ihl h1, ihr h2.2⟩

theorem Tree.pairwise_of_ordered {comp : K → K → Bool} (hc : StrictTotal comp) {t : Tree K V}
    (h : t.Ordered comp) : t.keys.Pairwise fun a b => comp a b = true := by
  induction t with
  | nil => exact List.Pairwise.nil
  | node a c l kv r ihl ihr =>
    obtain ⟨h1, h2, h3, h4⟩ := h
    rw [Tree.keys_node, List.pairwise_append]
    refine ⟨ihl h3, List.pairwise_cons.mpr ⟨h2, ihr h4⟩, ?_⟩
    intro x hx y hy
    rcases List.mem_cons.mp hy with rfl | hy
    · exact h1 x hx
    · exact hc.trans _ _ _ (h1 x hx) (h2 y hy)

theorem map_setSecond_of_not_mem (a : Nat) (w : V) (l : List (Nat × (K × V)))
    (h : a ∉ l.map Prod.fst) :
    l.map (fun p => if p.1 = a then (p.1, (p.2.1, w)) else p) = l := by
  induction l with
  | nil => rfl
  | cons p l ih =>
    simp only [List.map_cons, List.mem_cons, not_or] at h
    simp only [List.map_cons, ih h.2, if_neg (Ne.symm h.1)]

/-- The in-order sequence of cells after `insert`, from the split of the
sequence made by `insertHelper`. -/
theorem Tree.insert_cells_of_split (comp : K → K → Bool) [DecidableEq K] (f : Nat) (x : K × V)
    (t : Tree K V) (hnd : t.addrs.Nodup) {l1 old l2 : List (Nat × (K × V))}
    (e1 : t.cells = l1 ++ old ++ l2)
    (e2 : (t.insertHelper comp f x).1.cells
        = l1 ++ (if (t.insertHelper comp f x).2.2 then [(f, x)] else old) ++ l2)
    (hcase : ((t.insertHelper comp f x).2.2 = true ∧ old = [] ∧
        (t.insertHelper comp f x).2.1 = f) ∨
      ((t.insertHelper comp f x).2.2 = false ∧
        ∃ v, old = [((t.insertHelper comp f x).2.1, (x.1, v))])) :
    (t.insert comp f x).cells = l1 ++ ((t.insertHelper comp f x).2.1, x) :: l2 := by
  cases t with
  | nil =>
    simp only [Tree.cells, List.nil_eq, List.append_eq_nil] at e1
    obtain ⟨⟨rfl, rfl⟩, rfl⟩ := e1
    simp [Tree.insert, Tree.insertHelper, Tree.cells]
  | node a c l kv r =>
    simp only [Tree.insert, Tree.paint_cells, Tree.rebalanceHelper_cells]
    rcases hcase with ⟨hb, rfl, hit⟩ | ⟨hb, v, rfl⟩
    · simp only [hb, if_true, hit] at e2 ⊢
      simpa using e2
    · simp only [hb, Bool.false_eq_true, if_false] at e2 ⊢
      rw [Tree.setSecond_cells, e2]
      have hnd' : (l1 ++ [((Tree.insertHelper comp f x (node a c l kv r)).2.1, (x.1, v))]
          ++ l2).map Prod.fst |>.Nodup := by
        rw [← e1, Tree.cells_map_fst]
        exact hnd
      simp only [List.map_append, List.map_cons, List.map_nil, List.append_assoc,
        List.singleton_append] at hnd'
      have hnd'' := List.nodup_middle.mp hnd'
      rw [List.nodup_cons, List.mem_append, not_or] at hnd''
      simp only [List.map_append, List.map_cons, List.map_nil, if_true,
        map_setSecond_of_not_mem _ _ _ hnd''.1.1, map_setSecond_of_not_mem _ _ _ hnd''.1.2]
      simp

/-- The in-order sequence of cells after `insert`: the cell of the inserted
pair stands between the cells with smaller keys and those with greater keys,
where either no cell or the cell of the same key stood before. -/
theorem Tree.insert_cells {comp : K → K → Bool} [DecidableEq K] (hc : StrictTotal comp)
    (f : Nat) (x : K × V) (t : Tree K V) (ho : t.Ordered comp) (hnd : t.addrs.Nodup) :
    ∃ l1 old l2, t.cells = l1 ++ old ++ l2 ∧
      (t.insert comp f x).cells = l1 ++ ((t.insertHelper comp f x).2.1, x) :: l2 ∧
      (∀ p ∈ l1, comp p.2.1 x.1 = true) ∧ (∀ p ∈ l2, comp x.1 p.2.1 = true) ∧
      (((t.insertHelper comp f x).2.2 = true ∧ old = [] ∧ (t.insertHelper comp f x).2.1 = f) ∨
        ((t.insertHelper comp f x).2.2 = false ∧
          ∃ v, old = [((t.insertHelper comp f x).2.1, (x.1, v))])) := by
  obtain ⟨l1, old, l2, e1, e2, b1, b2, hcase⟩ := Tree.insertHelper_split hc f x t ho
  exact ⟨l1, old, l2, e1, Tree.insert_cells_of_split comp f x t hnd e1 e2 hcase, b1, b2, hcase⟩

/-! ## Extrema -/

theorem Tree.first_eq (d : Nat) (t : Tree K V) : t.first d = t.addrs.headD d := by
  induction t generalizing d with
  | nil => rfl
  | node a c l kv r ihl ihr =>
    simp only [Tree.first, Tree.addrs, ihl]
    cases l.addrs <;> rfl

theorem Tree.last_eq (d : Nat) (t : Tree K V) : t.last d = t.addrs.reverse.headD d := by
  induction t generalizing d with
  | nil => rfl
  | node a c l kv r ihl ihr =>
    simp only [Tree.last, Tree.addrs, ihr, List.reverse_append, List.reverse_cons,
      List.append_assoc]
    cases r.addrs.reverse <;> rfl

theorem Tree.size_eq_length_cells (t : Tree K V) : t.size = t.cells.length := by
  rw [← Tree.length_addrs, ← Tree.cells_map_fst, List.length_map]

theorem Tree.first_mem {t : Tree K V} {a : Nat} (h : t.root = some a) (d : Nat) :
    t.first d ∈ t.addrs := by
  rw [Tree.first_eq]
  have := Tree.root_mem h
  cases ha : t.addrs with
  | nil => rw [ha] at this; cases this
  | cons b bs => simp

theorem Tree.last_mem {t : Tree K V} {a : Nat} (h : t.root = some a) (d : Nat) :
    t.last d ∈ t.addrs := by
  rw [Tree.last_eq]
  have := List.mem_reverse.mpr (Tree.root_mem h)
  cases ha : t.addrs.reverse with
  | nil => rw [ha] at this; cases this
  | cons b bs =>
    have hb : b ∈ t.addrs.reverse := by rw [ha]; exact List.mem_cons_self _ _
    exact List.mem_reverse.mp hb

/-! ## The invariant is kept by `insert` -/

theorem split_pairwise {comp : K → K → Bool} {l1 old l2 : List (Nat × (K × V))} {it : Nat}
    {x : K × V}
    (h : ((l1 ++ old ++ l2).map fun p => p.2.1).Pairwise fun a b => comp a b = true)
    (b1 : ∀ p ∈ l1, comp p.2.1 x.1 = true) (b2 : ∀ p ∈ l2, comp x.1 p.2.1 = true) :
    ((l1 ++ (it, x) :: l2).map fun p => p.2.1).Pairwise fun a b => comp a b = true := by
  simp only [List.map_append, List.append_assoc, List.pairwise_append, List.mem_append,
    List.mem_map, List.map_cons, List.pairwise_cons, List.mem_cons] at h ⊢
  obtain ⟨h1, ⟨-, h2, -⟩, h3⟩ := h
  refine ⟨h1, ⟨?_, h2⟩, ?_⟩
  · rintro a ⟨p, hp, rfl⟩
    exact b2 p hp
  · rintro a ⟨p, hp, rfl⟩ b (rfl | hb)
    · exact b1 p hp
    · exact h3 _ ⟨p, hp, rfl⟩ b (Or.inr hb)

theorem split_first {comp : K → K → Bool} (hc : StrictTotal comp)
    {l1 old l2 rest : List (Nat × (K × V))} {it f : Nat} {x : K × V} {b : Bool}
    {p : Nat × (K × V)} (e : l1 ++ old ++ l2 = p :: rest)
    (b1 : ∀ p ∈ l1, comp p.2.1 x.1 = true) (b2 : ∀ p ∈ l2, comp x.1 p.2.1 = true)
    (hcase : (b = true ∧ old = [] ∧ it = f) ∨ (b = false ∧ ∃ v, old = [(it, (x.1, v))])) :
    ((l1 ++ (it, x) :: l2).map Prod.fst).headD 0 = if comp x.1 p.2.1 then it else p.1 := by
  cases l1 with
  | nil =>
    rcases hcase with ⟨-, rfl, -⟩ | ⟨-, v, rfl⟩
    · simp only [List.nil_append] at e
      have hp : p ∈ l2 := by rw [e]; exact List.mem_cons_self _ _
      simp [b2 p hp]
    · simp only [List.nil_append, List.singleton_append, List.cons.injEq] at e
      rw [← e.1]
      simp [hc.irrefl]
  | cons q l1 =>
    simp only [List.cons_append, List.cons.injEq] at e
    rw [← e.1]
    have := hc.asymm (b1 q (List.mem_cons_self _ _))
    simp [this]

theorem split_last {comp : K → K → Bool} (hc : StrictTotal comp)
    {l1 old l2 rest : List (Nat × (K × V))} {it f : Nat} {x : K × V} {b : Bool}
    {p : Nat × (K × V)} (e : (l1 ++ old ++ l2).reverse = p :: rest)
    (b1 : ∀ p ∈ l1, comp p.2.1 x.1 = true) (b2 : ∀ p ∈ l2, comp x.1 p.2.1 = true)
    (hcase : (b = true ∧ old = [] ∧ it = f) ∨ (b = false ∧ ∃ v, old = [(it, (x.1, v))])) :
    ((l1 ++ (it, x) :: l2).map Prod.fst).reverse.headD 0
      = if comp p.2.1 x.1 then it else p.1 := by
  rcases List.eq_nil_or_concat' l2 with rfl | ⟨l2, q, rfl⟩
  · rcases hcase with ⟨-, rfl, -⟩ | ⟨-, v, rfl⟩
    · simp only [List.append_nil] at e
      have hp : p ∈ l1 := by
        rw [← List.mem_reverse, e]; exact List.mem_cons_self _ _
      simp [b1 p hp]
    · simp only [List.append_nil, List.reverse_append, List.reverse_cons, List.reverse_nil,
        List.nil_append, List.singleton_append, List.cons.injEq] at e
      rw [← e.1]
      simp [hc.irrefl]
  · simp only [List.reverse_append, List.reverse_cons, List.reverse_nil, List.nil_append,
      List.singleton_append, List.cons_append, List.cons.injEq] at e
    rw [← e.1]
    have := hc.asymm (b2 q (by simp))
    simp [this]

theorem insert_inv {comp : K → K → Bool} [DecidableEq K] (hc : StrictTotal comp)
    {m : Map K V} {t : Tree K V} (x : K × V) (hinv : Inv comp m t) :
    ∃ m', insert comp m x = some (m', (t.insertHelper comp m.mem.length x).2) ∧
      Inv comp m' (t.insert comp m.mem.length x) ∧
      m'.mem.length = m.mem.length
        + (if (t.insertHelper comp m.mem.length x).2.2 then 1 else 0) := by
  obtain ⟨h, hh, hl, hr⟩ := hinv.cached
  obtain ⟨l1, old, l2, e1, e2, b1, b2, hcase⟩ :=
    Tree.insert_cells hc m.mem.length x t hinv.ordered hinv.shape.nodup
  have hrb := Tree.insert_redBlack comp m.mem.length x hinv.redBlack
  have hord : (t.insert comp m.mem.length x).Ordered comp := by
    apply Tree.ordered_of_pairwise
    rw [Tree.keys_eq, e2]
    have := Tree.pairwise_of_ordered hc hinv.ordered
    rw [Tree.keys_eq, e1] at this
    exact split_pairwise this b1 b2
  have hsz : (t.insert comp m.mem.length x).size
      = t.size + (if (t.insertHelper comp m.mem.length x).2.2 then 1 else 0) := by
    rw [Tree.size_eq_length_cells, Tree.size_eq_length_cells, e1, e2]
    rcases hcase with ⟨hb, rfl, -⟩ | ⟨hb, v, rfl⟩
    · simp [hb]
      omega
    · simp [hb]
  cases t with
  | nil =>
    obtain ⟨m', e, hs, hh', len, sz⟩ := insert_spec_nil comp x hinv.shape hh
    refine ⟨m', e, ⟨hs, ⟨_, hh', rfl, rfl⟩, hord, hrb, ?_⟩, by simpa [Tree.insertHelper] using len⟩
    rw [sz, hinv.size]
    rfl
  | node a c l kv r =>
    -- the cell of the minimum
    have hne : (node a c l kv r).cells ≠ [] := by simp [Tree.cells]
    obtain ⟨p, rest, ep⟩ := List.exists_cons_of_ne_nil hne
    have hlo : (node a c l kv r).first 0 = p.1 := by
      rw [Tree.first_eq, ← Tree.cells_map_fst, ep]
      rfl
    obtain ⟨nlo, hnlo, vlo⟩ := hinv.shape.rep.rd_cell
      (show (p.1, p.2) ∈ (node a c l kv r).cells by rw [ep]; exact List.mem_cons_self _ _)
    -- the cell of the maximum
    have hne' : (node a c l kv r).cells.reverse ≠ [] := by simp [Tree.cells]
    obtain ⟨q, rest', eq⟩ := List.exists_cons_of_ne_nil hne'
    have hhi : (node a c l kv r).last 0 = q.1 := by
      rw [Tree.last_eq, ← Tree.cells_map_fst, ← List.map_reverse, eq]
      rfl
    have hq : q ∈ (node a c l kv r).cells := by
      rw [← List.mem_reverse, eq]; exact List.mem_cons_self _ _
    obtain ⟨nhi, hnhi, vhi⟩ := hinv.shape.rep.rd_cell (show (q.1, q.2) ∈ _ from hq)
    rw [hlo] at hl
    rw [hhi] at hr
    obtain ⟨m', e, hs, hh', len, sz⟩ := insert_spec_node comp x hinv.shape hh rfl hl hr
      (hlo ▸ Tree.first_mem (Tree.root_node) 0) (hhi ▸ Tree.last_mem (Tree.root_node) 0)
      hnlo hnhi
    refine ⟨m', e, ⟨hs, ⟨_, hh', ?_, ?_⟩, hord, hrb, ?_⟩, len⟩
    · simp only [Option.some.injEq]
      rw [Tree.first_eq, ← Tree.cells_map_fst, e2, vlo]
      exact (split_first hc (e1 ▸ ep) b1 b2 hcase).symm
    · simp only [Option.some.injEq]
      rw [Tree.last_eq, ← Tree.cells_map_fst, e2, vhi]
      exact (split_last hc (e1 ▸ eq) b1 b2 hcase).symm
    · rw [sz, hsz, hinv.size]

/-! ## The walk from `begin()` to `end()` -/

theorem leftmost_spec (d : Nat) (t : Tree K V) : ∀ (m : Map K V) (par : Option Nat)
    (fuel a : Nat), Rep m par t → t.root = some a → t.height ≤ fuel →
    leftmost m fuel a = some (t.first d) := by
  induction t with
  | nil => intro m par fuel a _ h; cases h
  | node s c l kv r ihl _ =>
    intro m par fuel a h ha hf
    simp only [Tree.root_node, Option.some.injEq] at ha
    subst ha
    cases fuel with
    | zero => simp [Tree.height] at hf
    | succ f =>
      simp only [Tree.height, add_le_add_iff_right, max_le_iff] at hf
      simp only [leftmost, h.1, Option.bind_eq_bind, Option.some_bind, Tree.first]
      cases l with
      | nil => rfl
      | node la lc ll lkv lr =>
        simp only [Tree.root_node]
        rw [ihl m (some s) f la h.2.1 rfl hf.1]
        rfl

theorem climbRight_step {m : Map K V} {node p pp : Nat} {pn : RB_Node K V} (k : Nat)
    (hp : rd m p = some pn) (hr : pn.right = some node) (hpp : pn.parent = some pp) :
    climbRight m (k + 1) node p = climbRight m k p pp := by
  simp [climbRight, hp, hr, hpp]

theorem climbRight_stop {m : Map K V} {node p : Nat} {pn : RB_Node K V} (k : Nat)
    (hp : rd m p = some pn) (hr : pn.right ≠ some node) :
    climbRight m (k + 1) node p = some (node, p) := by
  simp [climbRight, hp, hr]

/-- The walk through a subtree: started at its leftmost node it visits the
nodes of the subtree in order and goes on at the node that follows the subtree,
provided the climb from the root of the subtree ends at that node. -/
theorem walk_subtree (t : Tree K V) : ∀ (m : Map K V) (pr after B F : Nat),
    Rep m (some pr) t → t.addrs.Nodup → 0 ∉ t.addrs → B + t.height ≤ fuelOf m →
    (∀ s, t.root = some s → ∀ fuel, B ≤ fuel →
      (climbRight m fuel s pr).bind (afterClimbRight m) = some after) →
    walkFrom m (F + t.size) (t.first after)
      = (walkFrom m F after).map fun rest => t.toList ++ rest := by
  induction t with
  | nil =>
    intro m pr after B F _ _ _ _ _
    simp [Tree.size, Tree.first, Tree.toList]
  | node s c l kv r ihl ihr =>
    intro m pr after B F hrep hnd h0 hB hexit
    obtain ⟨hs, hl, hr⟩ := hrep
    obtain ⟨hsl, hsr, hdis, hndl, hndr⟩ := Tree.nodup_node.mp hnd
    simp only [Tree.mem_addrs_node, not_or] at h0
    simp only [Tree.height] at hB
    have hlh : l.height ≤ max l.height r.height := le_max_left _ _
    have hrh : r.height ≤ max l.height r.height := le_max_right _ _
    -- the left subtree
    have e1 := ihl m s s 1 (F + 1 + r.size) hl hndl h0.2.1 (by omega) (by
      intro lr hlr fuel hfuel
      obtain ⟨k, rfl⟩ : ∃ k, fuel = k + 1 := ⟨fuel - 1, by omega⟩
      have hne : (⟨kv, some pr, l.root, r.root, c⟩ : RB_Node K V).right ≠ some lr := by
        intro e
        exact hdis lr (Tree.root_mem hlr) (Tree.root_mem e)
      rw [climbRight_stop k hs hne]
      cases l with
      | nil => cases hlr
      | node la lc ll lkv lr' =>
        simp only [Tree.root_node, Option.some.injEq] at hlr
        subst hlr
        have hne' : lr'.root ≠ some s := fun e =>
          hsl (Tree.mem_addrs_node.mpr (Or.inr (Or.inr (Tree.root_mem e))))
        simp [afterClimbRight, hl.1, hne'])
    -- the step from the root of the subtree
    have hinc : increment m s = some (r.first after) := by
      simp only [increment, inorderSuccessor, hs, Option.bind_eq_bind, Option.some_bind]
      cases r with
      | nil =>
        simp only [Tree.root_nil, Tree.first]
        exact hexit s rfl (fuelOf m) (by omega)
      | node ra rc rl rrkv rr =>
        simp only [Tree.root_node]
        exact leftmost_spec after _ m (some s) (fuelOf m) ra hr rfl (by omega)
    -- the right subtree
    have e2 := ihr m s after (B + 1) F hr hndr h0.2.2 (by omega) (by
      intro rr hrr fuel hfuel
      obtain ⟨k, rfl⟩ : ∃ k, fuel = k + 1 := ⟨fuel - 1, by omega⟩
      rw [climbRight_step k hs hrr rfl]
      exact hexit s rfl k (by omega))
    have hsz : F + (node s c l kv r).size = F + 1 + r.size + l.size := by
      simp only [Tree.size]; omega
    rw [hsz, Tree.first, e1]
    have hw : walkFrom m (F + 1 + r.size) s
        = (walkFrom m F after).map fun rest => kv :: (r.toList ++ rest) := by
      have : F + 1 + r.size = (F + r.size) + 1 := by omega
      rw [this, walkFrom]
      simp only [endIt, Ne.symm h0.1, if_false, hs, hinc, e2, Option.bind_eq_bind,
        Option.some_bind, Option.pure_def]
      cases walkFrom m F after <;> rfl
    rw [hw]
    cases walkFrom m F after with
    | none => rfl
    | some rest => simp [Tree.toList]

/-- The climb that leaves the whole tree ends at the sentinel. -/
theorem climb_root_exit {m : Map K V} {t : Tree K V} {s : Nat} (hs : Shape m t)
    (hc : Cached m t) (hroot : t.root = some s) (fuel : Nat) (hf : 2 ≤ fuel) :
    (climbRight m fuel s 0).bind (afterClimbRight m) = some 0 := by
  obtain ⟨h, hh, hl, hr⟩ := hc
  obtain ⟨h', hh', hp⟩ := hs.head
  rw [hh] at hh'
  cases hh'
  obtain ⟨k, rfl⟩ : ∃ k, fuel = k + 2 := ⟨fuel - 2, by omega⟩
  cases t with
  | nil => cases hroot
  | node a c l kv r =>
    simp only [Tree.root_node, Option.some.injEq] at hroot
    subst hroot
    have ha := hs.rep.1
    have h0 := hs.notHead
    simp only [Tree.mem_addrs_node, not_or] at h0
    cases r with
    | nil =>
      simp only [Tree.last] at hr
      rw [climbRight_step (k + 1) hh hr hp]
      have hne : (⟨kv, some 0, l.root, (nil : Tree K V).root, c⟩ : RB_Node K V).right ≠ some 0 := by
        simp
      rw [climbRight_stop k ha hne]
      simp [afterClimbRight, hh, hr]
    | node ra rc rl rkv rr =>
      have hlast : (node a c l kv (node ra rc rl rkv rr)).last 0 ≠ a := by
        have hmem : (node ra rc rl rkv rr).last a ∈ (node ra rc rl rkv rr).addrs :=
          Tree.last_mem Tree.root_node a
        intro e
        simp only [Tree.last] at e hmem
        rw [e] at hmem
        exact (Tree.nodup_node.mp hs.nodup).2.1 hmem
      have hne : h.right ≠ some a := by
        rw [hr]
        simpa using hlast
      rw [climbRight_stop (k + 1) hh hne]
      have hne' : some ra ≠ some 0 := by
        have := h0.2.2
        simp only [Tree.mem_addrs_node, not_or] at this
        simpa using Ne.symm this.1
      simp [afterClimbRight, ha, hne']

/-- The walk from `begin()` to `end()` visits the values of the tree in order. -/
theorem toList_spec {m : Map K V} {t : Tree K V} (hs : Shape m t) (hc : Cached m t) :
    toList m = some t.toList := by
  obtain ⟨h, hh, hl, hr⟩ := hc
  have hsize := hs.rep.size_le hs.nodup
  have hheight := t.height_le_size
  have hfuel : fuelOf m = (fuelOf m - t.size) + t.size := by
    simp only [fuelOf]; omega
  have hw := walk_subtree t m 0 0 2 (fuelOf m - t.size) hs.rep hs.nodup hs.notHead
    (by simp only [fuelOf]; omega)
    (fun s hroot fuel hf => climb_root_exit hs ⟨h, hh, hl, hr⟩ hroot fuel hf)
  rw [← hfuel] at hw
  simp only [toList, beginIt, hh, hl, Option.bind_eq_bind, Option.some_bind, hw]
  obtain ⟨k, hk⟩ : ∃ k, fuelOf m - t.size = k + 1 :=
    ⟨fuelOf m - t.size - 1, by simp only [fuelOf]; omega⟩
  rw [hk]
  simp [walkFrom, endIt]

/-! ## Lookup -/

theorem findHelper_spec (comp : K → K → Bool) [DecidableEq K] (k : K) (t : Tree K V) :
    ∀ (fuel : Nat) (m : Map K V) (par : Option Nat), Rep m par t → t.height < fuel →
      findHelper comp m fuel t.root k = some (t.findHelper comp k) := by
  induction t with
  | nil =>
    intro fuel m par _ hf
    cases fuel with
    | zero => cases hf
    | succ f => rfl
  | node a c l kv r ihl ihr =>
    intro fuel m par h hf
    cases fuel with
    | zero => cases hf
    | succ f =>
      simp only [Tree.height, add_lt_add_iff_right, max_lt_iff] at hf
      simp only [Tree.root_node, findHelper, h.1, Option.bind_eq_bind, Option.some_bind,
        Tree.findHelper, Option.pure_def]
      split_ifs with h1 h2
      · rfl
      · exact ihl f m (some a) h.2.1 hf.1
      · exact ihr f m (some a) h.2.2 hf.2

theorem find_spec (comp : K → K → Bool) [DecidableEq K] {m : Map K V} {t : Tree K V} (k : K)
    (hs : Shape m t) : find comp m k = some ((t.findHelper comp k).getD endIt) := by
  obtain ⟨h, hh, hp⟩ := hs.head
  simp only [find, hh, hp, Option.bind_eq_bind, Option.some_bind,
    findHelper_spec comp k t (fuelOf m) m (some 0) hs.rep (hs.rep.height_lt_fuel hs.nodup)]
  cases t.findHelper comp k <;> rfl

theorem count_spec (comp : K → K → Bool) [DecidableEq K] {m : Map K V} {t : Tree K V} (k : K)
    (hs : Shape m t) :
    count comp m k = some (if (t.findHelper comp k).isSome then 1 else 0) := by
  obtain ⟨h, hh, hp⟩ := hs.head
  simp only [count, hh, hp, Option.bind_eq_bind, Option.some_bind,
    findHelper_spec comp k t (fuelOf m) m (some 0) hs.rep (hs.rep.height_lt_fuel hs.nodup),
    Option.pure_def]

/-- In an ordered tree the descent of `findHelper` reaches the cell of the key. -/
theorem Tree.findHelper_of_mem {comp : K → K → Bool} [DecidableEq K] (hc : StrictTotal comp)
    {t : Tree K V} (ho : t.Ordered comp) {a : Nat} {k : K} {v : V}
    (h : (a, (k, v)) ∈ t.cells) : t.findHelper comp k = some a := by
  induction t with
  | nil => cases h
  | node b c l kv r ihl ihr =>
    obtain ⟨h1, h2, h3, h4⟩ := ho
    simp only [Tree.findHelper]
    rcases Tree.mem_cells_node.mp h with e | hl | hr
    · cases e
      simp
    · have hk := h1 k (Tree.key_mem_of_mem_cells hl)
      rw [if_neg (Ne.symm (hc.ne hk)), if_pos hk]
      exact ihl h3 hl
    · have hk := h2 k (Tree.key_mem_of_mem_cells hr)
      rw [if_neg (hc.ne hk), if_neg (by rw [hc.asymm hk]; simp)]
      exact ihr h4 hr

/-- The descent of `findHelper` fails for a key that is not in the tree. -/
theorem Tree.findHelper_of_not_mem (comp : K → K → Bool) [DecidableEq K] {t : Tree K V} {k : K}
    (h : k ∉ t.keys) : t.findHelper comp k = none := by
  induction t with
  | nil => rfl
  | node b c l kv r ihl ihr =>
    rw [Tree.keys_node] at h
    simp only [List.mem_append, List.mem_cons, not_or] at h
    simp only [Tree.findHelper, if_neg (Ne.symm h.2.1), ihl h.1, ihr h.2.2, ite_self]

/-! ## Maps built by insertions -/

theorem inv_empty (comp : K → K → Bool) [Inhabited K] [Inhabited V] :
    Inv comp (empty : Map K V) nil :=
  { shape := ⟨⟨_, rfl, rfl⟩, trivial, List.nodup_nil, List.not_mem_nil 0⟩
    cached := ⟨_, rfl, rfl, rfl⟩
    ordered := trivial
    redBlack := ⟨rfl, trivial, 0, rfl⟩
    size := rfl }

theorem isLast_append_singleton (L : List (K × V)) (x : K × V) (k : K) (v : V) :
    IsLast (L ++ [x]) k v ↔ (k = x.1 ∧ v = x.2) ∨ (k ≠ x.1 ∧ IsLast L k v) := by
  constructor
  · rintro ⟨L1, L2, e, h⟩
    rcases List.eq_nil_or_concat' L2 with rfl | ⟨L2', q, rfl⟩
    · have := List.append_inj' e (by simp)
      simp only [List.cons.injEq, and_true] at this
      left
      rw [this.2]
      exact ⟨rfl, rfl⟩
    · rw [← List.cons_append, ← List.append_assoc] at e
      have := List.append_inj' e (by simp)
      simp only [List.cons.injEq, and_true] at this
      right
      refine ⟨?_, L1, L2', this.1, fun p hp => h p (by simp [hp])⟩
      rw [this.2]
      exact Ne.symm (h q (by simp))
  · rintro (⟨rfl, rfl⟩ | ⟨hne, L1, L2, rfl, h⟩)
    · exact ⟨L, [], rfl, by simp⟩
    · refine ⟨L1, L2 ++ [x], by simp, ?_⟩
      intro p hp
      rcases List.mem_append.mp hp with hp | hp
      · exact h p hp
      · simp only [List.mem_singleton] at hp
        rw [hp]
        exact Ne.symm hne

/-- Values of the tree after `insert`: the inserted pair, and the pairs of the
other keys as before. -/
theorem Tree.mem_toList_insert {comp : K → K → Bool} [DecidableEq K] (hc : StrictTotal comp)
    (f : Nat) (x : K × V) {t : Tree K V} (ho : t.Ordered comp) (hnd : t.addrs.Nodup)
    (k : K) (v : V) :
    (k, v) ∈ (t.insert comp f x).toList ↔
      (k = x.1 ∧ v = x.2) ∨ (k ≠ x.1 ∧ (k, v) ∈ t.toList) := by
  obtain ⟨l1, old, l2, e1, e2, b1, b2, hcase⟩ := Tree.insert_cells hc f x t ho hnd
  rw [← Tree.cells_map_snd, ← Tree.cells_map_snd, e1, e2]
  have n1 : ∀ p ∈ l1, p.2.1 ≠ x.1 := fun p hp => hc.ne (b1 p hp)
  have n2 : ∀ p ∈ l2, p.2.1 ≠ x.1 := fun p hp => Ne.symm (hc.ne (b2 p hp))
  simp only [List.map_append, List.map_cons, List.mem_append, List.mem_cons, List.mem_map]
  constructor
  · rintro (⟨p, hp, e⟩ | e | ⟨p, hp, e⟩)
    · exact Or.inr ⟨by have := n1 p hp; rw [e] at this; exact this,
        Or.inl (Or.inl ⟨p, hp, e⟩)⟩
    · exact Or.inl ⟨by rw [← e], by rw [← e]⟩
    · exact Or.inr ⟨by have := n2 p hp; rw [e] at this; exact this, Or.inr ⟨p, hp, e⟩⟩
  · rintro (⟨rfl, rfl⟩ | ⟨hne, (⟨p, hp, e⟩ | ⟨p, hp, e⟩) | ⟨p, hp, e⟩⟩)
    · exact Or.inr (Or.inl rfl)
    · exact Or.inl ⟨p, hp, e⟩
    · exfalso
      rcases hcase with ⟨-, rfl, -⟩ | ⟨-, w, rfl⟩
      · cases hp
      · simp only [List.mem_singleton] at hp
        rw [hp] at e
        exact hne (by cases e; rfl)
    · exact Or.inr (Or.inr ⟨p, hp, e⟩)

theorem foldlM_insert_inv {comp : K → K → Bool} [DecidableEq K] (hc : StrictTotal comp)
    (rest : List (K × V)) : ∀ (m : Map K V) (t : Tree K V) (done : List (K × V)),
    Inv comp m t → (∀ k v, (k, v) ∈ t.toList ↔ IsLast done k v) →
    ∃ m' t', rest.foldlM (fun m val => (insert comp m val).map fun r => r.1) m = some m' ∧
      Inv comp m' t' ∧ (∀ k v, (k, v) ∈ t'.toList ↔ IsLast (done ++ rest) k v) := by
  induction rest with
  | nil =>
    intro m t done hinv hcont
    exact ⟨m, t, rfl, hinv, by simpa using hcont⟩
  | cons x rest ih =>
    intro m t done hinv hcont
    obtain ⟨m1, e1, hinv1, -⟩ := insert_inv hc x hinv
    have hcont1 : ∀ k v, (k, v) ∈ (t.insert comp m.mem.length x).toList ↔
        IsLast (done ++ [x]) k v := by
      intro k v
      rw [Tree.mem_toList_insert hc _ x hinv.ordered hinv.shape.nodup,
        isLast_append_singleton, hcont]
    obtain ⟨m', t', e', hinv', hcont'⟩ := ih m1 _ (done ++ [x]) hinv1 hcont1
    refine ⟨m', t', ?_, hinv', by simpa using hcont'⟩
    simp only [List.foldlM_cons, e1, Option.map_some', Option.bind_eq_bind, Option.some_bind]
    exact e'

/-- A map built from a list by insertions satisfies the invariant, and its
tree holds, for every key of the list, the last pair with that key. -/
theorem ofList_inv {comp : K → K → Bool} [DecidableEq K] [Inhabited K] [Inhabited V]
    (hc : StrictTotal comp) (L : List (K × V)) :
    ∃ m t, ofList comp L = some m ∧ Inv comp m t ∧
      (∀ k v, (k, v) ∈ t.toList ↔ IsLast L k v) := by
  have := foldlM_insert_inv hc L empty nil [] (inv_empty comp) (by
    intro k v
    constructor
    · intro h; cases h
    · rintro ⟨L1, L2, e, -⟩
      simp at e)
  simpa [ofList] using this

theorem mem_keys_of_isLast {L : List (K × V)} [DecidableEq K] (k : K) :
    (∃ v, IsLast L k v) ↔ k ∈ L.map Prod.fst := by
  constructor
  · rintro ⟨v, L1, L2, rfl, -⟩
    simp
  · intro h
    induction L using List.reverseRecOn with
    | nil => cases h
    | append_singleton L x ih =>
      by_cases hk : k = x.1
      · exact ⟨x.2, (isLast_append_singleton L x k x.2).mpr (Or.inl ⟨hk, rfl⟩)⟩
      · simp only [List.map_append, List.map_cons, List.map_nil, List.mem_append,
          List.mem_singleton, hk, or_false] at h
        obtain ⟨v, hv⟩ := ih h
        exact ⟨v, (isLast_append_singleton L x k v).mpr (Or.inr ⟨hk, hv⟩)⟩

theorem at_spec (comp : K → K → Bool) [DecidableEq K] {m : Map K V} {t : Tree K V} {k k' : K}
    {a : Nat} {v : V} (hs : Shape m t) (hf : t.findHelper comp k = some a)
    (hc : (a, (k', v)) ∈ t.cells) : at_ comp m k = some (some v) := by
  obtain ⟨h, hh, hp⟩ := hs.head
  obtain ⟨n, hn, hv⟩ := hs.rep.rd_cell hc
  simp only [at_, hh, hp, Option.bind_eq_bind, Option.some_bind,
    findHelper_spec comp k t (fuelOf m) m (some 0) hs.rep (hs.rep.height_lt_fuel hs.nodup),
    hf, hn, Option.pure_def, hv]

theorem Tree.keys_nodup {comp : K → K → Bool} (hc : StrictTotal comp) {t : Tree K V}
    (ho : t.Ordered comp) : t.keys.Nodup :=
  (Tree.pairwise_of_ordered hc ho).imp fun h => hc.ne h

/-! ## Claims on insertion -/

/-- For a strict total order `comp` and every list `L` of pairs, the map
built from `L` by `insert` of each element in order exists, the walk from
`begin()` to `end()` visits keys that are strictly increasing, these are
exactly the keys of `L`, each visited pair is the last pair of `L` with its
key, and `size()` is the number of distinct keys of `L`. -/
theorem ofList_walk_sorted_last_values {comp : K → K → Bool} [DecidableEq K] [Inhabited K]
    [Inhabited V] (hc : StrictTotal comp) (L : List (K × V)) :
    ∃ m out, ofList comp L = some m ∧ toList m = some out ∧
      (out.map Prod.fst).Pairwise (fun a b => comp a b = true) ∧
      (∀ k, k ∈ out.map Prod.fst ↔ k ∈ L.map Prod.fst) ∧
      (∀ k v, (k, v) ∈ out ↔ IsLast L k v) ∧
      size m = (L.map Prod.fst).dedup.length := by
  obtain ⟨m, t, hm, hinv, hcont⟩ := ofList_inv hc L
  have hkeys : ∀ k, k ∈ t.toList.map Prod.fst ↔ k ∈ L.map Prod.fst := by
    intro k
    constructor
    · intro h
      obtain ⟨⟨k', v⟩, hp, rfl⟩ := List.mem_map.mp h
      exact (mem_keys_of_isLast k').mp ⟨v, (hcont k' v).mp hp⟩
    · intro h
      obtain ⟨v, hv⟩ := (mem_keys_of_isLast k).mpr h
      exact List.mem_map.mpr ⟨(k, v), (hcont k v).mpr hv, rfl⟩
  refine ⟨m, t.toList, hm, toList_spec hinv.shape hinv.cached,
    Tree.pairwise_of_ordered hc hinv.ordered, hkeys, hcont, ?_⟩
  have hperm : (t.toList.map Prod.fst).Perm (L.map Prod.fst).dedup :=
    (List.perm_ext_iff_of_nodup (Tree.keys_nodup hc hinv.ordered) (List.nodup_dedup _)).mpr
      fun k => by rw [Tree.keys, hkeys, List.mem_dedup]
  rw [← hperm.length_eq, List.length_map, size, hinv.size, Tree.size_eq_length_cells,
    ← Tree.cells_map_snd, List.length_map]

/-- The preceding statement at the list of the driver: the map built from the keys 2, 5, 1, 4. -/
theorem ofList_walk_sorted_last_values_example :
    StrictTotal natLess ∧
    ∃ m out, ofList natLess [(2, 20), (5, 50), (1, 10), (4, 40)] = some m ∧
      toList m = some out ∧
      (out.map Prod.fst).Pairwise (fun a b => natLess a b = true) ∧
      (∀ k, k ∈ out.map Prod.fst ↔ k ∈ [(2, 20), (5, 50), (1, 10), (4, 40)].map Prod.fst) ∧
      (∀ k v, (k, v) ∈ out ↔ IsLast [(2, 20), (5, 50), (1, 10), (4, 40)] k v) ∧
      size m = ([(2, 20), (5, 50), (1, 10), (4, 40)].map Prod.fst).dedup.length :=
  ⟨natLess_strictTotal,
    ofList_walk_sorted_last_values natLess_strictTotal [(2, 20), (5, 50), (1, 10), (4, 40)]⟩

/-! ## `insert` on a store whose extrema links refer to nodes -/

theorem Tree.mem_insert_addrs (comp : K → K → Bool) [DecidableEq K] (f : Nat) (x : K × V)
    (t : Tree K V) (y : Nat) (hy : y ∈ t.addrs) : y ∈ (t.insert comp f x).addrs := by
  cases t with
  | nil => cases hy
  | node a c l kv r =>
    simp only [Tree.insert, Tree.paint_addrs, Tree.rebalanceHelper_addrs]
    split_ifs
    · exact (Tree.mem_insertHelper_addrs comp f x _ y).mpr (Or.inl hy)
    · rw [Tree.setSecond_addrs]
      exact (Tree.mem_insertHelper_addrs comp f x _ y).mpr (Or.inl hy)

theorem Tree.insert_it_mem (comp : K → K → Bool) [DecidableEq K] (f : Nat) (x : K × V)
    (t : Tree K V) : (t.insertHelper comp f x).2.1 ∈ (t.insert comp f x).addrs := by
  cases t with
  | nil => simp [Tree.insert, Tree.insertHelper, Tree.addrs]
  | node a c l kv r =>
    simp only [Tree.insert, Tree.paint_addrs, Tree.rebalanceHelper_addrs]
    split_ifs
    · exact Tree.insertHelper_mem comp f x _
    · rw [Tree.setSecond_addrs]
      exact Tree.insertHelper_mem comp f x _

theorem Cached.ends {m : Map K V} {t : Tree K V} (hc : Cached m t) : Ends m t := by
  obtain ⟨h, hh, hl, hr⟩ := hc
  refine ⟨h, _, _, hh, hl, hr, fun hne => ?_⟩
  cases t with
  | nil => exact absurd rfl hne
  | node a c l kv r => exact ⟨Tree.first_mem Tree.root_node 0, Tree.last_mem Tree.root_node 0⟩

/-- On a store that holds a tree and whose extrema links refer to nodes,
`insert` returns, with the iterator and flag of `insertHelper`; the store then
holds the tree after `insert`, its extrema links refer to nodes, and `_size`
has grown by one exactly when a node was added. -/
theorem insert_ends (comp : K → K → Bool) [DecidableEq K] {m : Map K V} {t : Tree K V}
    (x : K × V) (hs : Shape m t) (he : Ends m t) :
    ∃ m', insert comp m x = some (m', (t.insertHelper comp m.mem.length x).2) ∧
      Shape m' (t.insert comp m.mem.length x) ∧ Ends m' (t.insert comp m.mem.length x) ∧
      m'._size = m._size + (if (t.insertHelper comp m.mem.length x).2.2 then 1 else 0) := by
  obtain ⟨h, lo, hi, hh, hl, hr, hmem⟩ := he
  have hit := Tree.insert_it_mem comp m.mem.length x t
  have hsub := Tree.mem_insert_addrs comp m.mem.length x t
  cases t with
  | nil =>
    obtain ⟨m', e, hs', hh', len, sz⟩ := insert_spec_nil comp x hs hh
    refine ⟨m', e, hs', ⟨_, _, _, hh', rfl, rfl, fun _ => ?_⟩, sz⟩
    simp [Tree.insert, Tree.addrs]
  | node a c l kv r =>
    obtain ⟨hlo, hhi⟩ := hmem (by simp)
    obtain ⟨klo, hklo⟩ := Tree.exists_cell_of_mem_addrs hlo
    obtain ⟨khi, hkhi⟩ := Tree.exists_cell_of_mem_addrs hhi
    obtain ⟨nlo, hnlo, -⟩ := hs.rep.rd_cell hklo
    obtain ⟨nhi, hnhi, -⟩ := hs.rep.rd_cell hkhi
    obtain ⟨m', e, hs', hh', len, sz⟩ := insert_spec_node comp x hs hh rfl hl hr
      hlo hhi hnlo hnhi
    refine ⟨m', e, hs', ⟨_, _, _, hh', rfl, rfl, fun _ => ⟨?_, ?_⟩⟩, sz⟩
    · split_ifs
      · exact hit
      · exact hsub _ hlo
    · split_ifs
      · exact hit
      · exact hsub _ hhi

/-- C3: `insert` keeps the red-black colour invariants.  If the map holds a
tree (with the sentinel's extrema links referring to nodes of it) whose root is
Black, in which no Red node has a Red child and all paths to absent children
count the same number of Black nodes, then `insert` of any pair returns, and the
map then holds a tree with the same properties; this includes the first
insertion into the empty tree.  No property of the comparator is used. -/
theorem C3_insert_keeps_red_black (comp : K → K → Bool) [DecidableEq K] (m : Map K V)
    (t : Tree K V) (val : K × V) (hs : Shape m t) (he : Ends m t) (hrb : t.RedBlack) :
    ∃ m' it b t', insert comp m val = some (m', it, b) ∧ Shape m' t' ∧ Ends m' t' ∧
      t'.RedBlack := by
  obtain ⟨m', e, hs', he', -⟩ := insert_ends comp val hs he
  exact ⟨m', _, _, _, e, hs', he', Tree.insert_redBlack comp _ val hrb⟩

theorem oneNode_shape : Shape oneNodeMap oneNodeTree :=
  ⟨⟨_, rfl, rfl⟩, ⟨rfl, trivial, trivial⟩, by simp [oneNodeTree, Tree.addrs],
    by simp [oneNodeTree, Tree.addrs]⟩

theorem oneNode_redBlack : oneNodeTree.RedBlack :=
  ⟨rfl, ⟨by simp, trivial, trivial⟩, 1, 0, rfl, rfl, rfl⟩

theorem oneNode_ends : Ends oneNodeMap oneNodeTree :=
  ⟨_, 1, 1, rfl, rfl, rfl, fun _ => by simp [oneNodeTree, Tree.addrs]⟩

/-- C3 at the map that holds the single key 1, for `insert` of the key 2. -/
theorem C3_witness :
    (Shape oneNodeMap oneNodeTree ∧ Ends oneNodeMap oneNodeTree ∧ oneNodeTree.RedBlack) ∧
    ∃ m' it b t', insert natLess oneNodeMap (2, 20) = some (m', it, b) ∧ Shape m' t' ∧
      Ends m' t' ∧ t'.RedBlack :=
  ⟨⟨oneNode_shape, oneNode_ends, oneNode_redBlack⟩,
    C3_insert_keeps_red_black natLess oneNodeMap oneNodeTree (2, 20) oneNode_shape
      oneNode_ends oneNode_redBlack⟩

/-! ## Insertion under a strict weak ordering -/

theorem StrictWeak.flip_false {comp : K → K → Bool} (hw : StrictWeak comp) {a b : K}
    (h : comp a b = true) : comp b a = false := by
  cases hb : comp b a with
  | false => rfl
  | true =>
    have := hw.trans a b a h hb
    rw [hw.irrefl] at this
    cases this

/-- The in-order sequence splits around the place of the key: no cell before it
holds a greater key, no cell after it a smaller key; `insertHelper` either puts
the new cell there or finds a cell of the same key there. -/
theorem Tree.insertHelper_splitW {comp : K → K → Bool} [DecidableEq K] (hw : StrictWeak comp)
    (f : Nat) (x : K × V) (t : Tree K V) (ho : t.keys.Pairwise fun a b => comp b a = false) :
    ∃ l1 old l2, t.cells = l1 ++ old ++ l2 ∧
      (t.insertHelper comp f x).1.cells
        = l1 ++ (if (t.insertHelper comp f x).2.2 then [(f, x)] else old) ++ l2 ∧
      (∀ p ∈ l1, comp x.1 p.2.1 = false) ∧ (∀ p ∈ l2, comp p.2.1 x.1 = false) ∧
      (((t.insertHelper comp f x).2.2 = true ∧ old = [] ∧ (t.insertHelper comp f x).2.1 = f) ∨
        ((t.insertHelper comp f x).2.2 = false ∧
          ∃ v, old = [((t.insertHelper comp f x).2.1, (x.1, v))])) := by
  induction t with
  | nil =>
    exact ⟨[], [], [], rfl, by simp [Tree.insertHelper, Tree.cells], by simp, by simp,
      Or.inl ⟨rfl, rfl, rfl⟩⟩
  | node a c l kv r ihl ihr =>
    rw [Tree.keys_node, List.pairwise_append, List.pairwise_cons] at ho
    obtain ⟨hol, ⟨hrk, hor⟩, hlk⟩ := ho
    simp only [Tree.insertHelper]
    by_cases h1 : x.1 = kv.1
    · simp only [if_pos h1]
      refine ⟨l.cells, [(a, kv)], r.cells, by simp [Tree.cells], by simp [Tree.cells], ?_, ?_,
        Or.inr ⟨by simp, kv.2, ?_⟩⟩
      · intro p hp
        rw [h1]
        exact hlk _ (Tree.key_mem_of_mem_cells hp) kv.1 (List.mem_cons_self _ _)
      · intro p hp
        rw [h1]
        exact hrk _ (Tree.key_mem_of_mem_cells hp)
      · rw [h1]
    · simp only [if_neg h1]
      by_cases h2 : comp x.1 kv.1 = true
      · simp only [if_pos h2]
        obtain ⟨l1, old, l2, e1, e2, b1, b2, hcase⟩ := ihl hol
        refine ⟨l1, old, l2 ++ (a, kv) :: r.cells, by simp [Tree.cells, e1],
          by simp [Tree.cells, e2], b1, ?_, hcase⟩
        intro p hp
        rcases List.mem_append.mp hp with hp | hp
        · exact b2 p hp
        · rcases List.mem_cons.mp hp with rfl | hp
          · exact hw.flip_false h2
          · cases h3 : comp p.2.1 x.1 with
            | false => rfl
            | true =>
              have := hw.trans _ _ _ h3 h2
              rw [hrk _ (Tree.key_mem_of_mem_cells hp)] at this
              cases this
      · simp only [if_neg h2]
        obtain ⟨l1, old, l2, e1, e2, b1, b2, hcase⟩ := ihr hor
        have h2' : comp x.1 kv.1 = false := by simpa using h2
        refine ⟨l.cells ++ (a, kv) :: l1, old, l2, by simp [Tree.cells, e1],
          by simp [Tree.cells, e2], ?_, b2, hcase⟩
        intro p hp
        rcases List.mem_append.mp hp with hp | hp
        · cases h3 : comp x.1 p.2.1 with
          | false => rfl
          | true =>
            rcases hw.cotrans _ _ kv.1 h3 with h4 | h4
            · rw [h2'] at h4
              cases h4
            · rw [hlk _ (Tree.key_mem_of_mem_cells hp) kv.1 (List.mem_cons_self _ _)] at h4
              cases h4
        · rcases List.mem_cons.mp hp with rfl | hp
          · exact h2'
          · exact b1 p hp

theorem split_pairwiseW {comp : K → K → Bool} {l1 old l2 : List (Nat × (K × V))} {it : Nat}
    {x : K × V}
    (h : ((l1 ++ old ++ l2).map fun p => p.2.1).Pairwise fun a b => comp b a = false)
    (b1 : ∀ p ∈ l1, comp x.1 p.2.1 = false) (b2 : ∀ p ∈ l2, comp p.2.1 x.1 = false) :
    ((l1 ++ (it, x) :: l2).map fun p => p.2.1).Pairwise fun a b => comp b a = false := by
  simp only [List.map_append, List.append_assoc, List.pairwise_append, List.mem_append,
    List.mem_map, List.map_cons, List.pairwise_cons, List.mem_cons] at h ⊢
  obtain ⟨h1, ⟨-, h2, -⟩, h3⟩ := h
  refine ⟨h1, ⟨?_, h2⟩, ?_⟩
  · rintro a ⟨p, hp, rfl⟩
    exact b2 p hp
  · rintro a ⟨p, hp, rfl⟩ b (rfl | hb)
    · exact b1 p hp
    · exact h3 _ ⟨p, hp, rfl⟩ b (Or.inr hb)

/-- The descent of `findHelper` reaches a cell of the key that stands after the
cells with smaller keys and before the cells with greater keys. -/
theorem Tree.findHelper_of_split {comp : K → K → Bool} [DecidableEq K] (hw : StrictWeak comp)
    {a : Nat} {k : K} {v : V} (t : Tree K V) : ∀ (l1 l2 : List (Nat × (K × V))),
    t.cells = l1 ++ (a, (k, v)) :: l2 → (∀ p ∈ l1, comp p.2.1 k = true) →
    (∀ p ∈ l2, comp k p.2.1 = true) → t.findHelper comp k = some a := by
  induction t with
  | nil =>
    intro l1 l2 e
    simp [Tree.cells] at e
  | node b c l kv r ihl ihr =>
    intro l1 l2 e b1 b2
    simp only [Tree.cells] at e
    simp only [Tree.findHelper]
    rcases List.append_eq_append_iff.mp e with ⟨a', e3, e4⟩ | ⟨c', e3, e4⟩
    · cases a' with
      | nil =>
        simp only [List.nil_append, List.cons.injEq] at e4
        cases e4.1
        simp
      | cons q a' =>
        simp only [List.cons_append, List.cons.injEq] at e4
        have hq : comp kv.1 k = true := by
          have := b1 q (by rw [e3]; simp)
          rw [← e4.1] at this
          exact this
        have hne : kv.1 ≠ k := by
          rintro h
          rw [h, hw.irrefl] at hq
          cases hq
        rw [if_neg hne, if_neg (by rw [hw.flip_false hq]; simp)]
        exact ihr a' l2 e4.2 (fun p hp => b1 p (by rw [e3]; simp [hp])) b2
    · cases c' with
      | nil =>
        simp only [List.nil_append, List.cons.injEq] at e4
        cases e4.1
        simp
      | cons q c' =>
        simp only [List.cons_append, List.cons.injEq] at e4
        have hq : comp k kv.1 = true := b2 (b, kv) (by rw [e4.2]; simp)
        have hne : kv.1 ≠ k := by
          rintro h
          rw [h, hw.irrefl] at hq
          cases hq
        rw [if_neg hne, if_pos hq]
        rw [← e4.1] at e3
        exact ihl l1 c' e3 b1 (fun p hp => b2 p (by rw [e4.2]; simp [hp]))

theorem insert_invW {comp : K → K → Bool} [DecidableEq K] (hw : StrictWeak comp)
    {m : Map K V} {t : Tree K V} (x : K × V) (hinv : InvW comp m t) :
    ∃ m', insert comp m x = some (m', (t.insertHelper comp m.mem.length x).2) ∧
      InvW comp m' (t.insert comp m.mem.length x) := by
  obtain ⟨m', e, hs, he, sz⟩ := insert_ends comp x hinv.shape hinv.ends
  obtain ⟨l1, old, l2, e1, e2', b1, b2, hcase⟩ :=
    Tree.insertHelper_splitW hw m.mem.length x t hinv.sorted
  have e2 := Tree.insert_cells_of_split comp m.mem.length x t hinv.shape.nodup e1 e2' hcase
  have hord : (t.insert comp m.mem.length x).keys.Pairwise fun a b => comp b a = false := by
    rw [Tree.keys_eq, e2]
    have := hinv.sorted
    rw [Tree.keys_eq, e1] at this
    exact split_pairwiseW this b1 b2
  have hsz : (t.insert comp m.mem.length x).size
      = t.size + (if (t.insertHelper comp m.mem.length x).2.2 then 1 else 0) := by
    rw [Tree.size_eq_length_cells, Tree.size_eq_length_cells, e1, e2]
    rcases hcase with ⟨hb, rfl, -⟩ | ⟨hb, v, rfl⟩
    · simp [hb]
      omega
    · simp [hb]
  exact ⟨m', e, hs, he, hord, by rw [sz, hsz, hinv.size]⟩

theorem Tree.keys_insert_subset {comp : K → K → Bool} [DecidableEq K] (hw : StrictWeak comp)
    (f : Nat) (x : K × V) {t : Tree K V} (ho : t.keys.Pairwise fun a b => comp b a = false)
    (hnd : t.addrs.Nodup) (k : K) (hk : k ∈ (t.insert comp f x).keys) :
    k = x.1 ∨ k ∈ t.keys := by
  obtain ⟨l1, old, l2, e1, e2', b1, b2, hcase⟩ := Tree.insertHelper_splitW hw f x t ho
  have e2 := Tree.insert_cells_of_split comp f x t hnd e1 e2' hcase
  rw [Tree.keys_eq, e2] at hk
  rw [Tree.keys_eq, e1]
  simp only [List.map_append, List.mem_append, List.mem_map, List.map_cons,
    List.mem_cons] at hk ⊢
  rcases hk with hk | hk | hk
  · exact Or.inr (Or.inl (Or.inl hk))
  · exact Or.inl hk
  · exact Or.inr (Or.inr hk)

theorem foldlM_insert_invW {comp : K → K → Bool} [DecidableEq K] (hw : StrictWeak comp)
    (rest : List (K × V)) : ∀ (m : Map K V) (t : Tree K V) (done : List (K × V)),
    InvW comp m t → (∀ k ∈ t.keys, k ∈ done.map Prod.fst) →
    ∃ m' t', rest.foldlM (fun m val => (insert comp m val).map fun r => r.1) m = some m' ∧
      InvW comp m' t' ∧ (∀ k ∈ t'.keys, k ∈ (done ++ rest).map Prod.fst) := by
  induction rest with
  | nil =>
    intro m t done hinv hcont
    exact ⟨m, t, rfl, hinv, by simpa using hcont⟩
  | cons x rest ih =>
    intro m t done hinv hcont
    obtain ⟨m1, e1, hinv1⟩ := insert_invW hw x hinv
    have hcont1 : ∀ k ∈ (t.insert comp m.mem.length x).keys, k ∈ (done ++ [x]).map Prod.fst := by
      intro k hk
      rcases Tree.keys_insert_subset hw _ x hinv.sorted hinv.shape.nodup k hk with rfl | hk
      · simp
      · have := hcont k hk
        simp only [List.map_append, List.mem_append]
        exact Or.inl this
    obtain ⟨m', t', e', hinv', hcont'⟩ := ih m1 _ (done ++ [x]) hinv1 hcont1
    refine ⟨m', t', ?_, hinv', by simpa using hcont'⟩
    simp only [List.foldlM_cons, e1, Option.map_some', Option.bind_eq_bind, Option.some_bind]
    exact e'

/-- A map built from a list by insertions under a strict weak ordering
satisfies the invariant, and the keys of its tree are keys of the list. -/
theorem ofList_invW {comp : K → K → Bool} [DecidableEq K] [Inhabited K] [Inhabited V]
    (hw : StrictWeak comp) (L : List (K × V)) :
    ∃ m t, ofList comp L = some m ∧ InvW comp m t ∧ (∀ k ∈ t.keys, k ∈ L.map Prod.fst) := by
  have := foldlM_insert_invW hw L empty nil []
    ⟨⟨⟨_, rfl, rfl⟩, trivial, List.nodup_nil, List.not_mem_nil 0⟩,
      ⟨_, _, _, rfl, rfl, rfl, fun h => absurd rfl h⟩, List.Pairwise.nil, rfl⟩
    (by intro k hk; cases hk)
  simpa [ofList] using this

theorem lessTens_strictWeak : StrictWeak lessTens where
  irrefl := fun a => by simp [lessTens]
  trans := fun a b c h1 h2 => by
    simp only [lessTens, decide_eq_true_eq] at *
    omega
  cotrans := fun a b c h => by
    simp only [lessTens, decide_eq_true_eq] at *
    omega

/-- C7: for a strict weak ordering `comp`, a list `L` and a pair `(k, v)` whose
key is not equivalent to a key of `L` (the keys in the map built from `L` are
keys of `L`), `insert((k, v))` on the map built from `L` returns the flag `true`
and an iterator at a data node that holds `(k, v)`, `size()` grows by exactly 1,
and afterwards `find(k)` returns that iterator. -/
theorem C7_insert_new_key {comp : K → K → Bool} [DecidableEq K] [Inhabited K] [Inhabited V]
    (hw : StrictWeak comp) (L : List (K × V)) (k : K) (v : V)
    (hk : ∀ p ∈ L, ¬ (comp k p.1 = false ∧ comp p.1 k = false)) :
    ∃ m m' it, ofList comp L = some m ∧ insert comp m (k, v) = some (m', it, true) ∧
      it ≠ endIt ∧ (rd m' it).map (fun n => n.value) = some (k, v) ∧
      size m' = size m + 1 ∧ find comp m' k = some it := by
  obtain ⟨m, t, hm, hinv, hkeys⟩ := ofList_invW hw L
  obtain ⟨m', e, hinv'⟩ := insert_invW hw (k, v) hinv
  obtain ⟨l1, old, l2, e1, e2', b1, b2, hcase⟩ :=
    Tree.insertHelper_splitW hw m.mem.length (k, v) t hinv.sorted
  have e2 := Tree.insert_cells_of_split comp m.mem.length (k, v) t hinv.shape.nodup e1 e2' hcase
  have hne : ∀ p ∈ t.cells, ¬ (comp k p.2.1 = false ∧ comp p.2.1 k = false) := by
    intro p hp
    obtain ⟨q, hq, e⟩ := List.mem_map.mp (hkeys _ (Tree.key_mem_of_mem_cells hp))
    rw [← e]
    exact hk q hq
  have hnew : (t.insertHelper comp m.mem.length (k, v)).2.2 = true := by
    rcases hcase with ⟨hb, -, -⟩ | ⟨-, w, rfl⟩
    · exact hb
    · exfalso
      exact hne ((t.insertHelper comp m.mem.length (k, v)).2.1, (k, w)) (by rw [e1]; simp)
        ⟨hw.irrefl k, hw.irrefl k⟩
  have hcell : ((t.insertHelper comp m.mem.length (k, v)).2.1, (k, v))
      ∈ (t.insert comp m.mem.length (k, v)).cells := by
    rw [e2]
    simp
  obtain ⟨n, hn, hv⟩ := hinv'.shape.rep.rd_cell hcell
  refine ⟨m, m', (t.insertHelper comp m.mem.length (k, v)).2.1, hm, ?_, ?_, ?_, ?_, ?_⟩
  · rw [e, ← hnew]
  · intro h0
    have := Tree.addr_mem_of_mem_cells hcell
    simp only [h0, endIt] at this
    exact hinv'.shape.notHead this
  · rw [hn, Option.map_some', hv]
  · have hsz : (t.insert comp m.mem.length (k, v)).size = t.size + 1 := by
      rw [Tree.size_eq_length_cells, Tree.size_eq_length_cells, e1, e2]
      rcases hcase with ⟨-, rfl, -⟩ | ⟨hb, -⟩
      · simp
        omega
      · rw [hnew] at hb
        cases hb
    rw [size, size, hinv'.size, hinv.size, hsz]
  · rw [find_spec comp k hinv'.shape,
      Tree.findHelper_of_split hw (t.insert comp m.mem.length (k, v)) l1 l2 e2 ?_ ?_]
    · rfl
    · intro p hp
      have h1 := b1 p hp
      cases h2 : comp p.2.1 k with
      | true => rfl
      | false => exact absurd ⟨h1, h2⟩ (hne p (by rw [e1]; simp [hp]))
    · intro p hp
      have h1 := b2 p hp
      cases h2 : comp k p.2.1 with
      | true => rfl
      | false => exact absurd ⟨h2, h1⟩ (hne p (by rw [e1]; simp [hp]))

/-- C7 at the map with the keys 5, 7 and 31 under the comparator of the tens
digit (5 and 7 are equivalent), for `insert` of the key 15. -/
theorem C7_witness :
    (StrictWeak lessTens ∧
      ∀ p ∈ [(5, 50), (7, 70), (31, 10)], ¬ (lessTens 15 p.1 = false ∧ lessTens p.1 15 = false)) ∧
    ∃ m m' it, ofList lessTens [(5, 50), (7, 70), (31, 10)] = some m ∧
      insert lessTens m (15, 150) = some (m', it, true) ∧
      it ≠ endIt ∧ (rd m' it).map (fun n => n.value) = some (15, 150) ∧
      size m' = size m + 1 ∧ find lessTens m' 15 = some it :=
  ⟨⟨lessTens_strictWeak, by decide⟩,
    C7_insert_new_key lessTens_strictWeak [(5, 50), (7, 70), (31, 10)] 15 150 (by decide)⟩

/-- For a strict total order `comp`, a list `L` and a pair `(k, v)` whose
key is a key of `L` (so it is present in the map built from `L`),
`insert((k, v))` returns the flag `false` and the iterator at the data node
that `find(k)` returned before; `size()` and the sequence of keys visited from
`begin()` to `end()` are unchanged, afterwards `at(k)` is `v`, and the pairs of
every other key are visited as before. -/
theorem insert_existing_key {comp : K → K → Bool} [DecidableEq K] [Inhabited K]
    [Inhabited V] (hc : StrictTotal comp) (L : List (K × V)) (k : K) (v : V)
    (hk : k ∈ L.map Prod.fst) :
    ∃ m m' it out out', ofList comp L = some m ∧ toList m = some out ∧
      insert comp m (k, v) = some (m', it, false) ∧
      find comp m k = some it ∧ it ≠ endIt ∧
      size m' = size m ∧ toList m' = some out' ∧
      out'.map Prod.fst = out.map Prod.fst ∧
      at_ comp m' k = some (some v) ∧
      (∀ k' v', k' ≠ k → ((k', v') ∈ out' ↔ (k', v') ∈ out)) := by
  obtain ⟨m, t, hm, hinv, hcont⟩ := ofList_inv hc L
  obtain ⟨m', e, hinv', -⟩ := insert_inv hc (k, v) hinv
  obtain ⟨l1, old, l2, e1, e2, b1, b2, hcase⟩ :=
    Tree.insert_cells hc m.mem.length (k, v) t hinv.ordered hinv.shape.nodup
  obtain ⟨w0, hw0⟩ := (mem_keys_of_isLast k).mpr hk
  have hmem : (k, w0) ∈ t.toList := (hcont k w0).mpr hw0
  obtain ⟨hold, w, rfl⟩ : (t.insertHelper comp m.mem.length (k, v)).2.2 = false ∧
      ∃ w, old = [((t.insertHelper comp m.mem.length (k, v)).2.1, (k, w))] := by
    rcases hcase with ⟨-, rfl, -⟩ | ⟨hb, w, rfl⟩
    · exfalso
      rw [← Tree.cells_map_snd, e1] at hmem
      simp only [List.append_nil, List.map_append, List.mem_append, List.mem_map] at hmem
      rcases hmem with ⟨p, hp, e⟩ | ⟨p, hp, e⟩
      · have := hc.ne (b1 p hp)
        rw [e] at this
        exact this rfl
      · have := hc.ne (b2 p hp)
        rw [e] at this
        exact this rfl
    · exact ⟨hb, w, rfl⟩
  have hcell : ((t.insertHelper comp m.mem.length (k, v)).2.1, (k, w)) ∈ t.cells := by
    rw [e1]
    simp
  have hcell' : ((t.insertHelper comp m.mem.length (k, v)).2.1, (k, v))
      ∈ (t.insert comp m.mem.length (k, v)).cells := by
    rw [e2]
    simp
  refine ⟨m, m', (t.insertHelper comp m.mem.length (k, v)).2.1, t.toList,
    (t.insert comp m.mem.length (k, v)).toList, hm, toList_spec hinv.shape hinv.cached, ?_, ?_,
    ?_, ?_, toList_spec hinv'.shape hinv'.cached, ?_, ?_, ?_⟩
  · rw [e, ← hold]
  · rw [find_spec comp k hinv.shape, Tree.findHelper_of_mem hc hinv.ordered hcell]
    rfl
  · intro h0
    have := Tree.addr_mem_of_mem_cells hcell
    simp only [h0, endIt] at this
    exact hinv.shape.notHead this
  · rw [size, size, hinv'.size, hinv.size, Tree.size_eq_length_cells, Tree.size_eq_length_cells,
      e1, e2]
    simp
  · rw [← Tree.cells_map_snd, ← Tree.cells_map_snd, e1, e2]
    simp
  · exact at_spec comp hinv'.shape (Tree.findHelper_of_mem hc hinv'.ordered hcell') hcell'
  · intro k' v' hne
    rw [Tree.mem_toList_insert hc _ (k, v) hinv.ordered hinv.shape.nodup]
    simp [hne]

/-- The preceding statement at the map with the keys 3 and 7, for `insert` of the key 7 again. -/
theorem insert_existing_key_example :
    (StrictTotal natLess ∧ 7 ∈ [(3, 30), (7, 70)].map Prod.fst) ∧
    ∃ m m' it out out', ofList natLess [(3, 30), (7, 70)] = some m ∧ toList m = some out ∧
      insert natLess m (7, 77) = some (m', it, false) ∧
      find natLess m 7 = some it ∧ it ≠ endIt ∧
      size m' = size m ∧ toList m' = some out' ∧
      out'.map Prod.fst = out.map Prod.fst ∧
      at_ natLess m' 7 = some (some 77) ∧
      (∀ k' v', k' ≠ 7 → ((k', v') ∈ out' ↔ (k', v') ∈ out)) :=
  ⟨⟨natLess_strictTotal, by decide⟩,
    insert_existing_key natLess_strictTotal [(3, 30), (7, 70)] 7 77 (by decide)⟩

/-! ## Evaluation of `erase` and of the bounds at concrete inputs -/

/-- C13: after `insert` of the keys 1, 2, 3, 4 and `erase(1)` the walk from
`begin()` to `end()` still visits key 3, but `erase(3)` returns 0 and leaves the
map as it is; and after `erase(2)` has returned 1, a second `erase(2)` reads
the deleted node instead of returning 0. -/
theorem C13_erase_misses_present_key :
    (run natLess callsErase1).bind (fun m =>
      (toList m).bind fun l => (erase natLess m 3).map fun r => (l, r.2, decide (r.1 = m)))
      = some ([(3, 30), (4, 40)], 0, true) ∧
    (run natLess callsErase1).bind (fun m =>
      (erase natLess m 2).map fun r => (r.2, (erase natLess r.1 2).map fun r2 => r2.2))
      = some (1, none) := by
  decide

/-- C15: on the map built by `insert` of the keys 1, 2, 6, 7, whose walk visits
1, 2, 6, 7, `upper_bound(5)` returns the iterator at key 2, not at key 6. -/
theorem C15_upper_bound_returns_predecessor :
    (ofList natLess [(1, 10), (2, 20), (6, 60), (7, 70)]).bind (fun m =>
      (toList m).map fun l => (l, (upper_bound natLess m 5).bind (deref m)))
      = some ([(1, 10), (2, 20), (6, 60), (7, 70)], some (2, 20)) := by
  decide

/-- C16: on the map built by `insert` of the keys 1, 2, 6, 7, `equal_range(7)`
is the pair of the iterator at key 7 (the node at address 4) and `end()`, while
`lower_bound(7)` and `upper_bound(7)` are both the iterator at key 7. -/
theorem C16_equal_range_differs_from_bounds :
    (ofList natLess [(1, 10), (2, 20), (6, 60), (7, 70)]).bind (fun m =>
      (equal_range natLess m 7).bind fun er =>
      (lower_bound natLess m 7).bind fun lb =>
      (upper_bound natLess m 7).map fun ub => (er, lb, ub, deref m lb))
      = some ((4, endIt), 4, 4, some (7, 70)) := by
  decide

/-- C19: after `insert` of the keys 1, 2, 3, 4 and `erase(1)` the data nodes
that are left hold the keys 2, 3, 4, but the sentinel's left link, the
iterator `begin()`, refers to the node with key 3. -/
theorem C19_min_link_wrong_after_erase :
    (run natLess callsErase1).bind (fun m =>
      (beginIt m).bind fun b => (deref m b).map fun v =>
        ((m.mem.drop 1).filterMap fun c => c.map fun n => n.value.1, v))
      = some ([2, 3, 4], (3, 30)) := by
  decide

/-- C20: after `insert` of the keys 1, 2, 3, 4 and `erase(1)` the sentinel's
parent slot refers to the node with key 2, whose own parent link is the node
at address 3 and not the sentinel (address 0); that node has no children, so
one data node is reachable from the slot while `size()` is 3. -/
theorem C20_root_slot_stale_after_erase :
    (run natLess callsErase1).bind (fun m =>
      (rd m 0).bind fun h => h.parent.bind fun r => (rd m r).bind fun n =>
        (reachable m).map fun c => (n.value.1, n.parent, n.left, n.right, c, size m))
      = some (2, some 3, none, none, 1, 3) := by
  decide

/-! ## Queries on an empty map -/

/-- On a map whose root slot is empty every lookup returns `end()` and
`erase` returns 0 without writing. -/
theorem queries_of_no_root (comp : K → K → Bool) [DecidableEq K] {m : Map K V}
    {h : RB_Node K V} (hh : rd m 0 = some h) (hp : h.parent = none) (k : K) :
    find comp m k = some endIt ∧ lower_bound comp m k = some endIt ∧
      upper_bound comp m k = some endIt ∧ equal_range comp m k = some (endIt, endIt) ∧
      erase comp m k = some (m, 0) := by
  have e1 : findHelper comp m (fuelOf m) none k = some none := rfl
  have e2 : boundHelper comp m (fuelOf m) none k = some none := rfl
  have e3 : eraseHelper comp (fuelOf m) m none k = some (m, false) := rfl
  refine ⟨?_, ?_, ?_, ?_, ?_⟩
  · simp only [find, hh, hp, e1, Option.bind_eq_bind, Option.some_bind, Option.pure_def]
  · simp only [lower_bound, hh, hp, e2, Option.bind_eq_bind, Option.some_bind, Option.pure_def]
  · simp only [upper_bound, hh, hp, e2, Option.bind_eq_bind, Option.some_bind, Option.pure_def]
  · simp only [equal_range, hh, hp, e2, Option.bind_eq_bind, Option.some_bind, Option.pure_def]
  · simp [erase, hh, hp, e3]

/-- The state that `clear()` leaves when it returns: the root slot is empty,
the sentinel's left and right links refer to the sentinel, `_size` is zero. -/
theorem clear_head {m m' : Map K V} (h : clear m = some m') :
    ∃ h', rd m' 0 = some h' ∧ h'.parent = none ∧ h'.left = some 0 ∧ h'.right = some 0 ∧
      m'._size = 0 := by
  simp only [clear, Option.bind_eq_bind, Option.bind_eq_some, Option.pure_def,
    Option.some.injEq, setParent, setLeft, setRight, Option.map_eq_some'] at h
  obtain ⟨h0, -, m1, -, m2, ⟨n1, hn1, rfl⟩, m3, ⟨n2, hn2, rfl⟩, m4, ⟨n3, hn3, rfl⟩, rfl⟩ := h
  have l1 := rd_lt hn1
  simp only [rd_wr, true_and, l1, if_true, Option.some.injEq] at hn2
  subst hn2
  simp only [rd_wr, true_and, wr_length, l1, if_true, Option.some.injEq] at hn3
  subst hn3
  refine ⟨⟨n1.value, none, some 0, some 0, n1.color⟩, ?_, rfl, rfl, rfl, rfl⟩
  simp [rd_size, rd_wr, l1]

/-- C17: on an empty map, that is the default-constructed map or a map that
`clear()` has returned, for every key `k` the calls `find(k)`, `lower_bound(k)`,
`upper_bound(k)` and both components of `equal_range(k)` return `end()`, and
`erase(k)` returns 0 and leaves the map as it is; none of the calls fails. -/
theorem C17_queries_on_empty_map (comp : K → K → Bool) [DecidableEq K] [Inhabited K]
    [Inhabited V] (m : Map K V) (k : K) (hm : m = empty ∨ ∃ m0, clear m0 = some m) :
    find comp m k = some endIt ∧ lower_bound comp m k = some endIt ∧
      upper_bound comp m k = some endIt ∧ equal_range comp m k = some (endIt, endIt) ∧
      erase comp m k = some (m, 0) := by
  rcases hm with rfl | ⟨m0, hm0⟩
  · exact queries_of_no_root comp (show rd empty 0 = some _ from rfl) rfl k
  · obtain ⟨h', hh', hp, -⟩ := clear_head hm0
    exact queries_of_no_root comp hh' hp k

/-- C17 at the map that `clear()` returns on the map with the single key 1. -/
theorem C17_witness :
    (clearedMap = empty ∨ ∃ m0, clear m0 = some clearedMap) ∧
    (find natLess clearedMap 3 = some endIt ∧ lower_bound natLess clearedMap 3 = some endIt ∧
      upper_bound natLess clearedMap 3 = some endIt ∧
      equal_range natLess clearedMap 3 = some (endIt, endIt) ∧
      erase natLess clearedMap 3 = some (clearedMap, 0)) :=
  ⟨Or.inr ⟨oneNodeMap, by decide⟩,
    C17_queries_on_empty_map natLess clearedMap 3 (Or.inr ⟨oneNodeMap, by decide⟩)⟩

/-! ## `at` -/

theorem at_none_spec (comp : K → K → Bool) [DecidableEq K] {m : Map K V} {t : Tree K V} {k : K}
    (hs : Shape m t) (hf : t.findHelper comp k = none) : at_ comp m k = some none := by
  obtain ⟨h, hh, hp⟩ := hs.head
  simp only [at_, hh, hp, Option.bind_eq_bind, Option.some_bind,
    findHelper_spec comp k t (fuelOf m) m (some 0) hs.rep (hs.rep.height_lt_fuel hs.nodup),
    hf, Option.pure_def]

theorem oneNode_cached : Cached oneNodeMap oneNodeTree :=
  ⟨_, rfl, rfl, rfl⟩

theorem oneNode_ordered : oneNodeTree.Ordered natLess := by
  simp [oneNodeTree, Tree.Ordered, Tree.keys, Tree.toList]

/-- For a strict total order `comp` and a map that holds a search tree
(with the sentinel caching its extrema), whose walk from `begin()` to `end()`
is `out`: `at(k)` returns, it throws `std::out_of_range` (the inner `none`) if
and only if no element of `out` has the key `k`, and when `(k, v)` is an
element it yields `v`.  The embedding of `at` has no store result, as the
member function writes nothing. -/
theorem at_fails_iff_absent {comp : K → K → Bool} [DecidableEq K] (hc : StrictTotal comp)
    (m : Map K V) (t : Tree K V) (hs : Shape m t) (hca : Cached m t) (ho : t.Ordered comp)
    (k : K) :
    ∃ out, toList m = some out ∧
      (at_ comp m k = some none ↔ k ∉ out.map Prod.fst) ∧
      (∀ v, (k, v) ∈ out → at_ comp m k = some (some v)) := by
  have hval : ∀ v, (k, v) ∈ t.toList → at_ comp m k = some (some v) := by
    intro v hv
    rw [← Tree.cells_map_snd] at hv
    obtain ⟨⟨a, kv⟩, hp, e⟩ := List.mem_map.mp hv
    simp only at e
    subst e
    exact at_spec comp hs (Tree.findHelper_of_mem hc ho hp) hp
  refine ⟨t.toList, toList_spec hs hca, ⟨fun h hk => ?_, fun h => ?_⟩, hval⟩
  · obtain ⟨⟨k', v⟩, hp, e⟩ := List.mem_map.mp hk
    simp only at e
    subst e
    rw [hval v hp] at h
    cases h
  · exact at_none_spec comp hs (Tree.findHelper_of_not_mem comp h)

/-- The preceding statement at the map that holds the single pair `(1, 10)`, for `at(7)`. -/
theorem at_fails_iff_absent_example :
    (StrictTotal natLess ∧ Shape oneNodeMap oneNodeTree ∧ Cached oneNodeMap oneNodeTree ∧
      oneNodeTree.Ordered natLess) ∧
    ∃ out, toList oneNodeMap = some out ∧
      (at_ natLess oneNodeMap 7 = some none ↔ 7 ∉ out.map Prod.fst) ∧
      (∀ v, (7, v) ∈ out → at_ natLess oneNodeMap 7 = some (some v)) :=
  ⟨⟨natLess_strictTotal, oneNode_shape, oneNode_cached, oneNode_ordered⟩,
    at_fails_iff_absent natLess_strictTotal oneNodeMap oneNodeTree oneNode_shape
      oneNode_cached oneNode_ordered 7⟩

/-! ## One step of the iterator -/

/-- The climb that leaves the whole tree ends at the sentinel, whatever the
sentinel's right link is. -/
theorem climb_root_exit_any {m : Map K V} {t : Tree K V} {s : Nat} (hs : Shape m t)
    (hroot : t.root = some s) (fuel : Nat) (hf : 2 ≤ fuel) :
    (climbRight m fuel s 0).bind (afterClimbRight m) = some 0 := by
  obtain ⟨h, hh, hp⟩ := hs.head
  obtain ⟨k, rfl⟩ : ∃ k, fuel = k + 2 := ⟨fuel - 2, by omega⟩
  cases t with
  | nil => cases hroot
  | node a c l kv r =>
    simp only [Tree.root_node, Option.some.injEq] at hroot
    subst hroot
    have ha := hs.rep.1
    have h0 := hs.notHead
    simp only [Tree.mem_addrs_node, not_or] at h0
    have hr0 : r.root ≠ some 0 := fun e => h0.2.2 (Tree.root_mem e)
    by_cases hr : h.right = some a
    · rw [climbRight_step (k + 1) hh hr hp]
      have hne : (⟨kv, some 0, l.root, r.root, c⟩ : RB_Node K V).right ≠ some 0 := hr0
      rw [climbRight_stop k ha hne]
      simp [afterClimbRight, hh, hr]
    · rw [climbRight_stop (k + 1) hh hr]
      simp [afterClimbRight, ha, hr0]

/-- The iterator step inside a subtree: from the node of a cell it leads to
the node of the next cell of the subtree, and from the last cell to the node
that follows the subtree, provided the climb from the root of the subtree ends
at that node. -/
theorem increment_subtree (t : Tree K V) : ∀ (m : Map K V) (pr after B : Nat),
    Rep m (some pr) t → t.addrs.Nodup → 0 ∉ t.addrs → B + t.height ≤ fuelOf m →
    (∀ s, t.root = some s → ∀ fuel, B ≤ fuel →
      (climbRight m fuel s pr).bind (afterClimbRight m) = some after) →
    ∀ (l1 l2 : List (Nat × (K × V))) (a : Nat) (x : K × V), t.cells = l1 ++ (a, x) :: l2 →
    increment m a = some ((l2.map Prod.fst).headD after) := by
  induction t with
  | nil =>
    intro m pr after B _ _ _ _ _ l1 l2 a x e
    simp [Tree.cells] at e
  | node s c l kv r ihl ihr =>
    intro m pr after B hrep hnd h0 hB hexit l1 l2 a x e
    obtain ⟨hs, hl, hr⟩ := hrep
    obtain ⟨hsl, hsr, hdis, hndl, hndr⟩ := Tree.nodup_node.mp hnd
    simp only [Tree.mem_addrs_node, not_or] at h0
    simp only [Tree.height] at hB
    have hlh : l.height ≤ max l.height r.height := le_max_left _ _
    have hrh : r.height ≤ max l.height r.height := le_max_right _ _
    have hinc : increment m s = some (r.first after) := by
      simp only [increment, inorderSuccessor, hs, Option.bind_eq_bind, Option.some_bind]
      cases r with
      | nil =>
        simp only [Tree.root_nil, Tree.first]
        exact hexit s rfl (fuelOf m) (by omega)
      | node ra rc rl rrkv rr =>
        simp only [Tree.root_node]
        exact leftmost_spec after _ m (some s) (fuelOf m) ra hr rfl (by omega)
    simp only [Tree.cells] at e
    rcases List.append_eq_append_iff.mp e with ⟨a', e3, e4⟩ | ⟨c', e3, e4⟩
    · cases a' with
      | nil =>
        simp only [List.nil_append, List.cons.injEq, Prod.mk.injEq] at e4
        obtain ⟨⟨rfl, rfl⟩, rfl⟩ := e4
        rw [hinc, Tree.first_eq, Tree.cells_map_fst]
      | cons q a' =>
        simp only [List.cons_append, List.cons.injEq] at e4
        exact ihr m s after (B + 1) hr hndr h0.2.2 (by omega) (by
          intro rr hrr fuel hfuel
          obtain ⟨k, rfl⟩ : ∃ k, fuel = k + 1 := ⟨fuel - 1, by omega⟩
          rw [climbRight_step k hs hrr rfl]
          exact hexit s rfl k (by omega)) a' l2 a x e4.2
    · cases c' with
      | nil =>
        simp only [List.nil_append, List.cons.injEq, Prod.mk.injEq] at e4
        obtain ⟨⟨rfl, rfl⟩, rfl⟩ := e4
        rw [hinc, Tree.first_eq, Tree.cells_map_fst]
      | cons q c' =>
        simp only [List.cons_append, List.cons.injEq] at e4
        obtain ⟨rfl, rfl⟩ := e4
        have := ihl m s s 1 hl hndl h0.2.1 (by omega) (by
          intro lr hlr fuel hfuel
          obtain ⟨k, rfl⟩ : ∃ k, fuel = k + 1 := ⟨fuel - 1, by omega⟩
          have hne : (⟨kv, some pr, l.root, r.root, c⟩ : RB_Node K V).right ≠ some lr := by
            intro e
            exact hdis lr (Tree.root_mem hlr) (Tree.root_mem e)
          rw [climbRight_stop k hs hne]
          cases l with
          | nil => cases hlr
          | node la lc ll lkv lr' =>
            simp only [Tree.root_node, Option.some.injEq] at hlr
            subst hlr
            have hne' : lr'.root ≠ some s := fun e =>
              hsl (Tree.mem_addrs_node.mpr (Or.inr (Or.inr (Tree.root_mem e))))
            simp [afterClimbRight, hl.1, hne']) l1 c' a x e3
        rw [this]
        cases c' <;> rfl

/-- The iterator step `operator++` at a data node: it leads to the node of the
next cell of the in-order sequence, and from the last cell to the sentinel. -/
theorem increment_spec {m : Map K V} {t : Tree K V} (hs : Shape m t)
    {l1 l2 : List (Nat × (K × V))} {a : Nat} {x : K × V} (e : t.cells = l1 ++ (a, x) :: l2) :
    increment m a = some ((l2.map Prod.fst).headD endIt) := by
  have hsize := hs.rep.size_le hs.nodup
  have hheight := t.height_le_size
  exact increment_subtree t m 0 0 2 hs.rep hs.nodup hs.notHead
    (by simp only [fuelOf]; omega)
    (fun s hroot fuel hf => climb_root_exit_any hs hroot fuel hf) l1 l2 a x e

/-! ## `lower_bound` -/

theorem boundHelper_spec (comp : K → K → Bool) [DecidableEq K] (k : K) (t : Tree K V) :
    ∀ (fuel : Nat) (m : Map K V) (par : Option Nat), Rep m par t → t.height < fuel →
      boundHelper comp m fuel t.root k = some (t.boundHelper comp k) := by
  induction t with
  | nil =>
    intro fuel m par _ hf
    cases fuel with
    | zero => cases hf
    | succ f => rfl
  | node a c l kv r ihl ihr =>
    intro fuel m par h hf
    cases fuel with
    | zero => cases hf
    | succ f =>
      simp only [Tree.height, add_lt_add_iff_right, max_lt_iff] at hf
      simp only [Tree.root_node, boundHelper, h.1, Option.bind_eq_bind, Option.some_bind,
        Option.pure_def, Tree.boundHelper]
      by_cases h1 : kv.1 = k
      · simp only [if_pos h1]
      · simp only [if_neg h1]
        by_cases h2 : comp k kv.1 = true
        · simp only [if_pos h2]
          cases l with
          | nil => rfl
          | node la lc ll lkv lr =>
            simp only [Tree.root_node, Option.isSome_some, if_true]
            exact ihl f m (some a) h.2.1 hf.1
        · simp only [if_neg h2]
          cases r with
          | nil => rfl
          | node ra rc rl rkv rr =>
            simp only [Tree.root_node, Option.isSome_some, if_true]
            exact ihr f m (some a) h.2.2 hf.2

/-- The node returned by `boundHelper` on an ordered tree stands at the place
of the key in the in-order sequence: the cells before it hold smaller keys and
the cells after it hold greater keys. -/
theorem Tree.boundHelper_split {comp : K → K → Bool} [DecidableEq K] (hc : StrictTotal comp)
    (x : K) (t : Tree K V) (ho : t.Ordered comp) (hne : t ≠ nil) :
    ∃ l1 a kv l2, t.cells = l1 ++ (a, kv) :: l2 ∧ t.boundHelper comp x = some a ∧
      (∀ p ∈ l1, comp p.2.1 x = true) ∧ (∀ p ∈ l2, comp x p.2.1 = true) := by
  induction t with
  | nil => exact absurd rfl hne
  | node a c l kv r ihl ihr =>
    obtain ⟨hlk, hrk, hol, hor⟩ := ho
    by_cases h1 : kv.1 = x
    · refine ⟨l.cells, a, kv, r.cells, rfl, by simp only [Tree.boundHelper, if_pos h1], ?_, ?_⟩
      · intro p hp
        rw [← h1]
        exact hlk _ (Tree.key_mem_of_mem_cells hp)
      · intro p hp
        rw [← h1]
        exact hrk _ (Tree.key_mem_of_mem_cells hp)
    · by_cases h2 : comp x kv.1 = true
      · have hr' : ∀ p ∈ r.cells, comp x p.2.1 = true := fun p hp =>
          hc.trans _ _ _ h2 (hrk _ (Tree.key_mem_of_mem_cells hp))
        cases l with
        | nil =>
          exact ⟨[], a, kv, r.cells, by simp [Tree.cells],
            by simp [Tree.boundHelper, h1, h2], by simp, hr'⟩
        | node la lc ll lkv lr =>
          obtain ⟨l1, b, bkv, l2, e, hb, b1, b2⟩ := ihl hol (by simp)
          refine ⟨l1, b, bkv, l2 ++ (a, kv) :: r.cells, ?_, ?_, b1, ?_⟩
          · rw [show (node a c (node la lc ll lkv lr) kv r).cells
              = (node la lc ll lkv lr).cells ++ (a, kv) :: r.cells from rfl, e]
            simp
          · rw [Tree.boundHelper, if_neg h1, if_pos h2, if_pos (by rfl)]
            exact hb
          · intro p hp
            rcases List.mem_append.mp hp with hp | hp
            · exact b2 p hp
            · rcases List.mem_cons.mp hp with rfl | hp
              · exact h2
              · exact hr' p hp
      · have h3 : comp kv.1 x = true := hc.of_not (Ne.symm h1) h2
        have hl' : ∀ p ∈ l.cells, comp p.2.1 x = true := fun p hp =>
          hc.trans _ _ _ (hlk _ (Tree.key_mem_of_mem_cells hp)) h3
        cases r with
        | nil =>
          exact ⟨l.cells, a, kv, [], by simp [Tree.cells],
            by simp [Tree.boundHelper, h1, h2], hl', by simp⟩
        | node ra rc rl rkv rr =>
          obtain ⟨l1, b, bkv, l2, e, hb, b1, b2⟩ := ihr hor (by simp)
          refine ⟨l.cells ++ (a, kv) :: l1, b, bkv, l2, ?_, ?_, ?_, b2⟩
          · rw [show (node a c l kv (node ra rc rl rkv rr)).cells
              = l.cells ++ (a, kv) :: (node ra rc rl rkv rr).cells from rfl, e]
            simp
          · rw [Tree.boundHelper, if_neg h1, if_neg h2, if_pos (by rfl)]
            exact hb
          · intro p hp
            rcases List.mem_append.mp hp with hp | hp
            · exact hl' p hp
            · rcases List.mem_cons.mp hp with rfl | hp
              · exact h3
              · exact b1 p hp

/-- On a map that holds an ordered tree, `lower_bound(k)` returns the node of
the first cell of the in-order sequence whose key does not compare less than
`k`: the sequence splits into cells with keys less than `k` and cells with
keys not less than `k`, and the iterator is at the first cell of the second
part, or is `end()` when that part is empty. -/
theorem lower_bound_spec {comp : K → K → Bool} [DecidableEq K] (hc : StrictTotal comp)
    {m : Map K V} {t : Tree K V} (hs : Shape m t) (ho : t.Ordered comp) (k : K) :
    ∃ l1 l2, t.cells = l1 ++ l2 ∧ (∀ p ∈ l1, comp p.2.1 k = true) ∧
      (∀ p ∈ l2, comp p.2.1 k = false) ∧
      lower_bound comp m k = some ((l2.map Prod.fst).headD endIt) := by
  obtain ⟨h, hh, hp⟩ := hs.head
  by_cases hne : t = nil
  · subst hne
    exact ⟨[], [], rfl, by simp, by simp, (queries_of_no_root comp hh hp k).2.1⟩
  · obtain ⟨l1, a, kv, l2, e, hb, b1, b2⟩ := Tree.boundHelper_split hc k t ho hne
    have b2' : ∀ p ∈ l2, comp p.2.1 k = false := fun p hp => hc.asymm (b2 p hp)
    obtain ⟨n, hn, hv⟩ := hs.rep.rd_cell (show (a, kv) ∈ t.cells by rw [e]; simp)
    have hlb : lower_bound comp m k
        = if comp kv.1 k then increment m a else some a := by
      simp only [lower_bound, hh, hp, Option.bind_eq_bind, Option.some_bind,
        boundHelper_spec comp k t (fuelOf m) m (some 0) hs.rep (hs.rep.height_lt_fuel hs.nodup),
        hb, hn, hv, Option.pure_def]
    by_cases hk : comp kv.1 k = true
    · refine ⟨l1 ++ [(a, kv)], l2, by rw [e]; simp, ?_, b2', ?_⟩
      · intro p hp
        rcases List.mem_append.mp hp with hp | hp
        · exact b1 p hp
        · simp only [List.mem_singleton] at hp
          rw [hp]
          exact hk
      · rw [hlb, if_pos hk]
        exact increment_spec hs e
    · refine ⟨l1, (a, kv) :: l2, e, b1, ?_, ?_⟩
      · intro p hp
        rcases List.mem_cons.mp hp with rfl | hp
        · simpa using hk
        · exact b2' p hp
      · rw [hlb, if_neg hk]
        rfl

/-- For a strict total order `comp`, a list `L` and a key `k`, on the map
built from `L` by `insert`, whose walk from `begin()` to `end()` is `out`,
`lower_bound(k)` returns either `end()`, and then every key of `out` compares
less than `k`, or an iterator at an element of `out` whose key does not compare
less than `k` and compares less than the key of every other element of `out`
whose key does not compare less than `k`. -/
theorem lower_bound_first_not_less {comp : K → K → Bool} [DecidableEq K] [Inhabited K]
    [Inhabited V] (hc : StrictTotal comp) (L : List (K × V)) (k : K) :
    ∃ m out it, ofList comp L = some m ∧ toList m = some out ∧
      lower_bound comp m k = some it ∧
      ((it = endIt ∧ ∀ p ∈ out, comp p.1 k = true) ∨
        (it ≠ endIt ∧ ∃ e, deref m it = some e ∧ e ∈ out ∧ comp e.1 k = false ∧
          ∀ p ∈ out, comp p.1 k = false → p = e ∨ comp e.1 p.1 = true)) := by
  obtain ⟨m, t, hm, hinv, -⟩ := ofList_inv hc L
  obtain ⟨l1, l2, e, b1, b2, hlb⟩ := lower_bound_spec hc hinv.shape hinv.ordered k
  have hout : t.toList = l1.map Prod.snd ++ l2.map Prod.snd := by
    rw [← Tree.cells_map_snd, e, List.map_append]
  refine ⟨m, t.toList, _, hm, toList_spec hinv.shape hinv.cached, hlb, ?_⟩
  cases l2 with
  | nil =>
    left
    refine ⟨rfl, ?_⟩
    intro p hp
    rw [hout] at hp
    simp only [List.map_nil, List.append_nil, List.mem_map] at hp
    obtain ⟨q, hq, rfl⟩ := hp
    exact b1 q hq
  | cons q l2 =>
    right
    obtain ⟨a, kv⟩ := q
    have hcell : (a, kv) ∈ t.cells := by rw [e]; simp
    obtain ⟨n, hn, hv⟩ := hinv.shape.rep.rd_cell hcell
    have hsorted := Tree.pairwise_of_ordered hc hinv.ordered
    rw [Tree.keys_eq, e, List.map_append, List.pairwise_append, List.map_cons,
      List.pairwise_cons] at hsorted
    refine ⟨?_, kv, ?_, ?_, b2 _ (List.mem_cons_self _ _), ?_⟩
    · intro h0
      have := Tree.addr_mem_of_mem_cells hcell
      simp only [List.map_cons, List.headD_cons] at h0
      rw [h0] at this
      exact hinv.shape.notHead this
    · simp only [List.map_cons, List.headD_cons, deref, hn, Option.map_some', hv]
    · rw [hout]
      simp
    · intro p hp hpk
      rw [hout] at hp
      simp only [List.map_cons, List.mem_append, List.mem_map, List.mem_cons] at hp
      rcases hp with ⟨q, hq, rfl⟩ | rfl | ⟨q, hq, rfl⟩
      · rw [b1 q hq] at hpk
        cases hpk
      · exact Or.inl rfl
      · exact Or.inr (hsorted.2.1.1 _ (List.mem_map.mpr ⟨q, hq, rfl⟩))

/-- The preceding statement at the map with the keys 1, 2, 6, 7 and the key 3, where
`lower_bound(3)` is the iterator at key 6. -/
theorem lower_bound_first_not_less_example :
    StrictTotal natLess ∧
    (∃ m out it, ofList natLess [(1, 10), (2, 20), (6, 60), (7, 70)] = some m ∧
      toList m = some out ∧ lower_bound natLess m 3 = some it ∧
      ((it = endIt ∧ ∀ p ∈ out, natLess p.1 3 = true) ∨
        (it ≠ endIt ∧ ∃ e, deref m it = some e ∧ e ∈ out ∧ natLess e.1 3 = false ∧
          ∀ p ∈ out, natLess p.1 3 = false → p = e ∨ natLess e.1 p.1 = true))) ∧
    (ofList natLess [(1, 10), (2, 20), (6, 60), (7, 70)]).bind
      (fun m => (lower_bound natLess m 3).bind (deref m)) = some (6, 60) :=
  ⟨natLess_strictTotal,
    lower_bound_first_not_less natLess_strictTotal [(1, 10), (2, 20), (6, 60), (7, 70)] 3,
    by decide⟩

/-! ## `operator[]` in terms of `insert` -/

theorem wr_same {m : Map K V} {a : Nat} {n : RB_Node K V} (h : rd m a = some n) :
    wr m a n = m := by
  have hlt := rd_lt h
  cases m with
  | mk mem sz =>
    simp only [wr, Map.mk.injEq, and_true]
    simp only [rd, List.getD_eq_getElem?_getD] at h
    apply List.ext_getElem?
    intro i
    by_cases hi : i = a
    · subst hi
      rw [List.getElem?_set_self hlt]
      rw [List.getElem?_eq_getElem hlt] at h ⊢
      simpa using h.symm
    · rw [List.getElem?_set_ne (Ne.symm hi)]

/-- When `insertHelper` finds the key it writes nothing, and the mapped value
of its argument plays no part. -/
theorem insertHelper_writes_nothing (comp : K → K → Bool) [DecidableEq K] :
    ∀ (fuel : Nat) (m : Map K V) (node : Nat) (x : K × V) (m1 : Map K V) (it : Nat),
    insertHelper comp fuel m node x = some (m1, it, false) →
    m1 = m ∧ (∃ n, rd m it = some n) ∧
      ∀ v, insertHelper comp fuel m node (x.1, v) = some (m, it, false) := by
  intro fuel
  induction fuel with
  | zero =>
    intro m node x m1 it h
    simp [insertHelper] at h
  | succ f ih =>
    intro m node x m1 it h
    simp only [insertHelper, Option.bind_eq_bind, Option.bind_eq_some] at h
    obtain ⟨n, hn, h⟩ := h
    by_cases h1 : x.1 = n.value.1
    · simp only [if_pos h1, Option.pure_def, Option.some.injEq, Prod.mk.injEq] at h
      obtain ⟨rfl, rfl, -⟩ := h
      refine ⟨rfl, ⟨n, hn⟩, fun v => ?_⟩
      simp [insertHelper, hn, h1]
    · simp only [if_neg h1] at h
      by_cases h2 : comp x.1 n.value.1 = true
      · simp only [if_pos h2] at h
        cases hl : n.left with
        | none =>
          simp only [hl, alloc, Option.bind_eq_some, Option.pure_def, Option.some.injEq,
            Prod.mk.injEq, Bool.true_eq_false, and_false, exists_const, exists_false] at h
        | some l =>
          simp only [hl] at h
          obtain ⟨e1, e2, e3⟩ := ih m l x m1 it h
          refine ⟨e1, e2, fun v => ?_⟩
          simp [insertHelper, hn, h1, h2, hl, e3 v]
      · simp only [if_neg h2] at h
        cases hr : n.right with
        | none =>
          simp only [hr, alloc, Option.bind_eq_some, Option.pure_def, Option.some.injEq,
            Prod.mk.injEq, Bool.true_eq_false, and_false, exists_const, exists_false] at h
        | some r =>
          simp only [hr] at h
          obtain ⟨e1, e2, e3⟩ := ih m r x m1 it h
          refine ⟨e1, e2, fun v => ?_⟩
          simp [insertHelper, hn, h1, h2, hr, e3 v]

/-- For a key that `insert` adds with the default value, `operator[]` does the
same as that `insert`. -/
theorem operatorIndex_of_new (comp : K → K → Bool) [DecidableEq K] [Inhabited V]
    {m m' : Map K V} {k : K} {it : Nat}
    (h : insert comp m (k, default) = some (m', it, true)) :
    operatorIndex comp m k = some (m', it) := by
  simp only [insert, Option.bind_eq_some] at h
  obtain ⟨hd, hh, h⟩ := h
  simp only [operatorIndex, hh, Option.some_bind]
  cases hp : hd.parent with
  | none =>
    simp only [hp] at h ⊢
    simp [h]
  | some root =>
    simp only [hp, Option.bind_eq_some, Option.map_eq_some', Prod.mk.injEq] at h ⊢
    obtain ⟨r, hr, m1, h1, m2, h2, m3, h3, m4, h4, rfl, rfl, hb⟩ := h
    simp only [hb, Bool.not_true, Bool.false_eq_true, if_false, Option.some.injEq] at h1
    subst h1
    exact ⟨r, hr, m2, h2, m3, h3, m4, h4, rfl, rfl⟩

/-- For a key that `insert` finds, with the mapped value that is stored,
`operator[]` does the same as that `insert`. -/
theorem operatorIndex_of_found (comp : K → K → Bool) [DecidableEq K] [Inhabited V]
    {m m' : Map K V} {k : K} {v : V} {it : Nat}
    (h : insert comp m (k, v) = some (m', it, false))
    (hv : ∀ n, rd m it = some n → n.value.2 = v) :
    operatorIndex comp m k = some (m', it) := by
  simp only [insert, Option.bind_eq_some] at h
  obtain ⟨hd, hh, h⟩ := h
  simp only [operatorIndex, hh, Option.some_bind]
  cases hp : hd.parent with
  | none =>
    simp only [hp, insertRoot, alloc, Option.bind_eq_bind, Option.bind_eq_some,
      Option.pure_def, Option.some.injEq, Prod.mk.injEq, Bool.true_eq_false, and_false,
      exists_const, exists_false] at h
  | some root =>
    simp only [hp, Option.bind_eq_some, Option.map_eq_some', Prod.mk.injEq] at h ⊢
    obtain ⟨r, hr, m1, h1, m2, h2, m3, h3, m4, h4, rfl, rfl, hb⟩ := h
    obtain ⟨r1, r2, r3⟩ := r
    simp only at hb h1 h2 h3 hr
    subst hb
    obtain ⟨rfl, ⟨n, hn⟩, hindep⟩ := insertHelper_writes_nothing comp _ m root (k, v) r1 r2 hr
    simp only [Bool.not_false, if_true, setSecond, hn, Option.map_some',
      Option.some.injEq] at h1
    have hn' : ({ n with value := (n.value.1, v) } : RB_Node K V) = n := by
      rw [← hv n hn]
    rw [hn', wr_same hn] at h1
    subst h1
    exact ⟨(r1, r2, false), hindep default, m2, h2, m3, h3, m4, h4, rfl, rfl⟩

/-- What `operator[]` does on a map that satisfies the invariant: it returns, as
`insert` of the pair `(k, v)` does, where `v` is the default value when no
cell holds the key `k` and the mapped value stored with `k` otherwise; in the
second case the in-order sequence of cells is left as it was. -/
theorem operatorIndex_inv {comp : K → K → Bool} [DecidableEq K] [Inhabited V]
    (hc : StrictTotal comp) {m : Map K V} {t : Tree K V} (hinv : Inv comp m t) (k : K) :
    ∃ m' v l1 old l2,
      operatorIndex comp m k = some (m', (t.insertHelper comp m.mem.length (k, v)).2.1) ∧
      Inv comp m' (t.insert comp m.mem.length (k, v)) ∧
      t.cells = l1 ++ old ++ l2 ∧
      (t.insert comp m.mem.length (k, v)).cells
        = l1 ++ ((t.insertHelper comp m.mem.length (k, v)).2.1, (k, v)) :: l2 ∧
      (∀ p ∈ l1, comp p.2.1 k = true) ∧ (∀ p ∈ l2, comp k p.2.1 = true) ∧
      ((old = [] ∧ v = default) ∨
        old = [((t.insertHelper comp m.mem.length (k, v)).2.1, (k, v))]) := by
  have key : ∀ v : V, (¬ k ∈ t.keys ∧ v = default) ∨ (k, v) ∈ t.toList →
      ∃ m' l1 old l2,
      operatorIndex comp m k = some (m', (t.insertHelper comp m.mem.length (k, v)).2.1) ∧
      Inv comp m' (t.insert comp m.mem.length (k, v)) ∧
      t.cells = l1 ++ old ++ l2 ∧
      (t.insert comp m.mem.length (k, v)).cells
        = l1 ++ ((t.insertHelper comp m.mem.length (k, v)).2.1, (k, v)) :: l2 ∧
      (∀ p ∈ l1, comp p.2.1 k = true) ∧ (∀ p ∈ l2, comp k p.2.1 = true) ∧
      ((old = [] ∧ v = default) ∨
        old = [((t.insertHelper comp m.mem.length (k, v)).2.1, (k, v))]) := by
    intro v hv
    obtain ⟨m', e, hinv', -⟩ := insert_inv hc (k, v) hinv
    obtain ⟨l1, old, l2, e1, e2, b1, b2, hcase⟩ :=
      Tree.insert_cells hc m.mem.length (k, v) t hinv.ordered hinv.shape.nodup
    have n1 : ∀ p ∈ l1, p.2.1 ≠ k := fun p hp => hc.ne (b1 p hp)
    have n2 : ∀ p ∈ l2, p.2.1 ≠ k := fun p hp => Ne.symm (hc.ne (b2 p hp))
    have hcase' : ((t.insertHelper comp m.mem.length (k, v)).2.2 = true ∧ old = [] ∧
          v = default) ∨
        ((t.insertHelper comp m.mem.length (k, v)).2.2 = false ∧
          old = [((t.insertHelper comp m.mem.length (k, v)).2.1, (k, v))]) := by
      rcases hcase with ⟨hb, rfl, -⟩ | ⟨hb, w, rfl⟩
      · left
        rcases hv with ⟨-, hd⟩ | hv
        · exact ⟨hb, rfl, hd⟩
        · exfalso
          rw [← Tree.cells_map_snd, e1] at hv
          simp only [List.append_nil, List.map_append, List.mem_append, List.mem_map] at hv
          rcases hv with ⟨p, hp, ep⟩ | ⟨p, hp, ep⟩
          · exact n1 p hp (by rw [ep])
          · exact n2 p hp (by rw [ep])
      · right
        refine ⟨hb, ?_⟩
        rcases hv with ⟨hk, -⟩ | hv
        · exfalso
          apply hk
          rw [Tree.keys_eq, e1]
          simp
        · rw [← Tree.cells_map_snd, e1] at hv
          simp only [List.map_append, List.map_cons, List.map_nil, List.mem_append,
            List.mem_map, List.mem_singleton, Prod.mk.injEq, true_and] at hv
          rcases hv with (⟨p, hp, ep⟩ | hv) | ⟨p, hp, ep⟩
          · exact absurd (by rw [ep]) (n1 p hp)
          · rw [hv]
          · exact absurd (by rw [ep]) (n2 p hp)
    rcases hcase' with ⟨hb, ho, hd⟩ | ⟨hb, ho⟩
    · subst hd
      exact ⟨m', l1, old, l2, operatorIndex_of_new comp (by rw [e, ← hb]), hinv', e1, e2, b1, b2,
        Or.inl ⟨ho, rfl⟩⟩
    · have hcell : ((t.insertHelper comp m.mem.length (k, v)).2.1, (k, v)) ∈ t.cells := by
        rw [e1, ho]
        simp
      obtain ⟨n, hn, hval⟩ := hinv.shape.rep.rd_cell hcell
      refine ⟨m', l1, old, l2, operatorIndex_of_found comp (v := v) (by rw [e, ← hb]) ?_, hinv',
        e1, e2, b1, b2, Or.inr ho⟩
      intro n' hn'
      rw [hn] at hn'
      cases hn'
      rw [hval]
  by_cases hk : k ∈ t.keys
  · obtain ⟨⟨k', v⟩, hp, rfl⟩ := List.mem_map.mp hk
    obtain ⟨m', l1, old, l2, h⟩ := key v (Or.inr hp)
    exact ⟨m', v, l1, old, l2, h⟩
  · obtain ⟨m', l1, old, l2, h⟩ := key default (Or.inl ⟨hk, rfl⟩)
    exact ⟨m', default, l1, old, l2, h⟩

/-- For a strict total order `comp`, a list `L` and a key `k`, on the map
built from `L` by `insert`, whose walk from `begin()` to `end()` is `out`,
`operator[](k)` returns a reference into a data node `it`, and the walk
`out'` of the new map is in strictly increasing key order.  If no element of
`out` has the key `k`, the node holds `(k, default)`, `size()` has grown by 1
and `out'` has the elements of `out` and `(k, default)`.  If an element of
`out` has the key `k`, the node is the one that `find(k)` returned before, it
holds the key `k`, and `size()` and the walk (keys and mapped values) are as
before. -/
theorem index_inserts_if_absent {comp : K → K → Bool} [DecidableEq K] [Inhabited K]
    [Inhabited V] (hc : StrictTotal comp) (L : List (K × V)) (k : K) :
    ∃ m out m' it out', ofList comp L = some m ∧ toList m = some out ∧
      operatorIndex comp m k = some (m', it) ∧ it ≠ endIt ∧ toList m' = some out' ∧
      (out'.map Prod.fst).Pairwise (fun a b => comp a b = true) ∧
      ((k ∉ out.map Prod.fst ∧ deref m' it = some (k, default) ∧ size m' = size m + 1 ∧
          ∀ p, p ∈ out' ↔ p = (k, default) ∨ p ∈ out) ∨
        (k ∈ out.map Prod.fst ∧ find comp m k = some it ∧
          (∃ v, deref m' it = some (k, v)) ∧ size m' = size m ∧ out' = out)) := by
  obtain ⟨m, t, hm, hinv, -⟩ := ofList_inv hc L
  obtain ⟨m', v, l1, old, l2, hop, hinv', e1, e2, b1, b2, hcase⟩ := operatorIndex_inv hc hinv k
  have n1 : ∀ p ∈ l1, p.2.1 ≠ k := fun p hp => hc.ne (b1 p hp)
  have n2 : ∀ p ∈ l2, p.2.1 ≠ k := fun p hp => Ne.symm (hc.ne (b2 p hp))
  have hcell' : ((t.insertHelper comp m.mem.length (k, v)).2.1, (k, v))
      ∈ (t.insert comp m.mem.length (k, v)).cells := by
    rw [e2]
    simp
  obtain ⟨n, hn, hval⟩ := hinv'.shape.rep.rd_cell hcell'
  have hderef : deref m' (t.insertHelper comp m.mem.length (k, v)).2.1 = some (k, v) := by
    rw [deref, hn, Option.map_some', hval]
  refine ⟨m, t.toList, m', _, (t.insert comp m.mem.length (k, v)).toList, hm,
    toList_spec hinv.shape hinv.cached, hop, ?_, toList_spec hinv'.shape hinv'.cached,
    Tree.pairwise_of_ordered hc hinv'.ordered, ?_⟩
  · intro h0
    have := Tree.addr_mem_of_mem_cells hcell'
    simp only [h0, endIt] at this
    exact hinv'.shape.notHead this
  · rcases hcase with ⟨rfl, rfl⟩ | rfl
    · left
      refine ⟨?_, hderef, ?_, ?_⟩
      · rw [← Tree.cells_map_snd, e1]
        simp only [List.append_nil, List.map_append, List.map_map, List.mem_append, List.mem_map,
          Function.comp_apply, not_or, not_exists, not_and]
        exact ⟨fun p hp => n1 p hp, fun p hp => n2 p hp⟩
      · rw [size, size, hinv'.size, hinv.size, Tree.size_eq_length_cells,
          Tree.size_eq_length_cells, e1, e2]
        simp
        omega
      · intro p
        rw [← Tree.cells_map_snd, ← Tree.cells_map_snd, e1, e2]
        simp only [List.append_nil, List.map_append, List.map_cons, List.mem_append,
          List.mem_cons]
        tauto
    · right
      have hcell : ((t.insertHelper comp m.mem.length (k, v)).2.1, (k, v)) ∈ t.cells := by
        rw [e1]
        simp
      refine ⟨?_, ?_, ⟨v, hderef⟩, ?_, ?_⟩
      · rw [← Tree.cells_map_snd, e1]
        simp
      · rw [find_spec comp k hinv.shape, Tree.findHelper_of_mem hc hinv.ordered hcell]
        rfl
      · rw [size, size, hinv'.size, hinv.size, Tree.size_eq_length_cells,
          Tree.size_eq_length_cells, e1, e2]
        simp
      · rw [← Tree.cells_map_snd, ← Tree.cells_map_snd, e1, e2]
        simp

/-- The preceding statement at the map with the keys 3 and 7, for `operator[](5)`. -/
theorem index_inserts_if_absent_example :
    StrictTotal natLess ∧
    ∃ m out m' it out', ofList natLess [(3, 30), (7, 70)] = some m ∧ toList m = some out ∧
      operatorIndex natLess m 5 = some (m', it) ∧ it ≠ endIt ∧ toList m' = some out' ∧
      (out'.map Prod.fst).Pairwise (fun a b => natLess a b = true) ∧
      ((5 ∉ out.map Prod.fst ∧ deref m' it = some (5, default) ∧ size m' = size m + 1 ∧
          ∀ p, p ∈ out' ↔ p = (5, default) ∨ p ∈ out) ∨
        (5 ∈ out.map Prod.fst ∧ find natLess m 5 = some it ∧
          (∃ v, deref m' it = some (5, v)) ∧ size m' = size m ∧ out' = out)) :=
  ⟨natLess_strictTotal, index_inserts_if_absent natLess_strictTotal [(3, 30), (7, 70)] 5⟩

/-! ## Maps built by `insert` and `operator[]` -/

/-- C21: on the map built by `insert` of the keys 1, 2, 3, 4, `erase(begin())`
returns an iterator at the element with key 2, but the walk of the new map
from `begin()` to `end()` visits only the keys 3 and 4 while `size()` is 3: the
element that followed the erased one is no longer visited.  (The loop of the
driver that erases the even keys of 1, 2, 3, 4, 5 leaves 1, 3, 5.) -/
theorem C21_erase_begin_loses_next_element :
    (ofList natLess [(1, 10), (2, 20), (3, 30), (4, 40)]).bind (fun m =>
      (beginIt m).bind fun b => (eraseIt natLess m b).bind fun r =>
        (toList r.1).map fun l => (deref m b, deref r.1 r.2, l, size r.1))
      = some (some (1, 10), some (2, 20), [(3, 30), (4, 40)], 3) ∧
    (ofList natLess [(1, 10), (2, 20), (3, 30), (4, 40), (5, 50)]).bind (fun m =>
      (beginIt m).bind fun b => (eraseEven m (fuelOf m) b).bind toList)
      = some [(1, 10), (3, 30), (5, 50)] := by
  decide

/-- C23: on the map built by `insert` of the keys 1 to 7, `operator--` applied
to `end()` yields the iterator at key 1, not at key 7, and applied once more it
yields `end()` again. -/
theorem C23_decrement_end_is_not_largest :
    (ofList natLess [(1, 10), (2, 20), (3, 30), (4, 40), (5, 50), (6, 60), (7, 70)]).bind
      (fun m => (decrement m endIt).bind fun a => (decrement m a).map fun b => (deref m a, b))
      = some (some (1, 10), endIt) := by
  decide

/-- C29: under the strict weak ordering that compares keys by their tens, the
keys 5 and 7 are equivalent, and `insert` of 5 followed by `insert` of 7, or by
`operator[](7)`, gives a map of two nodes that hold these keys. -/
theorem C29_equivalent_keys_in_two_nodes :
    (lessTens 5 7, lessTens 7 5) = (false, false) ∧
    (ofList lessTens [(5, 50), (7, 70)]).bind (fun m => (toList m).map fun l => (l, size m))
      = some ([(5, 50), (7, 70)], 2) ∧
    (build lessTens [Put.insert (5, 50), Put.index 7]).bind
      (fun m => (toList m).map fun l => (l, size m))
      = some ([(5, 50), (7, 0)], 2) := by
  decide

/-! ## Successor -/

/-- C30: for a strict total order `comp`, on a map that holds a search tree
(the links `left`, `right`, `parent` are those of the tree, the root's parent
is the sentinel, the keys are in order) and a data node at address `a`,
`operator++` on an iterator at that node returns; the result is either `end()`,
and then no node holds a key greater than the key of `a`, or a data node whose
key is greater than the key of `a` and less than every other key that is
greater than the key of `a`.  The sentinel's links `left` and `right` play no
part. -/
theorem C30_increment_is_successor {comp : K → K → Bool} (hc : StrictTotal comp)
    (m : Map K V) (t : Tree K V) (hs : Shape m t) (ho : t.Ordered comp) (a : Nat)
    (ha : a ∈ t.addrs) :
    ∃ kv b, deref m a = some kv ∧ increment m a = some b ∧
      ((b = endIt ∧ ∀ p ∈ t.toList, comp kv.1 p.1 = false) ∨
        (b ≠ endIt ∧ b ∈ t.addrs ∧ ∃ kv', deref m b = some kv' ∧ kv' ∈ t.toList ∧
          comp kv.1 kv'.1 = true ∧
          ∀ p ∈ t.toList, comp kv.1 p.1 = true → p = kv' ∨ comp kv'.1 p.1 = true)) := by
  obtain ⟨kv, hcell⟩ := Tree.exists_cell_of_mem_addrs ha
  obtain ⟨l1, l2, e⟩ := List.append_of_mem hcell
  obtain ⟨n, hn, hv⟩ := hs.rep.rd_cell hcell
  have hinc := increment_spec hs e
  have hsorted := Tree.pairwise_of_ordered hc ho
  rw [Tree.keys_eq, e, List.map_append, List.pairwise_append, List.map_cons,
    List.pairwise_cons] at hsorted
  obtain ⟨-, ⟨h2, h3⟩, h1⟩ := hsorted
  have hbefore : ∀ p ∈ l1, comp kv.1 p.2.1 = false := fun p hp =>
    hc.asymm (h1 _ (List.mem_map.mpr ⟨p, hp, rfl⟩) _ (List.mem_cons_self _ _))
  have hlist : t.toList = l1.map Prod.snd ++ kv :: l2.map Prod.snd := by
    rw [← Tree.cells_map_snd, e]
    simp
  refine ⟨kv, _, by rw [deref, hn, Option.map_some', hv], hinc, ?_⟩
  cases l2 with
  | nil =>
    left
    refine ⟨rfl, ?_⟩
    intro p hp
    rw [hlist] at hp
    simp only [List.map_nil, List.mem_append, List.mem_map, List.mem_singleton] at hp
    rcases hp with ⟨q, hq, rfl⟩ | rfl
    · exact hbefore q hq
    · exact hc.irrefl _
  | cons q l2 =>
    right
    obtain ⟨b, kv'⟩ := q
    have hcell' : (b, kv') ∈ t.cells := by rw [e]; simp
    obtain ⟨n', hn', hv'⟩ := hs.rep.rd_cell hcell'
    have hb := Tree.addr_mem_of_mem_cells hcell'
    simp only [List.map_cons, List.pairwise_cons, List.mem_cons, forall_eq_or_imp] at h2 h3
    refine ⟨?_, hb, kv', ?_, ?_, h2.1, ?_⟩
    · intro h0
      simp only [List.map_cons, List.headD_cons] at h0
      rw [h0] at hb
      exact hs.notHead hb
    · simp only [List.map_cons, List.headD_cons, deref, hn', Option.map_some', hv']
    · rw [hlist]
      simp
    · intro p hp hgt
      rw [hlist] at hp
      simp only [List.map_cons, List.mem_append, List.mem_map, List.mem_cons] at hp
      rcases hp with ⟨q, hq, rfl⟩ | rfl | rfl | ⟨q, hq, rfl⟩
      · rw [hbefore q hq] at hgt
        cases hgt
      · rw [hc.irrefl] at hgt
        cases hgt
      · exact Or.inl rfl
      · exact Or.inr (h3.1 _ (List.mem_map.mpr ⟨q, hq, rfl⟩))

/-- C30 at the single-node tree, whose root is both extrema of the sentinel. -/
theorem C30_witness :
    (StrictTotal natLess ∧ Shape oneNodeMap oneNodeTree ∧ oneNodeTree.Ordered natLess ∧
      1 ∈ oneNodeTree.addrs) ∧
    ∃ kv b, deref oneNodeMap 1 = some kv ∧ increment oneNodeMap 1 = some b ∧
      ((b = endIt ∧ ∀ p ∈ oneNodeTree.toList, natLess kv.1 p.1 = false) ∨
        (b ≠ endIt ∧ b ∈ oneNodeTree.addrs ∧ ∃ kv', deref oneNodeMap b = some kv' ∧
          kv' ∈ oneNodeTree.toList ∧ natLess kv.1 kv'.1 = true ∧
          ∀ p ∈ oneNodeTree.toList, natLess kv.1 p.1 = true →
            p = kv' ∨ natLess kv'.1 p.1 = true)) :=
  ⟨⟨natLess_strictTotal, oneNode_shape, oneNode_ordered, by simp [oneNodeTree, Tree.addrs]⟩,
    C30_increment_is_successor natLess_strictTotal oneNodeMap oneNodeTree oneNode_shape
      oneNode_ordered 1 (by simp [oneNodeTree, Tree.addrs])⟩
/-! ## The walk from `rbegin()` to `rend()` -/

theorem rightmost_spec (d : Nat) (t : Tree K V) : ∀ (m : Map K V) (par : Option Nat)
    (fuel a : Nat), Rep m par t → t.root = some a → t.height ≤ fuel →
    rightmost m fuel a = some (t.last d) := by
  induction t with
  | nil => intro m par fuel a _ h; cases h
  | node s c l kv r _ ihr =>
    intro m par fuel a h ha hf
    simp only [Tree.root_node, Option.some.injEq] at ha
    subst ha
    cases fuel with
    | zero => simp [Tree.height] at hf
    | succ f =>
      simp only [Tree.height, add_le_add_iff_right, max_le_iff] at hf
      simp only [rightmost, h.1, Option.bind_eq_bind, Option.some_bind, Tree.last]
      cases r with
      | nil => rfl
      | node ra rc rl rkv rr =>
        simp only [Tree.root_node]
        rw [ihr m (some s) f ra h.2.2 rfl hf.2]
        rfl

theorem climbLeft_step {m : Map K V} {node p pp : Nat} {pn : RB_Node K V} (k : Nat)
    (hp : rd m p = some pn) (hr : pn.left = some node) (hpp : pn.parent = some pp) :
    climbLeft m (k + 1) node p = climbLeft m k p pp := by
  simp [climbLeft, hp, hr, hpp]

theorem climbLeft_stop {m : Map K V} {node p : Nat} {pn : RB_Node K V} (k : Nat)
    (hp : rd m p = some pn) (hr : pn.left ≠ some node) :
    climbLeft m (k + 1) node p = some (node, p) := by
  simp [climbLeft, hp, hr]

/-- The reverse walk through a subtree: started at its rightmost node it
visits the nodes of the subtree in reversed order and goes on at the node that
precedes the subtree, provided the climb from the root of the subtree ends at
that node. -/
theorem rwalk_subtree (t : Tree K V) : ∀ (m : Map K V) (pr after B F : Nat),
    Rep m (some pr) t → t.addrs.Nodup → 0 ∉ t.addrs → B + t.height ≤ fuelOf m →
    (∀ s, t.root = some s → ∀ fuel, B ≤ fuel →
      (climbLeft m fuel s pr).bind (afterClimbLeft m) = some after) →
    rwalkFrom m (F + t.size) (t.last after)
      = (rwalkFrom m F after).map fun rest => t.toList.reverse ++ rest := by
  induction t with
  | nil =>
    intro m pr after B F _ _ _ _ _
    simp [Tree.size, Tree.last, Tree.toList]
  | node s c l kv r ihl ihr =>
    intro m pr after B F hrep hnd h0 hB hexit
    obtain ⟨hs, hl, hr⟩ := hrep
    obtain ⟨hsl, hsr, hdis, hndl, hndr⟩ := Tree.nodup_node.mp hnd
    simp only [Tree.mem_addrs_node, not_or] at h0
    simp only [Tree.height] at hB
    have hlh : l.height ≤ max l.height r.height := le_max_left _ _
    have hrh : r.height ≤ max l.height r.height := le_max_right _ _
    -- the right subtree
    have e1 := ihr m s s 1 (F + 1 + l.size) hr hndr h0.2.2 (by omega) (by
      intro rr hrr fuel hfuel
      obtain ⟨k, rfl⟩ : ∃ k, fuel = k + 1 := ⟨fuel - 1, by omega⟩
      have hne : (⟨kv, some pr, l.root, r.root, c⟩ : RB_Node K V).left ≠ some rr := by
        intro e
        exact hdis rr (Tree.root_mem e) (Tree.root_mem hrr)
      rw [climbLeft_stop k hs hne]
      cases r with
      | nil => cases hrr
      | node ra rc rl rkv rr' =>
        simp only [Tree.root_node, Option.some.injEq] at hrr
        subst hrr
        have hne' : rl.root ≠ some s := fun e =>
          hsr (Tree.mem_addrs_node.mpr (Or.inr (Or.inl (Tree.root_mem e))))
        simp [afterClimbLeft, hr.1, hne'])
    -- the step from the root of the subtree
    have hdec : decrement m s = some (l.last after) := by
      simp only [decrement, inorderPredecessor, hs, Option.bind_eq_bind, Option.some_bind]
      cases l with
      | nil =>
        simp only [Tree.root_nil, Tree.last]
        exact hexit s rfl (fuelOf m) (by omega)
      | node la lc ll lkv lr =>
        simp only [Tree.root_node]
        exact rightmost_spec after _ m (some s) (fuelOf m) la hl rfl (by omega)
    -- the left subtree
    have e2 := ihl m s after (B + 1) F hl hndl h0.2.1 (by omega) (by
      intro ll hll fuel hfuel
      obtain ⟨k, rfl⟩ : ∃ k, fuel = k + 1 := ⟨fuel - 1, by omega⟩
      rw [climbLeft_step k hs hll rfl]
      exact hexit s rfl k (by omega))
    have hsz : F + (node s c l kv r).size = F + 1 + l.size + r.size := by
      simp only [Tree.size]; omega
    rw [hsz, Tree.last, e1]
    have hw : rwalkFrom m (F + 1 + l.size) s
        = (rwalkFrom m F after).map fun rest => kv :: (l.toList.reverse ++ rest) := by
      have : F + 1 + l.size = (F + l.size) + 1 := by omega
      rw [this, rwalkFrom]
      simp only [rendIt, Ne.symm h0.1, if_false, hs, hdec, e2, Option.bind_eq_bind,
        Option.some_bind, Option.pure_def]
      cases rwalkFrom m F after <;> rfl
    rw [hw]
    cases rwalkFrom m F after with
    | none => rfl
    | some rest => simp [Tree.toList]

/-- The climb to the left that leaves the whole tree ends at the sentinel. -/
theorem climbLeft_root_exit {m : Map K V} {t : Tree K V} {s : Nat} (hs : Shape m t)
    (hroot : t.root = some s) (fuel : Nat) (hf : 2 ≤ fuel) :
    (climbLeft m fuel s 0).bind (afterClimbLeft m) = some 0 := by
  obtain ⟨h, hh, hp⟩ := hs.head
  obtain ⟨k, rfl⟩ : ∃ k, fuel = k + 2 := ⟨fuel - 2, by omega⟩
  cases t with
  | nil => cases hroot
  | node a c l kv r =>
    simp only [Tree.root_node, Option.some.injEq] at hroot
    subst hroot
    have ha := hs.rep.1
    have h0 := hs.notHead
    simp only [Tree.mem_addrs_node, not_or] at h0
    have hl0 : l.root ≠ some 0 := fun e => h0.2.1 (Tree.root_mem e)
    by_cases hl : h.left = some a
    · rw [climbLeft_step (k + 1) hh hl hp]
      have hne : (⟨kv, some 0, l.root, r.root, c⟩ : RB_Node K V).left ≠ some 0 := hl0
      rw [climbLeft_stop k ha hne]
      simp [afterClimbLeft, hh, hl]
    · rw [climbLeft_stop (k + 1) hh hl]
      simp [afterClimbLeft, ha, hl0]

/-- The walk from `rbegin()` to `rend()` visits the values of the tree in
reversed order. -/
theorem rtoList_spec {m : Map K V} {t : Tree K V} (hs : Shape m t) (hc : Cached m t) :
    rtoList m = some t.toList.reverse := by
  obtain ⟨h, hh, hl, hr⟩ := hc
  have hsize := hs.rep.size_le hs.nodup
  have hheight := t.height_le_size
  have hfuel : fuelOf m = (fuelOf m - t.size) + t.size := by
    simp only [fuelOf]; omega
  have hw := rwalk_subtree t m 0 0 2 (fuelOf m - t.size) hs.rep hs.nodup hs.notHead
    (by simp only [fuelOf]; omega)
    (fun s hroot fuel hf => climbLeft_root_exit hs hroot fuel hf)
  rw [← hfuel] at hw
  simp only [rtoList, rbeginIt, hh, hr, Option.bind_eq_bind, Option.some_bind, hw]
  obtain ⟨k, hk⟩ : ∃ k, fuelOf m - t.size = k + 1 :=
    ⟨fuelOf m - t.size - 1, by simp only [fuelOf]; omega⟩
  rw [hk]
  simp [rwalkFrom, rendIt]

/-- For a strict total order `comp` and a list `L`, on the map built from
`L` by `insert` the walk of the reverse iterator from `rbegin()` to `rend()`
visits the elements of the walk from `begin()` to `end()` in reversed order, and
its keys are strictly decreasing. -/
theorem reverse_walk_is_reversed {comp : K → K → Bool} [DecidableEq K] [Inhabited K]
    [Inhabited V] (hc : StrictTotal comp) (L : List (K × V)) :
    ∃ m out, ofList comp L = some m ∧ toList m = some out ∧ rtoList m = some out.reverse ∧
      (out.reverse.map Prod.fst).Pairwise (fun a b => comp b a = true) := by
  obtain ⟨m, t, hm, hinv, -⟩ := ofList_inv hc L
  refine ⟨m, t.toList, hm, toList_spec hinv.shape hinv.cached,
    rtoList_spec hinv.shape hinv.cached, ?_⟩
  rw [List.map_reverse, List.pairwise_reverse]
  exact Tree.pairwise_of_ordered hc hinv.ordered

/-- The preceding statement at the map built from the keys 2, 5, 1, 4. -/
theorem reverse_walk_is_reversed_example :
    StrictTotal natLess ∧
    ∃ m out, ofList natLess [(2, 20), (5, 50), (1, 10), (4, 40)] = some m ∧
      toList m = some out ∧ rtoList m = some out.reverse ∧
      (out.reverse.map Prod.fst).Pairwise (fun a b => natLess b a = true) :=
  ⟨natLess_strictTotal,
    reverse_walk_is_reversed natLess_strictTotal [(2, 20), (5, 50), (1, 10), (4, 40)]⟩

/-! ## `clear` returns on every map that holds a tree -/

theorem rd_free {m m' : Map K V} {a : Nat} (h : free m a = some m') :
    m'.mem.length = m.mem.length ∧ m'._size = m._size ∧
      ∀ x, rd m' x = if x = a then none else rd m x := by
  simp only [free, Option.map_eq_some'] at h
  obtain ⟨n, hn, rfl⟩ := h
  refine ⟨by simp, rfl, fun x => ?_⟩
  have hl := rd_lt hn
  unfold rd
  simp only [List.getD_eq_getElem?_getD, List.getElem?_set]
  by_cases e : a = x
  · subst e
    simp [hl]
  · have e' : ¬ x = a := fun h => e h.symm
    simp [e, e']

/-- On a store that holds a tree `deleteHelper` returns: it frees the cells of
the nodes of the tree and leaves every other cell as it is. -/
theorem deleteHelper_spec (t : Tree K V) : ∀ (m : Map K V) (par : Option Nat) (fuel : Nat),
    Rep m par t → t.addrs.Nodup → t.height < fuel →
    ∃ m', deleteHelper fuel m t.root = some m' ∧ m'.mem.length = m.mem.length ∧
      m'._size = m._size ∧ (∀ x, x ∉ t.addrs → rd m' x = rd m x) ∧
      ∀ x ∈ t.addrs, rd m' x = none := by
  induction t with
  | nil =>
    intro m par fuel _ _ hf
    obtain ⟨k, rfl⟩ : ∃ k, fuel = k + 1 := ⟨fuel - 1, by omega⟩
    exact ⟨m, rfl, rfl, rfl, fun _ _ => rfl, fun x hx => by cases hx⟩
  | node a c l kv r ihl ihr =>
    intro m par fuel hrep hnd hf
    obtain ⟨k, rfl⟩ : ∃ k, fuel = k + 1 := ⟨fuel - 1, by omega⟩
    obtain ⟨ha, hl, hr⟩ := hrep
    obtain ⟨hal, har, hdis, hndl, hndr⟩ := Tree.nodup_node.mp hnd
    simp only [Tree.height] at hf
    have hlh : l.height ≤ max l.height r.height := le_max_left _ _
    have hrh : r.height ≤ max l.height r.height := le_max_right _ _
    -- the left subtree
    have hL : ∃ m1, (∀ f : Map K V → Option (Map K V), (if l.root.isSome then
          ((deleteHelper k m l.root).bind fun m => setLeft m a none).bind f
          else (pure m : Option (Map K V)).bind f) = f m1) ∧
        m1.mem.length = m.mem.length ∧ m1._size = m._size ∧
        rd m1 a = some ⟨kv, par, none, r.root, c⟩ ∧
        (∀ x, x ≠ a → x ∉ l.addrs → rd m1 x = rd m x) ∧ ∀ x ∈ l.addrs, rd m1 x = none := by
      cases l with
      | nil => exact ⟨m, fun _ => rfl, rfl, rfl, ha, fun _ _ _ => rfl, fun x hx => by cases hx⟩
      | node la lc ll lkv lr =>
        obtain ⟨m1, e, len, sz, hfr, hnone⟩ := ihl m (some a) k hl hndl (by omega)
        simp only [Tree.root_node] at e
        have ha1 : rd m1 a = some ⟨kv, par, some la, r.root, c⟩ := by rw [hfr a hal]; exact ha
        have hlt : a < m1.mem.length := rd_lt ha1
        refine ⟨wr m1 a ⟨kv, par, none, r.root, c⟩, ?_, by simp [len], by simp [sz], ?_, ?_, ?_⟩
        · intro f
          simp [e, setLeft, ha1]
        · simp [rd_wr, hlt]
        · intro x hxa hx
          simp [rd_wr, hxa, hfr x hx]
        · intro x hx
          have hxa : x ≠ a := ne_of_mem_of_not_mem hx hal
          simp [rd_wr, hxa, hnone x hx]
    obtain ⟨m1, e1, len1, sz1, ha1, hfr1, hnone1⟩ := hL
    -- the right subtree
    have hr1 : Rep m1 (some a) r := hr.frame fun x hx =>
      hfr1 x (ne_of_mem_of_not_mem hx har) (fun hxl => hdis x hxl hx)
    have hR : ∃ m2, (∀ f : Map K V → Option (Map K V), (if r.root.isSome then
          ((deleteHelper k m1 r.root).bind fun m => setRight m a none).bind f
          else (pure m1 : Option (Map K V)).bind f) = f m2) ∧
        m2.mem.length = m1.mem.length ∧ m2._size = m1._size ∧
        (∃ n, rd m2 a = some n) ∧
        (∀ x, x ≠ a → x ∉ r.addrs → rd m2 x = rd m1 x) ∧ ∀ x ∈ r.addrs, rd m2 x = none := by
      cases r with
      | nil =>
        exact ⟨m1, fun _ => rfl, rfl, rfl, ⟨_, ha1⟩, fun _ _ _ => rfl, fun x hx => by cases hx⟩
      | node ra rc rl rkv rr =>
        obtain ⟨m2, e, len, sz, hfr, hnone⟩ := ihr m1 (some a) k hr1 hndr (by omega)
        simp only [Tree.root_node] at e
        have ha2 : rd m2 a = some ⟨kv, par, none, some ra, c⟩ := by rw [hfr a har]; exact ha1
        have hlt : a < m2.mem.length := rd_lt ha2
        refine ⟨wr m2 a ⟨kv, par, none, none, c⟩, ?_, by simp [len], by simp [sz],
          ⟨⟨kv, par, none, none, c⟩, by simp [rd_wr, hlt]⟩, ?_, ?_⟩
        · intro f
          simp [e, setRight, ha2]
        · intro x hxa hx
          simp [rd_wr, hxa, hfr x hx]
        · intro x hx
          have hxa : x ≠ a := ne_of_mem_of_not_mem hx har
          simp [rd_wr, hxa, hnone x hx]
    obtain ⟨m2, e2, len2, sz2, ⟨n2, ha2⟩, hfr2, hnone2⟩ := hR
    have e3 : free m2 a = some { m2 with mem := m2.mem.set a none } := by
      simp [free, ha2]
    obtain ⟨len3, sz3, hrd3⟩ := rd_free e3
    refine ⟨_, ?_, by rw [len3, len2, len1], by rw [sz3, sz2, sz1], ?_, ?_⟩
    · simp only [deleteHelper, Tree.root_node, ha, Option.bind_eq_bind, Option.some_bind]
      rw [e1]
      simp only [ha1, Option.some_bind]
      rw [e2]
      exact e3
    · intro x hx
      simp only [Tree.mem_addrs_node, not_or] at hx
      rw [hrd3, if_neg hx.1, hfr2 x hx.1 hx.2.2, hfr1 x hx.1 hx.2.1]
    · intro x hx
      rw [hrd3]
      by_cases hxa : x = a
      · rw [if_pos hxa]
      · rw [if_neg hxa]
        rcases Tree.mem_addrs_node.mp hx with h | h | h
        · exact absurd h hxa
        · rw [hfr2 x hxa (hdis x h), hnone1 x h]
        · exact hnone2 x h

theorem ShapeAt.transfer {m m' : Map K V} {this : Nat} {t : Tree K V} (h : ShapeAt m this t)
    (h0 : rd m' this = rd m this) (hf : ∀ x ∈ t.addrs, rd m' x = rd m x) :
    ShapeAt m' this t :=
  ⟨by rw [h0]; exact h.head, h.rep.frame hf, h.nodup, h.notHead⟩

theorem CachedAt.carry {m m' : Map K V} {this : Nat} {t : Tree K V} (h : CachedAt m this t)
    (h0 : rd m' this = rd m this) : CachedAt m' this t := by
  unfold CachedAt
  rw [h0]
  exact h

/-- An object keeps its tree when its sentinel, its nodes and its `_size` are
left as they are. -/
theorem Holds.preserved {w w' : Heap K V} {this : Nat} {t : Tree K V} (h : Holds w this t)
    (h0 : rd w'.mem this = rd w.mem this) (hf : ∀ x ∈ t.addrs, rd w'.mem x = rd w.mem x)
    (hsz : w'.sizes this = w.sizes this) : Holds w' this t :=
  ⟨h.shape.transfer h0 hf, h.cached.carry h0, hsz.trans h.size⟩

theorem Holds.head_lt {w : Heap K V} {this : Nat} {t : Tree K V} (h : Holds w this t) :
    this < w.mem.mem.length := by
  obtain ⟨_, hh, -⟩ := h.shape.head
  exact rd_lt hh

theorem Holds.addrs_lt {w : Heap K V} {this : Nat} {t : Tree K V} (h : Holds w this t) :
    ∀ x ∈ t.addrs, x < w.mem.mem.length :=
  h.shape.rep.lt

/-! ## Moving the nodes of one object to another -/

theorem wr_wr (m : Map K V) (a : Nat) (x y : RB_Node K V) : wr (wr m a x) a y = wr m a y := by
  simp [wr]

theorem setParent_eq {m : Map K V} {a : Nat} {n : RB_Node K V} (h : rd m a = some n)
    (p : Option Nat) : setParent m a p = some (wr m a { n with parent := p }) := by
  simp [setParent, h]

theorem setLeft_eq {m : Map K V} {a : Nat} {n : RB_Node K V} (h : rd m a = some n)
    (p : Option Nat) : setLeft m a p = some (wr m a { n with left := p }) := by
  simp [setLeft, h]

theorem setRight_eq {m : Map K V} {a : Nat} {n : RB_Node K V} (h : rd m a = some n)
    (p : Option Nat) : setRight m a p = some (wr m a { n with right := p }) := by
  simp [setRight, h]

theorem rd_wr_same {m : Map K V} {a : Nat} {n : RB_Node K V} (x : RB_Node K V)
    (h : rd m a = some n) : rd (wr m a x) a = some x := by
  simp [rd_wr, rd_lt h]

theorem rd_wr_ne (m : Map K V) {a b : Nat} (x : RB_Node K V) (h : b ≠ a) :
    rd (wr m a x) b = rd m b := by
  simp [rd_wr, h]

/-- The three assignments of `resetHead` amount to one write of the sentinel. -/
theorem resetHead_eq {m : Map K V} {a : Nat} {n : RB_Node K V} (h : rd m a = some n) :
    resetHead m a = some (wr m a ⟨n.value, none, some a, some a, n.color⟩) := by
  have h1 := rd_wr_same { n with parent := none } h
  have h2 := rd_wr_same { n with parent := none, left := some a } h1
  rw [resetHead, setParent_eq h, Option.some_bind, setLeft_eq h1, Option.some_bind,
    setRight_eq h2, wr_wr, wr_wr]

theorem Tree.eq_nil_of_size {t : Tree K V} (h : t.size = 0) : t = nil := by
  cases t with
  | nil => rfl
  | node a c l kv r => simp [Tree.size] at h

/-- The statements on the links shared by the move constructor and the move
assignment: when the object at `other` holds a tree and `this` is the address
of another sentinel, they return; the object at `this` then holds the tree,
the object at `other` is empty, and only the two sentinels and the root of the
tree have been written. -/
theorem takeNodes_spec {m : Map K V} {this other : Nat} {t : Tree K V} {hth : RB_Node K V}
    (hs : ShapeAt m other t) (hc : CachedAt m other t) (hthis : rd m this = some hth)
    (hne : this ≠ other) (hnt : this ∉ t.addrs) :
    ∃ m', takeNodes m this other t.size = some m' ∧ m'.mem.length = m.mem.length ∧
      ShapeAt m' this t ∧ CachedAt m' this t ∧ ShapeAt m' other nil ∧ CachedAt m' other nil ∧
      ∀ x, x ≠ this → x ≠ other → t.root ≠ some x → rd m' x = rd m x := by
  obtain ⟨oh, hoh, hl, hr⟩ := hc
  obtain ⟨oh', hoh', hp⟩ := hs.head
  rw [hoh] at hoh'
  cases hoh'
  have hne' : other ≠ this := Ne.symm hne
  cases t with
  | nil =>
    simp only [Tree.root_nil] at hp
    have h1 := rd_wr_same { hth with parent := none } hthis
    have e1 := resetHead_eq h1
    rw [wr_wr] at e1
    have h2 : rd (wr m this ⟨hth.value, none, some this, some this, hth.color⟩) other
        = some oh := by rw [rd_wr_ne _ _ hne']; exact hoh
    have e2 := resetHead_eq h2
    have etake : takeNodes m this other (nil : Tree K V).size = some
        (wr (wr m this ⟨hth.value, none, some this, some this, hth.color⟩) other
          ⟨oh.value, none, some other, some other, oh.color⟩) := by
      simp only [takeNodes, hoh, Option.some_bind, hp, setParent_eq hthis, Tree.size,
        lt_irrefl, if_false, e1]
      exact e2
    refine ⟨_, etake, ?_, ?_, ?_, ?_, ?_, ?_⟩
    · simp
    · exact ⟨⟨_, (rd_wr_ne _ _ hne).trans (rd_wr_same _ hthis), rfl⟩, trivial, List.nodup_nil,
        by simp⟩
    · exact ⟨_, (rd_wr_ne _ _ hne).trans (rd_wr_same _ hthis), rfl, rfl⟩
    · exact ⟨⟨_, rd_wr_same _ h2, rfl⟩, trivial, List.nodup_nil, by simp⟩
    · exact ⟨_, rd_wr_same _ h2, rfl, rfl⟩
    · intro x hx1 hx2 _
      rw [rd_wr_ne _ _ hx2, rd_wr_ne _ _ hx1]
  | node a c l kv r =>
    simp only [Tree.root_node] at hp
    have hrep := hs.rep
    have ha := hrep.1
    have hao : a ≠ other := fun e => hs.notHead (e ▸ Tree.mem_addrs_node.mpr (Or.inl rfl))
    have hat : a ≠ this := fun e => hnt (e ▸ Tree.mem_addrs_node.mpr (Or.inl rfl))
    obtain ⟨hal, har, -⟩ := Tree.nodup_node.mp hs.nodup
    -- `_head.parent = other._head.parent`
    have h1 := rd_wr_same { hth with parent := some a } hthis
    have o1 : rd (wr m this { hth with parent := some a }) other = some oh := by
      rw [rd_wr_ne _ _ hne']; exact hoh
    have a1 : rd (wr m this { hth with parent := some a }) a
        = some ⟨kv, some other, l.root, r.root, c⟩ := by
      rw [rd_wr_ne _ _ hat]; exact ha
    -- `other._head.parent->parent = &_head`
    have o2 := (rd_wr_ne _ (⟨kv, some this, l.root, r.root, c⟩ : RB_Node K V) hao.symm).trans o1
    have h2 := (rd_wr_ne _ (⟨kv, some this, l.root, r.root, c⟩ : RB_Node K V) hat.symm).trans h1
    -- `_head.left = other._head.left`
    have h3 := rd_wr_same (⟨hth.value, some a, oh.left, hth.right, hth.color⟩ : RB_Node K V) h2
    have o3 := (rd_wr_ne _ (⟨hth.value, some a, oh.left, hth.right, hth.color⟩ : RB_Node K V)
      hne').trans o2
    -- `_head.right = other._head.right`
    have h4 := rd_wr_same (⟨hth.value, some a, oh.left, oh.right, hth.color⟩ : RB_Node K V) h3
    have o4 := (rd_wr_ne _ (⟨hth.value, some a, oh.left, oh.right, hth.color⟩ : RB_Node K V)
      hne').trans o3
    have e5 := resetHead_eq o4
    have hlinks : takeLinks (wr m this { hth with parent := some a }) this other = some
        (wr (wr (wr (wr m this { hth with parent := some a }) a
          ⟨kv, some this, l.root, r.root, c⟩) this
          ⟨hth.value, some a, oh.left, hth.right, hth.color⟩) this
          ⟨hth.value, some a, oh.left, oh.right, hth.color⟩) := by
      simp only [takeLinks, o1, Option.some_bind, hp, setParent_eq a1, o2, setLeft_eq h2, o3,
        setRight_eq h3]
    have hpos : 0 < (node a c l kv r).size := by simp [Tree.size]
    have etake : takeNodes m this other (node a c l kv r).size = some
        (wr (wr (wr (wr (wr m this { hth with parent := some a }) a
          ⟨kv, some this, l.root, r.root, c⟩) this
          ⟨hth.value, some a, oh.left, hth.right, hth.color⟩) this
          ⟨hth.value, some a, oh.left, oh.right, hth.color⟩) other
          ⟨oh.value, none, some other, some other, oh.color⟩) := by
      simp only [takeNodes, hoh, Option.some_bind, hp, setParent_eq hthis, hpos, if_true,
        hlinks]
      exact e5
    refine ⟨_, etake, ?_, ?_, ?_, ?_, ?_, ?_⟩
    · simp
    · refine ⟨⟨_, (rd_wr_ne _ _ hne).trans h4, rfl⟩, ⟨?_, ?_, ?_⟩, hs.nodup, hnt⟩
      · rw [rd_wr_ne _ _ hao, rd_wr_ne _ _ hat, rd_wr_ne _ _ hat]
        exact rd_wr_same _ a1
      · refine hrep.2.1.frame fun x hx => ?_
        have hxa : x ≠ a := ne_of_mem_of_not_mem hx hal
        have hxo : x ≠ other := fun e =>
          hs.notHead (e ▸ Tree.mem_addrs_node.mpr (Or.inr (Or.inl hx)))
        have hxt : x ≠ this := fun e => hnt (e ▸ Tree.mem_addrs_node.mpr (Or.inr (Or.inl hx)))
        rw [rd_wr_ne _ _ hxo, rd_wr_ne _ _ hxt, rd_wr_ne _ _ hxt, rd_wr_ne _ _ hxa,
          rd_wr_ne _ _ hxt]
      · refine hrep.2.2.frame fun x hx => ?_
        have hxa : x ≠ a := ne_of_mem_of_not_mem hx har
        have hxo : x ≠ other := fun e =>
          hs.notHead (e ▸ Tree.mem_addrs_node.mpr (Or.inr (Or.inr hx)))
        have hxt : x ≠ this := fun e => hnt (e ▸ Tree.mem_addrs_node.mpr (Or.inr (Or.inr hx)))
        rw [rd_wr_ne _ _ hxo, rd_wr_ne _ _ hxt, rd_wr_ne _ _ hxt, rd_wr_ne _ _ hxa,
          rd_wr_ne _ _ hxt]
    · refine ⟨_, (rd_wr_ne _ _ hne).trans h4, ?_, ?_⟩
      · simpa [Tree.first] using hl
      · simpa [Tree.last] using hr
    · exact ⟨⟨_, rd_wr_same _ o4, rfl⟩, trivial, List.nodup_nil, by simp⟩
    · exact ⟨_, rd_wr_same _ o4, rfl, rfl⟩
    · intro x hx1 hx2 hx3
      have hxa : x ≠ a := fun e => hx3 (by rw [e]; rfl)
      rw [rd_wr_ne _ _ hx2, rd_wr_ne _ _ hx1, rd_wr_ne _ _ hx1, rd_wr_ne _ _ hxa,
        rd_wr_ne _ _ hx1]

/-! ## Move construction, move assignment and `swap` -/

/-- Member `clear` of an object that holds a tree returns: the nodes of the
tree are freed, the object is left in the canonical empty state, and the
other cells and objects are left as they are. -/
theorem clearAt_spec {w : Heap K V} {this : Nat} {t : Tree K V} (h : Holds w this t) :
    ∃ w', clearAt w this = some w' ∧ w'.mem.mem.length = w.mem.mem.length ∧
      Holds w' this nil ∧ (∀ x ∈ t.addrs, rd w'.mem x = none) ∧
      (∀ x, x ≠ this → x ∉ t.addrs → rd w'.mem x = rd w.mem x) ∧
      ∀ x, x ≠ this → w'.sizes x = w.sizes x := by
  obtain ⟨hd, hh, hp⟩ := h.shape.head
  obtain ⟨m1, e, len, -, hfr, hnone⟩ := deleteHelper_spec t w.mem (some this) (fuelOf w.mem)
    h.shape.rep h.shape.nodup (h.shape.rep.height_lt_fuel h.shape.nodup)
  have h1 : rd m1 this = some hd := by rw [hfr this h.shape.notHead]; exact hh
  have e2 := resetHead_eq h1
  have hc : clearAt w this = some (Heap.setSize
      ⟨wr m1 this ⟨hd.value, none, some this, some this, hd.color⟩, w.sizes⟩ this 0) := by
    simp only [clearAt, hh, Option.some_bind, hp, e, e2, Option.map_some']
  refine ⟨_, hc, by simp [Heap.setSize, len], ⟨⟨⟨_, rd_wr_same _ h1, rfl⟩, trivial,
    List.nodup_nil, by simp⟩, ⟨_, rd_wr_same _ h1, rfl, rfl⟩, by simp [Heap.setSize, Tree.size]⟩,
    ?_, ?_, ?_⟩
  · intro x hx
    have hxt : x ≠ this := ne_of_mem_of_not_mem hx h.shape.notHead
    show rd (wr m1 this _) x = none
    rw [rd_wr_ne _ _ hxt]
    exact hnone x hx
  · intro x hxt hx
    show rd (wr m1 this _) x = rd w.mem x
    rw [rd_wr_ne _ _ hxt]
    exact hfr x hx
  · intro x hxt
    simp [Heap.setSize, hxt]

/-- The move constructor returns on an object that holds a tree: the new
object, in the fresh cell, holds the tree, the source is left in the canonical
empty state, and apart from the two sentinels only the root of the tree has
been written. -/
theorem moveConstruct_spec [Inhabited K] [Inhabited V] {w : Heap K V} {other : Nat}
    {t : Tree K V} (h : Holds w other t) :
    ∃ w', moveConstruct w other = some (w', w.mem.mem.length) ∧
      w'.mem.mem.length = w.mem.mem.length + 1 ∧
      Holds w' w.mem.mem.length t ∧ Holds w' other nil ∧
      (∀ x, x ≠ w.mem.mem.length → x ≠ other → t.root ≠ some x →
        rd w'.mem x = rd w.mem x) ∧
      ∀ x, x ≠ w.mem.mem.length → x ≠ other → w'.sizes x = w.sizes x := by
  have hlt := h.head_lt
  have hlts := h.addrs_lt
  have hne : w.mem.mem.length ≠ other := Nat.ne_of_gt hlt
  have hnt : w.mem.mem.length ∉ t.addrs := fun hx => Nat.lt_irrefl _ (hlts _ hx)
  have hold : ∀ x, x ≠ w.mem.mem.length →
      rd (alloc w.mem ⟨(default, default), none, none, none, Color.Red⟩).1 x = rd w.mem x := by
    intro x hx
    rw [rd_alloc, if_neg hx]
  have hnew : rd (alloc w.mem ⟨(default, default), none, none, none, Color.Red⟩).1
      w.mem.mem.length = some ⟨(default, default), none, none, none, Color.Red⟩ := by
    rw [rd_alloc, if_pos rfl]
  have hs0 : ShapeAt (alloc w.mem ⟨(default, default), none, none, none, Color.Red⟩).1 other t :=
    h.shape.transfer (hold _ hne.symm) fun x hx => hold x (Nat.ne_of_lt (hlts x hx))
  have hc0 := h.cached.carry (hold _ hne.symm)
  obtain ⟨m', e, len, s1, c1, s2, c2, hfr⟩ := takeNodes_spec hs0 hc0 hnew hne hnt
  have hlen0 : (alloc w.mem ⟨(default, default), none, none, none, Color.Red⟩).1.mem.length
      = w.mem.mem.length + 1 := by simp [alloc]
  have hc : moveConstruct w other = some (Heap.setSize ⟨m', (Heap.setSize
      ⟨(alloc w.mem ⟨(default, default), none, none, none, Color.Red⟩).1, w.sizes⟩
      w.mem.mem.length (w.sizes other)).sizes⟩ other 0, w.mem.mem.length) := by
    have hsz : (Heap.setSize
        ⟨(alloc w.mem ⟨(default, default), none, none, none, Color.Red⟩).1, w.sizes⟩
        w.mem.mem.length (w.sizes other)).sizes w.mem.mem.length = t.size := by
      simp [Heap.setSize, h.size]
    have ha2 : (alloc w.mem ⟨(default, default), none, none, none, Color.Red⟩).2
        = w.mem.mem.length := rfl
    simp only [moveConstruct, ha2, hsz]
    simp only [Heap.setSize, e, Option.map_some']
  refine ⟨_, hc, by simp [Heap.setSize, len, hlen0], ⟨s1, c1, ?_⟩, ⟨s2, c2, ?_⟩, ?_, ?_⟩
  · simp [Heap.setSize, hne, h.size]
  · simp [Heap.setSize, Tree.size]
  · intro x hx1 hx2 hx3
    exact (hfr x hx1 hx2 hx3).trans (hold x hx1)
  · intro x hx1 hx2
    simp [Heap.setSize, hx1, hx2]

/-- The move assignment returns when both objects hold trees: the nodes of
the destination are freed, the destination then holds the tree of the source,
the source is left in the canonical empty state, and the other cells and
objects are left as they are. -/
theorem moveAssign_spec {w : Heap K V} {this other : Nat} {t tt : Tree K V}
    (ho : Holds w other t) (ht : Holds w this tt) (hne : this ≠ other)
    (h1 : this ∉ t.addrs) (h2 : other ∉ tt.addrs) (h3 : ∀ x ∈ tt.addrs, x ∉ t.addrs) :
    ∃ w', moveAssign w this other = some w' ∧ w'.mem.mem.length = w.mem.mem.length ∧
      Holds w' this t ∧ Holds w' other nil ∧
      (∀ x, x ≠ this → x ≠ other → x ∉ tt.addrs → t.root ≠ some x →
        rd w'.mem x = rd w.mem x) ∧
      ∀ x, x ≠ this → x ≠ other → w'.sizes x = w.sizes x := by
  -- `if (!empty()) clear();`
  have hclear : ∃ w1, (if w.sizes this = 0 then some w else clearAt w this) = some w1 ∧
      w1.mem.mem.length = w.mem.mem.length ∧ Holds w1 this nil ∧
      (∀ x, x ≠ this → x ∉ tt.addrs → rd w1.mem x = rd w.mem x) ∧
      ∀ x, x ≠ this → w1.sizes x = w.sizes x := by
    by_cases hz : w.sizes this = 0
    · have hnil : tt = nil := Tree.eq_nil_of_size (ht.size.symm.trans hz)
      subst hnil
      exact ⟨w, by simp [hz], rfl, ht, fun _ _ _ => rfl, fun _ _ => rfl⟩
    · obtain ⟨w1, e, len, hn, -, hfr, hsz⟩ := clearAt_spec ht
      exact ⟨w1, by simp [hz, e], len, hn, hfr, hsz⟩
  obtain ⟨w1, e1, len1, hn1, hfr1, hsz1⟩ := hclear
  have ho1 : Holds w1 other t :=
    ho.preserved (hfr1 _ hne.symm h2)
      (fun x hx => hfr1 x (fun e => h1 (e ▸ hx)) (fun hx' => h3 x hx' hx)) (hsz1 _ hne.symm)
  obtain ⟨hth, hthis, -⟩ := hn1.shape.head
  obtain ⟨m', e, len, s1, c1, s2, c2, hfr⟩ := takeNodes_spec ho1.shape ho1.cached hthis hne h1
  have hc : moveAssign w this other = some (Heap.setSize (Heap.setSize ⟨m', w1.sizes⟩ this
      (w1.sizes other)) other 0) := by
    rw [← ho1.size] at e
    simp only [moveAssign, hne, if_false, e1, Option.some_bind, e, Option.map_some']
  refine ⟨_, hc, by simp [Heap.setSize, len, len1], ⟨s1, c1, ?_⟩, ⟨s2, c2, ?_⟩, ?_, ?_⟩
  · simp [Heap.setSize, hne, ho1.size]
  · simp [Heap.setSize, Tree.size]
  · intro x hx1 hx2 hx3 hx4
    exact (hfr x hx1 hx2 hx4).trans (hfr1 x hx1 hx3)
  · intro x hx1 hx2
    simp [Heap.setSize, hx1, hx2, hsz1 x hx1]

/-- The destructor of an empty object returns and leaves the other cells and
objects as they are. -/
theorem destroy_spec {w : Heap K V} {this : Nat} (h : Holds w this nil) :
    ∃ w', destroy w this = some w' ∧ (∀ x, x ≠ this → rd w'.mem x = rd w.mem x) ∧
      ∀ x, x ≠ this → w'.sizes x = w.sizes x := by
  obtain ⟨w1, e, -, hn, -, hfr, hsz⟩ := clearAt_spec h
  obtain ⟨hd, hh, -⟩ := hn.shape.head
  have ef : free w1.mem this = some { w1.mem with mem := w1.mem.mem.set this none } := by
    simp [free, hh]
  obtain ⟨-, -, hrd⟩ := rd_free ef
  refine ⟨{ w1 with mem := { w1.mem with mem := w1.mem.mem.set this none } }, ?_, ?_, ?_⟩
  · simp only [destroy, e, Option.some_bind, ef, Option.map_some']
  · intro x hx
    show rd { w1.mem with mem := w1.mem.mem.set this none } x = rd w.mem x
    rw [hrd, if_neg hx]
    exact hfr x hx (by simp)
  · intro x hx
    exact hsz x hx

/-- Member `swap` with the object itself as argument returns and leaves the
object with its tree. -/
theorem swap_self_spec [Inhabited K] [Inhabited V] {w : Heap K V} {a : Nat} {ta : Tree K V}
    (ha : Holds w a ta) : ∃ w', swap w a a = some w' ∧ Holds w' a ta := by
  have hta : ∀ x ∈ ta.addrs, x ≠ w.mem.mem.length := fun x hx => Nat.ne_of_lt (ha.addrs_lt x hx)
  have hat : a ≠ w.mem.mem.length := Nat.ne_of_lt ha.head_lt
  obtain ⟨w1, e1, -, t1, a1, -, -⟩ := moveConstruct_spec ha
  have e2 : moveAssign w1 a a = some w1 := by simp [moveAssign]
  obtain ⟨w3, e3, -, a3, t3, -, -⟩ :=
    moveAssign_spec t1 a1 hat ha.shape.notHead (by simp) (by simp)
  obtain ⟨w4, e4, fr4, sz4⟩ := destroy_spec t3
  refine ⟨w4, ?_, a3.preserved (fr4 a hat) (fun x hx => fr4 x (hta x hx)) (sz4 a hat)⟩
  simp only [swap, e1, Option.some_bind, e2, e3, e4]

/-- C25: the copy constructor and the copy assignment fail on an empty source.
In the store `twoMaps` the object at address 2 is an empty map (its walk is
empty and its size is 0); the copy constructor applied to it, the copy
assignment from it, and the copy constructor applied to the default-constructed
map dereference the null root slot of the new sentinel, while the move
constructor applied to the same object returns; the copy constructor applied to
the object that holds the key 1 returns a map with the same walk and size. -/
theorem C25_copy_of_empty_map_fails :
    (toListAt twoMaps 2, sizeAt twoMaps 2) = (some [], 0) ∧
    (copyConstruct twoMaps 2).isSome = false ∧
    (copyAssign twoMaps 0 2).isSome = false ∧
    (copyConstruct (Heap.ofMap (empty : Map Nat Nat)) 0).isSome = false ∧
    (moveConstruct twoMaps 2).isSome = true ∧
    (copyConstruct twoMaps 0).map (fun r =>
      (toListAt r.1 r.2, sizeAt r.1 r.2, toListAt r.1 0, sizeAt r.1 0))
      = some (some [(1, 10)], 1, some [(1, 10)], 1) :=
  ⟨by decide, by decide, by decide, by decide, by decide, by decide⟩

/-- Two stores that hold the same tree below the same parent pointer agree on
the cells of the tree. -/
theorem Rep.agree {m m' : Map K V} {t : Tree K V} {par : Option Nat} (h : Rep m par t)
    (h' : Rep m' par t) : ∀ x ∈ t.addrs, rd m' x = rd m x := by
  induction t generalizing par with
  | nil => intro x hx; cases hx
  | node a c l kv r ihl ihr =>
    intro x hx
    rcases Tree.mem_addrs_node.mp hx with rfl | hx | hx
    · rw [h.1, h'.1]
    · exact ihl h.2.1 h'.2.1 x hx
    · exact ihr h.2.2 h'.2.2 x hx

/-- C36: rotations keep the in-order sequence, the colours and the links.  For
a subtree whose root `a` has a left child `b`, `rightRotation(a)` returns `b`;
the store then holds the subtree with `b` above `a`, the inner grandchild `y`
moved below `a`, every colour as before, and the parent links of `a` and of the
root of `y` set (all part of `Rep`); the in-order sequence of nodes is the
same; `leftRotation(b)` then returns `a` and the store holds the first subtree
again, every cell being as at the start except that the parent link of `a`
refers to `b` (neither rotation writes the parent link of the node it returns).
The same holds for `leftRotation` on a root with a right child, followed by
`rightRotation`. -/
theorem C36_rotations_keep_order_and_links {m m' : Map K V} {par par' : Option Nat}
    {a b a' b' : Nat} {c d c' d' : Color} {x y z x' y' z' : Tree K V} {kv kw kv' kw' : K × V}
    (h : Rep m par (node a c (node b d x kw y) kv z))
    (hnd : (node a c (node b d x kw y) kv z).addrs.Nodup)
    (h' : Rep m' par' (node a' c' x' kv' (node b' d' y' kw' z')))
    (hnd' : (node a' c' x' kv' (node b' d' y' kw' z')).addrs.Nodup) :
    (∃ m1 m2, rightRotation m a = some (m1, b) ∧
      Rep m1 (some a) (node b d x kw (node a c y kv z)) ∧
      (node b d x kw (node a c y kv z)).cells = (node a c (node b d x kw y) kv z).cells ∧
      leftRotation m1 b = some (m2, a) ∧
      Rep m2 (some b) (node a c (node b d x kw y) kv z) ∧
      ∀ q, q ≠ a → rd m2 q = rd m q) ∧
    (∃ m1 m2, leftRotation m' a' = some (m1, b') ∧
      Rep m1 (some a') (node b' d' (node a' c' x' kv' y') kw' z') ∧
      (node b' d' (node a' c' x' kv' y') kw' z').cells
        = (node a' c' x' kv' (node b' d' y' kw' z')).cells ∧
      rightRotation m1 b' = some (m2, a') ∧
      Rep m2 (some b') (node a' c' x' kv' (node b' d' y' kw' z')) ∧
      ∀ q, q ≠ a' → rd m2 q = rd m' q) := by
  constructor
  · obtain ⟨m1, e1, r1, s1⟩ := rightRotation_spec h hnd
    have hnd1 : (node b d x kw (node a c y kv z)).addrs.Nodup := by
      simp only [Tree.addrs, List.append_assoc, List.cons_append] at hnd ⊢
      exact hnd
    obtain ⟨m2, e2, r2, s2⟩ := leftRotation_spec r1 hnd1
    refine ⟨m1, m2, e1, r1, by simp [Tree.cells], e2, r2, ?_⟩
    intro q hq
    by_cases hmem : q ∈ (node a c (node b d x kw y) kv z).addrs
    · rcases Tree.mem_addrs_node.mp hmem with rfl | hq' | hq'
      · exact absurd rfl hq
      · exact Rep.agree h.2.1 r2.2.1 q hq'
      · exact Rep.agree h.2.2 r2.2.2 q hq'
    · have hmem1 : q ∉ (node b d x kw (node a c y kv z)).addrs := by
        simpa [Tree.addrs] using hmem
      rw [s2.2.2 q hmem1, s1.2.2 q hmem]
  · obtain ⟨m1, e1, r1, s1⟩ := leftRotation_spec h' hnd'
    have hnd1 : (node b' d' (node a' c' x' kv' y') kw' z').addrs.Nodup := by
      simp only [Tree.addrs, List.append_assoc, List.cons_append] at hnd' ⊢
      exact hnd'
    obtain ⟨m2, e2, r2, s2⟩ := rightRotation_spec r1 hnd1
    refine ⟨m1, m2, e1, r1, by simp [Tree.cells], e2, r2, ?_⟩
    intro q hq
    by_cases hmem : q ∈ (node a' c' x' kv' (node b' d' y' kw' z')).addrs
    · rcases Tree.mem_addrs_node.mp hmem with rfl | hq' | hq'
      · exact absurd rfl hq
      · exact Rep.agree h'.2.1 r2.2.1 q hq'
      · exact Rep.agree h'.2.2 r2.2.2 q hq'
    · have hmem1 : q ∉ (node b' d' (node a' c' x' kv' y') kw' z').addrs := by
        simpa [Tree.addrs] using hmem
      rw [s2.2.2 q hmem1, s1.2.2 q hmem]

/-- C36 at two stores with two nodes: a root with a left child, and a root
with a right child. -/
theorem C36_witness :
    (Rep leftPairMap (some 0) leftPairTree ∧ leftPairTree.addrs.Nodup ∧
      Rep rightPairMap (some 0) rightPairTree ∧ rightPairTree.addrs.Nodup) ∧
    ((∃ m1 m2, rightRotation leftPairMap 2 = some (m1, 1) ∧
      Rep m1 (some 2) (node 1 Color.Red nil (1, 10) (node 2 Color.Black nil (2, 20) nil)) ∧
      (node 1 Color.Red nil (1, 10) (node 2 Color.Black nil (2, 20) nil)).cells
        = (node 2 Color.Black (node 1 Color.Red nil (1, 10) nil) (2, 20) nil).cells ∧
      leftRotation m1 1 = some (m2, 2) ∧
      Rep m2 (some 1) (node 2 Color.Black (node 1 Color.Red nil (1, 10) nil) (2, 20) nil) ∧
      ∀ q, q ≠ 2 → rd m2 q = rd leftPairMap q) ∧
    (∃ m1 m2, leftRotation rightPairMap 1 = some (m1, 2) ∧
      Rep m1 (some 1) (node 2 Color.Red (node 1 Color.Black nil (1, 10) nil) (2, 20) nil) ∧
      (node 2 Color.Red (node 1 Color.Black nil (1, 10) nil) (2, 20) nil).cells
        = (node 1 Color.Black nil (1, 10) (node 2 Color.Red nil (2, 20) nil)).cells ∧
      rightRotation m1 2 = some (m2, 1) ∧
      Rep m2 (some 2) (node 1 Color.Black nil (1, 10) (node 2 Color.Red nil (2, 20) nil)) ∧
      ∀ q, q ≠ 1 → rd m2 q = rd rightPairMap q)) :=
  ⟨⟨⟨rfl, ⟨rfl, trivial, trivial⟩, trivial⟩, by decide, ⟨rfl, trivial, ⟨rfl, trivial, trivial⟩⟩,
      by decide⟩,
    C36_rotations_keep_order_and_links
      (show Rep leftPairMap (some 0) (node 2 Color.Black (node 1 Color.Red nil (1, 10) nil)
        (2, 20) nil) from ⟨rfl, ⟨rfl, trivial, trivial⟩, trivial⟩) (by decide)
      (show Rep rightPairMap (some 0) (node 1 Color.Black nil (1, 10)
        (node 2 Color.Red nil (2, 20) nil)) from ⟨rfl, trivial, ⟨rfl, trivial, trivial⟩⟩)
      (by decide)⟩

/-! ## Height of a red-black tree -/

theorem Tree.pow_blackHeight_le {t : Tree K V} : ∀ {b : Nat}, t.blackHeight b →
    2 ^ b ≤ t.size + 1 := by
  induction t with
  | nil =>
    intro b h
    simp only [Tree.blackHeight] at h
    subst h
    simp [Tree.size]
  | node a c l kv r ihl ihr =>
    intro b h
    cases c with
    | Red =>
      simp only [Tree.blackHeight] at h
      have h1 := ihl h.1
      simp only [Tree.size]
      omega
    | Black =>
      simp only [Tree.blackHeight] at h
      obtain ⟨k, rfl, h1, h2⟩ := h
      have e1 := ihl h1
      have e2 := ihr h2
      simp only [Tree.size, pow_succ]
      omega

theorem Tree.height_le_blackHeight {t : Tree K V} : ∀ {b : Nat}, t.noRedRed → t.blackHeight b →
    t.height ≤ 2 * b + (if t.isRed then 1 else 0) := by
  induction t with
  | nil =>
    intro b _ _
    simp [Tree.height]
  | node a c l kv r ihl ihr =>
    intro b hn h
    obtain ⟨hc, hl, hr⟩ := hn
    cases c with
    | Red =>
      simp only [Tree.blackHeight] at h
      obtain ⟨cl, cr⟩ := hc rfl
      have e1 := ihl hl h.1
      have e2 := ihr hr h.2
      rw [cl] at e1
      rw [cr] at e2
      simp only [Tree.height, Tree.isRed, if_true] at e1 e2 ⊢
      have := max_le e1 e2
      simp only [Bool.false_eq_true, if_false, add_zero] at this
      omega
    | Black =>
      simp only [Tree.blackHeight] at h
      obtain ⟨k, rfl, h1, h2⟩ := h
      have e1 := ihl hl h1
      have e2 := ihr hr h2
      have b1 : l.height ≤ 2 * k + 1 := by
        split_ifs at e1 <;> omega
      have b2 : r.height ≤ 2 * k + 1 := by
        split_ifs at e2 <;> omega
      have := max_le b1 b2
      simp only [Tree.height, Tree.isRed]
      simp only [Bool.false_eq_true, if_false, add_zero]
      omega

/-- A tree with the red-black colour invariants has at most `2 * log2 (n + 1)`
nodes on every path from the root, `n` being the number of its nodes. -/
theorem Tree.height_le_log {t : Tree K V} (h : t.RedBlack) :
    t.height ≤ 2 * Nat.log 2 (t.size + 1) := by
  obtain ⟨hr, hn, b, hb⟩ := h
  have h1 := Tree.height_le_blackHeight hn hb
  rw [hr] at h1
  simp only [Bool.false_eq_true, if_false, add_zero] at h1
  have h2 : b ≤ Nat.log 2 (t.size + 1) :=
    (Nat.pow_le_iff_le_log (by decide) (Nat.succ_ne_zero _)).mp (Tree.pow_blackHeight_le hb)
  omega

theorem isLast_of_nodup_keys {L : List (K × V)} (hd : (L.map Prod.fst).Nodup) (k : K) (v : V) :
    IsLast L k v ↔ (k, v) ∈ L := by
  constructor
  · rintro ⟨L1, L2, rfl, -⟩
    simp
  · intro h
    obtain ⟨L1, L2, rfl⟩ := List.append_of_mem h
    refine ⟨L1, L2, rfl, ?_⟩
    intro p hp e
    rw [List.map_append, List.map_cons, List.nodup_append] at hd
    have := (List.nodup_cons.mp hd.2.1).1
    exact this (List.mem_map.mpr ⟨p, hp, e⟩)

/-- The tree of a map built by `insert` of pairs with distinct keys has as many
nodes as there were pairs. -/
theorem size_of_nodup_keys {comp : K → K → Bool} (hc : StrictTotal comp) {L : List (K × V)}
    {t : Tree K V} (ho : t.Ordered comp) (hd : (L.map Prod.fst).Nodup)
    (hcont : ∀ k v, (k, v) ∈ t.toList ↔ IsLast L k v) : t.size = L.length := by
  have h1 : t.toList.Nodup := by
    have := Tree.keys_nodup hc ho
    exact List.Nodup.of_map _ this
  have h2 : L.Nodup := List.Nodup.of_map _ hd
  have hp : t.toList.Perm L := by
    rw [List.perm_ext_iff_of_nodup h1 h2]
    rintro ⟨k, v⟩
    rw [hcont, isLast_of_nodup_keys hd]
  have := hp.length_eq
  rw [← this, Tree.size_eq_length_cells, ← Tree.cells_map_snd, List.length_map]

/-- C37: for a strict total order `comp` and a list `L` of `n` pairs with
distinct keys, the tree of the map built from `L` by `insert` has `n` nodes and
at most `2 * log2 (n + 1)` nodes on the longest path from the root to an absent
child; so `findHelper` and `boundHelper`, started at the root, return for every
key when they are allowed that many calls on a node and one call on an absent
child, with the results they give with the fuel of the member functions. -/
theorem C37_height_at_most_twice_log {comp : K → K → Bool} [DecidableEq K] [Inhabited K]
    [Inhabited V] (hc : StrictTotal comp) (L : List (K × V)) (hd : (L.map Prod.fst).Nodup) :
    ∃ m t h, ofList comp L = some m ∧ Shape m t ∧ rd m 0 = some h ∧ t.size = L.length ∧
      size m = L.length ∧ t.height ≤ 2 * Nat.log 2 (L.length + 1) ∧
      ∀ k, ∃ r b, findHelper comp m (2 * Nat.log 2 (L.length + 1) + 1) h.parent k = some r ∧
        findHelper comp m (fuelOf m) h.parent k = some r ∧
        boundHelper comp m (2 * Nat.log 2 (L.length + 1) + 1) h.parent k = some b ∧
        boundHelper comp m (fuelOf m) h.parent k = some b := by
  obtain ⟨m, t, hm, hinv, hcont⟩ := ofList_inv hc L
  obtain ⟨h, hh, hp⟩ := hinv.shape.head
  have hsz := size_of_nodup_keys hc hinv.ordered hd hcont
  have hht : t.height ≤ 2 * Nat.log 2 (L.length + 1) := by
    rw [← hsz]
    exact Tree.height_le_log hinv.redBlack
  refine ⟨m, t, h, hm, hinv.shape, hh, hsz, by rw [size, hinv.size, hsz], hht, ?_⟩
  intro k
  rw [hp]
  exact ⟨_, _,
    findHelper_spec comp k t _ m (some 0) hinv.shape.rep (Nat.lt_succ_of_le hht),
    findHelper_spec comp k t _ m (some 0) hinv.shape.rep
      (hinv.shape.rep.height_lt_fuel hinv.shape.nodup),
    boundHelper_spec comp k t _ m (some 0) hinv.shape.rep (Nat.lt_succ_of_le hht),
    boundHelper_spec comp k t _ m (some 0) hinv.shape.rep
      (hinv.shape.rep.height_lt_fuel hinv.shape.nodup)⟩

/-- C37 at the list of the keys 1 to 7 in ascending order. -/
theorem C37_witness :
    (StrictTotal natLess ∧
      ([(1, 10), (2, 20), (3, 30), (4, 40), (5, 50), (6, 60), (7, 70)].map Prod.fst).Nodup) ∧
    ∃ m t h, ofList natLess [(1, 10), (2, 20), (3, 30), (4, 40), (5, 50), (6, 60), (7, 70)]
        = some m ∧ Shape m t ∧ rd m 0 = some h ∧
      t.size = [(1, 10), (2, 20), (3, 30), (4, 40), (5, 50), (6, 60), (7, 70)].length ∧
      size m = [(1, 10), (2, 20), (3, 30), (4, 40), (5, 50), (6, 60), (7, 70)].length ∧
      t.height ≤ 2 * Nat.log 2
        ([(1, 10), (2, 20), (3, 30), (4, 40), (5, 50), (6, 60), (7, 70)].length + 1) ∧
      ∀ k, ∃ r b, findHelper natLess m (2 * Nat.log 2
          ([(1, 10), (2, 20), (3, 30), (4, 40), (5, 50), (6, 60), (7, 70)].length + 1) + 1)
          h.parent k = some r ∧
        findHelper natLess m (fuelOf m) h.parent k = some r ∧
        boundHelper natLess m (2 * Nat.log 2
          ([(1, 10), (2, 20), (3, 30), (4, 40), (5, 50), (6, 60), (7, 70)].length + 1) + 1)
          h.parent k = some b ∧
        boundHelper natLess m (fuelOf m) h.parent k = some b :=
  ⟨⟨natLess_strictTotal, by decide⟩,
    C37_height_at_most_twice_log natLess_strictTotal
      [(1, 10), (2, 20), (3, 30), (4, 40), (5, 50), (6, 60), (7, 70)] (by decide)⟩

/-! ## Parent links of a represented tree -/

/-- In a store that holds a tree, the parent link of every node other than the
root refers to a node of the tree whose left or right link refers back to it,
and the parent link of the root is the pointer the tree hangs from. -/
theorem Rep.parent_link {m : Map K V} {t : Tree K V} {par : Option Nat} (h : Rep m par t) :
    ∀ a ∈ t.addrs, ∃ n, rd m a = some n ∧
      ((t.root = some a ∧ n.parent = par) ∨
        ∃ p pn, p ∈ t.addrs ∧ n.parent = some p ∧ rd m p = some pn ∧
          (pn.left = some a ∨ pn.right = some a)) := by
  induction t generalizing par with
  | nil => intro a ha; cases ha
  | node b c l kv r ihl ihr =>
    intro a ha
    obtain ⟨hb, hl, hr⟩ := h
    rcases Tree.mem_addrs_node.mp ha with rfl | ha | ha
    · exact ⟨_, hb, Or.inl ⟨rfl, rfl⟩⟩
    · obtain ⟨n, hn, hcase⟩ := ihl hl a ha
      refine ⟨n, hn, Or.inr ?_⟩
      rcases hcase with ⟨hroot, hp⟩ | ⟨p, pn, hp, e, hpn, hlr⟩
      · exact ⟨b, _, Tree.mem_addrs_node.mpr (Or.inl rfl), hp, hb, Or.inl hroot⟩
      · exact ⟨p, pn, Tree.mem_addrs_node.mpr (Or.inr (Or.inl hp)), e, hpn, hlr⟩
    · obtain ⟨n, hn, hcase⟩ := ihr hr a ha
      refine ⟨n, hn, Or.inr ?_⟩
      rcases hcase with ⟨hroot, hp⟩ | ⟨p, pn, hp, e, hpn, hlr⟩
      · exact ⟨b, _, Tree.mem_addrs_node.mpr (Or.inl rfl), hp, hb, Or.inr hroot⟩
      · exact ⟨p, pn, Tree.mem_addrs_node.mpr (Or.inr (Or.inr hp)), e, hpn, hlr⟩

/-- For a strict total order `comp` and a list `L`, the map built from `L`
by `insert` holds a tree `t` (whose in-order values are the walk from `begin()`
to `end()`) such that the sentinel's root slot refers to the root, the parent
link of the root refers to the sentinel (address 0), the parent link of every
other data node refers to the data node whose left or right link refers to it,
and the keys satisfy the in-order invariant `Ordered`: in every subtree the
keys of the left part compare less than the key of its root and those of the
right part compare greater. -/
theorem links_and_order_after_inserts {comp : K → K → Bool} [DecidableEq K] [Inhabited K]
    [Inhabited V] (hc : StrictTotal comp) (L : List (K × V)) :
    ∃ m t h, ofList comp L = some m ∧ Rep m (some 0) t ∧ toList m = some t.toList ∧
      rd m 0 = some h ∧ h.parent = t.root ∧ t.addrs.Nodup ∧ 0 ∉ t.addrs ∧
      (∀ a ∈ t.addrs, ∃ n, rd m a = some n ∧
        ((t.root = some a ∧ n.parent = some 0) ∨
          ∃ p pn, p ∈ t.addrs ∧ n.parent = some p ∧ rd m p = some pn ∧
            (pn.left = some a ∨ pn.right = some a))) ∧
      t.Ordered comp := by
  obtain ⟨m, t, hm, hinv, -⟩ := ofList_inv hc L
  obtain ⟨h, hh, hp⟩ := hinv.shape.head
  exact ⟨m, t, h, hm, hinv.shape.rep, toList_spec hinv.shape hinv.cached, hh, hp,
    hinv.shape.nodup, hinv.shape.notHead, hinv.shape.rep.parent_link, hinv.ordered⟩

/-- The preceding statement at the list of the keys 2, 5, 1, 4. -/
theorem links_and_order_after_inserts_example :
    StrictTotal natLess ∧
    ∃ m t h, ofList natLess [(2, 20), (5, 50), (1, 10), (4, 40)] = some m ∧
      Rep m (some 0) t ∧ toList m = some t.toList ∧
      rd m 0 = some h ∧ h.parent = t.root ∧ t.addrs.Nodup ∧ 0 ∉ t.addrs ∧
      (∀ a ∈ t.addrs, ∃ n, rd m a = some n ∧
        ((t.root = some a ∧ n.parent = some 0) ∨
          ∃ p pn, p ∈ t.addrs ∧ n.parent = some p ∧ rd m p = some pn ∧
            (pn.left = some a ∨ pn.right = some a))) ∧
      t.Ordered natLess :=
  ⟨natLess_strictTotal,
    links_and_order_after_inserts natLess_strictTotal [(2, 20), (5, 50), (1, 10), (4, 40)]⟩

/-! ## `equal_range` -/

/-- The pair that `equal_range` returns splits the in-order sequence of cells
in three parts: the cells with keys less than `k`, the cell with key `k` if
there is one, and the cells with keys greater than `k`; the first iterator is at
the first cell of the last two parts and the second at the first cell of the
last part (`end()` when there is none). -/
theorem equal_range_spec {comp : K → K → Bool} [DecidableEq K] (hc : StrictTotal comp)
    {m : Map K V} {t : Tree K V} (hs : Shape m t) (ho : t.Ordered comp) (k : K) :
    ∃ l1 mid l2, t.cells = l1 ++ mid ++ l2 ∧ (∀ p ∈ l1, comp p.2.1 k = true) ∧
      (∀ p ∈ mid, p.2.1 = k) ∧ mid.length ≤ 1 ∧ (∀ p ∈ l2, comp k p.2.1 = true) ∧
      equal_range comp m k
        = some (((mid ++ l2).map Prod.fst).headD endIt, (l2.map Prod.fst).headD endIt) := by
  obtain ⟨h, hh, hp⟩ := hs.head
  by_cases hne : t = nil
  · subst hne
    exact ⟨[], [], [], rfl, by simp, by simp, by simp, by simp,
      (queries_of_no_root comp hh hp k).2.2.2.1⟩
  · obtain ⟨l1, a, kv, l2, e, hb, b1, b2⟩ := Tree.boundHelper_split hc k t ho hne
    obtain ⟨n, hn, hv⟩ := hs.rep.rd_cell (show (a, kv) ∈ t.cells by rw [e]; simp)
    have hinc := increment_spec hs e
    have her : equal_range comp m k
        = if comp kv.1 k then (increment m a).bind fun f => some (f, f)
          else if comp k kv.1 then some (a, a)
          else (increment m a).bind fun s => some (a, s) := by
      simp only [equal_range, hh, hp, Option.bind_eq_bind, Option.some_bind,
        boundHelper_spec comp k t (fuelOf m) m (some 0) hs.rep (hs.rep.height_lt_fuel hs.nodup),
        hb, hn, hv, Option.pure_def]
    by_cases h1 : comp kv.1 k = true
    · refine ⟨l1 ++ [(a, kv)], [], l2, by rw [e]; simp, ?_, by simp, by simp, b2, ?_⟩
      · intro p hp'
        rcases List.mem_append.mp hp' with hp' | hp'
        · exact b1 p hp'
        · simp only [List.mem_singleton] at hp'
          rw [hp']
          exact h1
      · rw [her, if_pos h1, hinc]
        rfl
    · by_cases h2 : comp k kv.1 = true
      · refine ⟨l1, [], (a, kv) :: l2, by rw [e]; simp, b1, by simp, by simp, ?_, ?_⟩
        · intro p hp'
          rcases List.mem_cons.mp hp' with rfl | hp'
          · exact h2
          · exact b2 p hp'
        · rw [her, if_neg h1, if_pos h2]
          rfl
      · have hk : kv.1 = k := by
          rcases hc.total kv.1 k with e' | e' | e'
          · exact e'
          · exact absurd e' h1
          · exact absurd e' h2
        refine ⟨l1, [(a, kv)], l2, by rw [e]; simp, b1, ?_, by simp, b2, ?_⟩
        · intro p hp'
          simp only [List.mem_singleton] at hp'
          rw [hp']
          exact hk
        · rw [her, if_neg h1, if_neg h2, hinc]
          rfl

/-- For a strict total order `comp`, a list `L` and a key `k`, on the map
built from `L` by `insert` the in-order sequence of the cells (address and
pair; the pairs are the walk from `begin()` to `end()`, and each address
dereferences to its pair) splits in the cells with keys less than `k`, a part
`mid` with key `k`, and the cells with keys greater than `k`; `mid` has one
cell when `k` is a key of `L` and none otherwise; `equal_range(k).first` is the
iterator at the first cell whose key is not less than `k` and
`equal_range(k).second` the iterator at the first cell whose key is greater
than `k`, each `end()` when there is no such cell. -/
theorem equal_range_bounds {comp : K → K → Bool} [DecidableEq K] [Inhabited K]
    [Inhabited V] (hc : StrictTotal comp) (L : List (K × V)) (k : K) :
    ∃ (m : Map K V) (cells l1 mid l2 : List (Nat × (K × V))), ofList comp L = some m ∧ toList m = some (cells.map Prod.snd) ∧
      (∀ p ∈ cells, p.1 ≠ endIt ∧ deref m p.1 = some p.2) ∧
      cells = l1 ++ mid ++ l2 ∧ (∀ p ∈ l1, comp p.2.1 k = true) ∧
      (∀ p ∈ mid, p.2.1 = k) ∧ (∀ p ∈ l2, comp k p.2.1 = true) ∧
      mid.length = (if k ∈ L.map Prod.fst then 1 else 0) ∧
      equal_range comp m k
        = some (((mid ++ l2).map Prod.fst).headD endIt, (l2.map Prod.fst).headD endIt) := by
  obtain ⟨m, t, hm, hinv, hcont⟩ := ofList_inv hc L
  obtain ⟨l1, mid, l2, e, b1, b2, hlen, b3, her⟩ :=
    equal_range_spec hc hinv.shape hinv.ordered k
  refine ⟨m, t.cells, l1, mid, l2, hm, ?_, ?_, e, b1, b2, b3, ?_, her⟩
  · rw [Tree.cells_map_snd]
    exact toList_spec hinv.shape hinv.cached
  · rintro ⟨a, kv⟩ hp
    obtain ⟨n, hn, hv⟩ := hinv.shape.rep.rd_cell hp
    refine ⟨?_, by simp [deref, hn, hv]⟩
    intro h0
    have := Tree.addr_mem_of_mem_cells hp
    simp only [endIt] at h0
    rw [h0] at this
    exact hinv.shape.notHead this
  · have hkeys : ∀ p ∈ t.cells, p.2.1 = k → p ∈ mid := by
      intro p hp hk
      rw [e] at hp
      simp only [List.mem_append] at hp
      rcases hp with (hp | hp) | hp
      · have := b1 p hp
        rw [hk, hc.irrefl] at this
        cases this
      · exact hp
      · have := b3 p hp
        rw [hk, hc.irrefl] at this
        cases this
    by_cases hk : k ∈ L.map Prod.fst
    · rw [if_pos hk]
      obtain ⟨v, hv⟩ := (mem_keys_of_isLast k).mpr hk
      have hmem : (k, v) ∈ t.toList := (hcont k v).mpr hv
      rw [← Tree.cells_map_snd, List.mem_map] at hmem
      obtain ⟨p, hp, hpe⟩ := hmem
      have hpm := hkeys p hp (by rw [hpe])
      have : 0 < mid.length := List.length_pos_of_mem hpm
      omega
    · rw [if_neg hk]
      cases mid with
      | nil => rfl
      | cons p mid =>
        exfalso
        have hp : p ∈ t.cells := by rw [e]; simp
        have hpk : p.2.1 = k := b2 p (List.mem_cons_self _ _)
        have hmem : p.2 ∈ t.toList := by
          rw [← Tree.cells_map_snd]
          exact List.mem_map.mpr ⟨p, hp, rfl⟩
        have hl := (hcont p.2.1 p.2.2).mp hmem
        exact hk (hpk ▸ (mem_keys_of_isLast p.2.1).mp ⟨_, hl⟩)

/-- The preceding statement at the map with the keys 1, 2, 6, 7, for the key 7 and for the key 5. -/
theorem equal_range_bounds_example :
    StrictTotal natLess ∧
    (∃ (m : Map Nat Nat) (cells l1 mid l2 : List (Nat × (Nat × Nat))), ofList natLess [(1, 10), (2, 20), (6, 60), (7, 70)] = some m ∧
      toList m = some (cells.map Prod.snd) ∧
      (∀ p ∈ cells, p.1 ≠ endIt ∧ deref m p.1 = some p.2) ∧
      cells = l1 ++ mid ++ l2 ∧ (∀ p ∈ l1, natLess p.2.1 7 = true) ∧
      (∀ p ∈ mid, p.2.1 = 7) ∧ (∀ p ∈ l2, natLess 7 p.2.1 = true) ∧
      mid.length = (if 7 ∈ [(1, 10), (2, 20), (6, 60), (7, 70)].map Prod.fst then 1 else 0) ∧
      equal_range natLess m 7
        = some (((mid ++ l2).map Prod.fst).headD endIt, (l2.map Prod.fst).headD endIt)) ∧
    (ofList natLess [(1, 10), (2, 20), (6, 60), (7, 70)]).bind (fun m =>
      (equal_range natLess m 5).map fun r => (deref m r.1, deref m r.2))
      = some (some (6, 60), some (6, 60)) :=
  ⟨natLess_strictTotal,
    equal_range_bounds natLess_strictTotal [(1, 10), (2, 20), (6, 60), (7, 70)] 7,
    by decide⟩

/-! ## The whole-tree pass on a tree without conflicts -/

/-- C31: on the map built by `insert` of the keys 1 to 6 in ascending order the
root (key 2, address 2) is Black, its left child (key 1, address 1) is a Black
leaf and its right child (key 4, address 4) is Red.  One activation of
`resolveDB` at the node 1 exchanges the colours of the nodes 2 and 4 but does
not rotate: the node 2 keeps its children 1 and 4 and its parent link to the
sentinel, and the sentinel's root slot is made to refer to the sentinel itself
(address 0).  When `eraseHelper` has first set the sentinel's left link to the
node 2, the activation rotates and stores the node 4 in that left link, and
the root slot is left referring to the node 2, which is now below the node 4. -/
theorem C31_red_sibling_at_root_misses_root_slot :
    (ofList natLess [(1, 10), (2, 20), (3, 30), (4, 40), (5, 50), (6, 60)]).bind (fun m =>
      (rd m 0).bind fun h => (rd m 1).bind fun n1 => (rd m 2).bind fun n2 =>
      (rd m 4).map fun n4 =>
        ([h.parent, h.left, h.right, n1.parent, n2.left, n2.right],
          [n1.color, n2.color, n4.color]))
      = some ([some 2, some 1, some 6, some 2, some 1, some 4],
          [Color.Black, Color.Black, Color.Red]) ∧
    (ofList natLess [(1, 10), (2, 20), (3, 30), (4, 40), (5, 50), (6, 60)]).bind (fun m =>
      (resolveDBStep m 1).bind fun r => (rd r.1 0).bind fun h => (rd r.1 2).bind fun n2 =>
      (rd r.1 4).map fun n4 =>
        ([r.2, h.parent, h.left, h.right, n2.parent, n2.left, n2.right, n4.parent, n4.left],
          [n2.color, n4.color]))
      = some ([some 1, some 0, some 1, some 6, some 0, some 1, some 4, some 2, some 3],
          [Color.Red, Color.Black]) ∧
    (ofList natLess [(1, 10), (2, 20), (3, 30), (4, 40), (5, 50), (6, 60)]).bind (fun m =>
      (updateMin m 1).bind fun m1 => (resolveDBStep m1 1).bind fun r =>
      (rd m1 0).bind fun h1 => (rd r.1 0).bind fun h => (rd r.1 2).bind fun n2 =>
      (rd r.1 4).map fun n4 =>
        ([h1.left, r.2, h.parent, h.left, h.right, n2.parent, n2.left, n2.right, n4.parent,
          n4.left], [n2.color, n4.color]))
      = some ([some 2, some 1, some 2, some 4, some 6, some 4, some 1, some 3, some 0, some 2],
          [Color.Red, Color.Black]) :=
  ⟨by decide, by decide, by decide⟩

/-- C32: on the map built by `insert` of the keys 1 to 4 in ascending order the
root (key 2, address 2) has the Black leaf 1 as left child and the Black node 3
as right child, whose right child 4 is Red.  For `erase(1)`, `eraseHelper`
first sets the sentinel's left link to the node 2; `resolveDB` at the node 1
then rotates and stores the node 3 in the sentinel's left link, since that is
the first link found equal to the node 2: the root slot still refers to the
node 2, now the left child of the node 3, and the left link set by
`eraseHelper` is lost.  Without the earlier assignment to the left link the
same activation stores the node 3 in the root slot. -/
theorem C32_far_nephew_rotation_stored_in_min_link :
    (ofList natLess [(1, 10), (2, 20), (3, 30), (4, 40)]).bind (fun m =>
      (updateMin m 1).bind fun m1 => (resolveDB (fuelOf m1) m1 1).bind fun m2 =>
      (rd m1 0).bind fun h1 => (rd m2 0).bind fun h2 => (rd m2 2).bind fun n2 =>
      (rd m2 3).map fun n3 =>
        ([h1.parent, h1.left, h1.right], [h2.parent, h2.left, h2.right],
          [n2.parent, n2.left, n2.right], [n3.parent, n3.left, n3.right]))
      = some ([some 2, some 2, some 4], [some 2, some 3, some 4],
          [some 3, some 1, none], [some 0, some 2, some 4]) ∧
    (ofList natLess [(1, 10), (2, 20), (3, 30), (4, 40)]).bind (fun m =>
      (resolveDB (fuelOf m) m 1).bind fun m2 => (rd m 0).bind fun h1 => (rd m2 0).map fun h2 =>
        ([h1.parent, h1.left, h1.right], [h2.parent, h2.left, h2.right]))
      = some ([some 2, some 1, some 4], [some 3, some 1, some 4]) :=
  ⟨by decide, by decide⟩

/-! ## Paths -/

theorem Path.plug_perm (p : Path K V) : ∀ s : Tree K V,
    (p.plug s).addrs.Perm (s.addrs ++ p.addrs) := by
  induction p with
  | top => intro s; simp [Path.plug, Path.addrs]
  | left a c kv sib up ih =>
    intro s
    refine (ih _).trans ?_
    simp only [Tree.addrs, Path.addrs, List.append_assoc, List.cons_append]
    exact List.Perm.refl _
  | right a c kv sib up ih =>
    intro s
    refine (ih _).trans ?_
    simp only [Tree.addrs, Path.addrs, List.append_assoc, List.cons_append]
    refine List.perm_middle.trans (List.Perm.trans ?_ List.perm_middle.symm)
    refine List.Perm.cons _ ?_
    rw [← List.append_assoc, ← List.append_assoc]
    exact List.Perm.append_right _ List.perm_append_comm

/-- The parts of a tree with distinct addresses have distinct addresses, and
the subtree shares no address with its surroundings. -/
theorem Path.nodup_plug {p : Path K V} {s : Tree K V} (h : (p.plug s).addrs.Nodup) :
    s.addrs.Nodup ∧ p.addrs.Nodup ∧ ∀ x ∈ s.addrs, x ∉ p.addrs := by
  have := (p.plug_perm s).nodup_iff.mp h
  rw [List.nodup_append] at this
  exact ⟨this.1, this.2.1, fun x hx hx' => this.2.2 hx hx'⟩

theorem Path.mem_plug {p : Path K V} {s : Tree K V} {x : Nat} :
    x ∈ (p.plug s).addrs ↔ x ∈ s.addrs ∨ x ∈ p.addrs := by
  rw [(p.plug_perm s).mem_iff, List.mem_append]

/-- The subtree at the end of a path is held below the node it hangs from. -/
theorem Path.rep_hole {m : Map K V} (p : Path K V) : ∀ {s : Tree K V},
    Rep m (some 0) (p.plug s) → Rep m (some p.parent) s := by
  induction p with
  | top => intro s h; exact h
  | left a c kv sib up ih => intro s h; exact (ih h).2.1
  | right a c kv sib up ih => intro s h; exact (ih h).2.2

/-- Replacing the subtree at the end of a path by a tree with the same root,
in a store that agrees with the old one on the surroundings. -/
theorem Path.rep_replace {m m' : Map K V} (p : Path K V) : ∀ {s s' : Tree K V},
    Rep m (some 0) (p.plug s) → Rep m' (some p.parent) s' → s'.root = s.root →
    (∀ x ∈ p.addrs, rd m' x = rd m x) → Rep m' (some 0) (p.plug s') := by
  induction p with
  | top => intro s s' _ h' _ _; exact h'
  | left a c kv sib up ih =>
    intro s s' h h' hroot hf
    have hX := Path.rep_hole up h
    refine ih h ⟨?_, h', hX.2.2.frame ?_⟩ rfl ?_
    · rw [hf a (by simp [Path.addrs]), hX.1, hroot]
    · intro x hx
      exact hf x (by simp [Path.addrs, hx])
    · intro x hx
      exact hf x (by simp [Path.addrs, hx])
  | right a c kv sib up ih =>
    intro s s' h h' hroot hf
    have hX := Path.rep_hole up h
    refine ih h ⟨?_, hX.2.1.frame ?_, h'⟩ rfl ?_
    · rw [hf a (by simp [Path.addrs]), hX.1, hroot]
    · intro x hx
      exact hf x (by simp [Path.addrs, hx])
    · intro x hx
      exact hf x (by simp [Path.addrs, hx])

/-- The root of the whole tree is the root of the subtree or an ancestor. -/
theorem Path.root_plug (p : Path K V) : ∀ s : Tree K V,
    (p = Path.top ∧ (p.plug s).root = s.root) ∨ ∃ z ∈ p.addrs, (p.plug s).root = some z := by
  induction p with
  | top => intro s; exact Or.inl ⟨rfl, rfl⟩
  | left a c kv sib up ih =>
    intro s
    right
    rcases ih (node a c s kv sib) with ⟨_, h⟩ | ⟨z, hz, h⟩
    · exact ⟨a, by simp [Path.addrs], by simpa [Path.plug] using h⟩
    · exact ⟨z, by simp [Path.addrs, hz], by simpa [Path.plug] using h⟩
  | right a c kv sib up ih =>
    intro s
    right
    rcases ih (node a c sib kv s) with ⟨_, h⟩ | ⟨z, hz, h⟩
    · exact ⟨a, by simp [Path.addrs], by simpa [Path.plug] using h⟩
    · exact ⟨z, by simp [Path.addrs, hz], by simpa [Path.plug] using h⟩

theorem Path.root_plug_eq (p : Path K V) : ∀ {s s' : Tree K V}, s'.root = s.root →
    (p.plug s').root = (p.plug s).root := by
  induction p with
  | top => intro s s' h; exact h
  | left a c kv sib up ih => intro s s' _; exact ih rfl
  | right a c kv sib up ih => intro s s' _; exact ih rfl

theorem Path.plug_append (p q : Path K V) : ∀ s : Tree K V,
    (p.append q).plug s = q.plug (p.plug s) := by
  induction p with
  | top => intro s; rfl
  | left a c kv sib up ih => intro s; exact ih _
  | right a c kv sib up ih => intro s; exact ih _

/-- Every node of a tree is the root of the subtree at the end of a path. -/
theorem Tree.exists_path {t : Tree K V} {a : Nat} (h : a ∈ t.addrs) :
    ∃ (p : Path K V) (s : Tree K V), t = p.plug s ∧ s.root = some a := by
  induction t with
  | nil => cases h
  | node b c l kv r ihl ihr =>
    rcases Tree.mem_addrs_node.mp h with rfl | h | h
    · exact ⟨Path.top, _, rfl, rfl⟩
    · obtain ⟨p, s, e, hs⟩ := ihl h
      refine ⟨p.append (Path.left b c kv r Path.top), s, ?_, hs⟩
      rw [Path.plug_append, ← e]
      rfl
    · obtain ⟨p, s, e, hs⟩ := ihr h
      refine ⟨p.append (Path.right b c kv l Path.top), s, ?_, hs⟩
      rw [Path.plug_append, ← e]
      rfl

theorem Tree.blackHeight_unique {t : Tree K V} : ∀ {i j : Nat},
    t.blackHeight i → t.blackHeight j → i = j := by
  induction t with
  | nil => intro i j hi hj; simp only [Tree.blackHeight] at hi hj; omega
  | node a c l kv r ihl _ =>
    intro i j hi hj
    cases c with
    | Red => exact ihl hi.1 hj.1
    | Black =>
      obtain ⟨i', ei, hi', _⟩ := hi
      obtain ⟨j', ej, hj', _⟩ := hj
      have := ihl hi' hj'
      omega

/-- The subtree at the end of a path in a tree whose colours are those of a
red-black tree has such colours too. -/
theorem Path.valid_hole (p : Path K V) : ∀ {s : Tree K V} {n : Nat},
    (p.plug s).noRedRed → (p.plug s).blackHeight n → s.noRedRed ∧ ∃ j, s.blackHeight j := by
  induction p with
  | top => intro s n h1 h2; exact ⟨h1, n, h2⟩
  | left a c kv sib up ih =>
    intro s n h1 h2
    obtain ⟨hX, j, hj⟩ := ih h1 h2
    refine ⟨hX.2.1, ?_⟩
    cases c with
    | Red => exact ⟨j, hj.1⟩
    | Black =>
      obtain ⟨k, _, hk, _⟩ := hj
      exact ⟨k, hk⟩
  | right a c kv sib up ih =>
    intro s n h1 h2
    obtain ⟨hX, j, hj⟩ := ih h1 h2
    refine ⟨hX.2.2, ?_⟩
    cases c with
    | Red => exact ⟨j, hj.2⟩
    | Black =>
      obtain ⟨k, _, _, hk⟩ := hj
      exact ⟨k, hk⟩

/-- In a tree whose colours are those of a red-black tree, the surroundings of
every subtree satisfy the colour conditions for the black height of the subtree. -/
theorem Path.around_of_valid (p : Path K V) : ∀ {s : Tree K V} {n k : Nat},
    (p.plug s).noRedRed → (p.plug s).blackHeight n → s.blackHeight k → p.Around k := by
  induction p with
  | top => intro s n k _ _ _; trivial
  | left a c kv sib up ih =>
    intro s n k h1 h2 hk
    obtain ⟨hX, j, hj⟩ := Path.valid_hole up h1 h2
    cases c with
    | Red =>
      have e := Tree.blackHeight_unique hj.1 hk
      subst e
      exact ⟨hX.2.2, hj.2, fun _ => (hX.1 rfl).2, by simpa using ih h1 h2 hj⟩
    | Black =>
      obtain ⟨i, ei, hi, hi'⟩ := hj
      have e := Tree.blackHeight_unique hi hk
      subst e
      refine ⟨hX.2.2, hi', (fun h => by cases h), ?_⟩
      have : (node a Color.Black s kv sib).blackHeight (i + 1) := ⟨i, rfl, hi, hi'⟩
      simpa using ih h1 h2 this
  | right a c kv sib up ih =>
    intro s n k h1 h2 hk
    obtain ⟨hX, j, hj⟩ := Path.valid_hole up h1 h2
    cases c with
    | Red =>
      have e := Tree.blackHeight_unique hj.2 hk
      subst e
      exact ⟨hX.2.1, hj.1, fun _ => (hX.1 rfl).1, by simpa using ih h1 h2 hj⟩
    | Black =>
      obtain ⟨i, ei, hi, hi'⟩ := hj
      have e := Tree.blackHeight_unique hi' hk
      subst e
      refine ⟨hX.2.1, hi, (fun h => by cases h), ?_⟩
      have : (node a Color.Black sib kv s).blackHeight (i + 1) := ⟨i, rfl, hi, hi'⟩
      simpa using ih h1 h2 this

/-! ## The branches of `resolveDB` -/

theorem setColor_parentOf {m m' : Map K V} {a : Nat} {c : Color}
    (h : setColor m a c = some m') : ∀ x, parentOf m' x = parentOf m x := by
  intro x
  simp only [setColor, Option.map_eq_some'] at h
  obtain ⟨n, hn, rfl⟩ := h
  unfold parentOf
  rw [rd_wr]
  by_cases hx : x = a
  · subst hx
    simp [rd_lt hn, hn]
  · simp [hx]

theorem bothChildBlack_spec {m : Map K V} {par : Option Nat} {a : Nat} {c : Color}
    {l r : Tree K V} {kv : K × V} (h : Rep m par (node a c l kv r)) {j : Nat}
    (hl : l.blackHeight j) (hr : r.blackHeight j) :
    bothChildBlack m a = some (!l.isRed && !r.isRed) := by
  obtain ⟨ha, h1, h2⟩ := h
  cases l with
  | nil =>
    cases r with
    | nil => simp [bothChildBlack, ha, Tree.isRed]
    | node ra rc rl rkv rr =>
      cases rc with
      | Red => simp [bothChildBlack, ha, Tree.isRed]
      | Black =>
        simp only [Tree.blackHeight] at hl hr
        omega
  | node la lc ll lkv lr =>
    cases r with
    | nil =>
      cases lc with
      | Red => simp [bothChildBlack, ha, Tree.isRed]
      | Black =>
        simp only [Tree.blackHeight] at hl hr
        omega
    | node ra rc rl rkv rr =>
      cases lc <;> cases rc <;> simp [bothChildBlack, ha, h1.1, h2.1, Tree.isRed]

theorem isBlackOrNull_spec {m : Map K V} {par : Option Nat} {t : Tree K V} (h : Rep m par t) :
    isBlackOrNull m t.root = some (!t.isRed) := by
  cases t with
  | nil => rfl
  | node a c l kv r => cases c <;> simp [isBlackOrNull, h.1, Tree.isRed]

theorem derefRed_spec {m : Map K V} {par : Option Nat} {t : Tree K V} (h : Rep m par t)
    (hne : t ≠ nil) : derefRed m t.root = some t.isRed := by
  cases t with
  | nil => exact absurd rfl hne
  | node a c l kv r => cases c <;> simp [derefRed, h.1, Tree.isRed]

/-- Both-children-Black branch when the node is the left child: the sibling
becomes Red, the parent becomes (or stays) Black, and the recursion continues
at the parent exactly when the parent was Black. -/
theorem dbBothBlack_left {m : Map K V} {g p n sa : Nat} {c nc : Color}
    {nl nr sl sr : Tree K V} {kv nkv skv : K × V}
    (hX : Rep m (some g) (node p c (node n nc nl nkv nr) kv (node sa Color.Black sl skv sr)))
    (hnd : (node p c (node n nc nl nkv nr) kv (node sa Color.Black sl skv sr)).addrs.Nodup) :
    ∃ m1, dbBothBlack m n sa = some (m1, if c = Color.Red then none else some p) ∧
      Rep m1 (some g)
        (node p Color.Black (node n nc nl nkv nr) kv (node sa Color.Red sl skv sr)) ∧
      Same m m1 [p, sa] ∧ ∀ x, parentOf m1 x = parentOf m x := by
  obtain ⟨hpa, hsib, hdis, hnds, hndb⟩ := Tree.nodup_node.mp hnd
  obtain ⟨m1, e1, r1, s1⟩ := Rep.setColor Color.Red hX.2.2 hndb
  have hpsa : p ≠ sa := fun e => hsib (e ▸ Tree.mem_addrs_node.mpr (Or.inl rfl))
  have rX1 : Rep m1 (some g)
      (node p c (node n nc nl nkv nr) kv (node sa Color.Red sl skv sr)) :=
    Rep.replace_right hX r1 rfl s1 (by simpa using hpsa) (fun x hx hmem => by
      rw [List.mem_singleton] at hmem
      exact hdis x hx (hmem ▸ Tree.mem_addrs_node.mpr (Or.inl rfl)))
  have hn1 := rX1.2.1.1
  have hp1 := rX1.1
  have hnd1 : (node p c (node n nc nl nkv nr) kv (node sa Color.Red sl skv sr)).addrs.Nodup := by
    simpa [Tree.addrs] using hnd
  cases c with
  | Red =>
    obtain ⟨m2, e2, r2, s2⟩ := Rep.setColor Color.Black rX1 hnd1
    refine ⟨m2, ?_, r2, ?_, ?_⟩
    · simp [dbBothBlack, e1, hn1, hp1, e2]
    · exact (s1.mono (by simp)).trans (s2.mono (by simp))
    · intro x
      rw [setColor_parentOf e2, setColor_parentOf e1]
  | Black =>
    refine ⟨m1, ?_, rX1, s1.mono (by simp), setColor_parentOf e1⟩
    simp [dbBothBlack, e1, hn1, hp1]

/-- Exchange of the colours of a node and its right child. -/
theorem swapColor_parent_right {m : Map K V} {par : Option Nat} {p sa : Nat} {c sc : Color}
    {l sl sr : Tree K V} {kv skv : K × V}
    (hX : Rep m par (node p c l kv (node sa sc sl skv sr)))
    (hnd : (node p c l kv (node sa sc sl skv sr)).addrs.Nodup) :
    ∃ m1, swapColorFields m p sa = some m1 ∧
      Rep m1 par (node p sc l kv (node sa c sl skv sr)) ∧ Same m m1 [p, sa] := by
  obtain ⟨hpa, hsib, hdis, hnds, hndb⟩ := Tree.nodup_node.mp hnd
  have hpsa : p ≠ sa := fun e => hsib (e ▸ Tree.mem_addrs_node.mpr (Or.inl rfl))
  obtain ⟨m1, e1, r1, s1⟩ := Rep.setColor sc hX hnd
  obtain ⟨m2, e2, r2, s2⟩ := Rep.setColor c r1.2.2 hndb
  refine ⟨m2, ?_, ?_, (s1.mono (by simp)).trans (s2.mono (by simp))⟩
  · simp [swapColorFields, hX.1, hX.2.2.1, e1, e2]
  · exact Rep.replace_right r1 r2 rfl s2 (by simpa using hpsa) (fun x hx hmem => by
      rw [List.mem_singleton] at hmem
      exact hdis x hx (hmem ▸ Tree.mem_addrs_node.mpr (Or.inl rfl)))

/-- Exchange of the colours of a node and its left child. -/
theorem swapColor_parent_left {m : Map K V} {par : Option Nat} {p sa : Nat} {c sc : Color}
    {r sl sr : Tree K V} {kv skv : K × V}
    (hX : Rep m par (node p c (node sa sc sl skv sr) kv r))
    (hnd : (node p c (node sa sc sl skv sr) kv r).addrs.Nodup) :
    ∃ m1, swapColorFields m p sa = some m1 ∧
      Rep m1 par (node p sc (node sa c sl skv sr) kv r) ∧ Same m m1 [p, sa] := by
  obtain ⟨hsib, hpa, hdis, hndb, hnds⟩ := Tree.nodup_node.mp hnd
  have hpsa : p ≠ sa := fun e => hsib (e ▸ Tree.mem_addrs_node.mpr (Or.inl rfl))
  obtain ⟨m1, e1, r1, s1⟩ := Rep.setColor sc hX hnd
  obtain ⟨m2, e2, r2, s2⟩ := Rep.setColor c r1.2.1 hndb
  refine ⟨m2, ?_, ?_, (s1.mono (by simp)).trans (s2.mono (by simp))⟩
  · simp [swapColorFields, hX.1, hX.2.1.1, e1, e2]
  · exact Rep.replace_left r1 r2 rfl s2 (by simpa using hpsa) (fun x hx hmem => by
      rw [List.mem_singleton] at hmem
      exact hdis sa (Tree.mem_addrs_node.mpr (Or.inl rfl)) (hmem ▸ hx))

/-- Exchange of the colours of a left child and its parent, the child named first. -/
theorem swapColor_left_parent {m : Map K V} {par : Option Nat} {p sa : Nat} {c sc : Color}
    {r sl sr : Tree K V} {kv skv : K × V}
    (hX : Rep m par (node p c (node sa sc sl skv sr) kv r))
    (hnd : (node p c (node sa sc sl skv sr) kv r).addrs.Nodup) :
    ∃ m1, swapColorFields m sa p = some m1 ∧
      Rep m1 par (node p sc (node sa c sl skv sr) kv r) ∧ Same m m1 [p, sa] := by
  obtain ⟨hsib, hpa, hdis, hndb, hnds⟩ := Tree.nodup_node.mp hnd
  have hpsa : p ≠ sa := fun e => hsib (e ▸ Tree.mem_addrs_node.mpr (Or.inl rfl))
  obtain ⟨m1, e1, r1, s1⟩ := Rep.setColor c hX.2.1 hndb
  have rX1 : Rep m1 par (node p c (node sa c sl skv sr) kv r) :=
    Rep.replace_left hX r1 rfl s1 (by simpa using hpsa) (fun x hx hmem => by
      rw [List.mem_singleton] at hmem
      exact hdis sa (Tree.mem_addrs_node.mpr (Or.inl rfl)) (hmem ▸ hx))
  have hnd1 : (node p c (node sa c sl skv sr) kv r).addrs.Nodup := by
    simpa [Tree.addrs] using hnd
  obtain ⟨m2, e2, r2, s2⟩ := Rep.setColor sc rX1 hnd1
  refine ⟨m2, ?_, r2, (s1.mono (by simp)).trans (s2.mono (by simp))⟩
  simp [swapColorFields, hX.1, hX.2.1.1, e1, e2]

/-- Exchange of the colours of a right child and its parent, the child named first. -/
theorem swapColor_right_parent {m : Map K V} {par : Option Nat} {p sa : Nat} {c sc : Color}
    {l sl sr : Tree K V} {kv skv : K × V}
    (hX : Rep m par (node p c l kv (node sa sc sl skv sr)))
    (hnd : (node p c l kv (node sa sc sl skv sr)).addrs.Nodup) :
    ∃ m1, swapColorFields m sa p = some m1 ∧
      Rep m1 par (node p sc l kv (node sa c sl skv sr)) ∧ Same m m1 [p, sa] := by
  obtain ⟨hpa, hsib, hdis, hnds, hndb⟩ := Tree.nodup_node.mp hnd
  have hpsa : p ≠ sa := fun e => hsib (e ▸ Tree.mem_addrs_node.mpr (Or.inl rfl))
  obtain ⟨m1, e1, r1, s1⟩ := Rep.setColor c hX.2.2 hndb
  have rX1 : Rep m1 par (node p c l kv (node sa c sl skv sr)) :=
    Rep.replace_right hX r1 rfl s1 (by simpa using hpsa) (fun x hx hmem => by
      rw [List.mem_singleton] at hmem
      exact hdis x hx (hmem ▸ Tree.mem_addrs_node.mpr (Or.inl rfl)))
  have hnd1 : (node p c l kv (node sa c sl skv sr)).addrs.Nodup := by
    simpa [Tree.addrs] using hnd
  obtain ⟨m2, e2, r2, s2⟩ := Rep.setColor sc rX1 hnd1
  refine ⟨m2, ?_, r2, (s1.mono (by simp)).trans (s2.mono (by simp))⟩
  simp [swapColorFields, hX.1, hX.2.2.1, e1, e2]

/-- Near-child-Red branch when the node is the left child: the sibling and
its left child exchange colours and the sibling is rotated to the right, so
that the new sibling is Black and has a Red right child. -/
theorem dbNearRed_left {m : Map K V} {g p n sa la : Nat} {c nc sc lc : Color}
    {nl nr ll lr sr : Tree K V} {kv nkv skv lkv : K × V}
    (hX : Rep m (some g) (node p c (node n nc nl nkv nr) kv
      (node sa sc (node la lc ll lkv lr) skv sr)))
    (hnd : (node p c (node n nc nl nkv nr) kv
      (node sa sc (node la lc ll lkv lr) skv sr)).addrs.Nodup) :
    ∃ m1, dbNearRed m n sa la true = some (m1, some n) ∧
      Rep m1 (some g) (node p c (node n nc nl nkv nr) kv
        (node la sc ll lkv (node sa lc lr skv sr))) ∧
      Same m m1 (node p c (node n nc nl nkv nr) kv
        (node sa sc (node la lc ll lkv lr) skv sr)).addrs := by
  obtain ⟨hpa, hsib, hdis, hnds, hndb⟩ := Tree.nodup_node.mp hnd
  have hpsa : p ≠ sa := fun e => hsib (e ▸ Tree.mem_addrs_node.mpr (Or.inl rfl))
  have hnsib : n ∉ (node sa sc (node la lc ll lkv lr) skv sr).addrs :=
    hdis n (Tree.mem_addrs_node.mpr (Or.inl rfl))
  -- colours
  obtain ⟨m1, e1, r1, s1⟩ := swapColor_left_parent hX.2.2 hndb
  have hsub1 : ∀ x ∈ [sa, la], x ∈ (node sa sc (node la lc ll lkv lr) skv sr).addrs := by
    intro x hx
    simp only [List.mem_cons, List.mem_singleton, List.not_mem_nil, or_false] at hx
    rcases hx with rfl | rfl
    · exact Tree.mem_addrs_node.mpr (Or.inl rfl)
    · exact Tree.mem_addrs_node.mpr (Or.inr (Or.inl (Tree.mem_addrs_node.mpr (Or.inl rfl))))
  have s1' : Same m m1 (node sa sc (node la lc ll lkv lr) skv sr).addrs := s1.mono hsub1
  have rX1 : Rep m1 (some g) (node p c (node n nc nl nkv nr) kv
      (node sa lc (node la sc ll lkv lr) skv sr)) :=
    Rep.replace_right hX r1 rfl s1' hsib (fun x hx => hdis x hx)
  have hnd1 : (node p c (node n nc nl nkv nr) kv
      (node sa lc (node la sc ll lkv lr) skv sr)).addrs.Nodup := by
    simpa [Tree.addrs] using hnd
  have hndb1 : (node sa lc (node la sc ll lkv lr) skv sr).addrs.Nodup := by
    simpa [Tree.addrs] using hndb
  -- rotation
  obtain ⟨m2, e2, r2, s2⟩ := rightRotation_spec r1 hndb1
  have hperm : (node la sc ll lkv (node sa lc lr skv sr)).addrs.Perm
      (node sa lc (node la sc ll lkv lr) skv sr).addrs := by
    simp [Tree.addrs]
  obtain ⟨m4, e4, r4, s4⟩ := hookRight_spec rX1 hnd1 r2 hperm s2
  simp only [Tree.root_node, Option.bind_eq_some, adopt] at e4
  obtain ⟨m3, e3, e4⟩ := e4
  have hn2 : rd m2 n = some ⟨nkv, some p, nl.root, nr.root, nc⟩ := by
    rw [s2.2.2 n (by simpa [Tree.addrs] using hnsib)]
    exact rX1.2.1.1
  have hp2 : rd m2 p = some ⟨kv, some g, some n, some sa, c⟩ := by
    rw [s2.2.2 p (by simpa [Tree.addrs] using hsib)]
    exact rX1.1
  have hp3 : rd m3 p = some ⟨kv, some g, some n, some la, c⟩ := by
    rw [setRight_eq hp2] at e3
    cases e3
    exact rd_wr_same _ hp2
  refine ⟨m4, ?_, r4, ?_⟩
  · simp [dbNearRed, e1, dbRotateSiblingRight, e2, hn2, e3, hp3, e4]
  · refine (s1.mono fun x hx => ?_).trans (s4.mono fun x hx => ?_)
    · exact Tree.mem_addrs_node.mpr (Or.inr (Or.inr (hsub1 x hx)))
    · simpa [Tree.addrs] using hx

/-- The three-way chain that stores the rotated subtree in the grandparent:
when one of the grandparent's links refers to the parent, the rotation is made
and one link of the grandparent is overwritten. -/
theorem hookRotation3_spec {rot : Map K V → Nat → Option (Map K V × Nat)} {m m2 : Map K V}
    {g p r : Nat} {gn : RB_Node K V} (hrot : rot m p = some (m2, r))
    (hg : rd m g = some gn) (hg2 : rd m2 g = some gn)
    (hlink : gn.left = some p ∨ gn.right = some p ∨ gn.parent = some p) :
    ∃ gn', hookRotation3 rot m g p = some (wr m2 g gn') := by
  by_cases h1 : gn.left = some p
  · exact ⟨{ gn with left := some r }, by simp [hookRotation3, hg, h1, hrot, setLeft_eq hg2]⟩
  · by_cases h2 : gn.right = some p
    · exact ⟨{ gn with right := some r },
        by simp [hookRotation3, hg, h1, h2, hrot, setRight_eq hg2]⟩
    · have h3 : gn.parent = some p := by tauto
      exact ⟨{ gn with parent := some r },
        by simp [hookRotation3, hg, h1, h2, h3, hrot, setParent_eq hg2]⟩

/-- The two-way chain of the sibling-Red branch: the rotation is made when the
grandparent's left or right link refers to the parent, and then that link is
overwritten; otherwise nothing is done. -/
theorem hookRotation2_spec {rot : Map K V → Nat → Option (Map K V × Nat)} {m m2 : Map K V}
    {g p r : Nat} {gn : RB_Node K V} (hrot : rot m p = some (m2, r))
    (hg : rd m g = some gn) (hg2 : rd m2 g = some gn)
    (hlink : gn.left = some p ∨ gn.right = some p) :
    ∃ gn', gn'.parent = gn.parent ∧ hookRotation2 rot m g p = some (wr m2 g gn') := by
  by_cases h1 : gn.left = some p
  · exact ⟨{ gn with left := some r }, rfl,
      by simp [hookRotation2, hg, h1, hrot, setLeft_eq hg2]⟩
  · have h2 : gn.right = some p := by tauto
    exact ⟨{ gn with right := some r }, rfl,
      by simp [hookRotation2, hg, h1, h2, hrot, setRight_eq hg2]⟩

theorem hookRotation2_none {rot : Map K V → Nat → Option (Map K V × Nat)} {m : Map K V}
    {g p : Nat} {gn : RB_Node K V} (hg : rd m g = some gn)
    (h1 : gn.left ≠ some p) (h2 : gn.right ≠ some p) :
    hookRotation2 rot m g p = some m := by
  simp [hookRotation2, hg, h1, h2]

/-- Far-child-Red branch when the node is the left child: the parent and the
sibling exchange colours, the parent is rotated to the left, the rotated
subtree is hung from the grandparent, and the far child becomes Black. -/
theorem dbFarRed_left {m : Map K V} {g p n sa fa : Nat} {c nc sc fc : Color}
    {nl nr sl fl fr : Tree K V} {kv nkv skv fkv : K × V} {gn : RB_Node K V}
    (hX : Rep m (some g) (node p c (node n nc nl nkv nr) kv
      (node sa sc sl skv (node fa fc fl fkv fr))))
    (hnd : (node p c (node n nc nl nkv nr) kv
      (node sa sc sl skv (node fa fc fl fkv fr))).addrs.Nodup)
    (hg : g ∉ (node p c (node n nc nl nkv nr) kv
      (node sa sc sl skv (node fa fc fl fkv fr))).addrs)
    (hgn : rd m g = some gn)
    (hlink : gn.left = some p ∨ gn.right = some p ∨ gn.parent = some p) :
    ∃ m1, dbFarRed m n sa fa true = some (m1, none) ∧
      Rep m1 (some g) (node sa c (node p sc (node n nc nl nkv nr) kv sl) skv
        (node fa Color.Black fl fkv fr)) ∧
      Same m m1 (g :: (node p c (node n nc nl nkv nr) kv
        (node sa sc sl skv (node fa fc fl fkv fr))).addrs) ∧
      (rd m1 g).isSome := by
  have hgX := hg
  simp only [Tree.mem_addrs_node, not_or] at hg
  obtain ⟨hgp, ⟨hgn', -, -⟩, hgsa, hgsl, hgfa, -, -⟩ := hg
  obtain ⟨hpa, hsib, hdis, hnds, hndb⟩ := Tree.nodup_node.mp hnd
  have hpsa : p ≠ sa := fun e => hsib (e ▸ Tree.mem_addrs_node.mpr (Or.inl rfl))
  -- colours
  obtain ⟨m1, e1, r1, s1⟩ := swapColor_parent_right hX hnd
  have hnd1 : (node p sc (node n nc nl nkv nr) kv
      (node sa c sl skv (node fa fc fl fkv fr))).addrs.Nodup := by
    simpa [Tree.addrs] using hnd
  have hgn1 : rd m1 g = some gn := by
    rw [s1.2.2 g (by simp [hgp, hgsa]), hgn]
  -- rotation
  obtain ⟨m2, e2, r2, s2⟩ := leftRotation_spec r1 hnd1
  have hgn2 : rd m2 g = some gn := by
    rw [s2.2.2 g (by simpa [Tree.addrs] using hgX), hgn1]
  obtain ⟨gn', e3⟩ := hookRotation3_spec e2 hgn1 hgn2 hlink
  have hnd2 : (node sa c (node p sc (node n nc nl nkv nr) kv sl) skv
      (node fa fc fl fkv fr)).addrs.Nodup := by
    simpa [Tree.addrs] using hnd
  have hg2 : g ∉ (node sa c (node p sc (node n nc nl nkv nr) kv sl) skv
      (node fa fc fl fkv fr)).addrs := by
    simpa [Tree.addrs] using hgX
  have s3 : Same m2 (wr m2 g gn') [g] := Same.wr _ (List.mem_singleton.mpr rfl)
  have r3 : Rep (wr m2 g gn') (some p) (node sa c (node p sc (node n nc nl nkv nr) kv sl) skv
      (node fa fc fl fkv fr)) :=
    r2.same s3 (fun x hx hmem => by
      rw [List.mem_singleton] at hmem
      exact hg2 (hmem ▸ hx))
  -- the parent link of the new root
  obtain ⟨hsa2, hsl2, hfa2, hsal, hsar⟩ := Tree.nodup_node.mp hnd2
  have r4 : Rep (wr (wr m2 g gn') sa ⟨skv, some g, some p, some fa, c⟩) (some g)
      (node sa c (node p sc (node n nc nl nkv nr) kv sl) skv (node fa fc fl fkv fr)) :=
    Rep.wr_root r3 hsa2 hsl2
  have s4 : Same (wr m2 g gn') (wr (wr m2 g gn') sa ⟨skv, some g, some p, some fa, c⟩) [sa] :=
    Same.wr _ (List.mem_singleton.mpr rfl)
  have e4 : setGreatParent (wr m2 g gn') n g =
      some (wr (wr m2 g gn') sa ⟨skv, some g, some p, some fa, c⟩) := by
    simp [setGreatParent, r3.2.1.2.1.1, r3.2.1.1, setParent_eq r3.1]
  -- the far child
  obtain ⟨m5, e5, r5, s5⟩ := Rep.setColor Color.Black r4.2.2 hsar
  have hsafa : sa ≠ fa := by
    intro e
    apply hsl2
    rw [e]
    exact Tree.mem_addrs_node.mpr (Or.inl rfl)
  have r5' := Rep.replace_right r4 r5 rfl s5 (by simpa using hsafa) (fun x hx hmem => by
      rw [List.mem_singleton] at hmem
      exact hfa2 x hx (hmem ▸ Tree.mem_addrs_node.mpr (Or.inl rfl)))
  refine ⟨m5, ?_, r5', ?_, ?_⟩
  · simp [dbFarRed, hX.2.1.1, e1, r1.1, e3, e4, e5]
  · refine (s1.mono fun x hx => ?_).trans ((s2.mono fun x hx => ?_).trans
      ((s3.mono fun x hx => ?_).trans ((s4.mono fun x hx => ?_).trans
        (s5.mono fun x hx => ?_))))
    · simp only [List.mem_cons, List.mem_singleton, List.not_mem_nil, or_false] at hx
      rcases hx with rfl | rfl <;> simp [Tree.addrs]
    · exact List.mem_cons_of_mem _ (by simpa [Tree.addrs] using hx)
    · simp only [List.mem_singleton] at hx
      simp [hx]
    · simp only [List.mem_singleton] at hx
      simp [hx, Tree.addrs]
    · simp only [List.mem_singleton] at hx
      simp [hx, Tree.addrs]
  · rw [s5.2.2 g (by simpa using hgfa), s4.2.2 g (by simpa using hgsa), rd_wr_same _ hgn2]
    rfl

/-- Sibling-Red branch when the node is the left child and the grandparent's
left or right link refers to the parent: the parent and the sibling exchange
colours and the parent is rotated to the left, so that the node's new sibling is
the former near child. -/
theorem dbRedSibling_left_rot {m : Map K V} {g p n sa : Nat} {c nc sc : Color}
    {nl nr sl sr : Tree K V} {kv nkv skv : K × V} {gn : RB_Node K V}
    (hX : Rep m (some g) (node p c (node n nc nl nkv nr) kv (node sa sc sl skv sr)))
    (hnd : (node p c (node n nc nl nkv nr) kv (node sa sc sl skv sr)).addrs.Nodup)
    (hg : g ∉ (node p c (node n nc nl nkv nr) kv (node sa sc sl skv sr)).addrs)
    (hgn : rd m g = some gn)
    (hlink : gn.left = some p ∨ gn.right = some p) :
    ∃ m1, dbRedSibling m n sa true = some (m1, some n) ∧
      Rep m1 (some g) (node sa c (node p sc (node n nc nl nkv nr) kv sl) skv sr) ∧
      Same m m1 (g :: (node p c (node n nc nl nkv nr) kv (node sa sc sl skv sr)).addrs) ∧
      ∃ gn', rd m1 g = some gn' ∧ gn'.parent = gn.parent := by
  have hgX := hg
  simp only [Tree.mem_addrs_node, not_or] at hg
  obtain ⟨hgp, ⟨hgn', -, -⟩, hgsa, hgsl, hgsr⟩ := hg
  obtain ⟨hpa, hsib, hdis, hnds, hndb⟩ := Tree.nodup_node.mp hnd
  obtain ⟨m1, e1, r1, s1⟩ := swapColor_parent_right hX hnd
  have hnd1 : (node p sc (node n nc nl nkv nr) kv (node sa c sl skv sr)).addrs.Nodup := by
    simpa [Tree.addrs] using hnd
  have hgn1 : rd m1 g = some gn := by
    rw [s1.2.2 g (by simp [hgp, hgsa]), hgn]
  obtain ⟨m2, e2, r2, s2⟩ := leftRotation_spec r1 hnd1
  have hgn2 : rd m2 g = some gn := by
    rw [s2.2.2 g (by simpa [Tree.addrs] using hgX), hgn1]
  obtain ⟨gn', hpar, e3⟩ := hookRotation2_spec e2 hgn1 hgn2 hlink
  have hnd2 : (node sa c (node p sc (node n nc nl nkv nr) kv sl) skv sr).addrs.Nodup := by
    simpa [Tree.addrs] using hnd
  have hg2 : g ∉ (node sa c (node p sc (node n nc nl nkv nr) kv sl) skv sr).addrs := by
    simpa [Tree.addrs] using hgX
  have s3 : Same m2 (wr m2 g gn') [g] := Same.wr _ (List.mem_singleton.mpr rfl)
  have r3 : Rep (wr m2 g gn') (some p)
      (node sa c (node p sc (node n nc nl nkv nr) kv sl) skv sr) :=
    r2.same s3 (fun x hx hmem => by
      rw [List.mem_singleton] at hmem
      exact hg2 (hmem ▸ hx))
  obtain ⟨hsa2, hsl2, -, -, -⟩ := Tree.nodup_node.mp hnd2
  have r4 : Rep (wr (wr m2 g gn') sa ⟨skv, some g, some p, sr.root, c⟩) (some g)
      (node sa c (node p sc (node n nc nl nkv nr) kv sl) skv sr) :=
    Rep.wr_root r3 hsa2 hsl2
  have s4 : Same (wr m2 g gn') (wr (wr m2 g gn') sa ⟨skv, some g, some p, sr.root, c⟩) [sa] :=
    Same.wr _ (List.mem_singleton.mpr rfl)
  have e4 : setGreatParent (wr m2 g gn') n g =
      some (wr (wr m2 g gn') sa ⟨skv, some g, some p, sr.root, c⟩) := by
    simp [setGreatParent, r3.2.1.2.1.1, r3.2.1.1, setParent_eq r3.1]
  refine ⟨_, ?_, r4, ?_, gn', ?_, hpar⟩
  · simp [dbRedSibling, hX.2.1.1, e1, r1.1, e3, e4]
  · refine (s1.mono fun x hx => ?_).trans ((s2.mono fun x hx => ?_).trans
      ((s3.mono fun x hx => ?_).trans (s4.mono fun x hx => ?_)))
    · simp only [List.mem_cons, List.mem_singleton, List.not_mem_nil, or_false] at hx
      rcases hx with rfl | rfl <;> simp [Tree.addrs]
    · exact List.mem_cons_of_mem _ (by simpa [Tree.addrs] using hx)
    · simp only [List.mem_singleton] at hx
      simp [hx]
    · simp only [List.mem_singleton] at hx
      simp [hx, Tree.addrs]
  · rw [s4.2.2 g (by simpa using hgsa), rd_wr_same _ hgn2]

/-- Sibling-Red branch when the node is the left child and neither the left
nor the right link of the grandparent refers to the parent: the parent and the
sibling exchange colours, no rotation is made, and the grandparent's parent
link is made to refer to the grandparent itself. -/
theorem dbRedSibling_left_stay {m : Map K V} {g p n sa : Nat} {c nc sc : Color}
    {nl nr sl sr : Tree K V} {kv nkv skv : K × V} {gn : RB_Node K V}
    (hX : Rep m (some g) (node p c (node n nc nl nkv nr) kv (node sa sc sl skv sr)))
    (hnd : (node p c (node n nc nl nkv nr) kv (node sa sc sl skv sr)).addrs.Nodup)
    (hg : g ∉ (node p c (node n nc nl nkv nr) kv (node sa sc sl skv sr)).addrs)
    (hgn : rd m g = some gn)
    (h1 : gn.left ≠ some p) (h2 : gn.right ≠ some p) :
    ∃ m1, dbRedSibling m n sa true = some (m1, some n) ∧
      Rep m1 (some g) (node p sc (node n nc nl nkv nr) kv (node sa c sl skv sr)) ∧
      Same m m1 (g :: (node p c (node n nc nl nkv nr) kv (node sa sc sl skv sr)).addrs) ∧
      rd m1 g = some { gn with parent := some g } := by
  have hgX := hg
  simp only [Tree.mem_addrs_node, not_or] at hg
  obtain ⟨hgp, ⟨hgn', -, -⟩, hgsa, hgsl, hgsr⟩ := hg
  obtain ⟨m1, e1, r1, s1⟩ := swapColor_parent_right hX hnd
  have hgn1 : rd m1 g = some gn := by
    rw [s1.2.2 g (by simp [hgp, hgsa]), hgn]
  have e3 := @hookRotation2_none K V leftRotation _ _ _ _ hgn1 h1 h2
  have s4 : Same m1 (wr m1 g { gn with parent := some g }) [g] :=
    Same.wr _ (List.mem_singleton.mpr rfl)
  have e4 : setGreatParent m1 n g = some (wr m1 g { gn with parent := some g }) := by
    simp [setGreatParent, r1.2.1.1, r1.1, setParent_eq hgn1]
  refine ⟨_, ?_, ?_, ?_, rd_wr_same _ hgn1⟩
  · simp [dbRedSibling, hX.2.1.1, e1, r1.1, e3, e4]
  · refine r1.same s4 (fun x hx hmem => ?_)
    rw [List.mem_singleton] at hmem
    subst hmem
    exact hgX (by simpa [Tree.addrs] using hx)
  · refine (s1.mono fun x hx => ?_).trans (s4.mono fun x hx => ?_)
    · simp only [List.mem_cons, List.mem_singleton, List.not_mem_nil, or_false] at hx
      rcases hx with rfl | rfl <;> simp [Tree.addrs]
    · simp only [List.mem_singleton] at hx
      simp [hx]

/-! ## Choice of the branch -/

/-- The tests of an activation at a node that is a left child. -/
theorem resolveDBStep_left {m : Map K V} {g p n sa : Nat} {c nc sc : Color}
    {nl nr sl sr : Tree K V} {kv nkv skv : K × V} {h : RB_Node K V}
    (hX : Rep m (some g) (node p c (node n nc nl nkv nr) kv (node sa sc sl skv sr)))
    (hh : rd m 0 = some h) (hhp : h.parent ≠ some n) :
    resolveDBStep m n =
        (if sc = Color.Black then dbBlackSibling m n sa sr.root sl.root true
          else dbRedSibling m n sa true) ∧
      branchOf m n =
        (if sc = Color.Black then blackBranch m sa sr.root sl.root
          else some Branch.redSibling) := by
  constructor
  · simp [resolveDBStep, hh, hhp, hX.2.1.1, hX.1, hX.2.2.1]
  · simp [branchOf, hh, hhp, hX.2.1.1, hX.1, hX.2.2.1]

theorem dbBlackSibling_both {m : Map K V} {n sa : Nat}
    {far near : Tree K V} (b : Bool) {x : Bool}
    (hb : bothChildBlack m sa = some x) (hx : x = true) :
    dbBlackSibling m n sa far.root near.root b = dbBothBlack m n sa ∧
      blackBranch m sa far.root near.root = some Branch.bothBlack := by
  subst hx
  simp [dbBlackSibling, blackBranch, hb]

theorem dbBlackSibling_far {m : Map K V} {n sa fa : Nat} {q : Option Nat}
    {fl fr near : Tree K V} {fkv : K × V} (b : Bool) {x : Bool}
    (hb : bothChildBlack m sa = some x) (hx : x = false)
    (hfar : Rep m q (node fa Color.Red fl fkv fr)) :
    dbBlackSibling m n sa (node fa Color.Red fl fkv fr).root near.root b =
        dbFarRed m n sa fa b ∧
      blackBranch m sa (node fa Color.Red fl fkv fr).root near.root = some Branch.farRed := by
  subst hx
  simp [dbBlackSibling, blackBranch, hb, isBlackOrNull, derefRed, hfar.1]

theorem dbBlackSibling_near {m : Map K V} {n sa la : Nat} {q q' : Option Nat}
    {ll lr far : Tree K V} {lkv : K × V} (b : Bool) {x : Bool}
    (hb : bothChildBlack m sa = some x) (hx : x = false)
    (hfar : Rep m q far) (hfr : far.isRed = false)
    (hnear : Rep m q' (node la Color.Red ll lkv lr)) :
    dbBlackSibling m n sa far.root (node la Color.Red ll lkv lr).root b =
        dbNearRed m n sa la b ∧
      blackBranch m sa far.root (node la Color.Red ll lkv lr).root = some Branch.nearRed := by
  subst hx
  simp [dbBlackSibling, blackBranch, hb, isBlackOrNull_spec hfar, hfr, derefRed, hnear.1]

/-! ## Sequences of activations -/

theorem resolveDB_stop {m m1 : Map K V} {n : Nat} {b : Branch}
    (hs : resolveDBStep m n = some (m1, none)) (hb : branchOf m n = some b) (f : Nat) :
    resolveDB (f + 1) m n = some m1 ∧ resolveDBTrace (f + 1) m n = some [(b, n)] := by
  simp [resolveDB, resolveDBTrace, hs, hb]

theorem resolveDB_next {m m1 : Map K V} {n n' : Nat} {b : Branch}
    (hs : resolveDBStep m n = some (m1, some n')) (hb : branchOf m n = some b) (f : Nat) :
    resolveDB (f + 1) m n = resolveDB f m1 n' ∧
      resolveDBTrace (f + 1) m n = (resolveDBTrace f m1 n').map fun tr => (b, n) :: tr := by
  simp [resolveDB, resolveDBTrace, hs, hb]

theorem Tree.eq_node_of_isRed {t : Tree K V} (h : t.isRed = true) :
    ∃ a l kv r, t = node a Color.Red l kv r := by
  cases t with
  | nil => cases h
  | node a c l kv r =>
    cases c with
    | Red => exact ⟨a, l, kv, r, rfl⟩
    | Black => cases h

theorem Tree.eq_node_of_black {t : Tree K V} {j : Nat} (h : t.isRed = false)
    (hb : t.blackHeight (j + 1)) :
    ∃ a l kv r, t = node a Color.Black l kv r ∧ l.blackHeight j ∧ r.blackHeight j := by
  cases t with
  | nil => simp only [Tree.blackHeight] at hb; omega
  | node a c l kv r =>
    cases c with
    | Red => cases h
    | Black =>
      obtain ⟨k, e, h1, h2⟩ := hb
      have : k = j := by omega
      subst this
      exact ⟨a, l, kv, r, rfl, h1, h2⟩

/-- A node that is a left child and has a Black sibling, when its parent is
Red or the sibling has a Red child: `resolveDB` returns after at most two
activations, and writes no cell of the subtree of the node. -/
theorem finishBlack_left {m : Map K V} {g p n sa : Nat} {c nc : Color}
    {nl nr sl sr : Tree K V} {kv nkv skv : K × V} {gn h : RB_Node K V} {j : Nat}
    (hX : Rep m (some g) (node p c (node n nc nl nkv nr) kv (node sa Color.Black sl skv sr)))
    (hnd : (node p c (node n nc nl nkv nr) kv (node sa Color.Black sl skv sr)).addrs.Nodup)
    (hg : g ∉ (node p c (node n nc nl nkv nr) kv (node sa Color.Black sl skv sr)).addrs)
    (h0 : 0 ∉ (node p c (node n nc nl nkv nr) kv (node sa Color.Black sl skv sr)).addrs)
    (hgn : rd m g = some gn) (hh : rd m 0 = some h) (hhp : h.parent ≠ some n)
    (hl : sl.blackHeight j) (hr : sr.blackHeight j)
    (hcase : c = Color.Red ∨ sl.isRed = true ∨ sr.isRed = true)
    (hlink : sl.isRed = true ∨ sr.isRed = true →
      gn.left = some p ∨ gn.right = some p ∨ gn.parent = some p)
    (f : Nat) :
    ∃ m' tr, resolveDB (f + 2) m n = some m' ∧ resolveDBTrace (f + 2) m n = some tr ∧
      (tr = [(Branch.bothBlack, n)] ∨ tr = [(Branch.farRed, n)] ∨
        tr = [(Branch.nearRed, n), (Branch.farRed, n)]) ∧
      (∀ x ∈ (node n nc nl nkv nr).addrs, rd m' x = rd m x) ∧ (rd m' p).isSome ∧
      Same m m' (g :: (node p c (node n nc nl nkv nr) kv
        (node sa Color.Black sl skv sr)).addrs) := by
  obtain ⟨hstep, hbr⟩ := resolveDBStep_left hX hh hhp
  simp only [if_true] at hstep hbr
  have hb := bothChildBlack_spec hX.2.2 hl hr
  cases hsr : sr.isRed with
  | true =>
    obtain ⟨fa, fl, fkv, fr, rfl⟩ := Tree.eq_node_of_isRed hsr
    obtain ⟨hd1, hd2⟩ := @dbBlackSibling_far K V _ n _ _ _ _ _ sl _ true _ hb
      (by simp [Tree.isRed]) hX.2.2.2.2
    obtain ⟨m1, e1, r1, s1, -⟩ := dbFarRed_left hX hnd hg hgn (hlink (Or.inr hsr))
    obtain ⟨ha, hb'⟩ := resolveDB_stop (hstep.trans (hd1.trans e1)) (hbr.trans hd2) (f + 1)
    refine ⟨m1, _, ha, hb', Or.inr (Or.inl rfl), Rep.agree hX.2.1 r1.2.1.2.1, ?_, s1⟩
    rw [r1.2.1.1]
    rfl
  | false =>
    cases hsl : sl.isRed with
    | true =>
      obtain ⟨la, ll, lkv, lr, rfl⟩ := Tree.eq_node_of_isRed hsl
      obtain ⟨hd1, hd2⟩ := dbBlackSibling_near (n := n) true hb
        (by simp [Tree.isRed]) hX.2.2.2.2 hsr hX.2.2.2.1
      obtain ⟨m1, e1, r1, s1⟩ := dbNearRed_left hX hnd
      obtain ⟨ha, hb'⟩ := resolveDB_next (hstep.trans (hd1.trans e1)) (hbr.trans hd2) (f + 1)
      -- second activation
      have hh1 : rd m1 0 = some h := by rw [s1.2.2 0 h0, hh]
      have hgn1 : rd m1 g = some gn := by rw [s1.2.2 g hg, hgn]
      obtain ⟨hstep1, hbr1⟩ := resolveDBStep_left r1 hh1 hhp
      simp only [if_true] at hstep1 hbr1
      have hbh : (node sa Color.Red lr skv sr).blackHeight j := ⟨hl.2, hr⟩
      have hb1 := bothChildBlack_spec r1.2.2 hl.1 hbh
      obtain ⟨hd3, hd4⟩ := @dbBlackSibling_far K V _ n _ _ _ _ _ ll _ true _ hb1
        (by simp [Tree.isRed]) r1.2.2.2.2
      have hnd1 : (node p c (node n nc nl nkv nr) kv
          (node la Color.Black ll lkv (node sa Color.Red lr skv sr))).addrs.Nodup := by
        simpa [Tree.addrs] using hnd
      have hg1 : g ∉ (node p c (node n nc nl nkv nr) kv
          (node la Color.Black ll lkv (node sa Color.Red lr skv sr))).addrs := by
        simpa [Tree.addrs] using hg
      obtain ⟨m2, e2, r2, s2, -⟩ := dbFarRed_left r1 hnd1 hg1 hgn1 (hlink (Or.inl hsl))
      obtain ⟨hc, hd⟩ := resolveDB_stop (hstep1.trans (hd3.trans e2)) (hbr1.trans hd4) f
      refine ⟨m2, _, ha.trans hc, by rw [hb', hd]; rfl, Or.inr (Or.inr rfl),
        Rep.agree hX.2.1 r2.2.1.2.1, ?_, ?_⟩
      · rw [r2.2.1.1]
        rfl
      · refine (s1.mono fun x hx => List.mem_cons_of_mem _ hx).trans (s2.mono fun x hx => ?_)
        simpa [Tree.addrs] using hx
    | false =>
      have hc : c = Color.Red := by
        rcases hcase with h | h | h
        · exact h
        · rw [hsl] at h; cases h
        · rw [hsr] at h; cases h
      subst hc
      obtain ⟨hd1, hd2⟩ := @dbBlackSibling_both K V m n _ sr sl true _ hb
        (by simp [hsl, hsr])
      obtain ⟨m1, e1, r1, s1, -⟩ := dbBothBlack_left hX hnd
      simp only [if_true] at e1
      obtain ⟨ha, hb'⟩ := resolveDB_stop (hstep.trans (hd1.trans e1)) (hbr.trans hd2) (f + 1)
      refine ⟨m1, _, ha, hb', Or.inl rfl, Rep.agree hX.2.1 r1.2.1, ?_, s1.mono fun x hx => ?_⟩
      · rw [r1.1]
        rfl
      · simp only [List.mem_cons, List.mem_singleton, List.not_mem_nil, or_false] at hx
        rcases hx with rfl | rfl <;> simp [Tree.addrs]

/-- A node that is a left child and has a Red sibling with two Black children:
the sibling-Red branch is followed by a branch for a Black sibling at the same
node, and `resolveDB` returns after at most three activations. -/
theorem redSibling_left {m : Map K V} {g p n sa : Nat} {nc : Color}
    {nl nr sl sr : Tree K V} {kv nkv skv : K × V} {gn h : RB_Node K V} {j : Nat}
    (hX : Rep m (some g)
      (node p Color.Black (node n nc nl nkv nr) kv (node sa Color.Red sl skv sr)))
    (hnd : (node p Color.Black (node n nc nl nkv nr) kv
      (node sa Color.Red sl skv sr)).addrs.Nodup)
    (hg : g ∉ (node p Color.Black (node n nc nl nkv nr) kv
      (node sa Color.Red sl skv sr)).addrs)
    (h0 : 0 ∉ (node p Color.Black (node n nc nl nkv nr) kv
      (node sa Color.Red sl skv sr)).addrs)
    (hgn : rd m g = some gn) (hh : rd m 0 = some h) (hhp : h.parent ≠ some n)
    (hl : sl.blackHeight (j + 1)) (hr : sr.blackHeight (j + 1))
    (hlr : sl.isRed = false) (hrr : sr.isRed = false) (f : Nat) :
    ∃ m' tr, resolveDB (f + 3) m n = some m' ∧
      resolveDBTrace (f + 3) m n = some ((Branch.redSibling, n) :: tr) ∧
      (tr = [(Branch.bothBlack, n)] ∨ tr = [(Branch.farRed, n)] ∨
        tr = [(Branch.nearRed, n), (Branch.farRed, n)]) ∧
      (∀ x ∈ (node n nc nl nkv nr).addrs, rd m' x = rd m x) ∧ (rd m' p).isSome ∧
      Same m m' (g :: (node p Color.Black (node n nc nl nkv nr) kv
        (node sa Color.Red sl skv sr)).addrs) := by
  obtain ⟨hstep, hbr⟩ := resolveDBStep_left hX hh hhp
  simp only [if_false, reduceCtorEq] at hstep hbr
  have hgX := hg
  have h0X := h0
  simp only [Tree.mem_addrs_node, not_or] at hg h0
  obtain ⟨hgp, ⟨hgn', -, -⟩, hgsa, hgsl, hgsr⟩ := hg
  obtain ⟨h0p, ⟨h0n, -, -⟩, h0sa, h0sl, h0sr⟩ := h0
  by_cases hrot : gn.left = some p ∨ gn.right = some p
  · obtain ⟨m1, e1, r1, s1, gn', hgn1, hpar⟩ := dbRedSibling_left_rot hX hnd hgX hgn hrot
    obtain ⟨ha, hb⟩ := resolveDB_next (hstep.trans e1) hbr (f + 2)
    obtain ⟨la, ll, lkv, lr, rfl, hll, hlr'⟩ := Tree.eq_node_of_black hlr hl
    have hnd1 : (node sa Color.Black (node p Color.Red (node n nc nl nkv nr) kv
        (node la Color.Black ll lkv lr)) skv sr).addrs.Nodup := by
      simpa [Tree.addrs] using hnd
    obtain ⟨hsa1, -, -, hnd1', -⟩ := Tree.nodup_node.mp hnd1
    have h01 : 0 ∉ (node p Color.Red (node n nc nl nkv nr) kv
        (node la Color.Black ll lkv lr)).addrs := by
      intro hx
      exact h0X (by
        simp only [Tree.addrs, List.mem_append, List.mem_cons] at hx ⊢
        rcases hx with (h | h | h) | h | h | h | h <;> simp [h])
    obtain ⟨h1, hh1, hhp1⟩ : ∃ h1, rd m1 0 = some h1 ∧ h1.parent ≠ some n := by
      by_cases e : g = 0
      · subst e
        refine ⟨gn', hgn1, ?_⟩
        rw [hpar]
        rw [hh] at hgn
        cases hgn
        exact hhp
      · refine ⟨h, ?_, hhp⟩
        rw [s1.2.2 0 (by
          simp only [List.mem_cons, not_or]
          exact ⟨fun e' => e e'.symm, h0X⟩), hh]
    have rY : Rep m1 (some sa) (node p Color.Red (node n nc nl nkv nr) kv
        (node la Color.Black ll lkv lr)) := r1.2.1
    have hsaY : rd m1 sa = some ⟨skv, some g, some p, sr.root, Color.Black⟩ := r1.1
    have hlinkY : ll.isRed = true ∨ lr.isRed = true →
        (⟨skv, some g, some p, sr.root, Color.Black⟩ : RB_Node K V).left = some p ∨
        (⟨skv, some g, some p, sr.root, Color.Black⟩ : RB_Node K V).right = some p ∨
        (⟨skv, some g, some p, sr.root, Color.Black⟩ : RB_Node K V).parent = some p :=
      fun _ => Or.inl rfl
    have key := finishBlack_left rY hnd1' hsa1 h01 hsaY hh1 hhp1 hll hlr' (Or.inl rfl) hlinkY f
    obtain ⟨m', tr, hc, hd, htr, hfr, hsome, s2⟩ := key
    have e1' : resolveDB (f + 3) m n = some m' := ha.trans hc
    have e2' : resolveDBTrace (f + 3) m n = some ((Branch.redSibling, n) :: tr) := by
      rw [hb, hd]; rfl
    refine ⟨m', tr, e1', e2', htr, fun x hx => ?_, hsome, ?_⟩
    · rw [hfr x hx]
      exact Rep.agree hX.2.1 r1.2.1.2.1 x hx
    · refine s1.trans (s2.mono fun x hx => ?_)
      rcases List.mem_cons.mp hx with rfl | hx
      · simp [Tree.addrs]
      · refine List.mem_cons_of_mem _ ?_
        simp only [Tree.addrs, List.mem_append, List.mem_cons] at hx ⊢
        rcases hx with (h | h | h) | h | h | h | h <;> simp [h]
  · rw [not_or] at hrot
    obtain ⟨m1, e1, r1, s1, hgn1⟩ := dbRedSibling_left_stay hX hnd hgX hgn hrot.1 hrot.2
    obtain ⟨ha, hb⟩ := resolveDB_next (hstep.trans e1) hbr (f + 2)
    have hnd1 : (node p Color.Red (node n nc nl nkv nr) kv
        (node sa Color.Black sl skv sr)).addrs.Nodup := by
      simpa [Tree.addrs] using hnd
    have hg1 : g ∉ (node p Color.Red (node n nc nl nkv nr) kv
        (node sa Color.Black sl skv sr)).addrs := by
      simpa [Tree.addrs] using hgX
    have h01 : 0 ∉ (node p Color.Red (node n nc nl nkv nr) kv
        (node sa Color.Black sl skv sr)).addrs := by
      simpa [Tree.addrs] using h0X
    obtain ⟨h1, hh1, hhp1⟩ : ∃ h1, rd m1 0 = some h1 ∧ h1.parent ≠ some n := by
      by_cases e : g = 0
      · subst e
        refine ⟨_, hgn1, ?_⟩
        simp only [ne_eq, Option.some.injEq]
        exact fun e' => h0n e'
      · refine ⟨h, ?_, hhp⟩
        rw [s1.2.2 0 (by
          simp only [List.mem_cons, not_or]
          exact ⟨fun e' => e e'.symm, h0X⟩), hh]
    obtain ⟨m', tr, hc, hd, htr, hfr, hsome, s2⟩ :=
      finishBlack_left r1 hnd1 hg1 h01 hgn1 hh1 hhp1 hl hr (Or.inl rfl)
        (fun hx => by
          rcases hx with hx | hx
          · rw [hlr] at hx; cases hx
          · rw [hrr] at hx; cases hx) f
    refine ⟨m', tr, ha.trans hc, by rw [hb, hd]; rfl, htr, fun x hx => ?_, hsome, ?_⟩
    · rw [hfr x hx]
      exact Rep.agree hX.2.1 r1.2.1 x hx
    · refine s1.trans (s2.mono fun x hx => ?_)
      simpa [Tree.addrs] using hx

/-! ## The branches of `resolveDB` for a node that is a right child -/

/-- Both-children-Black branch when the node is the right child. -/
theorem dbBothBlack_right {m : Map K V} {g p n sa : Nat} {c nc : Color}
    {nl nr sl sr : Tree K V} {kv nkv skv : K × V}
    (hX : Rep m (some g) (node p c (node sa Color.Black sl skv sr) kv (node n nc nl nkv nr)))
    (hnd : (node p c (node sa Color.Black sl skv sr) kv (node n nc nl nkv nr)).addrs.Nodup) :
    ∃ m1, dbBothBlack m n sa = some (m1, if c = Color.Red then none else some p) ∧
      Rep m1 (some g)
        (node p Color.Black (node sa Color.Red sl skv sr) kv (node n nc nl nkv nr)) ∧
      Same m m1 [p, sa] ∧ ∀ x, parentOf m1 x = parentOf m x := by
  obtain ⟨hsib, hpa, hdis, hndb, hnds⟩ := Tree.nodup_node.mp hnd
  obtain ⟨m1, e1, r1, s1⟩ := Rep.setColor Color.Red hX.2.1 hndb
  have hpsa : p ≠ sa := fun e => hsib (e ▸ Tree.mem_addrs_node.mpr (Or.inl rfl))
  have rX1 : Rep m1 (some g)
      (node p c (node sa Color.Red sl skv sr) kv (node n nc nl nkv nr)) :=
    Rep.replace_left hX r1 rfl s1 (by simpa using hpsa) (fun x hx hmem => by
      rw [List.mem_singleton] at hmem
      exact hdis sa (Tree.mem_addrs_node.mpr (Or.inl rfl)) (hmem ▸ hx))
  have hn1 := rX1.2.2.1
  have hp1 := rX1.1
  have hnd1 : (node p c (node sa Color.Red sl skv sr) kv (node n nc nl nkv nr)).addrs.Nodup := by
    simpa [Tree.addrs] using hnd
  cases c with
  | Red =>
    obtain ⟨m2, e2, r2, s2⟩ := Rep.setColor Color.Black rX1 hnd1
    refine ⟨m2, ?_, r2, ?_, ?_⟩
    · simp [dbBothBlack, e1, hn1, hp1, e2]
    · exact (s1.mono (by simp)).trans (s2.mono (by simp))
    · intro x
      rw [setColor_parentOf e2, setColor_parentOf e1]
  | Black =>
    refine ⟨m1, ?_, rX1, s1.mono (by simp), setColor_parentOf e1⟩
    simp [dbBothBlack, e1, hn1, hp1]

/-- Near-child-Red branch when the node is the right child: the sibling and
its right child exchange colours and the sibling is rotated to the left. -/
theorem dbNearRed_right {m : Map K V} {g p n sa ra : Nat} {c nc sc rc : Color}
    {nl nr sl rl rr : Tree K V} {kv nkv skv rkv : K × V}
    (hX : Rep m (some g) (node p c (node sa sc sl skv (node ra rc rl rkv rr)) kv
      (node n nc nl nkv nr)))
    (hnd : (node p c (node sa sc sl skv (node ra rc rl rkv rr)) kv
      (node n nc nl nkv nr)).addrs.Nodup) :
    ∃ m1, dbNearRed m n sa ra false = some (m1, some n) ∧
      Rep m1 (some g) (node p c (node ra sc (node sa rc sl skv rl) rkv rr) kv
        (node n nc nl nkv nr)) ∧
      Same m m1 (node p c (node sa sc sl skv (node ra rc rl rkv rr)) kv
        (node n nc nl nkv nr)).addrs := by
  obtain ⟨hsib, hpa, hdis, hndb, hnds⟩ := Tree.nodup_node.mp hnd
  have hpsa : p ≠ sa := fun e => hsib (e ▸ Tree.mem_addrs_node.mpr (Or.inl rfl))
  have hnsib : n ∉ (node sa sc sl skv (node ra rc rl rkv rr)).addrs :=
    fun hx => hdis n hx (Tree.mem_addrs_node.mpr (Or.inl rfl))
  -- colours
  obtain ⟨m1, e1, r1, s1⟩ := swapColor_right_parent hX.2.1 hndb
  have hsub1 : ∀ x ∈ [sa, ra], x ∈ (node sa sc sl skv (node ra rc rl rkv rr)).addrs := by
    intro x hx
    simp only [List.mem_cons, List.mem_singleton, List.not_mem_nil, or_false] at hx
    rcases hx with rfl | rfl
    · exact Tree.mem_addrs_node.mpr (Or.inl rfl)
    · exact Tree.mem_addrs_node.mpr (Or.inr (Or.inr (Tree.mem_addrs_node.mpr (Or.inl rfl))))
  have s1' : Same m m1 (node sa sc sl skv (node ra rc rl rkv rr)).addrs := s1.mono hsub1
  have rX1 : Rep m1 (some g) (node p c (node sa rc sl skv (node ra sc rl rkv rr)) kv
      (node n nc nl nkv nr)) :=
    Rep.replace_left hX r1 rfl s1' hsib (fun x hx hx' => hdis x hx' hx)
  have hnd1 : (node p c (node sa rc sl skv (node ra sc rl rkv rr)) kv
      (node n nc nl nkv nr)).addrs.Nodup := by
    simpa [Tree.addrs] using hnd
  have hndb1 : (node sa rc sl skv (node ra sc rl rkv rr)).addrs.Nodup := by
    simpa [Tree.addrs] using hndb
  -- rotation
  obtain ⟨m2, e2, r2, s2⟩ := leftRotation_spec r1 hndb1
  have hperm : (node ra sc (node sa rc sl skv rl) rkv rr).addrs.Perm
      (node sa rc sl skv (node ra sc rl rkv rr)).addrs := by
    simp [Tree.addrs]
  obtain ⟨m4, e4, r4, s4⟩ := hookLeft_spec rX1 hnd1 r2 hperm s2
  simp only [Tree.root_node, Option.bind_eq_some, adopt] at e4
  obtain ⟨m3, e3, e4⟩ := e4
  have hn2 : rd m2 n = some ⟨nkv, some p, nl.root, nr.root, nc⟩ := by
    rw [s2.2.2 n (by simpa [Tree.addrs] using hnsib)]
    exact rX1.2.2.1
  have hp2 : rd m2 p = some ⟨kv, some g, some sa, some n, c⟩ := by
    rw [s2.2.2 p (by simpa [Tree.addrs] using hsib)]
    exact rX1.1
  have hp3 : rd m3 p = some ⟨kv, some g, some ra, some n, c⟩ := by
    rw [setLeft_eq hp2] at e3
    cases e3
    exact rd_wr_same _ hp2
  refine ⟨m4, ?_, r4, ?_⟩
  · simp [dbNearRed, e1, dbRotateSiblingLeft, e2, hn2, e3, hp3, e4]
  · refine (s1.mono fun x hx => ?_).trans (s4.mono fun x hx => ?_)
    · exact Tree.mem_addrs_node.mpr (Or.inr (Or.inl (hsub1 x hx)))
    · simpa [Tree.addrs] using hx

/-- Far-child-Red branch when the node is the right child: the parent and the
sibling exchange colours, the parent is rotated to the right, the rotated
subtree is hung from the grandparent, and the far child becomes Black. -/
theorem dbFarRed_right {m : Map K V} {g p n sa fa : Nat} {c nc sc fc : Color}
    {nl nr sr fl fr : Tree K V} {kv nkv skv fkv : K × V} {gn : RB_Node K V}
    (hX : Rep m (some g) (node p c (node sa sc (node fa fc fl fkv fr) skv sr) kv
      (node n nc nl nkv nr)))
    (hnd : (node p c (node sa sc (node fa fc fl fkv fr) skv sr) kv
      (node n nc nl nkv nr)).addrs.Nodup)
    (hg : g ∉ (node p c (node sa sc (node fa fc fl fkv fr) skv sr) kv
      (node n nc nl nkv nr)).addrs)
    (hgn : rd m g = some gn)
    (hlink : gn.left = some p ∨ gn.right = some p ∨ gn.parent = some p) :
    ∃ m1, dbFarRed m n sa fa false = some (m1, none) ∧
      Rep m1 (some g) (node sa c (node fa Color.Black fl fkv fr) skv
        (node p sc sr kv (node n nc nl nkv nr))) ∧
      Same m m1 (g :: (node p c (node sa sc (node fa fc fl fkv fr) skv sr) kv
        (node n nc nl nkv nr)).addrs) ∧
      (rd m1 g).isSome := by
  have hgX := hg
  simp only [Tree.mem_addrs_node, not_or] at hg
  obtain ⟨hgp, ⟨hgsa, ⟨hgfa, -, -⟩, hgsr⟩, hgn', -, -⟩ := hg
  obtain ⟨hsib, hpa, hdis, hndb, hnds⟩ := Tree.nodup_node.mp hnd
  have hpsa : p ≠ sa := fun e => hsib (e ▸ Tree.mem_addrs_node.mpr (Or.inl rfl))
  -- colours
  obtain ⟨m1, e1, r1, s1⟩ := swapColor_parent_left hX hnd
  have hnd1 : (node p sc (node sa c (node fa fc fl fkv fr) skv sr) kv
      (node n nc nl nkv nr)).addrs.Nodup := by
    simpa [Tree.addrs] using hnd
  have hgn1 : rd m1 g = some gn := by
    rw [s1.2.2 g (by simp [hgp, hgsa]), hgn]
  -- rotation
  obtain ⟨m2, e2, r2, s2⟩ := rightRotation_spec r1 hnd1
  have hgn2 : rd m2 g = some gn := by
    rw [s2.2.2 g (by simpa [Tree.addrs] using hgX), hgn1]
  obtain ⟨gn', e3⟩ := hookRotation3_spec e2 hgn1 hgn2 hlink
  have hnd2 : (node sa c (node fa fc fl fkv fr) skv
      (node p sc sr kv (node n nc nl nkv nr))).addrs.Nodup := by
    simpa [Tree.addrs] using hnd
  have hg2 : g ∉ (node sa c (node fa fc fl fkv fr) skv
      (node p sc sr kv (node n nc nl nkv nr))).addrs := by
    simpa [Tree.addrs] using hgX
  have s3 : Same m2 (wr m2 g gn') [g] := Same.wr _ (List.mem_singleton.mpr rfl)
  have r3 : Rep (wr m2 g gn') (some p) (node sa c (node fa fc fl fkv fr) skv
      (node p sc sr kv (node n nc nl nkv nr))) :=
    r2.same s3 (fun x hx hmem => by
      rw [List.mem_singleton] at hmem
      exact hg2 (hmem ▸ hx))
  -- the parent link of the new root
  obtain ⟨hsa2, hsl2, hfa2, hsal, hsar⟩ := Tree.nodup_node.mp hnd2
  have r4 : Rep (wr (wr m2 g gn') sa ⟨skv, some g, some fa, some p, c⟩) (some g)
      (node sa c (node fa fc fl fkv fr) skv (node p sc sr kv (node n nc nl nkv nr))) :=
    Rep.wr_root r3 hsa2 hsl2
  have s4 : Same (wr m2 g gn') (wr (wr m2 g gn') sa ⟨skv, some g, some fa, some p, c⟩) [sa] :=
    Same.wr _ (List.mem_singleton.mpr rfl)
  have e4 : setGreatParent (wr m2 g gn') n g =
      some (wr (wr m2 g gn') sa ⟨skv, some g, some fa, some p, c⟩) := by
    simp [setGreatParent, r3.2.2.2.2.1, r3.2.2.1, setParent_eq r3.1]
  -- the far child
  obtain ⟨m5, e5, r5, s5⟩ := Rep.setColor Color.Black r4.2.1 hsal
  have hsafa : sa ≠ fa := by
    intro e
    apply hsa2
    rw [e]
    exact Tree.mem_addrs_node.mpr (Or.inl rfl)
  have r5' := Rep.replace_left r4 r5 rfl s5 (by simpa using hsafa) (fun x hx hmem => by
      rw [List.mem_singleton] at hmem
      exact hfa2 fa (Tree.mem_addrs_node.mpr (Or.inl rfl)) (hmem ▸ hx))
  refine ⟨m5, ?_, r5', ?_, ?_⟩
  · simp [dbFarRed, hX.2.2.1, e1, r1.1, e3, e4, e5]
  · refine (s1.mono fun x hx => ?_).trans ((s2.mono fun x hx => ?_).trans
      ((s3.mono fun x hx => ?_).trans ((s4.mono fun x hx => ?_).trans
        (s5.mono fun x hx => ?_))))
    · simp only [List.mem_cons, List.mem_singleton, List.not_mem_nil, or_false] at hx
      rcases hx with rfl | rfl <;> simp [Tree.addrs]
    · exact List.mem_cons_of_mem _ (by simpa [Tree.addrs] using hx)
    · simp only [List.mem_singleton] at hx
      simp [hx]
    · simp only [List.mem_singleton] at hx
      simp [hx, Tree.addrs]
    · simp only [List.mem_singleton] at hx
      simp [hx, Tree.addrs]
  · rw [s5.2.2 g (by simpa using hgfa), s4.2.2 g (by simpa using hgsa), rd_wr_same _ hgn2]
    rfl

/-- Sibling-Red branch when the node is the right child and the grandparent's
left or right link refers to the parent. -/
theorem dbRedSibling_right_rot {m : Map K V} {g p n sa : Nat} {c nc sc : Color}
    {nl nr sl sr : Tree K V} {kv nkv skv : K × V} {gn : RB_Node K V}
    (hX : Rep m (some g) (node p c (node sa sc sl skv sr) kv (node n nc nl nkv nr)))
    (hnd : (node p c (node sa sc sl skv sr) kv (node n nc nl nkv nr)).addrs.Nodup)
    (hg : g ∉ (node p c (node sa sc sl skv sr) kv (node n nc nl nkv nr)).addrs)
    (hgn : rd m g = some gn)
    (hlink : gn.left = some p ∨ gn.right = some p) :
    ∃ m1, dbRedSibling m n sa false = some (m1, some n) ∧
      Rep m1 (some g) (node sa c sl skv (node p sc sr kv (node n nc nl nkv nr))) ∧
      Same m m1 (g :: (node p c (node sa sc sl skv sr) kv (node n nc nl nkv nr)).addrs) ∧
      ∃ gn', rd m1 g = some gn' ∧ gn'.parent = gn.parent := by
  have hgX := hg
  simp only [Tree.mem_addrs_node, not_or] at hg
  obtain ⟨hgp, ⟨hgsa, hgsl, hgsr⟩, hgn', -, -⟩ := hg
  obtain ⟨m1, e1, r1, s1⟩ := swapColor_parent_left hX hnd
  have hnd1 : (node p sc (node sa c sl skv sr) kv (node n nc nl nkv nr)).addrs.Nodup := by
    simpa [Tree.addrs] using hnd
  have hgn1 : rd m1 g = some gn := by
    rw [s1.2.2 g (by simp [hgp, hgsa]), hgn]
  obtain ⟨m2, e2, r2, s2⟩ := rightRotation_spec r1 hnd1
  have hgn2 : rd m2 g = some gn := by
    rw [s2.2.2 g (by simpa [Tree.addrs] using hgX), hgn1]
  obtain ⟨gn', hpar, e3⟩ := hookRotation2_spec e2 hgn1 hgn2 hlink
  have hnd2 : (node sa c sl skv (node p sc sr kv (node n nc nl nkv nr))).addrs.Nodup := by
    simpa [Tree.addrs] using hnd
  have hg2 : g ∉ (node sa c sl skv (node p sc sr kv (node n nc nl nkv nr))).addrs := by
    simpa [Tree.addrs] using hgX
  have s3 : Same m2 (wr m2 g gn') [g] := Same.wr _ (List.mem_singleton.mpr rfl)
  have r3 : Rep (wr m2 g gn') (some p)
      (node sa c sl skv (node p sc sr kv (node n nc nl nkv nr))) :=
    r2.same s3 (fun x hx hmem => by
      rw [List.mem_singleton] at hmem
      exact hg2 (hmem ▸ hx))
  obtain ⟨hsa2, hsl2, -, -, -⟩ := Tree.nodup_node.mp hnd2
  have r4 : Rep (wr (wr m2 g gn') sa ⟨skv, some g, sl.root, some p, c⟩) (some g)
      (node sa c sl skv (node p sc sr kv (node n nc nl nkv nr))) :=
    Rep.wr_root r3 hsa2 hsl2
  have s4 : Same (wr m2 g gn') (wr (wr m2 g gn') sa ⟨skv, some g, sl.root, some p, c⟩) [sa] :=
    Same.wr _ (List.mem_singleton.mpr rfl)
  have e4 : setGreatParent (wr m2 g gn') n g =
      some (wr (wr m2 g gn') sa ⟨skv, some g, sl.root, some p, c⟩) := by
    simp [setGreatParent, r3.2.2.2.2.1, r3.2.2.1, setParent_eq r3.1]
  refine ⟨_, ?_, r4, ?_, gn', ?_, hpar⟩
  · simp [dbRedSibling, hX.2.2.1, e1, r1.1, e3, e4]
  · refine (s1.mono fun x hx => ?_).trans ((s2.mono fun x hx => ?_).trans
      ((s3.mono fun x hx => ?_).trans (s4.mono fun x hx => ?_)))
    · simp only [List.mem_cons, List.mem_singleton, List.not_mem_nil, or_false] at hx
      rcases hx with rfl | rfl <;> simp [Tree.addrs]
    · exact List.mem_cons_of_mem _ (by simpa [Tree.addrs] using hx)
    · simp only [List.mem_singleton] at hx
      simp [hx]
    · simp only [List.mem_singleton] at hx
      simp [hx, Tree.addrs]
  · rw [s4.2.2 g (by simpa using hgsa), rd_wr_same _ hgn2]

/-- Sibling-Red branch when the node is the right child and neither the left
nor the right link of the grandparent refers to the parent. -/
theorem dbRedSibling_right_stay {m : Map K V} {g p n sa : Nat} {c nc sc : Color}
    {nl nr sl sr : Tree K V} {kv nkv skv : K × V} {gn : RB_Node K V}
    (hX : Rep m (some g) (node p c (node sa sc sl skv sr) kv (node n nc nl nkv nr)))
    (hnd : (node p c (node sa sc sl skv sr) kv (node n nc nl nkv nr)).addrs.Nodup)
    (hg : g ∉ (node p c (node sa sc sl skv sr) kv (node n nc nl nkv nr)).addrs)
    (hgn : rd m g = some gn)
    (h1 : gn.left ≠ some p) (h2 : gn.right ≠ some p) :
    ∃ m1, dbRedSibling m n sa false = some (m1, some n) ∧
      Rep m1 (some g) (node p sc (node sa c sl skv sr) kv (node n nc nl nkv nr)) ∧
      Same m m1 (g :: (node p c (node sa sc sl skv sr) kv (node n nc nl nkv nr)).addrs) ∧
      rd m1 g = some { gn with parent := some g } := by
  have hgX := hg
  simp only [Tree.mem_addrs_node, not_or] at hg
  obtain ⟨hgp, ⟨hgsa, hgsl, hgsr⟩, hgn', -, -⟩ := hg
  obtain ⟨m1, e1, r1, s1⟩ := swapColor_parent_left hX hnd
  have hgn1 : rd m1 g = some gn := by
    rw [s1.2.2 g (by simp [hgp, hgsa]), hgn]
  have e3 := @hookRotation2_none K V rightRotation _ _ _ _ hgn1 h1 h2
  have s4 : Same m1 (wr m1 g { gn with parent := some g }) [g] :=
    Same.wr _ (List.mem_singleton.mpr rfl)
  have e4 : setGreatParent m1 n g = some (wr m1 g { gn with parent := some g }) := by
    simp [setGreatParent, r1.2.2.1, r1.1, setParent_eq hgn1]
  refine ⟨_, ?_, ?_, ?_, rd_wr_same _ hgn1⟩
  · simp [dbRedSibling, hX.2.2.1, e1, r1.1, e3, e4]
  · refine r1.same s4 (fun x hx hmem => ?_)
    rw [List.mem_singleton] at hmem
    subst hmem
    exact hgX (by simpa [Tree.addrs] using hx)
  · refine (s1.mono fun x hx => ?_).trans (s4.mono fun x hx => ?_)
    · simp only [List.mem_cons, List.mem_singleton, List.not_mem_nil, or_false] at hx
      rcases hx with rfl | rfl <;> simp [Tree.addrs]
    · simp only [List.mem_singleton] at hx
      simp [hx]

/-- The tests of an activation at a node that is a right child. -/
theorem resolveDBStep_right {m : Map K V} {g p n sa : Nat} {c nc sc : Color}
    {nl nr sl sr : Tree K V} {kv nkv skv : K × V} {h : RB_Node K V}
    (hX : Rep m (some g) (node p c (node sa sc sl skv sr) kv (node n nc nl nkv nr)))
    (hne : sa ≠ n) (hh : rd m 0 = some h) (hhp : h.parent ≠ some n) :
    resolveDBStep m n =
        (if sc = Color.Black then dbBlackSibling m n sa sl.root sr.root false
          else dbRedSibling m n sa false) ∧
      branchOf m n =
        (if sc = Color.Black then blackBranch m sa sl.root sr.root
          else some Branch.redSibling) := by
  constructor
  · simp [resolveDBStep, hh, hhp, hX.2.2.1, hX.1, hX.2.1.1, hne]
  · simp [branchOf, hh, hhp, hX.2.2.1, hX.1, hX.2.1.1, hne]

/-- A node that is a right child and has a Black sibling, when its parent is
Red or the sibling has a Red child: `resolveDB` returns after at most two
activations, and writes no cell of the subtree of the node. -/
theorem finishBlack_right {m : Map K V} {g p n sa : Nat} {c nc : Color}
    {nl nr sl sr : Tree K V} {kv nkv skv : K × V} {gn h : RB_Node K V} {j : Nat}
    (hX : Rep m (some g) (node p c (node sa Color.Black sl skv sr) kv (node n nc nl nkv nr)))
    (hnd : (node p c (node sa Color.Black sl skv sr) kv (node n nc nl nkv nr)).addrs.Nodup)
    (hg : g ∉ (node p c (node sa Color.Black sl skv sr) kv (node n nc nl nkv nr)).addrs)
    (h0 : 0 ∉ (node p c (node sa Color.Black sl skv sr) kv (node n nc nl nkv nr)).addrs)
    (hgn : rd m g = some gn) (hh : rd m 0 = some h) (hhp : h.parent ≠ some n)
    (hl : sl.blackHeight j) (hr : sr.blackHeight j)
    (hcase : c = Color.Red ∨ sl.isRed = true ∨ sr.isRed = true)
    (hlink : sl.isRed = true ∨ sr.isRed = true →
      gn.left = some p ∨ gn.right = some p ∨ gn.parent = some p)
    (f : Nat) :
    ∃ m' tr, resolveDB (f + 2) m n = some m' ∧ resolveDBTrace (f + 2) m n = some tr ∧
      (tr = [(Branch.bothBlack, n)] ∨ tr = [(Branch.farRed, n)] ∨
        tr = [(Branch.nearRed, n), (Branch.farRed, n)]) ∧
      (∀ x ∈ (node n nc nl nkv nr).addrs, rd m' x = rd m x) ∧ (rd m' p).isSome ∧
      Same m m' (g :: (node p c (node sa Color.Black sl skv sr) kv
        (node n nc nl nkv nr)).addrs) := by
  have hne : sa ≠ n := by
    intro e
    exact (Tree.nodup_node.mp hnd).2.2.1 sa (Tree.mem_addrs_node.mpr (Or.inl rfl))
      (e ▸ Tree.mem_addrs_node.mpr (Or.inl rfl))
  obtain ⟨hstep, hbr⟩ := resolveDBStep_right hX hne hh hhp
  simp only [if_true] at hstep hbr
  have hb := bothChildBlack_spec hX.2.1 hl hr
  cases hsl : sl.isRed with
  | true =>
    obtain ⟨fa, fl, fkv, fr, rfl⟩ := Tree.eq_node_of_isRed hsl
    obtain ⟨hd1, hd2⟩ := @dbBlackSibling_far K V _ n _ _ _ _ _ sr _ false _ hb
      (by simp [Tree.isRed]) hX.2.1.2.1
    obtain ⟨m1, e1, r1, s1, -⟩ := dbFarRed_right hX hnd hg hgn (hlink (Or.inl hsl))
    obtain ⟨ha, hb'⟩ := resolveDB_stop (hstep.trans (hd1.trans e1)) (hbr.trans hd2) (f + 1)
    refine ⟨m1, _, ha, hb', Or.inr (Or.inl rfl), Rep.agree hX.2.2 r1.2.2.2.2, ?_, s1⟩
    rw [r1.2.2.1]
    rfl
  | false =>
    cases hsr : sr.isRed with
    | true =>
      obtain ⟨ra, rl, rkv, rr, rfl⟩ := Tree.eq_node_of_isRed hsr
      obtain ⟨hd1, hd2⟩ := dbBlackSibling_near (n := n) false hb
        (by simp [Tree.isRed, hsl]) hX.2.1.2.1 hsl hX.2.1.2.2
      obtain ⟨m1, e1, r1, s1⟩ := dbNearRed_right hX hnd
      obtain ⟨ha, hb'⟩ := resolveDB_next (hstep.trans (hd1.trans e1)) (hbr.trans hd2) (f + 1)
      -- second activation
      have hh1 : rd m1 0 = some h := by rw [s1.2.2 0 h0, hh]
      have hgn1 : rd m1 g = some gn := by rw [s1.2.2 g hg, hgn]
      have hne1 : ra ≠ n := by
        intro e
        refine (Tree.nodup_node.mp hnd).2.2.1 ra ?_ (e ▸ Tree.mem_addrs_node.mpr (Or.inl rfl))
        simp [Tree.addrs]
      obtain ⟨hstep1, hbr1⟩ := resolveDBStep_right r1 hne1 hh1 hhp
      simp only [if_true] at hstep1 hbr1
      have hbh : (node sa Color.Red sl skv rl).blackHeight j := ⟨hl, hr.1⟩
      have hb1 := bothChildBlack_spec r1.2.1 hbh hr.2
      obtain ⟨hd3, hd4⟩ := @dbBlackSibling_far K V _ n _ _ _ _ _ rr _ false _ hb1
        (by simp [Tree.isRed]) r1.2.1.2.1
      have hnd1 : (node p c (node ra Color.Black (node sa Color.Red sl skv rl) rkv rr) kv
          (node n nc nl nkv nr)).addrs.Nodup := by
        simpa [Tree.addrs] using hnd
      have hg1 : g ∉ (node p c (node ra Color.Black (node sa Color.Red sl skv rl) rkv rr) kv
          (node n nc nl nkv nr)).addrs := by
        simpa [Tree.addrs] using hg
      obtain ⟨m2, e2, r2, s2, -⟩ := dbFarRed_right r1 hnd1 hg1 hgn1 (hlink (Or.inr hsr))
      obtain ⟨hc, hd⟩ := resolveDB_stop (hstep1.trans (hd3.trans e2)) (hbr1.trans hd4) f
      refine ⟨m2, _, ha.trans hc, by rw [hb', hd]; rfl, Or.inr (Or.inr rfl),
        Rep.agree hX.2.2 r2.2.2.2.2, ?_, ?_⟩
      · rw [r2.2.2.1]
        rfl
      · refine (s1.mono fun x hx => List.mem_cons_of_mem _ hx).trans (s2.mono fun x hx => ?_)
        simpa [Tree.addrs] using hx
    | false =>
      have hc : c = Color.Red := by
        rcases hcase with h | h | h
        · exact h
        · rw [hsl] at h; cases h
        · rw [hsr] at h; cases h
      subst hc
      obtain ⟨hd1, hd2⟩ := @dbBlackSibling_both K V m n _ sl sr false _ hb
        (by simp [hsl, hsr])
      obtain ⟨m1, e1, r1, s1, -⟩ := dbBothBlack_right hX hnd
      simp only [if_true] at e1
      obtain ⟨ha, hb'⟩ := resolveDB_stop (hstep.trans (hd1.trans e1)) (hbr.trans hd2) (f + 1)
      refine ⟨m1, _, ha, hb', Or.inl rfl, Rep.agree hX.2.2 r1.2.2, ?_, s1.mono fun x hx => ?_⟩
      · rw [r1.1]
        rfl
      · simp only [List.mem_cons, List.mem_singleton, List.not_mem_nil, or_false] at hx
        rcases hx with rfl | rfl <;> simp [Tree.addrs]

/-- A node that is a right child and has a Red sibling with two Black
children: the sibling-Red branch is followed by a branch for a Black sibling at
the same node, and `resolveDB` returns after at most three activations. -/
theorem redSibling_right {m : Map K V} {g p n sa : Nat} {nc : Color}
    {nl nr sl sr : Tree K V} {kv nkv skv : K × V} {gn h : RB_Node K V} {j : Nat}
    (hX : Rep m (some g)
      (node p Color.Black (node sa Color.Red sl skv sr) kv (node n nc nl nkv nr)))
    (hnd : (node p Color.Black (node sa Color.Red sl skv sr) kv
      (node n nc nl nkv nr)).addrs.Nodup)
    (hg : g ∉ (node p Color.Black (node sa Color.Red sl skv sr) kv
      (node n nc nl nkv nr)).addrs)
    (h0 : 0 ∉ (node p Color.Black (node sa Color.Red sl skv sr) kv
      (node n nc nl nkv nr)).addrs)
    (hgn : rd m g = some gn) (hh : rd m 0 = some h) (hhp : h.parent ≠ some n)
    (hl : sl.blackHeight (j + 1)) (hr : sr.blackHeight (j + 1))
    (hlr : sl.isRed = false) (hrr : sr.isRed = false) (f : Nat) :
    ∃ m' tr, resolveDB (f + 3) m n = some m' ∧
      resolveDBTrace (f + 3) m n = some ((Branch.redSibling, n) :: tr) ∧
      (tr = [(Branch.bothBlack, n)] ∨ tr = [(Branch.farRed, n)] ∨
        tr = [(Branch.nearRed, n), (Branch.farRed, n)]) ∧
      (∀ x ∈ (node n nc nl nkv nr).addrs, rd m' x = rd m x) ∧ (rd m' p).isSome ∧
      Same m m' (g :: (node p Color.Black (node sa Color.Red sl skv sr) kv
        (node n nc nl nkv nr)).addrs) := by
  have hne : sa ≠ n := by
    intro e
    exact (Tree.nodup_node.mp hnd).2.2.1 sa (Tree.mem_addrs_node.mpr (Or.inl rfl))
      (e ▸ Tree.mem_addrs_node.mpr (Or.inl rfl))
  obtain ⟨hstep, hbr⟩ := resolveDBStep_right hX hne hh hhp
  simp only [if_false, reduceCtorEq] at hstep hbr
  have hgX := hg
  have h0X := h0
  simp only [Tree.mem_addrs_node, not_or] at hg h0
  obtain ⟨hgp, ⟨hgsa, hgsl, hgsr⟩, hgn', -, -⟩ := hg
  obtain ⟨h0p, ⟨h0sa, h0sl, h0sr⟩, h0n, -, -⟩ := h0
  by_cases hrot : gn.left = some p ∨ gn.right = some p
  · obtain ⟨m1, e1, r1, s1, gn', hgn1, hpar⟩ := dbRedSibling_right_rot hX hnd hgX hgn hrot
    obtain ⟨ha, hb⟩ := resolveDB_next (hstep.trans e1) hbr (f + 2)
    obtain ⟨ra, rl, rkv, rr, rfl, hrl, hrr'⟩ := Tree.eq_node_of_black hrr hr
    have hnd1 : (node sa Color.Black sl skv (node p Color.Red
        (node ra Color.Black rl rkv rr) kv (node n nc nl nkv nr))).addrs.Nodup := by
      simpa [Tree.addrs] using hnd
    obtain ⟨-, hsa1, -, -, hnd1'⟩ := Tree.nodup_node.mp hnd1
    have h01 : 0 ∉ (node p Color.Red (node ra Color.Black rl rkv rr) kv
        (node n nc nl nkv nr)).addrs := by
      intro hx
      exact h0X (by
        simp only [Tree.addrs, List.mem_append, List.mem_cons] at hx ⊢
        rcases hx with (h | h | h) | h | h | h | h <;> simp [h])
    obtain ⟨h1, hh1, hhp1⟩ : ∃ h1, rd m1 0 = some h1 ∧ h1.parent ≠ some n := by
      by_cases e : g = 0
      · subst e
        refine ⟨gn', hgn1, ?_⟩
        rw [hpar]
        rw [hh] at hgn
        cases hgn
        exact hhp
      · refine ⟨h, ?_, hhp⟩
        rw [s1.2.2 0 (by
          simp only [List.mem_cons, not_or]
          exact ⟨fun e' => e e'.symm, h0X⟩), hh]
    have rY : Rep m1 (some sa) (node p Color.Red (node ra Color.Black rl rkv rr) kv
        (node n nc nl nkv nr)) := r1.2.2
    have hsaY : rd m1 sa = some ⟨skv, some g, sl.root, some p, Color.Black⟩ := r1.1
    have hlinkY : rl.isRed = true ∨ rr.isRed = true →
        (⟨skv, some g, sl.root, some p, Color.Black⟩ : RB_Node K V).left = some p ∨
        (⟨skv, some g, sl.root, some p, Color.Black⟩ : RB_Node K V).right = some p ∨
        (⟨skv, some g, sl.root, some p, Color.Black⟩ : RB_Node K V).parent = some p :=
      fun _ => Or.inr (Or.inl rfl)
    have key := finishBlack_right rY hnd1' hsa1 h01 hsaY hh1 hhp1 hrl hrr' (Or.inl rfl) hlinkY f
    obtain ⟨m', tr, hc, hd, htr, hfr, hsome, s2⟩ := key
    have e1' : resolveDB (f + 3) m n = some m' := ha.trans hc
    have e2' : resolveDBTrace (f + 3) m n = some ((Branch.redSibling, n) :: tr) := by
      rw [hb, hd]; rfl
    refine ⟨m', tr, e1', e2', htr, fun x hx => ?_, hsome, ?_⟩
    · rw [hfr x hx]
      exact Rep.agree hX.2.2 r1.2.2.2.2 x hx
    · refine s1.trans (s2.mono fun x hx => ?_)
      rcases List.mem_cons.mp hx with rfl | hx
      · simp [Tree.addrs]
      · refine List.mem_cons_of_mem _ ?_
        simp only [Tree.addrs, List.mem_append, List.mem_cons] at hx ⊢
        rcases hx with (h | h | h) | h | h | h | h <;> simp [h]
  · rw [not_or] at hrot
    obtain ⟨m1, e1, r1, s1, hgn1⟩ := dbRedSibling_right_stay hX hnd hgX hgn hrot.1 hrot.2
    obtain ⟨ha, hb⟩ := resolveDB_next (hstep.trans e1) hbr (f + 2)
    have hnd1 : (node p Color.Red (node sa Color.Black sl skv sr) kv
        (node n nc nl nkv nr)).addrs.Nodup := by
      simpa [Tree.addrs] using hnd
    have hg1 : g ∉ (node p Color.Red (node sa Color.Black sl skv sr) kv
        (node n nc nl nkv nr)).addrs := by
      simpa [Tree.addrs] using hgX
    have h01 : 0 ∉ (node p Color.Red (node sa Color.Black sl skv sr) kv
        (node n nc nl nkv nr)).addrs := by
      simpa [Tree.addrs] using h0X
    obtain ⟨h1, hh1, hhp1⟩ : ∃ h1, rd m1 0 = some h1 ∧ h1.parent ≠ some n := by
      by_cases e : g = 0
      · subst e
        refine ⟨_, hgn1, ?_⟩
        simp only [ne_eq, Option.some.injEq]
        exact fun e' => h0n e'
      · refine ⟨h, ?_, hhp⟩
        rw [s1.2.2 0 (by
          simp only [List.mem_cons, not_or]
          exact ⟨fun e' => e e'.symm, h0X⟩), hh]
    obtain ⟨m', tr, hc, hd, htr, hfr, hsome, s2⟩ :=
      finishBlack_right r1 hnd1 hg1 h01 hgn1 hh1 hhp1 hl hr (Or.inl rfl)
        (fun hx => by
          rcases hx with hx | hx
          · rw [hlr] at hx; cases hx
          · rw [hrr] at hx; cases hx) f
    refine ⟨m', tr, ha.trans hc, by rw [hb, hd]; rfl, htr, fun x hx => ?_, hsome, ?_⟩
    · rw [hfr x hx]
      exact Rep.agree hX.2.2 r1.2.2 x hx
    · refine s1.trans (s2.mono fun x hx => ?_)
      simpa [Tree.addrs] using hx

/-! ## Termination of `resolveDB` -/

theorem Follows.of_parentOf_eq {m m1 : Map K V} (h : ∀ x, parentOf m1 x = parentOf m x) :
    Follows m1 = Follows m := by
  funext x y
  unfold Follows
  cases x.1 <;> simp only [h]

/-- The cell the subtree at the end of a path hangs from: it is allocated,
one of its links refers to the root of the subtree, and it is no node of the
subtree. -/
theorem Path.parent_cell {m : Map K V} {up : Path K V} {X : Tree K V} {p : Nat}
    (hs : Shape m (up.plug X)) (hroot : X.root = some p) :
    ∃ gn, rd m up.parent = some gn ∧
      (gn.left = some p ∨ gn.right = some p ∨ gn.parent = some p) ∧
      up.parent ∉ X.addrs := by
  cases up with
  | top =>
    obtain ⟨h, hh, hp⟩ := hs.head
    exact ⟨h, hh, Or.inr (Or.inr (hp.trans hroot)), hs.notHead⟩
  | left a c kv sib up' =>
    have hr := Path.rep_hole up' hs.rep
    have hnd := (Path.nodup_plug (p := up') (s := node a c X kv sib) hs.nodup).1
    exact ⟨_, hr.1, Or.inl hroot, (Tree.nodup_node.mp hnd).1⟩
  | right a c kv sib up' =>
    have hr := Path.rep_hole up' hs.rep
    have hnd := (Path.nodup_plug (p := up') (s := node a c sib kv X) hs.nodup).1
    exact ⟨_, hr.1, Or.inr (Or.inl hroot), (Tree.nodup_node.mp hnd).2.1⟩

/-- The sentinel's root slot does not refer to a node that has an ancestor. -/
theorem Path.root_ne {up : Path K V} {X : Tree K V} {p n : Nat}
    (hnd : (up.plug X).addrs.Nodup) (hroot : X.root = some p) (hn : n ∈ X.addrs)
    (hne : p ≠ n) : (up.plug X).root ≠ some n := by
  rcases Path.root_plug up X with ⟨-, h⟩ | ⟨z, hz, h⟩
  · rw [h, hroot]
    simpa using hne
  · rw [h]
    intro e
    cases e
    exact (Path.nodup_plug hnd).2.2 _ hn hz

/-- Replacing the subtree at the end of a path by a tree on the same cells
with the same root, in a store that differs from the old one only on those
cells. -/
theorem Shape.replace {m m1 : Map K V} {up : Path K V} {X X1 : Tree K V} {S : List Nat}
    (hs : Shape m (up.plug X)) (h1 : Rep m1 (some up.parent) X1) (hroot : X1.root = X.root)
    (hperm : X1.addrs.Perm X.addrs) (hsame : Same m m1 S) (hS : ∀ x ∈ S, x ∈ X.addrs) :
    Shape m1 (up.plug X1) := by
  obtain ⟨hndX, hndup, hdisj⟩ := Path.nodup_plug hs.nodup
  have hperm' : (up.plug X1).addrs.Perm (up.plug X).addrs :=
    (up.plug_perm X1).trans ((hperm.append_right _).trans (up.plug_perm X).symm)
  have h0 : (0 : Nat) ∉ S := fun hx => hs.notHead (Path.mem_plug.mpr (Or.inl (hS 0 hx)))
  refine ⟨?_, ?_, hperm'.nodup_iff.mpr hs.nodup, fun hx => hs.notHead (hperm'.mem_iff.mp hx)⟩
  · obtain ⟨h, hh, hp⟩ := hs.head
    exact ⟨h, by rw [hsame.2.2 0 h0, hh], by rw [hp, Path.root_plug_eq up hroot]⟩
  · refine Path.rep_replace up hs.rep h1 hroot fun x hx => hsame.2.2 x fun hxS => ?_
    exact hdisj x (hS x hxS) hx

/-- Member `resolveDB` returns.  In a store that holds a tree, at the root `n`
of a subtree whose surroundings are coloured as in a red-black tree in which
the subtree has black height `k ≥ 1`, the recursion ends after at most as many
activations as the node has ancestors, plus three; consecutive activations are
related as `Follows` says; no cell of the subtree is written; no cell is
allocated or freed. -/
theorem resolveDB_spec (P : Path K V) : ∀ {s : Tree K V} {m : Map K V} {n k : Nat},
    Shape m (P.plug s) → s.root = some n → P.Around k → 1 ≤ k →
    ∀ fuel, P.depth + 3 ≤ fuel →
    ∃ m' tr, resolveDB fuel m n = some m' ∧ resolveDBTrace fuel m n = some tr ∧
      (∃ b rest, tr = (b, n) :: rest) ∧ List.Chain' (Follows m) tr ∧
      tr.length ≤ P.depth + 3 ∧
      (∀ x ∈ s.addrs, rd m' x = rd m x) ∧ (rd m' P.parent).isSome ∧
      m'.mem.length = m.mem.length ∧ m'._size = m._size := by
  induction P with
  | top =>
    intro s m n k hs hroot _ _ fuel hfuel
    obtain ⟨f, rfl⟩ : ∃ f, fuel = f + 1 := ⟨fuel - 1, by simp only [Path.depth] at hfuel; omega⟩
    obtain ⟨h, hh, hp⟩ := hs.head
    have hp' : h.parent = some n := hp.trans hroot
    have e1 : resolveDBStep m n = some (m, none) := by simp [resolveDBStep, hh, hp']
    have e2 : branchOf m n = some Branch.atRoot := by simp [branchOf, hh, hp']
    obtain ⟨ha, hb⟩ := resolveDB_stop e1 e2 f
    refine ⟨m, _, ha, hb, ⟨_, _, rfl⟩, List.chain'_singleton _, by simp [Path.depth],
      fun _ _ => rfl, ?_, rfl, rfl⟩
    simp [Path.parent, hh]
  | left p c kv sib up ih =>
    intro s m n k hs hroot haround hk fuel hfuel
    cases s with
    | nil => cases hroot
    | node n' nc nl nkv nr =>
    simp only [Tree.root_node, Option.some.injEq] at hroot
    subst hroot
    obtain ⟨hsnr, hsbh, hcsib, hup⟩ := haround
    simp only [Path.depth] at hfuel
    have hs' : Shape m (up.plug (node p c (node n' nc nl nkv nr) kv sib)) := hs
    have hX := Path.rep_hole up hs'.rep
    obtain ⟨hndX, -, hdisj⟩ := Path.nodup_plug hs'.nodup
    have h0X : 0 ∉ (node p c (node n' nc nl nkv nr) kv sib).addrs :=
      fun hx => hs'.notHead (Path.mem_plug.mpr (Or.inl hx))
    obtain ⟨h, hh, hhpar⟩ := hs'.head
    have hpn : p ≠ n' := fun e => (Tree.nodup_node.mp hndX).1
      (e ▸ Tree.mem_addrs_node.mpr (Or.inl rfl))
    have hhp : h.parent ≠ some n' := by
      rw [hhpar]
      exact Path.root_ne hs'.nodup rfl (by simp [Tree.addrs]) hpn
    obtain ⟨gn, hgn, hlink, hg⟩ := Path.parent_cell hs' rfl
    have hparent : parentOf m n' = some p := by simp [parentOf, hX.2.1.1]
    cases sib with
    | nil => simp only [Tree.blackHeight] at hsbh; omega
    | node sa sc sl skv sr =>
    cases sc with
    | Red =>
      have hc : c = Color.Black := by
        cases c with
        | Red => have := hcsib rfl; simp [Tree.isRed] at this
        | Black => rfl
      subst hc
      obtain ⟨j, rfl⟩ : ∃ j, k = j + 1 := ⟨k - 1, by omega⟩
      obtain ⟨f, rfl⟩ : ∃ f, fuel = f + 3 := ⟨fuel - 3, by omega⟩
      obtain ⟨m', tr, e1, e2, htr, hfr, hsome, hsame⟩ :=
        redSibling_left hX hndX hg h0X hgn hh hhp hsbh.1 hsbh.2 (hsnr.1 rfl).1 (hsnr.1 rfl).2 f
      refine ⟨m', _, e1, e2, ⟨_, _, rfl⟩, ?_, ?_, hfr, hsome, hsame.1, hsame.2.1⟩
      · rcases htr with rfl | rfl | rfl <;> simp [List.chain'_cons, Follows]
      · rcases htr with rfl | rfl | rfl <;> simp [Path.depth]
    | Black =>
      obtain ⟨j, ej, hsl, hsr⟩ := hsbh
      by_cases hcase : c = Color.Red ∨ sl.isRed = true ∨ sr.isRed = true
      · obtain ⟨f, rfl⟩ : ∃ f, fuel = f + 2 := ⟨fuel - 2, by omega⟩
        obtain ⟨m', tr, e1, e2, htr, hfr, hsome, hsame⟩ :=
          finishBlack_left hX hndX hg h0X hgn hh hhp hsl hsr hcase (fun _ => hlink) f
        refine ⟨m', _, e1, e2, ?_, ?_, ?_, hfr, hsome, hsame.1, hsame.2.1⟩
        · rcases htr with rfl | rfl | rfl <;> exact ⟨_, _, rfl⟩
        · rcases htr with rfl | rfl | rfl <;> simp [List.chain'_cons, Follows]
        · rcases htr with rfl | rfl | rfl <;> simp [Path.depth]
      · simp only [not_or, Bool.not_eq_true] at hcase
        obtain ⟨hcr, hslr, hsrr⟩ := hcase
        have hc : c = Color.Black := by
          cases c with
          | Red => exact absurd rfl hcr
          | Black => rfl
        subst hc
        obtain ⟨f, rfl⟩ : ∃ f, fuel = f + 1 := ⟨fuel - 1, by omega⟩
        obtain ⟨hstep, hbr⟩ := resolveDBStep_left hX hh hhp
        simp only [if_true] at hstep hbr
        have hb := bothChildBlack_spec hX.2.2 hsl hsr
        obtain ⟨hd1, hd2⟩ := @dbBlackSibling_both K V m n' _ sr sl
          true _ hb (by simp [hslr, hsrr])
        obtain ⟨m1, e1, r1, s1, hpar⟩ := dbBothBlack_left hX hndX
        simp only [reduceCtorEq, if_false] at e1
        obtain ⟨ha, hb'⟩ := resolveDB_next (hstep.trans (hd1.trans e1)) (hbr.trans hd2) f
        have hS : ∀ x ∈ [p, sa], x ∈ (node p Color.Black (node n' nc nl nkv nr) kv
            (node sa Color.Black sl skv sr)).addrs := by
          intro x hx
          simp only [List.mem_cons, List.mem_singleton, List.not_mem_nil, or_false] at hx
          rcases hx with rfl | rfl <;> simp [Tree.addrs]
        have hs1 : Shape m1 (up.plug (node p Color.Black (node n' nc nl nkv nr) kv
            (node sa Color.Red sl skv sr))) :=
          Shape.replace hs' r1 rfl (by simp [Tree.addrs]) s1 hS
        have hup' : up.Around (k + 1) := by simpa using hup
        obtain ⟨m', tr, e3, e4, ⟨b, rest, rfl⟩, hchain, hlen, hfr, hsome, hl, hsz⟩ :=
          ih hs1 rfl hup' (by omega) f (by omega)
        refine ⟨m', _, ha.trans e3, by rw [hb', e4]; rfl, ⟨_, _, rfl⟩, ?_, ?_, ?_, ?_,
          hl.trans s1.1, hsz.trans s1.2.1⟩
        · rw [List.chain'_cons]
          refine ⟨hparent, ?_⟩
          rw [← Follows.of_parentOf_eq hpar]
          exact hchain
        · simp only [List.length_cons, Path.depth] at hlen ⊢
          omega
        · intro x hx
          rw [hfr x (Tree.mem_addrs_node.mpr (Or.inr (Or.inl hx)))]
          refine s1.2.2 x fun hxS => ?_
          simp only [List.mem_cons, List.mem_singleton, List.not_mem_nil, or_false] at hxS
          rcases hxS with rfl | rfl
          · exact (Tree.nodup_node.mp hndX).1 hx
          · exact (Tree.nodup_node.mp hndX).2.2.1 _ hx (by simp [Tree.addrs])
        · have := hfr p (by simp [Tree.addrs])
          rw [Path.parent, this, r1.1]
          rfl
  | right p c kv sib up ih =>
    intro s m n k hs hroot haround hk fuel hfuel
    cases s with
    | nil => cases hroot
    | node n' nc nl nkv nr =>
    simp only [Tree.root_node, Option.some.injEq] at hroot
    subst hroot
    obtain ⟨hsnr, hsbh, hcsib, hup⟩ := haround
    simp only [Path.depth] at hfuel
    have hs' : Shape m (up.plug (node p c sib kv (node n' nc nl nkv nr))) := hs
    have hX := Path.rep_hole up hs'.rep
    obtain ⟨hndX, -, hdisj⟩ := Path.nodup_plug hs'.nodup
    have h0X : 0 ∉ (node p c sib kv (node n' nc nl nkv nr)).addrs :=
      fun hx => hs'.notHead (Path.mem_plug.mpr (Or.inl hx))
    obtain ⟨h, hh, hhpar⟩ := hs'.head
    have hpn : p ≠ n' := fun e => (Tree.nodup_node.mp hndX).2.1
      (e ▸ Tree.mem_addrs_node.mpr (Or.inl rfl))
    have hhp : h.parent ≠ some n' := by
      rw [hhpar]
      exact Path.root_ne hs'.nodup rfl (by simp [Tree.addrs]) hpn
    obtain ⟨gn, hgn, hlink, hg⟩ := Path.parent_cell hs' rfl
    have hparent : parentOf m n' = some p := by simp [parentOf, hX.2.2.1]
    cases sib with
    | nil => simp only [Tree.blackHeight] at hsbh; omega
    | node sa sc sl skv sr =>
    have hne : sa ≠ n' := by
      intro e
      exact (Tree.nodup_node.mp hndX).2.2.1 sa (Tree.mem_addrs_node.mpr (Or.inl rfl))
        (e ▸ Tree.mem_addrs_node.mpr (Or.inl rfl))
    cases sc with
    | Red =>
      have hc : c = Color.Black := by
        cases c with
        | Red => have := hcsib rfl; simp [Tree.isRed] at this
        | Black => rfl
      subst hc
      obtain ⟨j, rfl⟩ : ∃ j, k = j + 1 := ⟨k - 1, by omega⟩
      obtain ⟨f, rfl⟩ : ∃ f, fuel = f + 3 := ⟨fuel - 3, by omega⟩
      obtain ⟨m', tr, e1, e2, htr, hfr, hsome, hsame⟩ :=
        redSibling_right hX hndX hg h0X hgn hh hhp hsbh.1 hsbh.2 (hsnr.1 rfl).1 (hsnr.1 rfl).2 f
      refine ⟨m', _, e1, e2, ⟨_, _, rfl⟩, ?_, ?_, hfr, hsome, hsame.1, hsame.2.1⟩
      · rcases htr with rfl | rfl | rfl <;> simp [List.chain'_cons, Follows]
      · rcases htr with rfl | rfl | rfl <;> simp [Path.depth]
    | Black =>
      obtain ⟨j, ej, hsl, hsr⟩ := hsbh
      by_cases hcase : c = Color.Red ∨ sl.isRed = true ∨ sr.isRed = true
      · obtain ⟨f, rfl⟩ : ∃ f, fuel = f + 2 := ⟨fuel - 2, by omega⟩
        obtain ⟨m', tr, e1, e2, htr, hfr, hsome, hsame⟩ :=
          finishBlack_right hX hndX hg h0X hgn hh hhp hsl hsr hcase (fun _ => hlink) f
        refine ⟨m', _, e1, e2, ?_, ?_, ?_, hfr, hsome, hsame.1, hsame.2.1⟩
        · rcases htr with rfl | rfl | rfl <;> exact ⟨_, _, rfl⟩
        · rcases htr with rfl | rfl | rfl <;> simp [List.chain'_cons, Follows]
        · rcases htr with rfl | rfl | rfl <;> simp [Path.depth]
      · simp only [not_or, Bool.not_eq_true] at hcase
        obtain ⟨hcr, hslr, hsrr⟩ := hcase
        have hc : c = Color.Black := by
          cases c with
          | Red => exact absurd rfl hcr
          | Black => rfl
        subst hc
        obtain ⟨f, rfl⟩ : ∃ f, fuel = f + 1 := ⟨fuel - 1, by omega⟩
        obtain ⟨hstep, hbr⟩ := resolveDBStep_right hX hne hh hhp
        simp only [if_true] at hstep hbr
        have hb := bothChildBlack_spec hX.2.1 hsl hsr
        obtain ⟨hd1, hd2⟩ := @dbBlackSibling_both K V m n' _ sl sr
          false _ hb (by simp [hslr, hsrr])
        obtain ⟨m1, e1, r1, s1, hpar⟩ := dbBothBlack_right hX hndX
        simp only [reduceCtorEq, if_false] at e1
        obtain ⟨ha, hb'⟩ := resolveDB_next (hstep.trans (hd1.trans e1)) (hbr.trans hd2) f
        have hS : ∀ x ∈ [p, sa], x ∈ (node p Color.Black (node sa Color.Black sl skv sr) kv
            (node n' nc nl nkv nr)).addrs := by
          intro x hx
          simp only [List.mem_cons, List.mem_singleton, List.not_mem_nil, or_false] at hx
          rcases hx with rfl | rfl <;> simp [Tree.addrs]
        have hs1 : Shape m1 (up.plug (node p Color.Black (node sa Color.Red sl skv sr) kv
            (node n' nc nl nkv nr))) :=
          Shape.replace hs' r1 rfl (by simp [Tree.addrs]) s1 hS
        have hup' : up.Around (k + 1) := by simpa using hup
        obtain ⟨m', tr, e3, e4, ⟨b, rest, rfl⟩, hchain, hlen, hfr, hsome, hl, hsz⟩ :=
          ih hs1 rfl hup' (by omega) f (by omega)
        refine ⟨m', _, ha.trans e3, by rw [hb', e4]; rfl, ⟨_, _, rfl⟩, ?_, ?_, ?_, ?_,
          hl.trans s1.1, hsz.trans s1.2.1⟩
        · rw [List.chain'_cons]
          refine ⟨hparent, ?_⟩
          rw [← Follows.of_parentOf_eq hpar]
          exact hchain
        · simp only [List.length_cons, Path.depth] at hlen ⊢
          omega
        · intro x hx
          rw [hfr x (Tree.mem_addrs_node.mpr (Or.inr (Or.inr hx)))]
          refine s1.2.2 x fun hxS => ?_
          simp only [List.mem_cons, List.mem_singleton, List.not_mem_nil, or_false] at hxS
          rcases hxS with rfl | rfl
          · exact (Tree.nodup_node.mp hndX).2.1 hx
          · exact (Tree.nodup_node.mp hndX).2.2.1 _ (by simp [Tree.addrs]) hx
        · have := hfr p (by simp [Tree.addrs])
          rw [Path.parent, this, r1.1]
          rfl

theorem resolveDB_mono : ∀ (f : Nat) {m m' : Map K V} {n : Nat},
    resolveDB f m n = some m' → ∀ d, resolveDB (f + d) m n = some m' := by
  intro f
  induction f with
  | zero => intro m m' n h; cases h
  | succ f ih =>
    intro m m' n h d
    rw [show f + 1 + d = (f + d) + 1 by omega]
    simp only [resolveDB] at h ⊢
    cases hstep : resolveDBStep m n with
    | none => rw [hstep] at h; cases h
    | some r =>
      rw [hstep] at h
      simp only [Option.some_bind] at h ⊢
      cases hr : r.2 with
      | none => rw [hr] at h; exact h
      | some next =>
        rw [hr] at h
        exact ih h d

theorem resolveDBTrace_mono : ∀ (f : Nat) {m : Map K V} {n : Nat} {tr : List (Branch × Nat)},
    resolveDBTrace f m n = some tr → ∀ d, resolveDBTrace (f + d) m n = some tr := by
  intro f
  induction f with
  | zero => intro m n tr h; cases h
  | succ f ih =>
    intro m n tr h d
    rw [show f + 1 + d = (f + d) + 1 by omega]
    simp only [resolveDBTrace] at h ⊢
    cases hb : branchOf m n with
    | none => rw [hb] at h; cases h
    | some b =>
    rw [hb] at h
    simp only [Option.some_bind] at h ⊢
    cases hstep : resolveDBStep m n with
    | none => rw [hstep] at h; cases h
    | some r =>
      rw [hstep] at h
      simp only [Option.some_bind] at h ⊢
      cases hr : r.2 with
      | none => rw [hr] at h; exact h
      | some next =>
        rw [hr] at h
        simp only [Option.map_eq_some'] at h ⊢
        obtain ⟨tr', h1, h2⟩ := h
        exact ⟨tr', ih h1 d, h2⟩

theorem Path.depth_add_height_le (p : Path K V) : ∀ s : Tree K V,
    p.depth + s.height ≤ (p.plug s).height := by
  induction p with
  | top => intro s; simp [Path.depth, Path.plug]
  | left a c kv sib up ih =>
    intro s
    have := ih (node a c s kv sib)
    simp only [Path.depth, Path.plug, Tree.height] at this ⊢
    omega
  | right a c kv sib up ih =>
    intro s
    have := ih (node a c sib kv s)
    simp only [Path.depth, Path.plug, Tree.height] at this ⊢
    omega

/-- C33: `resolveDB` terminates on a Black leaf that is not the root.  In a
map that holds a tree with the colours of a red-black tree, for a node `n` of
the tree other than the root whose cell is Black and has no child, the
recursion `resolveDB(n)` returns: with every amount of fuel from the height of
the tree plus two on (the fuel the member functions give is enough) it returns
the same store after the same activations, at most height plus two of them.
The list of the activations begins at `n`, and consecutive activations are
related as `Follows` says: the sibling-Red branch is followed by a branch for
a Black sibling at the same node, the near-child-Red branch by the
far-child-Red branch at the same node, the both-children-Black branch by an
activation at the parent of its node, and no other branch is followed by
anything. -/
theorem C33_resolveDB_terminates {m : Map K V} {t : Tree K V} {n : Nat} {nn : RB_Node K V}
    (hs : Shape m t) (hrb : t.RedBlack) (hn : n ∈ t.addrs) (hroot : t.root ≠ some n)
    (hcell : rd m n = some nn) (hblack : nn.color = Color.Black)
    (hleft : nn.left = none) (hright : nn.right = none) :
    t.height + 2 ≤ fuelOf m ∧
    ∃ m' tr, (∀ fuel, t.height + 2 ≤ fuel →
        resolveDB fuel m n = some m' ∧ resolveDBTrace fuel m n = some tr) ∧
      tr.length ≤ t.height + 2 ∧ (∃ b rest, tr = (b, n) :: rest) ∧
      List.Chain' (Follows m) tr := by
  obtain ⟨P, s, rfl, hsroot⟩ := Tree.exists_path hn
  have hrep := Path.rep_hole P hs.rep
  cases s with
  | nil => cases hsroot
  | node a c l kv r =>
  simp only [Tree.root_node, Option.some.injEq] at hsroot
  subst hsroot
  have hc := hrep.1
  rw [hcell] at hc
  cases hc
  simp only at hblack hleft hright
  subst hblack
  have hl : l = nil := by
    cases l with
    | nil => rfl
    | node _ _ _ _ _ => cases hleft
  have hr : r = nil := by
    cases r with
    | nil => rfl
    | node _ _ _ _ _ => cases hright
  subst hl hr
  obtain ⟨-, hnrr, b, hbh⟩ := hrb
  have hbh1 : (node a Color.Black (nil : Tree K V) kv nil).blackHeight 1 := ⟨0, rfl, rfl, rfl⟩
  have haround := Path.around_of_valid P hnrr hbh hbh1
  have hdepth := Path.depth_add_height_le P (node a Color.Black (nil : Tree K V) kv nil)
  simp only [Tree.height] at hdepth
  have hfuel := hs.rep.height_lt_fuel hs.nodup
  have hdep : 1 ≤ P.depth := by
    cases P with
    | top => exact absurd rfl hroot
    | left _ _ _ _ _ => simp [Path.depth]
    | right _ _ _ _ _ => simp [Path.depth]
  obtain ⟨m', tr, e1, e2, hhead, hchain, hlen, -⟩ :=
    resolveDB_spec P hs rfl haround (le_refl 1) (P.depth + 3) (le_refl _)
  refine ⟨?_, m', tr, fun fuel hf => ?_, by omega, hhead, hchain⟩
  · have h1 := (P.plug (node a Color.Black nil kv nil)).height_le_size
    have h2 := hs.rep.size_le hs.nodup
    simp only [fuelOf]
    omega
  · obtain ⟨d, rfl⟩ : ∃ d, fuel = P.depth + 3 + d := ⟨fuel - (P.depth + 3), by omega⟩
    exact ⟨resolveDB_mono _ e1 d, resolveDBTrace_mono _ e2 d⟩

theorem blackTriple_shape : Shape blackTripleMap blackTripleTree :=
  ⟨⟨_, rfl, rfl⟩, ⟨rfl, ⟨rfl, trivial, trivial⟩, ⟨rfl, trivial, trivial⟩⟩, by decide, by decide⟩

theorem blackTriple_redBlack : blackTripleTree.RedBlack :=
  ⟨rfl, ⟨(fun h => by cases h), ⟨(fun h => by cases h), trivial, trivial⟩,
    ⟨(fun h => by cases h), trivial, trivial⟩⟩,
    2, 1, rfl, ⟨0, rfl, rfl, rfl⟩, ⟨0, rfl, rfl, rfl⟩⟩

theorem C33_witness :
    (Shape blackTripleMap blackTripleTree ∧ blackTripleTree.RedBlack ∧
      1 ∈ blackTripleTree.addrs ∧ blackTripleTree.root ≠ some 1 ∧
      rd blackTripleMap 1 = some ⟨(1, 10), some 2, none, none, Color.Black⟩) ∧
    (blackTripleTree.height + 2 ≤ fuelOf blackTripleMap ∧
      ∃ m' tr, (∀ fuel, blackTripleTree.height + 2 ≤ fuel →
          resolveDB fuel blackTripleMap 1 = some m' ∧
          resolveDBTrace fuel blackTripleMap 1 = some tr) ∧
        tr.length ≤ blackTripleTree.height + 2 ∧ (∃ b rest, tr = (b, 1) :: rest) ∧
        List.Chain' (Follows blackTripleMap) tr) :=
  ⟨⟨blackTriple_shape, blackTriple_redBlack, by decide, by decide, rfl⟩,
    C33_resolveDB_terminates blackTriple_shape blackTriple_redBlack (by decide) (by decide)
      (show rd blackTripleMap 1 = some ⟨(1, 10), some 2, none, none, Color.Black⟩ from rfl)
      rfl rfl rfl⟩

/-! ## `swapNodes` on the cells -/

theorem rd_wr_of_some {m : Map K V} {a : Nat} {n0 : RB_Node K V} (h : rd m a = some n0)
    (n : RB_Node K V) (x : Nat) : rd (wr m a n) x = if x = a then some n else rd m x := by
  rw [rd_wr]
  simp [rd_lt h]

/-- The three statements that redirect the links of the parent of `a`. -/
theorem relinkFrom_spec {m : Map K V} {a b p : Nat} {an pn : RB_Node K V}
    (ha : rd m a = some an) (hp : an.parent = some p) (hpn : rd m p = some pn) (hne : a ≠ p) :
    relinkFrom m a b = some (wr m p (redirect a b pn)) := by
  have e0 : ∀ x : RB_Node K V, rd (wr m p x) a = some an := fun x => by
    rw [rd_wr_ne _ _ hne, ha]
  have e1 : ∀ x : RB_Node K V, rd (wr m p x) p = some x := fun x => rd_wr_same _ hpn
  by_cases h1 : pn.right = some a <;> by_cases h2 : pn.left = some a <;>
    by_cases h3 : pn.parent = some a <;>
    simp [relinkFrom, relinkRight, relinkLeft, relinkParent, ha, hp, hpn, h1, h2, h3, e0, e1,
      setRight, setLeft, setParent, wr_wr, redirect, wr_same hpn]

theorem adoptLeft_eq {m : Map K V} {a : Nat} {an : RB_Node K V} (ha : rd m a = some an) :
    adoptLeft m a = adopt m an.left (some a) := by
  simp only [adoptLeft, ha, Option.bind_eq_bind, Option.some_bind, adopt]
  cases an.left <;> rfl

theorem adoptRight_eq {m : Map K V} {a : Nat} {an : RB_Node K V} (ha : rd m a = some an) :
    adoptRight m a = adopt m an.right (some a) := by
  simp only [adoptRight, ha, Option.bind_eq_bind, Option.some_bind, adopt]
  cases an.right <;> rfl

/-- Statement `if (p) p->parent = q;` on an allocated cell, cell by cell. -/
theorem adopt_rd {m : Map K V} {o : Option Nat} (q : Option Nat)
    (h : ∀ a, o = some a → ∃ n, rd m a = some n) :
    ∃ m', adopt m o q = some m' ∧ m'.mem.length = m.mem.length ∧ m'._size = m._size ∧
      ∀ x, rd m' x = if o = some x then (rd m x).map (fun n => { n with parent := q })
        else rd m x := by
  cases o with
  | none => exact ⟨m, rfl, rfl, rfl, fun x => by simp⟩
  | some a =>
    obtain ⟨n, hn⟩ := h a rfl
    refine ⟨wr m a { n with parent := q }, by simp [adopt, setParent, hn], by simp, rfl, ?_⟩
    intro x
    rw [rd_wr_of_some hn]
    by_cases hx : x = a
    · subst hx
      simp [hn]
    · simp [hx, Ne.symm hx]

theorem swapParentFields_eq {m : Map K V} {n1 n2 : Nat} {a b : RB_Node K V}
    (h1 : rd m n1 = some a) (h2 : rd m n2 = some b) (hne : n1 ≠ n2) :
    swapParentFields m n1 n2 =
      some (wr (wr m n2 { b with parent := a.parent }) n1 { a with parent := b.parent }) := by
  have e : rd (wr m n2 { b with parent := a.parent }) n1 = some a := by
    rw [rd_wr_ne _ _ hne, h1]
  simp [swapParentFields, h1, h2, setParent, e]

theorem swapLeftFields_eq {m : Map K V} {n1 n2 : Nat} {a b : RB_Node K V}
    (h1 : rd m n1 = some a) (h2 : rd m n2 = some b) (hne : n1 ≠ n2) :
    swapLeftFields m n1 n2 =
      some (wr (wr m n2 { b with left := a.left }) n1 { a with left := b.left }) := by
  have e : rd (wr m n2 { b with left := a.left }) n1 = some a := by
    rw [rd_wr_ne _ _ hne, h1]
  simp [swapLeftFields, h1, h2, setLeft, e]

theorem swapRightFields_eq {m : Map K V} {n1 n2 : Nat} {a b : RB_Node K V}
    (h1 : rd m n1 = some a) (h2 : rd m n2 = some b) (hne : n1 ≠ n2) :
    swapRightFields m n1 n2 =
      some (wr (wr m n2 { b with right := a.right }) n1 { a with right := b.right }) := by
  have e : rd (wr m n2 { b with right := a.right }) n1 = some a := by
    rw [rd_wr_ne _ _ hne, h1]
  simp [swapRightFields, h1, h2, setRight, e]

theorem swapColorFields_eq {m : Map K V} {n1 n2 : Nat} {a b : RB_Node K V}
    (h1 : rd m n1 = some a) (h2 : rd m n2 = some b) (hne : n1 ≠ n2) :
    swapColorFields m n1 n2 =
      some (wr (wr m n1 { a with color := b.color }) n2 { b with color := a.color }) := by
  have e : rd (wr m n1 { a with color := b.color }) n2 = some b := by
    rw [rd_wr_ne _ _ (Ne.symm hne), h2]
  simp [swapColorFields, h1, h2, setColor, e]

/-- `swapNodes(n1, n2)` on the cells, when `n2` is not a child of `n1`: the
two cells exchange their links and colours, the links of the two parents that
referred to one of the nodes refer to the other one, the children of each node
get the other node as parent, and no other cell changes. -/
theorem swapNodes_far {m : Map K V} {n1 n2 p1 q : Nat} {kv1 kv2 : K × V}
    {L1 R1 L2 R2 : Option Nat} {c1 c2 : Color} {pn qn : RB_Node K V}
    (h1 : rd m n1 = some ⟨kv1, some p1, L1, R1, c1⟩)
    (h2 : rd m n2 = some ⟨kv2, some q, L2, R2, c2⟩)
    (hp : rd m p1 = some pn) (hq : rd m q = some qn)
    (n12 : n1 ≠ n2) (hp1 : p1 ≠ n1) (hp2 : p1 ≠ n2) (hq1 : q ≠ n1) (hq2 : q ≠ n2)
    (hpq : p1 ≠ q)
    (hL1 : ∀ a, L1 = some a → (∃ n, rd m a = some n) ∧ a ≠ n1 ∧ a ≠ n2 ∧ a ≠ p1)
    (hR1 : ∀ a, R1 = some a → (∃ n, rd m a = some n) ∧ a ≠ n1 ∧ a ≠ n2 ∧ a ≠ p1)
    (hL2 : ∀ a, L2 = some a → (∃ n, rd m a = some n) ∧ a ≠ n1 ∧ a ≠ n2 ∧ a ≠ p1 ∧ a ≠ q ∧
      L1 ≠ some a ∧ R1 ≠ some a)
    (hR2 : ∀ a, R2 = some a → (∃ n, rd m a = some n) ∧ a ≠ n1 ∧ a ≠ n2 ∧ a ≠ p1 ∧ a ≠ q ∧
      L1 ≠ some a ∧ R1 ≠ some a) :
    ∃ m', swapNodes m n1 n2 = some m' ∧
      m'.mem.length = m.mem.length ∧ m'._size = m._size ∧
      rd m' n1 = some ⟨kv1, some q, L2, R2, c2⟩ ∧
      rd m' n2 = some ⟨kv2, some p1, L1, R1, c1⟩ ∧
      rd m' p1 = some (redirect n1 n2 pn) ∧
      rd m' q = some (if L1 = some q ∨ R1 = some q
        then { redirect n2 n1 qn with parent := some n2 } else redirect n2 n1 qn) ∧
      (∀ a, L1 = some a ∨ R1 = some a → a ≠ q →
        rd m' a = (rd m a).map fun n => { n with parent := some n2 }) ∧
      (∀ a, L2 = some a ∨ R2 = some a →
        rd m' a = (rd m a).map fun n => { n with parent := some n1 }) ∧
      (∀ x, x ≠ n1 → x ≠ n2 → x ≠ p1 → x ≠ q → L1 ≠ some x → R1 ≠ some x → L2 ≠ some x →
        R2 ≠ some x → rd m' x = rd m x) := by
  have hL1n1 : L1 ≠ some n1 := fun e => (hL1 _ e).2.1 rfl
  have hL1n2 : L1 ≠ some n2 := fun e => (hL1 _ e).2.2.1 rfl
  have hL1p : L1 ≠ some p1 := fun e => (hL1 _ e).2.2.2 rfl
  have hR1n1 : R1 ≠ some n1 := fun e => (hR1 _ e).2.1 rfl
  have hR1n2 : R1 ≠ some n2 := fun e => (hR1 _ e).2.2.1 rfl
  have hR1p : R1 ≠ some p1 := fun e => (hR1 _ e).2.2.2 rfl
  have hL2n1 : L2 ≠ some n1 := fun e => (hL2 _ e).2.1 rfl
  have hL2n2 : L2 ≠ some n2 := fun e => (hL2 _ e).2.2.1 rfl
  have hL2p : L2 ≠ some p1 := fun e => (hL2 _ e).2.2.2.1 rfl
  have hL2q : L2 ≠ some q := fun e => (hL2 _ e).2.2.2.2.1 rfl
  have hR2n1 : R2 ≠ some n1 := fun e => (hR2 _ e).2.1 rfl
  have hR2n2 : R2 ≠ some n2 := fun e => (hR2 _ e).2.2.1 rfl
  have hR2p : R2 ≠ some p1 := fun e => (hR2 _ e).2.2.2.1 rfl
  have hR2q : R2 ≠ some q := fun e => (hR2 _ e).2.2.2.2.1 rfl
  -- the parents
  have e1 := relinkFrom_spec (b := n2) h1 rfl hp (Ne.symm hp1)
  have r1 : ∀ x, rd (wr m p1 (redirect n1 n2 pn)) x =
      if x = p1 then some (redirect n1 n2 pn) else rd m x := rd_wr_of_some hp _
  have h2a : rd (wr m p1 (redirect n1 n2 pn)) n2 = some ⟨kv2, some q, L2, R2, c2⟩ := by
    rw [r1, if_neg (Ne.symm hp2), h2]
  have hqa : rd (wr m p1 (redirect n1 n2 pn)) q = some qn := by
    rw [r1, if_neg (Ne.symm hpq), hq]
  have e2 := relinkFrom_spec (b := n1) h2a rfl hqa (Ne.symm hq2)
  generalize hm2 : wr (wr m p1 (redirect n1 n2 pn)) q (redirect n2 n1 qn) = m2 at e2
  have r2 : ∀ x, rd m2 x = if x = q then some (redirect n2 n1 qn)
      else if x = p1 then some (redirect n1 n2 pn) else rd m x := by
    intro x
    rw [← hm2, rd_wr_of_some hqa, r1]
  have l2 : m2.mem.length = m.mem.length := by rw [← hm2]; simp
  have s2 : m2._size = m._size := by rw [← hm2]; rfl
  -- the parent links
  have h1b : rd m2 n1 = some ⟨kv1, some p1, L1, R1, c1⟩ := by
    rw [r2, if_neg (Ne.symm hq1), if_neg (Ne.symm hp1), h1]
  have h2b : rd m2 n2 = some ⟨kv2, some q, L2, R2, c2⟩ := by
    rw [r2, if_neg (Ne.symm hq2), if_neg (Ne.symm hp2), h2]
  have e3 := swapParentFields_eq h1b h2b n12
  simp only at e3
  have h1c' : rd (wr m2 n2 ⟨kv2, some p1, L2, R2, c2⟩) n1 = some ⟨kv1, some p1, L1, R1, c1⟩ := by
    rw [rd_wr_ne _ _ n12, h1b]
  generalize hm3 : wr (wr m2 n2 ⟨kv2, some p1, L2, R2, c2⟩) n1 ⟨kv1, some q, L1, R1, c1⟩ = m3
    at e3
  have r3 : ∀ x, rd m3 x = if x = n1 then some ⟨kv1, some q, L1, R1, c1⟩
      else if x = n2 then some ⟨kv2, some p1, L2, R2, c2⟩ else rd m2 x := by
    intro x
    rw [← hm3, rd_wr_of_some h1c', rd_wr_of_some h2b]
  have l3 : m3.mem.length = m.mem.length := by rw [← hm3]; simpa using l2
  have s3 : m3._size = m._size := by rw [← hm3]; exact s2
  -- the left links
  have h1c : rd m3 n1 = some ⟨kv1, some q, L1, R1, c1⟩ := by rw [r3, if_pos rfl]
  have h2c : rd m3 n2 = some ⟨kv2, some p1, L2, R2, c2⟩ := by
    rw [r3, if_neg (Ne.symm n12), if_pos rfl]
  have e4 := swapLeftFields_eq h1c h2c n12
  simp only at e4
  have h1d' : rd (wr m3 n2 ⟨kv2, some p1, L1, R2, c2⟩) n1 = some ⟨kv1, some q, L1, R1, c1⟩ := by
    rw [rd_wr_ne _ _ n12, h1c]
  generalize hm4 : wr (wr m3 n2 ⟨kv2, some p1, L1, R2, c2⟩) n1 ⟨kv1, some q, L2, R1, c1⟩ = m4
    at e4
  have r4 : ∀ x, rd m4 x = if x = n1 then some ⟨kv1, some q, L2, R1, c1⟩
      else if x = n2 then some ⟨kv2, some p1, L1, R2, c2⟩ else rd m2 x := by
    intro x
    rw [← hm4, rd_wr_of_some h1d', rd_wr_of_some h2c, r3]
    by_cases hx1 : x = n1
    · simp [hx1]
    · by_cases hx2 : x = n2
      · simp [hx1, hx2]
      · simp [hx1, hx2]
  have l4 : m4.mem.length = m.mem.length := by rw [← hm4]; simpa using l3
  have s4 : m4._size = m._size := by rw [← hm4]; exact s3
  have h1d : rd m4 n1 = some ⟨kv1, some q, L2, R1, c1⟩ := by rw [r4, if_pos rfl]
  have h2d : rd m4 n2 = some ⟨kv2, some p1, L1, R2, c2⟩ := by
    rw [r4, if_neg (Ne.symm n12), if_pos rfl]
  -- cells outside the two nodes
  have rest4 : ∀ x, x ≠ n1 → x ≠ n2 → rd m4 x = rd m2 x := by
    intro x hx1 hx2
    rw [r4, if_neg hx1, if_neg hx2]
  have alloc2 : ∀ a, a ≠ n1 → a ≠ n2 → (∃ n, rd m a = some n) → ∃ n, rd m2 a = some n := by
    intro a _ _ ⟨n, hn⟩
    rw [r2]
    by_cases ha : a = q
    · exact ⟨_, by rw [if_pos ha]⟩
    · by_cases hb : a = p1
      · exact ⟨_, by rw [if_neg ha, if_pos hb]⟩
      · exact ⟨n, by rw [if_neg ha, if_neg hb, hn]⟩
  obtain ⟨m5, e5, l5, s5, r5⟩ := adopt_rd (m := m4) (o := L2) (some n1) (fun a ha => by
    obtain ⟨hal, ha1, ha2, -⟩ := hL2 a ha
    rw [rest4 a ha1 ha2]
    exact alloc2 a ha1 ha2 hal)
  have h2e : rd m5 n2 = some ⟨kv2, some p1, L1, R2, c2⟩ := by
    rw [r5, if_neg hL2n2, h2d]
  obtain ⟨m6, e6, l6, s6, r6⟩ := adopt_rd (m := m5) (o := L1) (some n2) (fun a ha => by
    obtain ⟨hal, ha1, ha2, -⟩ := hL1 a ha
    rw [r5]
    by_cases hb : L2 = some a
    · rw [if_pos hb, rest4 a ha1 ha2]
      obtain ⟨n, hn⟩ := alloc2 a ha1 ha2 hal
      exact ⟨_, by rw [hn]; rfl⟩
    · rw [if_neg hb, rest4 a ha1 ha2]
      exact alloc2 a ha1 ha2 hal)
  have e456 : exchangeLeft m3 n1 n2 = some m6 := by
    simp only [exchangeLeft, e4, Option.bind_eq_bind, Option.some_bind, adoptLeft_eq h1d, e5,
      adoptLeft_eq h2e, e6]
  -- the right links
  have h1f : rd m6 n1 = some ⟨kv1, some q, L2, R1, c1⟩ := by
    rw [r6, if_neg hL1n1, r5, if_neg hL2n1, h1d]
  have h2f : rd m6 n2 = some ⟨kv2, some p1, L1, R2, c2⟩ := by
    rw [r6, if_neg hL1n2, h2e]
  have e7 := swapRightFields_eq h1f h2f n12
  simp only at e7
  have h1g' : rd (wr m6 n2 ⟨kv2, some p1, L1, R1, c2⟩) n1 = some ⟨kv1, some q, L2, R1, c1⟩ := by
    rw [rd_wr_ne _ _ n12, h1f]
  generalize hm7 : wr (wr m6 n2 ⟨kv2, some p1, L1, R1, c2⟩) n1 ⟨kv1, some q, L2, R2, c1⟩ = m7
    at e7
  have r7 : ∀ x, rd m7 x = if x = n1 then some ⟨kv1, some q, L2, R2, c1⟩
      else if x = n2 then some ⟨kv2, some p1, L1, R1, c2⟩ else rd m6 x := by
    intro x
    rw [← hm7, rd_wr_of_some h1g', rd_wr_of_some h2f]
  have l7 : m7.mem.length = m.mem.length := by
    rw [← hm7]; simp only [wr_length]; rw [l6, l5, l4]
  have s7 : m7._size = m._size := by
    rw [← hm7]; simp only [wr_size]; rw [s6, s5, s4]
  have h1g : rd m7 n1 = some ⟨kv1, some q, L2, R2, c1⟩ := by rw [r7, if_pos rfl]
  have h2g : rd m7 n2 = some ⟨kv2, some p1, L1, R1, c2⟩ := by
    rw [r7, if_neg (Ne.symm n12), if_pos rfl]
  have rest6 : ∀ x, x ≠ n1 → x ≠ n2 → rd m6 x =
      if L1 = some x then ((if L2 = some x then (rd m2 x).map
          (fun n => { n with parent := some n1 }) else rd m2 x)).map
          (fun n => { n with parent := some n2 })
        else (if L2 = some x then (rd m2 x).map (fun n => { n with parent := some n1 })
          else rd m2 x) := by
    intro x hx1 hx2
    rw [r6, r5, rest4 x hx1 hx2]
  have alloc6 : ∀ a, a ≠ n1 → a ≠ n2 → (∃ n, rd m a = some n) → ∃ n, rd m6 a = some n := by
    intro a ha1 ha2 hal
    obtain ⟨n, hn⟩ := alloc2 a ha1 ha2 hal
    rw [rest6 a ha1 ha2, hn]
    by_cases hb : L1 = some a <;> by_cases hc : L2 = some a <;> simp [hb, hc]
  obtain ⟨m8, e8, l8, s8, r8⟩ := adopt_rd (m := m7) (o := R2) (some n1) (fun a ha => by
    obtain ⟨hal, ha1, ha2, -⟩ := hR2 a ha
    rw [r7, if_neg ha1, if_neg ha2]
    exact alloc6 a ha1 ha2 hal)
  have h2h : rd m8 n2 = some ⟨kv2, some p1, L1, R1, c2⟩ := by
    rw [r8, if_neg hR2n2, h2g]
  obtain ⟨m9, e9, l9, s9, r9⟩ := adopt_rd (m := m8) (o := R1) (some n2) (fun a ha => by
    obtain ⟨hal, ha1, ha2, -⟩ := hR1 a ha
    obtain ⟨n, hn⟩ := alloc6 a ha1 ha2 hal
    rw [r8, r7, if_neg ha1, if_neg ha2, hn]
    by_cases hb : R2 = some a <;> simp [hb])
  have e789 : exchangeRight m6 n1 n2 = some m9 := by
    simp only [exchangeRight, e7, Option.bind_eq_bind, Option.some_bind, adoptRight_eq h1g, e8,
      adoptRight_eq h2h, e9]
  -- the colours
  have h1i : rd m9 n1 = some ⟨kv1, some q, L2, R2, c1⟩ := by
    rw [r9, if_neg hR1n1, r8, if_neg hR2n1, h1g]
  have h2i : rd m9 n2 = some ⟨kv2, some p1, L1, R1, c2⟩ := by
    rw [r9, if_neg hR1n2, h2h]
  have e10 := swapColorFields_eq h1i h2i n12
  simp only at e10
  have h2j' : rd (wr m9 n1 ⟨kv1, some q, L2, R2, c2⟩) n2 = some ⟨kv2, some p1, L1, R1, c2⟩ := by
    rw [rd_wr_ne _ _ (Ne.symm n12), h2i]
  generalize hm10 : wr (wr m9 n1 ⟨kv1, some q, L2, R2, c2⟩) n2 ⟨kv2, some p1, L1, R1, c1⟩ = m10
    at e10
  have r10 : ∀ x, rd m10 x = if x = n2 then some ⟨kv2, some p1, L1, R1, c1⟩
      else if x = n1 then some ⟨kv1, some q, L2, R2, c2⟩ else rd m9 x := by
    intro x
    rw [← hm10, rd_wr_of_some h2j', rd_wr_of_some h1i]
  have rest10 : ∀ x, x ≠ n1 → x ≠ n2 → rd m10 x =
      if R1 = some x then ((if R2 = some x then (rd m6 x).map
          (fun n => { n with parent := some n1 }) else rd m6 x)).map
          (fun n => { n with parent := some n2 })
        else (if R2 = some x then (rd m6 x).map (fun n => { n with parent := some n1 })
          else rd m6 x) := by
    intro x hx1 hx2
    rw [r10, if_neg hx2, if_neg hx1, r9, r8, r7, if_neg hx1, if_neg hx2]
  refine ⟨m10, ?_, ?_, ?_, ?_, ?_, ?_, ?_, ?_, ?_, ?_⟩
  · simp only [swapNodes, if_neg n12, e1, e2, hm2, e3, e456, e789, e10, Option.bind_eq_bind,
      Option.some_bind]
  · rw [← hm10]; simp only [wr_length]; rw [l9, l8, l7]
  · rw [← hm10]; simp only [wr_size]; rw [s9, s8, s7]
  · rw [r10, if_neg n12, if_pos rfl]
  · rw [r10, if_pos rfl]
  · rw [rest10 p1 hp1 hp2, rest6 p1 hp1 hp2, if_neg hR1p, if_neg hR2p, if_neg hL1p, if_neg hL2p,
      r2, if_neg hpq, if_pos rfl]
  · rw [rest10 q hq1 hq2, rest6 q hq1 hq2, if_neg hR2q, if_neg hL2q, r2, if_pos rfl]
    by_cases hb : L1 = some q <;> by_cases hc : R1 = some q <;> simp [hb, hc]
  · intro a ha haq
    have ha1 : a ≠ n1 := by rcases ha with ha | ha; exact (hL1 a ha).2.1; exact (hR1 a ha).2.1
    have ha2 : a ≠ n2 := by
      rcases ha with ha | ha
      · exact (hL1 a ha).2.2.1
      · exact (hR1 a ha).2.2.1
    have hap : a ≠ p1 := by
      rcases ha with ha | ha
      · exact (hL1 a ha).2.2.2
      · exact (hR1 a ha).2.2.2
    have hL2a : L2 ≠ some a := by
      intro e
      have := hL2 a e
      rcases ha with ha | ha
      · exact this.2.2.2.2.2.1 ha
      · exact this.2.2.2.2.2.2 ha
    have hR2a : R2 ≠ some a := by
      intro e
      have := hR2 a e
      rcases ha with ha | ha
      · exact this.2.2.2.2.2.1 ha
      · exact this.2.2.2.2.2.2 ha
    rw [rest10 a ha1 ha2, rest6 a ha1 ha2, if_neg hR2a, if_neg hL2a, r2, if_neg haq, if_neg hap]
    by_cases hb : L1 = some a <;> by_cases hc : R1 = some a
    · simp only [hb, hc, if_true]
      cases rd m a <;> rfl
    · simp [hb, hc]
    · simp [hb, hc]
    · rcases ha with ha | ha
      · exact absurd ha hb
      · exact absurd ha hc
  · intro a ha
    have ha1 : a ≠ n1 := by
      rcases ha with ha | ha
      · exact (hL2 a ha).2.1
      · exact (hR2 a ha).2.1
    have ha2 : a ≠ n2 := by
      rcases ha with ha | ha
      · exact (hL2 a ha).2.2.1
      · exact (hR2 a ha).2.2.1
    have hap : a ≠ p1 := by
      rcases ha with ha | ha
      · exact (hL2 a ha).2.2.2.1
      · exact (hR2 a ha).2.2.2.1
    have haq : a ≠ q := by
      rcases ha with ha | ha
      · exact (hL2 a ha).2.2.2.2.1
      · exact (hR2 a ha).2.2.2.2.1
    have hL1a : L1 ≠ some a := by
      rcases ha with ha | ha
      · exact (hL2 a ha).2.2.2.2.2.1
      · exact (hR2 a ha).2.2.2.2.2.1
    have hR1a : R1 ≠ some a := by
      rcases ha with ha | ha
      · exact (hL2 a ha).2.2.2.2.2.2
      · exact (hR2 a ha).2.2.2.2.2.2
    rw [rest10 a ha1 ha2, rest6 a ha1 ha2, if_neg hR1a, if_neg hL1a, r2, if_neg haq, if_neg hap]
    by_cases hb : L2 = some a <;> by_cases hc : R2 = some a
    · simp only [hb, hc, if_true]
      cases rd m a <;> rfl
    · simp [hb, hc]
    · simp [hb, hc]
    · rcases ha with ha | ha
      · exact absurd ha hb
      · exact absurd ha hc
  · intro x hx1 hx2 hxp hxq hxL1 hxR1 hxL2 hxR2
    rw [rest10 x hx1 hx2, rest6 x hx1 hx2, if_neg hxR1, if_neg hxR2, if_neg hxL1, if_neg hxL2,
      r2, if_neg hxq, if_neg hxp]

/-- `swapNodes(n1, n2)` on the cells, when `n2` is the right child of `n1`. -/
theorem swapNodes_near_right {m : Map K V} {n1 n2 p1 : Nat} {kv1 kv2 : K × V}
    {L1 L2 R2 : Option Nat} {c1 c2 : Color} {pn : RB_Node K V}
    (h1 : rd m n1 = some ⟨kv1, some p1, L1, some n2, c1⟩)
    (h2 : rd m n2 = some ⟨kv2, some n1, L2, R2, c2⟩)
    (hp : rd m p1 = some pn)
    (n12 : n1 ≠ n2) (hp1 : p1 ≠ n1) (hp2 : p1 ≠ n2)
    (hL1 : ∀ a, L1 = some a → (∃ n, rd m a = some n) ∧ a ≠ n1 ∧ a ≠ n2 ∧ a ≠ p1)
    (hL2 : ∀ a, L2 = some a → (∃ n, rd m a = some n) ∧ a ≠ n1 ∧ a ≠ n2 ∧ a ≠ p1 ∧
      L1 ≠ some a)
    (hR2 : ∀ a, R2 = some a → (∃ n, rd m a = some n) ∧ a ≠ n1 ∧ a ≠ n2 ∧ a ≠ p1 ∧
      L1 ≠ some a) :
    ∃ m', swapNodes m n1 n2 = some m' ∧
      m'.mem.length = m.mem.length ∧ m'._size = m._size ∧
      rd m' n1 = some ⟨kv1, some n2, L2, R2, c2⟩ ∧
      rd m' n2 = some ⟨kv2, some p1, L1, some n1, c1⟩ ∧
      rd m' p1 = some (redirect n1 n2 pn) ∧
      (∀ a, L1 = some a → rd m' a = (rd m a).map fun n => { n with parent := some n2 }) ∧
      (∀ a, L2 = some a ∨ R2 = some a →
        rd m' a = (rd m a).map fun n => { n with parent := some n1 }) ∧
      (∀ x, x ≠ n1 → x ≠ n2 → x ≠ p1 → L1 ≠ some x → L2 ≠ some x → R2 ≠ some x →
        rd m' x = rd m x) := by
  have hL1n1 : L1 ≠ some n1 := fun e => (hL1 _ e).2.1 rfl
  have hL1n2 : L1 ≠ some n2 := fun e => (hL1 _ e).2.2.1 rfl
  have hL1p : L1 ≠ some p1 := fun e => (hL1 _ e).2.2.2 rfl
  have hL2n1 : L2 ≠ some n1 := fun e => (hL2 _ e).2.1 rfl
  have hL2n2 : L2 ≠ some n2 := fun e => (hL2 _ e).2.2.1 rfl
  have hL2p : L2 ≠ some p1 := fun e => (hL2 _ e).2.2.2.1 rfl
  have hR2n1 : R2 ≠ some n1 := fun e => (hR2 _ e).2.1 rfl
  have hR2n2 : R2 ≠ some n2 := fun e => (hR2 _ e).2.2.1 rfl
  have hR2p : R2 ≠ some p1 := fun e => (hR2 _ e).2.2.2.1 rfl
  have hsp : (some p1 : Option Nat) ≠ some n2 := by simpa using hp2
  -- the parents
  have e1 := relinkFrom_spec (b := n2) h1 rfl hp (Ne.symm hp1)
  have r1 : ∀ x, rd (wr m p1 (redirect n1 n2 pn)) x =
      if x = p1 then some (redirect n1 n2 pn) else rd m x := rd_wr_of_some hp _
  have h2a : rd (wr m p1 (redirect n1 n2 pn)) n2 = some ⟨kv2, some n1, L2, R2, c2⟩ := by
    rw [r1, if_neg (Ne.symm hp2), h2]
  have h1a : rd (wr m p1 (redirect n1 n2 pn)) n1 = some ⟨kv1, some p1, L1, some n2, c1⟩ := by
    rw [r1, if_neg (Ne.symm hp1), h1]
  have e2 := relinkFrom_spec (b := n1) h2a rfl h1a (Ne.symm n12)
  have hred : redirect n2 n1 (⟨kv1, some p1, L1, some n2, c1⟩ : RB_Node K V) =
      ⟨kv1, some p1, L1, some n1, c1⟩ := by
    simp [redirect, hsp, hL1n2]
  rw [hred] at e2
  generalize hm2 : wr (wr m p1 (redirect n1 n2 pn)) n1 ⟨kv1, some p1, L1, some n1, c1⟩ = m2
    at e2
  have r2 : ∀ x, rd m2 x = if x = n1 then some ⟨kv1, some p1, L1, some n1, c1⟩
      else if x = p1 then some (redirect n1 n2 pn) else rd m x := by
    intro x
    rw [← hm2, rd_wr_of_some h1a, r1]
  have l2 : m2.mem.length = m.mem.length := by rw [← hm2]; simp
  have s2 : m2._size = m._size := by rw [← hm2]; rfl
  -- the parent links
  have h1b : rd m2 n1 = some ⟨kv1, some p1, L1, some n1, c1⟩ := by rw [r2, if_pos rfl]
  have h2b : rd m2 n2 = some ⟨kv2, some n1, L2, R2, c2⟩ := by
    rw [r2, if_neg (Ne.symm n12), if_neg (Ne.symm hp2), h2]
  have e3 := swapParentFields_eq h1b h2b n12
  simp only at e3
  have h1c' : rd (wr m2 n2 ⟨kv2, some p1, L2, R2, c2⟩) n1 =
      some ⟨kv1, some p1, L1, some n1, c1⟩ := by
    rw [rd_wr_ne _ _ n12, h1b]
  generalize hm3 : wr (wr m2 n2 ⟨kv2, some p1, L2, R2, c2⟩) n1
    ⟨kv1, some n1, L1, some n1, c1⟩ = m3 at e3
  have r3 : ∀ x, rd m3 x = if x = n1 then some ⟨kv1, some n1, L1, some n1, c1⟩
      else if x = n2 then some ⟨kv2, some p1, L2, R2, c2⟩ else rd m2 x := by
    intro x
    rw [← hm3, rd_wr_of_some h1c', rd_wr_of_some h2b]
  have l3 : m3.mem.length = m.mem.length := by rw [← hm3]; simpa using l2
  have s3 : m3._size = m._size := by rw [← hm3]; exact s2
  -- the left links
  have h1c : rd m3 n1 = some ⟨kv1, some n1, L1, some n1, c1⟩ := by rw [r3, if_pos rfl]
  have h2c : rd m3 n2 = some ⟨kv2, some p1, L2, R2, c2⟩ := by
    rw [r3, if_neg (Ne.symm n12), if_pos rfl]
  have e4 := swapLeftFields_eq h1c h2c n12
  simp only at e4
  have h1d' : rd (wr m3 n2 ⟨kv2, some p1, L1, R2, c2⟩) n1 =
      some ⟨kv1, some n1, L1, some n1, c1⟩ := by
    rw [rd_wr_ne _ _ n12, h1c]
  generalize hm4 : wr (wr m3 n2 ⟨kv2, some p1, L1, R2, c2⟩) n1
    ⟨kv1, some n1, L2, some n1, c1⟩ = m4 at e4
  have r4 : ∀ x, rd m4 x = if x = n1 then some ⟨kv1, some n1, L2, some n1, c1⟩
      else if x = n2 then some ⟨kv2, some p1, L1, R2, c2⟩
      else if x = p1 then some (redirect n1 n2 pn) else rd m x := by
    intro x
    rw [← hm4, rd_wr_of_some h1d', rd_wr_of_some h2c, r3, r2]
    by_cases hx1 : x = n1
    · simp [hx1]
    · by_cases hx2 : x = n2
      · simp [hx1, hx2]
      · simp [hx1, hx2]
  have l4 : m4.mem.length = m.mem.length := by rw [← hm4]; simpa using l3
  have s4 : m4._size = m._size := by rw [← hm4]; exact s3
  have h1d : rd m4 n1 = some ⟨kv1, some n1, L2, some n1, c1⟩ := by rw [r4, if_pos rfl]
  have h2d : rd m4 n2 = some ⟨kv2, some p1, L1, R2, c2⟩ := by
    rw [r4, if_neg (Ne.symm n12), if_pos rfl]
  have alloc4 : ∀ a, a ≠ n1 → a ≠ n2 → (∃ n, rd m a = some n) → ∃ n, rd m4 a = some n := by
    intro a ha1 ha2 ⟨n, hn⟩
    rw [r4, if_neg ha1, if_neg ha2]
    by_cases hb : a = p1
    · exact ⟨_, by rw [if_pos hb]⟩
    · exact ⟨n, by rw [if_neg hb, hn]⟩
  obtain ⟨m5, e5, l5, s5, r5⟩ := adopt_rd (m := m4) (o := L2) (some n1) (fun a ha => by
    obtain ⟨hal, ha1, ha2, -⟩ := hL2 a ha
    exact alloc4 a ha1 ha2 hal)
  have h2e : rd m5 n2 = some ⟨kv2, some p1, L1, R2, c2⟩ := by
    rw [r5, if_neg hL2n2, h2d]
  obtain ⟨m6, e6, l6, s6, r6⟩ := adopt_rd (m := m5) (o := L1) (some n2) (fun a ha => by
    obtain ⟨hal, ha1, ha2, -⟩ := hL1 a ha
    obtain ⟨n, hn⟩ := alloc4 a ha1 ha2 hal
    rw [r5, hn]
    by_cases hb : L2 = some a <;> simp [hb])
  have e456 : exchangeLeft m3 n1 n2 = some m6 := by
    simp only [exchangeLeft, e4, Option.bind_eq_bind, Option.some_bind, adoptLeft_eq h1d, e5,
      adoptLeft_eq h2e, e6]
  -- the right links
  have h1f : rd m6 n1 = some ⟨kv1, some n1, L2, some n1, c1⟩ := by
    rw [r6, if_neg hL1n1, r5, if_neg hL2n1, h1d]
  have h2f : rd m6 n2 = some ⟨kv2, some p1, L1, R2, c2⟩ := by
    rw [r6, if_neg hL1n2, h2e]
  have e7 := swapRightFields_eq h1f h2f n12
  simp only at e7
  have h1g' : rd (wr m6 n2 ⟨kv2, some p1, L1, some n1, c2⟩) n1 =
      some ⟨kv1, some n1, L2, some n1, c1⟩ := by
    rw [rd_wr_ne _ _ n12, h1f]
  generalize hm7 : wr (wr m6 n2 ⟨kv2, some p1, L1, some n1, c2⟩) n1
    ⟨kv1, some n1, L2, R2, c1⟩ = m7 at e7
  have r7 : ∀ x, rd m7 x = if x = n1 then some ⟨kv1, some n1, L2, R2, c1⟩
      else if x = n2 then some ⟨kv2, some p1, L1, some n1, c2⟩ else rd m6 x := by
    intro x
    rw [← hm7, rd_wr_of_some h1g', rd_wr_of_some h2f]
  have l7 : m7.mem.length = m.mem.length := by
    rw [← hm7]; simp only [wr_length]; rw [l6, l5, l4]
  have s7 : m7._size = m._size := by
    rw [← hm7]; simp only [wr_size]; rw [s6, s5, s4]
  have h1g : rd m7 n1 = some ⟨kv1, some n1, L2, R2, c1⟩ := by rw [r7, if_pos rfl]
  have h2g : rd m7 n2 = some ⟨kv2, some p1, L1, some n1, c2⟩ := by
    rw [r7, if_neg (Ne.symm n12), if_pos rfl]
  have rest6 : ∀ x, x ≠ n1 → x ≠ n2 → rd m6 x =
      if L1 = some x then ((if L2 = some x then (rd m4 x).map
          (fun n => { n with parent := some n1 }) else rd m4 x)).map
          (fun n => { n with parent := some n2 })
        else (if L2 = some x then (rd m4 x).map (fun n => { n with parent := some n1 })
          else rd m4 x) := by
    intro x _ _
    rw [r6, r5]
  have alloc6 : ∀ a, a ≠ n1 → a ≠ n2 → (∃ n, rd m a = some n) → ∃ n, rd m6 a = some n := by
    intro a ha1 ha2 hal
    obtain ⟨n, hn⟩ := alloc4 a ha1 ha2 hal
    rw [rest6 a ha1 ha2, hn]
    by_cases hb : L1 = some a <;> by_cases hc : L2 = some a <;> simp [hb, hc]
  obtain ⟨m8, e8, l8, s8, r8⟩ := adopt_rd (m := m7) (o := R2) (some n1) (fun a ha => by
    obtain ⟨hal, ha1, ha2, -⟩ := hR2 a ha
    rw [r7, if_neg ha1, if_neg ha2]
    exact alloc6 a ha1 ha2 hal)
  have h1h : rd m8 n1 = some ⟨kv1, some n1, L2, R2, c1⟩ := by
    rw [r8, if_neg hR2n1, h1g]
  have h2h : rd m8 n2 = some ⟨kv2, some p1, L1, some n1, c2⟩ := by
    rw [r8, if_neg hR2n2, h2g]
  obtain ⟨m9, e9, l9, s9, r9⟩ := adopt_rd (m := m8) (o := some n1) (some n2) (fun a ha => by
    cases ha
    exact ⟨_, h1h⟩)
  have e789 : exchangeRight m6 n1 n2 = some m9 := by
    simp only [exchangeRight, e7, Option.bind_eq_bind, Option.some_bind, adoptRight_eq h1g, e8,
      adoptRight_eq h2h, e9]
  -- the colours
  have h1i : rd m9 n1 = some ⟨kv1, some n2, L2, R2, c1⟩ := by
    rw [r9, if_pos rfl, h1h]
    rfl
  have h2i : rd m9 n2 = some ⟨kv2, some p1, L1, some n1, c2⟩ := by
    rw [r9, if_neg (by simpa using n12), h2h]
  have e10 := swapColorFields_eq h1i h2i n12
  simp only at e10
  have h2j' : rd (wr m9 n1 ⟨kv1, some n2, L2, R2, c2⟩) n2 =
      some ⟨kv2, some p1, L1, some n1, c2⟩ := by
    rw [rd_wr_ne _ _ (Ne.symm n12), h2i]
  generalize hm10 : wr (wr m9 n1 ⟨kv1, some n2, L2, R2, c2⟩) n2
    ⟨kv2, some p1, L1, some n1, c1⟩ = m10 at e10
  have r10 : ∀ x, rd m10 x = if x = n2 then some ⟨kv2, some p1, L1, some n1, c1⟩
      else if x = n1 then some ⟨kv1, some n2, L2, R2, c2⟩ else rd m9 x := by
    intro x
    rw [← hm10, rd_wr_of_some h2j', rd_wr_of_some h1i]
  have rest10 : ∀ x, x ≠ n1 → x ≠ n2 → rd m10 x =
      if R2 = some x then (rd m6 x).map (fun n => { n with parent := some n1 })
        else rd m6 x := by
    intro x hx1 hx2
    rw [r10, if_neg hx2, if_neg hx1, r9, if_neg (by simpa using Ne.symm hx1), r8, r7,
      if_neg hx1, if_neg hx2]
  have rest4 : ∀ x, x ≠ n1 → x ≠ n2 → rd m4 x =
      if x = p1 then some (redirect n1 n2 pn) else rd m x := by
    intro x hx1 hx2
    rw [r4, if_neg hx1, if_neg hx2]
  refine ⟨m10, ?_, ?_, ?_, ?_, ?_, ?_, ?_, ?_, ?_⟩
  · simp only [swapNodes, if_neg n12, e1, e2, e3, e456, e789, e10, Option.bind_eq_bind,
      Option.some_bind]
  · rw [← hm10]; simp only [wr_length]; rw [l9, l8, l7]
  · rw [← hm10]; simp only [wr_size]; rw [s9, s8, s7]
  · rw [r10, if_neg n12, if_pos rfl]
  · rw [r10, if_pos rfl]
  · rw [rest10 p1 hp1 hp2, rest6 p1 hp1 hp2, if_neg hR2p, if_neg hL1p, if_neg hL2p,
      rest4 p1 hp1 hp2, if_pos rfl]
  · intro a ha
    obtain ⟨-, ha1, ha2, hap⟩ := hL1 a ha
    have hL2a : L2 ≠ some a := fun e => (hL2 a e).2.2.2.2 ha
    have hR2a : R2 ≠ some a := fun e => (hR2 a e).2.2.2.2 ha
    rw [rest10 a ha1 ha2, rest6 a ha1 ha2, if_neg hR2a, if_pos ha, if_neg hL2a,
      rest4 a ha1 ha2, if_neg hap]
  · intro a ha
    have ha1 : a ≠ n1 := by
      rcases ha with ha | ha
      · exact (hL2 a ha).2.1
      · exact (hR2 a ha).2.1
    have ha2 : a ≠ n2 := by
      rcases ha with ha | ha
      · exact (hL2 a ha).2.2.1
      · exact (hR2 a ha).2.2.1
    have hap : a ≠ p1 := by
      rcases ha with ha | ha
      · exact (hL2 a ha).2.2.2.1
      · exact (hR2 a ha).2.2.2.1
    have hL1a : L1 ≠ some a := by
      rcases ha with ha | ha
      · exact (hL2 a ha).2.2.2.2
      · exact (hR2 a ha).2.2.2.2
    rw [rest10 a ha1 ha2, rest6 a ha1 ha2, if_neg hL1a, rest4 a ha1 ha2, if_neg hap]
    by_cases hb : L2 = some a <;> by_cases hc : R2 = some a
    · simp only [hb, hc, if_true]
      cases rd m a <;> rfl
    · simp [hb, hc]
    · simp [hb, hc]
    · rcases ha with ha | ha
      · exact absurd ha hb
      · exact absurd ha hc
  · intro x hx1 hx2 hxp hxL1 hxL2 hxR2
    rw [rest10 x hx1 hx2, rest6 x hx1 hx2, if_neg hxR2, if_neg hxL1, if_neg hxL2,
      rest4 x hx1 hx2, if_neg hxp]

/-- `swapNodes(n1, n2)` on the cells, when `n2` is the left child of `n1`. -/
theorem swapNodes_near_left {m : Map K V} {n1 n2 p1 : Nat} {kv1 kv2 : K × V}
    {R1 L2 R2 : Option Nat} {c1 c2 : Color} {pn : RB_Node K V}
    (h1 : rd m n1 = some ⟨kv1, some p1, some n2, R1, c1⟩)
    (h2 : rd m n2 = some ⟨kv2, some n1, L2, R2, c2⟩)
    (hp : rd m p1 = some pn)
    (n12 : n1 ≠ n2) (hp1 : p1 ≠ n1) (hp2 : p1 ≠ n2)
    (hR1 : ∀ a, R1 = some a → (∃ n, rd m a = some n) ∧ a ≠ n1 ∧ a ≠ n2 ∧ a ≠ p1)
    (hL2 : ∀ a, L2 = some a → (∃ n, rd m a = some n) ∧ a ≠ n1 ∧ a ≠ n2 ∧ a ≠ p1 ∧
      R1 ≠ some a)
    (hR2 : ∀ a, R2 = some a → (∃ n, rd m a = some n) ∧ a ≠ n1 ∧ a ≠ n2 ∧ a ≠ p1 ∧
      R1 ≠ some a) :
    ∃ m', swapNodes m n1 n2 = some m' ∧
      m'.mem.length = m.mem.length ∧ m'._size = m._size ∧
      rd m' n1 = some ⟨kv1, some n2, L2, R2, c2⟩ ∧
      rd m' n2 = some ⟨kv2, some p1, some n1, R1, c1⟩ ∧
      rd m' p1 = some (redirect n1 n2 pn) ∧
      (∀ a, R1 = some a → rd m' a = (rd m a).map fun n => { n with parent := some n2 }) ∧
      (∀ a, L2 = some a ∨ R2 = some a →
        rd m' a = (rd m a).map fun n => { n with parent := some n1 }) ∧
      (∀ x, x ≠ n1 → x ≠ n2 → x ≠ p1 → R1 ≠ some x → L2 ≠ some x → R2 ≠ some x →
        rd m' x = rd m x) := by
  have hR1n1 : R1 ≠ some n1 := fun e => (hR1 _ e).2.1 rfl
  have hR1n2 : R1 ≠ some n2 := fun e => (hR1 _ e).2.2.1 rfl
  have hR1p : R1 ≠ some p1 := fun e => (hR1 _ e).2.2.2 rfl
  have hL2n1 : L2 ≠ some n1 := fun e => (hL2 _ e).2.1 rfl
  have hL2n2 : L2 ≠ some n2 := fun e => (hL2 _ e).2.2.1 rfl
  have hL2p : L2 ≠ some p1 := fun e => (hL2 _ e).2.2.2.1 rfl
  have hR2n1 : R2 ≠ some n1 := fun e => (hR2 _ e).2.1 rfl
  have hR2n2 : R2 ≠ some n2 := fun e => (hR2 _ e).2.2.1 rfl
  have hR2p : R2 ≠ some p1 := fun e => (hR2 _ e).2.2.2.1 rfl
  have hsp : (some p1 : Option Nat) ≠ some n2 := by simpa using hp2
  -- the parents
  have e1 := relinkFrom_spec (b := n2) h1 rfl hp (Ne.symm hp1)
  have r1 : ∀ x, rd (wr m p1 (redirect n1 n2 pn)) x =
      if x = p1 then some (redirect n1 n2 pn) else rd m x := rd_wr_of_some hp _
  have h2a : rd (wr m p1 (redirect n1 n2 pn)) n2 = some ⟨kv2, some n1, L2, R2, c2⟩ := by
    rw [r1, if_neg (Ne.symm hp2), h2]
  have h1a : rd (wr m p1 (redirect n1 n2 pn)) n1 = some ⟨kv1, some p1, some n2, R1, c1⟩ := by
    rw [r1, if_neg (Ne.symm hp1), h1]
  have e2 := relinkFrom_spec (b := n1) h2a rfl h1a (Ne.symm n12)
  have hred : redirect n2 n1 (⟨kv1, some p1, some n2, R1, c1⟩ : RB_Node K V) =
      ⟨kv1, some p1, some n1, R1, c1⟩ := by
    simp [redirect, hsp, hR1n2]
  rw [hred] at e2
  generalize hm2 : wr (wr m p1 (redirect n1 n2 pn)) n1 ⟨kv1, some p1, some n1, R1, c1⟩ = m2
    at e2
  have r2 : ∀ x, rd m2 x = if x = n1 then some ⟨kv1, some p1, some n1, R1, c1⟩
      else if x = p1 then some (redirect n1 n2 pn) else rd m x := by
    intro x
    rw [← hm2, rd_wr_of_some h1a, r1]
  have l2 : m2.mem.length = m.mem.length := by rw [← hm2]; simp
  have s2 : m2._size = m._size := by rw [← hm2]; rfl
  -- the parent links
  have h1b : rd m2 n1 = some ⟨kv1, some p1, some n1, R1, c1⟩ := by rw [r2, if_pos rfl]
  have h2b : rd m2 n2 = some ⟨kv2, some n1, L2, R2, c2⟩ := by
    rw [r2, if_neg (Ne.symm n12), if_neg (Ne.symm hp2), h2]
  have e3 := swapParentFields_eq h1b h2b n12
  simp only at e3
  have h1c' : rd (wr m2 n2 ⟨kv2, some p1, L2, R2, c2⟩) n1 =
      some ⟨kv1, some p1, some n1, R1, c1⟩ := by
    rw [rd_wr_ne _ _ n12, h1b]
  generalize hm3 : wr (wr m2 n2 ⟨kv2, some p1, L2, R2, c2⟩) n1
    ⟨kv1, some n1, some n1, R1, c1⟩ = m3 at e3
  have r3 : ∀ x, rd m3 x = if x = n1 then some ⟨kv1, some n1, some n1, R1, c1⟩
      else if x = n2 then some ⟨kv2, some p1, L2, R2, c2⟩ else rd m2 x := by
    intro x
    rw [← hm3, rd_wr_of_some h1c', rd_wr_of_some h2b]
  have l3 : m3.mem.length = m.mem.length := by rw [← hm3]; simpa using l2
  have s3 : m3._size = m._size := by rw [← hm3]; exact s2
  -- the left links
  have h1c : rd m3 n1 = some ⟨kv1, some n1, some n1, R1, c1⟩ := by rw [r3, if_pos rfl]
  have h2c : rd m3 n2 = some ⟨kv2, some p1, L2, R2, c2⟩ := by
    rw [r3, if_neg (Ne.symm n12), if_pos rfl]
  have e4 := swapLeftFields_eq h1c h2c n12
  simp only at e4
  have h1d' : rd (wr m3 n2 ⟨kv2, some p1, some n1, R2, c2⟩) n1 =
      some ⟨kv1, some n1, some n1, R1, c1⟩ := by
    rw [rd_wr_ne _ _ n12, h1c]
  generalize hm4 : wr (wr m3 n2 ⟨kv2, some p1, some n1, R2, c2⟩) n1
    ⟨kv1, some n1, L2, R1, c1⟩ = m4 at e4
  have r4 : ∀ x, rd m4 x = if x = n1 then some ⟨kv1, some n1, L2, R1, c1⟩
      else if x = n2 then some ⟨kv2, some p1, some n1, R2, c2⟩
      else if x = p1 then some (redirect n1 n2 pn) else rd m x := by
    intro x
    rw [← hm4, rd_wr_of_some h1d', rd_wr_of_some h2c, r3, r2]
    by_cases hx1 : x = n1
    · simp [hx1]
    · by_cases hx2 : x = n2
      · simp [hx1, hx2]
      · simp [hx1, hx2]
  have l4 : m4.mem.length = m.mem.length := by rw [← hm4]; simpa using l3
  have s4 : m4._size = m._size := by rw [← hm4]; exact s3
  have h1d : rd m4 n1 = some ⟨kv1, some n1, L2, R1, c1⟩ := by rw [r4, if_pos rfl]
  have h2d : rd m4 n2 = some ⟨kv2, some p1, some n1, R2, c2⟩ := by
    rw [r4, if_neg (Ne.symm n12), if_pos rfl]
  have alloc4 : ∀ a, a ≠ n1 → a ≠ n2 → (∃ n, rd m a = some n) → ∃ n, rd m4 a = some n := by
    intro a ha1 ha2 ⟨n, hn⟩
    rw [r4, if_neg ha1, if_neg ha2]
    by_cases hb : a = p1
    · exact ⟨_, by rw [if_pos hb]⟩
    · exact ⟨n, by rw [if_neg hb, hn]⟩
  obtain ⟨m5, e5, l5, s5, r5⟩ := adopt_rd (m := m4) (o := L2) (some n1) (fun a ha => by
    obtain ⟨hal, ha1, ha2, -⟩ := hL2 a ha
    exact alloc4 a ha1 ha2 hal)
  have h1e : rd m5 n1 = some ⟨kv1, some n1, L2, R1, c1⟩ := by
    rw [r5, if_neg hL2n1, h1d]
  have h2e : rd m5 n2 = some ⟨kv2, some p1, some n1, R2, c2⟩ := by
    rw [r5, if_neg hL2n2, h2d]
  obtain ⟨m6, e6, l6, s6, r6⟩ := adopt_rd (m := m5) (o := some n1) (some n2) (fun a ha => by
    cases ha
    exact ⟨_, h1e⟩)
  have e456 : exchangeLeft m3 n1 n2 = some m6 := by
    simp only [exchangeLeft, e4, Option.bind_eq_bind, Option.some_bind, adoptLeft_eq h1d, e5,
      adoptLeft_eq h2e, e6]
  -- the right links
  have h1f : rd m6 n1 = some ⟨kv1, some n2, L2, R1, c1⟩ := by
    rw [r6, if_pos rfl, h1e]
    rfl
  have h2f : rd m6 n2 = some ⟨kv2, some p1, some n1, R2, c2⟩ := by
    rw [r6, if_neg (by simpa using n12), h2e]
  have e7 := swapRightFields_eq h1f h2f n12
  simp only at e7
  have h1g' : rd (wr m6 n2 ⟨kv2, some p1, some n1, R1, c2⟩) n1 =
      some ⟨kv1, some n2, L2, R1, c1⟩ := by
    rw [rd_wr_ne _ _ n12, h1f]
  generalize hm7 : wr (wr m6 n2 ⟨kv2, some p1, some n1, R1, c2⟩) n1
    ⟨kv1, some n2, L2, R2, c1⟩ = m7 at e7
  have r7 : ∀ x, rd m7 x = if x = n1 then some ⟨kv1, some n2, L2, R2, c1⟩
      else if x = n2 then some ⟨kv2, some p1, some n1, R1, c2⟩ else rd m6 x := by
    intro x
    rw [← hm7, rd_wr_of_some h1g', rd_wr_of_some h2f]
  have l7 : m7.mem.length = m.mem.length := by
    rw [← hm7]; simp only [wr_length]; rw [l6, l5, l4]
  have s7 : m7._size = m._size := by
    rw [← hm7]; simp only [wr_size]; rw [s6, s5, s4]
  have h1g : rd m7 n1 = some ⟨kv1, some n2, L2, R2, c1⟩ := by rw [r7, if_pos rfl]
  have h2g : rd m7 n2 = some ⟨kv2, some p1, some n1, R1, c2⟩ := by
    rw [r7, if_neg (Ne.symm n12), if_pos rfl]
  have rest6 : ∀ x, x ≠ n1 → x ≠ n2 → rd m6 x =
      if L2 = some x then (rd m4 x).map (fun n => { n with parent := some n1 })
        else rd m4 x := by
    intro x hx1 _
    rw [r6, if_neg (by simpa using Ne.symm hx1), r5]
  have alloc6 : ∀ a, a ≠ n1 → a ≠ n2 → (∃ n, rd m a = some n) → ∃ n, rd m6 a = some n := by
    intro a ha1 ha2 hal
    obtain ⟨n, hn⟩ := alloc4 a ha1 ha2 hal
    rw [rest6 a ha1 ha2, hn]
    by_cases hc : L2 = some a <;> simp [hc]
  obtain ⟨m8, e8, l8, s8, r8⟩ := adopt_rd (m := m7) (o := R2) (some n1) (fun a ha => by
    obtain ⟨hal, ha1, ha2, -⟩ := hR2 a ha
    rw [r7, if_neg ha1, if_neg ha2]
    exact alloc6 a ha1 ha2 hal)
  have h2h : rd m8 n2 = some ⟨kv2, some p1, some n1, R1, c2⟩ := by
    rw [r8, if_neg hR2n2, h2g]
  obtain ⟨m9, e9, l9, s9, r9⟩ := adopt_rd (m := m8) (o := R1) (some n2) (fun a ha => by
    obtain ⟨hal, ha1, ha2, -⟩ := hR1 a ha
    obtain ⟨n, hn⟩ := alloc6 a ha1 ha2 hal
    rw [r8, r7, if_neg ha1, if_neg ha2, hn]
    by_cases hb : R2 = some a <;> simp [hb])
  have e789 : exchangeRight m6 n1 n2 = some m9 := by
    simp only [exchangeRight, e7, Option.bind_eq_bind, Option.some_bind, adoptRight_eq h1g, e8,
      adoptRight_eq h2h, e9]
  -- the colours
  have h1i : rd m9 n1 = some ⟨kv1, some n2, L2, R2, c1⟩ := by
    rw [r9, if_neg hR1n1, r8, if_neg hR2n1, h1g]
  have h2i : rd m9 n2 = some ⟨kv2, some p1, some n1, R1, c2⟩ := by
    rw [r9, if_neg hR1n2, h2h]
  have e10 := swapColorFields_eq h1i h2i n12
  simp only at e10
  have h2j' : rd (wr m9 n1 ⟨kv1, some n2, L2, R2, c2⟩) n2 =
      some ⟨kv2, some p1, some n1, R1, c2⟩ := by
    rw [rd_wr_ne _ _ (Ne.symm n12), h2i]
  generalize hm10 : wr (wr m9 n1 ⟨kv1, some n2, L2, R2, c2⟩) n2
    ⟨kv2, some p1, some n1, R1, c1⟩ = m10 at e10
  have r10 : ∀ x, rd m10 x = if x = n2 then some ⟨kv2, some p1, some n1, R1, c1⟩
      else if x = n1 then some ⟨kv1, some n2, L2, R2, c2⟩ else rd m9 x := by
    intro x
    rw [← hm10, rd_wr_of_some h2j', rd_wr_of_some h1i]
  have rest10 : ∀ x, x ≠ n1 → x ≠ n2 → rd m10 x =
      if R1 = some x then ((if R2 = some x then (rd m6 x).map
          (fun n => { n with parent := some n1 }) else rd m6 x)).map
          (fun n => { n with parent := some n2 })
        else (if R2 = some x then (rd m6 x).map (fun n => { n with parent := some n1 })
          else rd m6 x) := by
    intro x hx1 hx2
    rw [r10, if_neg hx2, if_neg hx1, r9, r8, r7, if_neg hx1, if_neg hx2]
  have rest4 : ∀ x, x ≠ n1 → x ≠ n2 → rd m4 x =
      if x = p1 then some (redirect n1 n2 pn) else rd m x := by
    intro x hx1 hx2
    rw [r4, if_neg hx1, if_neg hx2]
  refine ⟨m10, ?_, ?_, ?_, ?_, ?_, ?_, ?_, ?_, ?_⟩
  · simp only [swapNodes, if_neg n12, e1, e2, e3, e456, e789, e10, Option.bind_eq_bind,
      Option.some_bind]
  · rw [← hm10]; simp only [wr_length]; rw [l9, l8, l7]
  · rw [← hm10]; simp only [wr_size]; rw [s9, s8, s7]
  · rw [r10, if_neg n12, if_pos rfl]
  · rw [r10, if_pos rfl]
  · rw [rest10 p1 hp1 hp2, rest6 p1 hp1 hp2, if_neg hR1p, if_neg hR2p, if_neg hL2p,
      rest4 p1 hp1 hp2, if_pos rfl]
  · intro a ha
    obtain ⟨-, ha1, ha2, hap⟩ := hR1 a ha
    have hL2a : L2 ≠ some a := fun e => (hL2 a e).2.2.2.2 ha
    have hR2a : R2 ≠ some a := fun e => (hR2 a e).2.2.2.2 ha
    rw [rest10 a ha1 ha2, rest6 a ha1 ha2, if_pos ha, if_neg hR2a, if_neg hL2a,
      rest4 a ha1 ha2, if_neg hap]
  · intro a ha
    have ha1 : a ≠ n1 := by
      rcases ha with ha | ha
      · exact (hL2 a ha).2.1
      · exact (hR2 a ha).2.1
    have ha2 : a ≠ n2 := by
      rcases ha with ha | ha
      · exact (hL2 a ha).2.2.1
      · exact (hR2 a ha).2.2.1
    have hap : a ≠ p1 := by
      rcases ha with ha | ha
      · exact (hL2 a ha).2.2.2.1
      · exact (hR2 a ha).2.2.2.1
    have hR1a : R1 ≠ some a := by
      rcases ha with ha | ha
      · exact (hL2 a ha).2.2.2.2
      · exact (hR2 a ha).2.2.2.2
    rw [rest10 a ha1 ha2, rest6 a ha1 ha2, if_neg hR1a, rest4 a ha1 ha2, if_neg hap]
    by_cases hb : L2 = some a <;> by_cases hc : R2 = some a
    · simp only [hb, hc, if_true]
      cases rd m a <;> rfl
    · simp [hb, hc]
    · simp [hb, hc]
    · rcases ha with ha | ha
      · exact absurd ha hb
      · exact absurd ha hc
  · intro x hx1 hx2 hxp hxR1 hxL2 hxR2
    rw [rest10 x hx1 hx2, rest6 x hx1 hx2, if_neg hxR1, if_neg hxR2, if_neg hxL2,
      rest4 x hx1 hx2, if_neg hxp]

/-! ## Subtrees that change their parent -/

/-- A tree stays held by a store in which only the parent link of its root
has changed. -/
theorem Rep.reparent {m m' : Map K V} {par par' : Option Nat} {t : Tree K V}
    (h : Rep m par t) (hnd : t.addrs.Nodup)
    (hroot : ∀ a, t.root = some a → rd m' a = (rd m a).map fun n => { n with parent := par' })
    (hrest : ∀ x ∈ t.addrs, t.root ≠ some x → rd m' x = rd m x) : Rep m' par' t := by
  cases t with
  | nil => trivial
  | node a c l kv r =>
    obtain ⟨hal, har, -, -, -⟩ := Tree.nodup_node.mp hnd
    refine ⟨?_, h.2.1.frame fun x hx => ?_, h.2.2.frame fun x hx => ?_⟩
    · rw [hroot a rfl, h.1]
      rfl
    · refine hrest x (Tree.mem_addrs_node.mpr (Or.inr (Or.inl hx))) ?_
      simp only [Tree.root_node, ne_eq, Option.some.injEq]
      exact fun e => hal (e ▸ hx)
    · refine hrest x (Tree.mem_addrs_node.mpr (Or.inr (Or.inr hx))) ?_
      simp only [Tree.root_node, ne_eq, Option.some.injEq]
      exact fun e => har (e ▸ hx)

theorem Path.rep_hole_at {m : Map K V} {d : Nat} (p : Path K V) : ∀ {s : Tree K V},
    Rep m (some d) (p.plug s) → Rep m (some (p.parentOr d)) s := by
  induction p with
  | top => intro s h; exact h
  | left a c kv sib up ih => intro s h; exact (ih h).2.1
  | right a c kv sib up ih => intro s h; exact (ih h).2.2

/-- The root of a tree below a path with at least one ancestor is the topmost
ancestor, whatever the subtree at the end of the path. -/
theorem Path.root_plug_any (p : Path K V) (hp : p ≠ Path.top) (s s' : Tree K V) :
    (p.plug s').root = (p.plug s).root := by
  cases p with
  | top => exact absurd rfl hp
  | left a c kv sib up => exact Path.root_plug_eq up rfl
  | right a c kv sib up => exact Path.root_plug_eq up rfl

/-- The tree below a path, moved under another parent, with another subtree
with the same root at the end of the path: the root gets a new parent link and
no other cell of the surroundings changes. -/
theorem Path.rep_rebase {m m' : Map K V} {d d' : Nat} (p : Path K V) :
    ∀ {s s' : Tree K V}, Rep m (some d) (p.plug s) → (p.plug s).addrs.Nodup →
    Rep m' (some (p.parentOr d')) s' → s'.root = s.root →
    (p ≠ Path.top → ∀ a, (p.plug s).root = some a →
      rd m' a = (rd m a).map fun n => { n with parent := some d' }) →
    (∀ x ∈ p.addrs, (p.plug s).root ≠ some x → rd m' x = rd m x) →
    Rep m' (some d') (p.plug s') := by
  induction p with
  | top => intro s s' _ _ h' _ _ _; exact h'
  | left a c kv sib up ih =>
    intro s s' h hnd h' hroot htop hrest
    have hX := Path.rep_hole_at up h
    have hndX := (Path.nodup_plug (p := up) (s := node a c s kv sib) hnd)
    have hrootne : ∀ x ∈ sib.addrs, (up.plug (node a c s kv sib)).root ≠ some x := by
      intro x hx
      have hxX : x ∈ (node a c s kv sib).addrs := Tree.mem_addrs_node.mpr (Or.inr (Or.inr hx))
      have hxa : a ≠ x := fun e => (Tree.nodup_node.mp hndX.1).2.1 (e ▸ hx)
      rcases Path.root_plug up (node a c s kv sib) with ⟨-, e⟩ | ⟨z, hz, e⟩
      · rw [e]
        simpa using hxa
      · rw [e]
        intro e'
        cases e'
        exact hndX.2.2 _ hxX hz
    have hsib : Rep m' (some a) sib := hX.2.2.frame fun x hx =>
      hrest x (by simp [Path.addrs, hx]) (hrootne x hx)
    refine ih h hnd ⟨?_, h', hsib⟩ rfl ?_ ?_
    · cases up with
      | top =>
        have := htop (by simp) a rfl
        rw [this, hX.1, hroot]
        rfl
      | left b bc bkv bsib up' =>
        have hne : (((Path.left b bc bkv bsib up').plug (node a c s kv sib)).root) ≠ some a := by
          rcases Path.root_plug (Path.left b bc bkv bsib up') (node a c s kv sib) with ⟨e, -⟩ | ⟨z, hz, e⟩
          · cases e
          · rw [e]
            intro e'
            cases e'
            exact hndX.2.2 _ (Tree.mem_addrs_node.mpr (Or.inl rfl)) hz
        rw [hrest a (by simp [Path.addrs]) hne, hX.1, hroot]
        rfl
      | right b bc bkv bsib up' =>
        have hne : (((Path.right b bc bkv bsib up').plug (node a c s kv sib)).root) ≠ some a := by
          rcases Path.root_plug (Path.right b bc bkv bsib up') (node a c s kv sib) with
            ⟨e, -⟩ | ⟨z, hz, e⟩
          · cases e
          · rw [e]
            intro e'
            cases e'
            exact hndX.2.2 _ (Tree.mem_addrs_node.mpr (Or.inl rfl)) hz
        rw [hrest a (by simp [Path.addrs]) hne, hX.1, hroot]
        rfl
    · intro hup b hb
      exact htop (by simp) b hb
    · intro x hx hne
      exact hrest x (by simp [Path.addrs, hx]) hne
  | right a c kv sib up ih =>
    intro s s' h hnd h' hroot htop hrest
    have hX := Path.rep_hole_at up h
    have hndX := (Path.nodup_plug (p := up) (s := node a c sib kv s) hnd)
    have hrootne : ∀ x ∈ sib.addrs, (up.plug (node a c sib kv s)).root ≠ some x := by
      intro x hx
      have hxX : x ∈ (node a c sib kv s).addrs := Tree.mem_addrs_node.mpr (Or.inr (Or.inl hx))
      have hxa : a ≠ x := fun e => (Tree.nodup_node.mp hndX.1).1 (e ▸ hx)
      rcases Path.root_plug up (node a c sib kv s) with ⟨-, e⟩ | ⟨z, hz, e⟩
      · rw [e]
        simpa using hxa
      · rw [e]
        intro e'
        cases e'
        exact hndX.2.2 _ hxX hz
    have hsib : Rep m' (some a) sib := hX.2.1.frame fun x hx =>
      hrest x (by simp [Path.addrs, hx]) (hrootne x hx)
    refine ih h hnd ⟨?_, hsib, h'⟩ rfl ?_ ?_
    · cases up with
      | top =>
        have := htop (by simp) a rfl
        rw [this, hX.1, hroot]
        rfl
      | left b bc bkv bsib up' =>
        have hne : (((Path.left b bc bkv bsib up').plug (node a c sib kv s)).root) ≠ some a := by
          rcases Path.root_plug (Path.left b bc bkv bsib up') (node a c sib kv s) with ⟨e, -⟩ | ⟨z, hz, e⟩
          · cases e
          · rw [e]
            intro e'
            cases e'
            exact hndX.2.2 _ (Tree.mem_addrs_node.mpr (Or.inl rfl)) hz
        rw [hrest a (by simp [Path.addrs]) hne, hX.1, hroot]
        rfl
      | right b bc bkv bsib up' =>
        have hne : (((Path.right b bc bkv bsib up').plug (node a c sib kv s)).root) ≠ some a := by
          rcases Path.root_plug (Path.right b bc bkv bsib up') (node a c sib kv s) with
            ⟨e, -⟩ | ⟨z, hz, e⟩
          · cases e
          · rw [e]
            intro e'
            cases e'
            exact hndX.2.2 _ (Tree.mem_addrs_node.mpr (Or.inl rfl)) hz
        rw [hrest a (by simp [Path.addrs]) hne, hX.1, hroot]
        rfl
    · intro hup b hb
      exact htop (by simp) b hb
    · intro x hx hne
      exact hrest x (by simp [Path.addrs, hx]) hne

theorem Tree.root_ne_of_not_mem {t : Tree K V} {x : Nat} (h : x ∉ t.addrs) :
    t.root ≠ some x := fun e => h (Tree.root_mem e)

theorem Rep.root_cell {m : Map K V} {par : Option Nat} {t : Tree K V} {a : Nat}
    (h : Rep m par t) (hroot : t.root = some a) : ∃ n, rd m a = some n := by
  cases t with
  | nil => cases hroot
  | node b c l kv r =>
    simp only [Tree.root_node, Option.some.injEq] at hroot
    subst hroot
    exact ⟨_, h.1⟩

/-- `swapNodes(n1, n2)` for a node `n2` that is a left child in the right
subtree of `n1`, and not a child of `n1`: the store holds the subtree of
`n1` with the two nodes exchanged, every position with the colour it had. -/
theorem swap_succ_far {m : Map K V} {p1 n1 n2 q : Nat} {c1 c2 qc : Color}
    {l l2 r2 qsib : Tree K V} {kv1 kv2 qkv : K × V} {up : Path K V} {pn : RB_Node K V}
    (hX : Rep m (some p1)
      (node n1 c1 l kv1 (up.plug (node q qc (node n2 c2 l2 kv2 r2) qkv qsib))))
    (hnd : (node n1 c1 l kv1
      (up.plug (node q qc (node n2 c2 l2 kv2 r2) qkv qsib))).addrs.Nodup)
    (hp : p1 ∉ (node n1 c1 l kv1
      (up.plug (node q qc (node n2 c2 l2 kv2 r2) qkv qsib))).addrs)
    (hpn : rd m p1 = some pn) :
    ∃ m', swapNodes m n1 n2 = some m' ∧ m'.mem.length = m.mem.length ∧ m'._size = m._size ∧
      Rep m' (some p1)
        (node n2 c1 l kv2 (up.plug (node q qc (node n1 c2 l2 kv1 r2) qkv qsib))) ∧
      rd m' p1 = some (redirect n1 n2 pn) ∧
      ∀ x, x ∉ (node n1 c1 l kv1
        (up.plug (node q qc (node n2 c2 l2 kv2 r2) qkv qsib))).addrs → x ≠ p1 →
        rd m' x = rd m x := by
  -- the parts of the subtree
  obtain ⟨hn1l, hn1R, hlR, hndl, hndR⟩ := Tree.nodup_node.mp hnd
  obtain ⟨hndSq, hndup, hSqup⟩ := Path.nodup_plug hndR
  obtain ⟨hqN2, hqsib, hN2sib, hndN2, hndsib⟩ := Tree.nodup_node.mp hndSq
  obtain ⟨hn2l2, hn2r2, hl2r2, hndl2, hndr2⟩ := Tree.nodup_node.mp hndN2
  have hR := hX.2.2
  have hSq := Path.rep_hole_at up hR
  have h1 := hX.1
  have hq := hSq.1
  have h2 := hSq.2.1.1
  simp only [Tree.root_node] at hq h2
  have memR : ∀ {x}, x ∈ (up.plug (node q qc (node n2 c2 l2 kv2 r2) qkv qsib)).addrs ↔
      x ∈ (node q qc (node n2 c2 l2 kv2 r2) qkv qsib).addrs ∨ x ∈ up.addrs := Path.mem_plug
  have hqSq : q ∈ (node q qc (node n2 c2 l2 kv2 r2) qkv qsib).addrs :=
    Tree.mem_addrs_node.mpr (Or.inl rfl)
  have hN2Sq : ∀ x ∈ (node n2 c2 l2 kv2 r2).addrs,
      x ∈ (node q qc (node n2 c2 l2 kv2 r2) qkv qsib).addrs :=
    fun x hx => Tree.mem_addrs_node.mpr (Or.inr (Or.inl hx))
  have hsibSq : ∀ x ∈ qsib.addrs, x ∈ (node q qc (node n2 c2 l2 kv2 r2) qkv qsib).addrs :=
    fun x hx => Tree.mem_addrs_node.mpr (Or.inr (Or.inr hx))
  have hn2N2 : n2 ∈ (node n2 c2 l2 kv2 r2).addrs := Tree.mem_addrs_node.mpr (Or.inl rfl)
  have hl2N2 : ∀ x ∈ l2.addrs, x ∈ (node n2 c2 l2 kv2 r2).addrs :=
    fun x hx => Tree.mem_addrs_node.mpr (Or.inr (Or.inl hx))
  have hr2N2 : ∀ x ∈ r2.addrs, x ∈ (node n2 c2 l2 kv2 r2).addrs :=
    fun x hx => Tree.mem_addrs_node.mpr (Or.inr (Or.inr hx))
  have hSqR : ∀ x ∈ (node q qc (node n2 c2 l2 kv2 r2) qkv qsib).addrs,
      x ∈ (up.plug (node q qc (node n2 c2 l2 kv2 r2) qkv qsib)).addrs :=
    fun x hx => memR.mpr (Or.inl hx)
  have hupR : ∀ x ∈ up.addrs,
      x ∈ (up.plug (node q qc (node n2 c2 l2 kv2 r2) qkv qsib)).addrs :=
    fun x hx => memR.mpr (Or.inr hx)
  have hRX : ∀ x ∈ (up.plug (node q qc (node n2 c2 l2 kv2 r2) qkv qsib)).addrs,
      x ∈ (node n1 c1 l kv1
        (up.plug (node q qc (node n2 c2 l2 kv2 r2) qkv qsib))).addrs :=
    fun x hx => Tree.mem_addrs_node.mpr (Or.inr (Or.inr hx))
  have hlX : ∀ x ∈ l.addrs, x ∈ (node n1 c1 l kv1
        (up.plug (node q qc (node n2 c2 l2 kv2 r2) qkv qsib))).addrs :=
    fun x hx => Tree.mem_addrs_node.mpr (Or.inr (Or.inl hx))
  have hn1X : n1 ∈ (node n1 c1 l kv1
        (up.plug (node q qc (node n2 c2 l2 kv2 r2) qkv qsib))).addrs :=
    Tree.mem_addrs_node.mpr (Or.inl rfl)
  have hn2R := hSqR n2 (hN2Sq n2 hn2N2)
  have hqR := hSqR q hqSq
  -- the root of the right subtree
  have hRroot : (up = Path.top ∧
        (up.plug (node q qc (node n2 c2 l2 kv2 r2) qkv qsib)).root = some q) ∨
      (up ≠ Path.top ∧ ∃ z ∈ up.addrs,
        (up.plug (node q qc (node n2 c2 l2 kv2 r2) qkv qsib)).root = some z) := by
    rcases Path.root_plug up (node q qc (node n2 c2 l2 kv2 r2) qkv qsib) with ⟨e, h⟩ | ⟨z, hz, h⟩
    · exact Or.inl ⟨e, h⟩
    · refine Or.inr ⟨?_, z, hz, h⟩
      rintro rfl
      cases hz
  have hRroot_ne : ∀ x ∈ (node n2 c2 l2 kv2 r2).addrs,
      (up.plug (node q qc (node n2 c2 l2 kv2 r2) qkv qsib)).root ≠ some x := by
    intro x hx
    rcases hRroot with ⟨-, h⟩ | ⟨-, z, hz, h⟩
    · rw [h]
      simp only [ne_eq, Option.some.injEq]
      exact fun e => hqN2 (e ▸ hx)
    · rw [h]
      simp only [ne_eq, Option.some.injEq]
      exact fun e => hSqup x (hN2Sq x hx) (e ▸ hz)
  -- distinctness
  have n12 : n1 ≠ n2 := fun e => hn1R (e ▸ hn2R)
  have hp1 : p1 ≠ n1 := fun e => hp (e ▸ hn1X)
  have hp2 : p1 ≠ n2 := fun e => hp (e ▸ hRX n2 hn2R)
  have hq1 : q ≠ n1 := fun e => hn1R (e ▸ hqR)
  have hq2 : q ≠ n2 := fun e => hqN2 (e ▸ hn2N2)
  have hpq : p1 ≠ q := fun e => hp (e ▸ hRX q hqR)
  have hL1 : ∀ a, l.root = some a → (∃ n, rd m a = some n) ∧ a ≠ n1 ∧ a ≠ n2 ∧ a ≠ p1 := by
    intro a ha
    have hal := Tree.root_mem ha
    exact ⟨hX.2.1.root_cell ha, fun e => hn1l (e ▸ hal), fun e => hlR a hal (e ▸ hn2R),
      fun e => hp (e ▸ hlX a hal)⟩
  have hR1 : ∀ a, (up.plug (node q qc (node n2 c2 l2 kv2 r2) qkv qsib)).root = some a →
      (∃ n, rd m a = some n) ∧ a ≠ n1 ∧ a ≠ n2 ∧ a ≠ p1 := by
    intro a ha
    have hal := Tree.root_mem ha
    exact ⟨hR.root_cell ha, fun e => hn1R (e ▸ hal),
      fun e => hRroot_ne n2 hn2N2 (e ▸ ha), fun e => hp (e ▸ hRX a hal)⟩
  have hsub : ∀ a ∈ (node n2 c2 l2 kv2 r2).addrs, a ≠ n2 →
      a ≠ n1 ∧ a ≠ n2 ∧ a ≠ p1 ∧ a ≠ q ∧ l.root ≠ some a ∧
      (up.plug (node q qc (node n2 c2 l2 kv2 r2) qkv qsib)).root ≠ some a := by
    intro a ha han2
    have haR := hSqR a (hN2Sq a ha)
    exact ⟨fun e => hn1R (e ▸ haR), han2, fun e => hp (e ▸ hRX a haR),
      fun e => hqN2 (e ▸ ha), fun e => hlR a (Tree.root_mem e) haR, hRroot_ne a ha⟩
  have hL2 : ∀ a, l2.root = some a → (∃ n, rd m a = some n) ∧ a ≠ n1 ∧ a ≠ n2 ∧ a ≠ p1 ∧
      a ≠ q ∧ l.root ≠ some a ∧
      (up.plug (node q qc (node n2 c2 l2 kv2 r2) qkv qsib)).root ≠ some a := by
    intro a ha
    have hal := Tree.root_mem ha
    exact ⟨hSq.2.1.2.1.root_cell ha, hsub a (hl2N2 a hal) (fun e => hn2l2 (e ▸ hal))⟩
  have hR2 : ∀ a, r2.root = some a → (∃ n, rd m a = some n) ∧ a ≠ n1 ∧ a ≠ n2 ∧ a ≠ p1 ∧
      a ≠ q ∧ l.root ≠ some a ∧
      (up.plug (node q qc (node n2 c2 l2 kv2 r2) qkv qsib)).root ≠ some a := by
    intro a ha
    have hal := Tree.root_mem ha
    exact ⟨hSq.2.1.2.2.root_cell ha, hsub a (hr2N2 a hal) (fun e => hn2r2 (e ▸ hal))⟩
  obtain ⟨m', e, hlen, hsz, c1', c2', cp, cq, cA, cB, cF⟩ :=
    swapNodes_far h1 h2 hpn hq n12 hp1 hp2 hq1 hq2 hpq hL1 hR1 hL2 hR2
  -- cells that do not change
  have frame : ∀ x, x ≠ n1 → x ≠ n2 → x ≠ p1 → x ≠ q → l.root ≠ some x →
      (up.plug (node q qc (node n2 c2 l2 kv2 r2) qkv qsib)).root ≠ some x →
      l2.root ≠ some x → r2.root ≠ some x → rd m' x = rd m x := cF
  have hl' : Rep m' (some n2) l := by
    refine Rep.reparent hX.2.1 hndl (fun a ha => ?_) (fun x hx hne => ?_)
    · exact cA a (Or.inl ha) (fun e => hlR a (Tree.root_mem ha) (e ▸ hqR))
    · have hxR := hlR x hx
      exact frame x (fun e => hn1l (e ▸ hx)) (fun e => hxR (e ▸ hn2R))
        (fun e => hp (e ▸ hlX x hx)) (fun e => hxR (e ▸ hqR)) hne
        (Tree.root_ne_of_not_mem hxR)
        (Tree.root_ne_of_not_mem fun h => hxR (hSqR x (hN2Sq x (hl2N2 x h))))
        (Tree.root_ne_of_not_mem fun h => hxR (hSqR x (hN2Sq x (hr2N2 x h))))
  have hinner : ∀ x ∈ (node n2 c2 l2 kv2 r2).addrs, x ≠ n2 → l2.root ≠ some x →
      r2.root ≠ some x → rd m' x = rd m x := by
    intro x hx hxn2 h3 h4
    obtain ⟨a1, a2, a3, a4, a5, a6⟩ := hsub x hx hxn2
    exact frame x a1 a2 a3 a4 a5 a6 h3 h4
  have hl2' : Rep m' (some n1) l2 := by
    refine Rep.reparent hSq.2.1.2.1 hndl2 (fun a ha => cB a (Or.inl ha)) (fun x hx hne => ?_)
    exact hinner x (hl2N2 x hx) (fun e => hn2l2 (e ▸ hx)) hne
      (Tree.root_ne_of_not_mem (hl2r2 x hx))
  have hr2' : Rep m' (some n1) r2 := by
    refine Rep.reparent hSq.2.1.2.2 hndr2 (fun a ha => cB a (Or.inr ha)) (fun x hx hne => ?_)
    exact hinner x (hr2N2 x hx) (fun e => hn2r2 (e ▸ hx))
      (Tree.root_ne_of_not_mem fun h => hl2r2 x h hx) hne
  have hsib' : Rep m' (some q) qsib := by
    refine hSq.2.2.frame fun x hx => ?_
    have hxR := hSqR x (hsibSq x hx)
    have hxN2 : x ∉ (node n2 c2 l2 kv2 r2).addrs := fun h => hN2sib x h hx
    refine frame x (fun e => hn1R (e ▸ hxR)) (fun e => hxN2 (e ▸ hn2N2))
      (fun e => hp (e ▸ hRX x hxR)) (fun e => hqsib (e ▸ hx))
      (fun e => hlR x (Tree.root_mem e) hxR) ?_
      (Tree.root_ne_of_not_mem fun h => hxN2 (hl2N2 x h))
      (Tree.root_ne_of_not_mem fun h => hxN2 (hr2N2 x h))
    rcases hRroot with ⟨-, h⟩ | ⟨-, z, hz, h⟩
    · rw [h]
      simp only [ne_eq, Option.some.injEq]
      exact fun e => hqsib (e ▸ hx)
    · rw [h]
      simp only [ne_eq, Option.some.injEq]
      exact fun e => hSqup x (hsibSq x hx) (e ▸ hz)
  -- the cell of the former parent of `n2`
  have hqsibn2 : qsib.root ≠ some n2 :=
    Tree.root_ne_of_not_mem fun h => hN2sib n2 hn2N2 h
  have hpar : up.parentOr n1 ≠ n2 := by
    cases up with
    | top => exact n12
    | left a _ _ _ _ =>
      exact fun e => hSqup n2 (hN2Sq n2 hn2N2) (by simp [Path.addrs, Path.parentOr] at e ⊢; exact Or.inl e.symm)
    | right a _ _ _ _ =>
      exact fun e => hSqup n2 (hN2Sq n2 hn2N2) (by simp [Path.addrs, Path.parentOr] at e ⊢; exact Or.inl e.symm)
  have hred : redirect n2 n1 (⟨qkv, some (up.parentOr n1), some n2, qsib.root, qc⟩ :
      RB_Node K V) = ⟨qkv, some (up.parentOr n1), some n1, qsib.root, qc⟩ := by
    simp [redirect, hpar, hqsibn2]
  rw [hred] at cq
  have hq' : rd m' q = some ⟨qkv, some (up.parentOr n2), some n1, qsib.root, qc⟩ := by
    rw [cq]
    rcases hRroot with ⟨rfl, h⟩ | ⟨hne, z, hz, h⟩
    · rw [if_pos (Or.inr h)]
      rfl
    · have h5 : l.root ≠ some q := fun e => hlR q (Tree.root_mem e) hqR
      have h6 : (up.plug (node q qc (node n2 c2 l2 kv2 r2) qkv qsib)).root ≠ some q := by
        rw [h]
        simp only [ne_eq, Option.some.injEq]
        exact fun e => hSqup q hqSq (e ▸ hz)
      rw [if_neg (by simp [h5, h6])]
      cases up with
      | top => exact absurd rfl hne
      | left _ _ _ _ _ => rfl
      | right _ _ _ _ _ => rfl
  have hSq' : Rep m' (some (up.parentOr n2)) (node q qc (node n1 c2 l2 kv1 r2) qkv qsib) :=
    ⟨hq', ⟨c1', hl2', hr2'⟩, hsib'⟩
  have hR' : Rep m' (some n2) (up.plug (node q qc (node n1 c2 l2 kv1 r2) qkv qsib)) := by
    refine Path.rep_rebase up hR hndR hSq' rfl (fun hup a ha => ?_) (fun x hx hne => ?_)
    · refine cA a (Or.inr ha) ?_
      rcases hRroot with ⟨e, -⟩ | ⟨-, z, hz, h⟩
      · exact absurd e hup
      · rw [h] at ha
        cases ha
        exact fun e => hSqup q hqSq (e ▸ hz)
    · have hxR := hupR x hx
      have hxSq : x ∉ (node q qc (node n2 c2 l2 kv2 r2) qkv qsib).addrs :=
        fun h => hSqup x h hx
      have hxN2 : x ∉ (node n2 c2 l2 kv2 r2).addrs := fun h => hxSq (hN2Sq x h)
      exact frame x (fun e => hn1R (e ▸ hxR)) (fun e => hxN2 (e ▸ hn2N2))
        (fun e => hp (e ▸ hRX x hxR)) (fun e => hxSq (e ▸ hqSq))
        (fun e => hlR x (Tree.root_mem e) hxR) hne
        (Tree.root_ne_of_not_mem fun h => hxN2 (hl2N2 x h))
        (Tree.root_ne_of_not_mem fun h => hxN2 (hr2N2 x h))
  refine ⟨m', e, hlen, hsz, ⟨?_, hl', hR'⟩, cp, fun x hx hxp => ?_⟩
  · rw [c2', @Path.root_plug_eq K V up (node q qc (node n2 c2 l2 kv2 r2) qkv qsib)
      (node q qc (node n1 c2 l2 kv1 r2) qkv qsib) rfl]
  · have hxR : x ∉ (up.plug (node q qc (node n2 c2 l2 kv2 r2) qkv qsib)).addrs :=
      fun h => hx (hRX x h)
    have hxN2 : x ∉ (node n2 c2 l2 kv2 r2).addrs := fun h => hxR (hSqR x (hN2Sq x h))
    exact frame x (fun e => hx (e ▸ hn1X)) (fun e => hxR (e ▸ hn2R)) hxp
      (fun e => hxR (e ▸ hqR)) (Tree.root_ne_of_not_mem fun h => hx (hlX x h))
      (Tree.root_ne_of_not_mem hxR)
      (Tree.root_ne_of_not_mem fun h => hxN2 (hl2N2 x h))
      (Tree.root_ne_of_not_mem fun h => hxN2 (hr2N2 x h))

/-- `swapNodes(n1, n2)` for a node `n2` that is a right child in the left
subtree of `n1`, and not a child of `n1`: the store holds the subtree of
`n1` with the two nodes exchanged, every position with the colour it had. -/
theorem swap_pred_far {m : Map K V} {p1 n1 n2 q : Nat} {c1 c2 qc : Color}
    {r l2 r2 qsib : Tree K V} {kv1 kv2 qkv : K × V} {up : Path K V} {pn : RB_Node K V}
    (hX : Rep m (some p1)
      (node n1 c1 (up.plug (node q qc qsib qkv (node n2 c2 l2 kv2 r2))) kv1 r))
    (hnd : (node n1 c1 (up.plug (node q qc qsib qkv (node n2 c2 l2 kv2 r2))) kv1
      r).addrs.Nodup)
    (hp : p1 ∉ (node n1 c1 (up.plug (node q qc qsib qkv (node n2 c2 l2 kv2 r2))) kv1
      r).addrs)
    (hpn : rd m p1 = some pn) :
    ∃ m', swapNodes m n1 n2 = some m' ∧ m'.mem.length = m.mem.length ∧ m'._size = m._size ∧
      Rep m' (some p1)
        (node n2 c1 (up.plug (node q qc qsib qkv (node n1 c2 l2 kv1 r2))) kv2 r) ∧
      rd m' p1 = some (redirect n1 n2 pn) ∧
      ∀ x, x ∉ (node n1 c1 (up.plug (node q qc qsib qkv (node n2 c2 l2 kv2 r2))) kv1
        r).addrs → x ≠ p1 → rd m' x = rd m x := by
  -- the parts of the subtree
  obtain ⟨hn1R, hn1r, hRr, hndR, hndr⟩ := Tree.nodup_node.mp hnd
  obtain ⟨hndSq, hndup, hSqup⟩ := Path.nodup_plug hndR
  obtain ⟨hqsib, hqN2, hsibN2, hndsib, hndN2⟩ := Tree.nodup_node.mp hndSq
  obtain ⟨hn2l2, hn2r2, hl2r2, hndl2, hndr2⟩ := Tree.nodup_node.mp hndN2
  have hR := hX.2.1
  have hSq := Path.rep_hole_at up hR
  have h1 := hX.1
  have hq := hSq.1
  have h2 := hSq.2.2.1
  simp only [Tree.root_node] at hq h2
  have memR : ∀ {x}, x ∈ (up.plug (node q qc qsib qkv (node n2 c2 l2 kv2 r2))).addrs ↔
      x ∈ (node q qc qsib qkv (node n2 c2 l2 kv2 r2)).addrs ∨ x ∈ up.addrs := Path.mem_plug
  have hqSq : q ∈ (node q qc qsib qkv (node n2 c2 l2 kv2 r2)).addrs :=
    Tree.mem_addrs_node.mpr (Or.inl rfl)
  have hN2Sq : ∀ x ∈ (node n2 c2 l2 kv2 r2).addrs,
      x ∈ (node q qc qsib qkv (node n2 c2 l2 kv2 r2)).addrs :=
    fun x hx => Tree.mem_addrs_node.mpr (Or.inr (Or.inr hx))
  have hsibSq : ∀ x ∈ qsib.addrs, x ∈ (node q qc qsib qkv (node n2 c2 l2 kv2 r2)).addrs :=
    fun x hx => Tree.mem_addrs_node.mpr (Or.inr (Or.inl hx))
  have hn2N2 : n2 ∈ (node n2 c2 l2 kv2 r2).addrs := Tree.mem_addrs_node.mpr (Or.inl rfl)
  have hl2N2 : ∀ x ∈ l2.addrs, x ∈ (node n2 c2 l2 kv2 r2).addrs :=
    fun x hx => Tree.mem_addrs_node.mpr (Or.inr (Or.inl hx))
  have hr2N2 : ∀ x ∈ r2.addrs, x ∈ (node n2 c2 l2 kv2 r2).addrs :=
    fun x hx => Tree.mem_addrs_node.mpr (Or.inr (Or.inr hx))
  have hSqR : ∀ x ∈ (node q qc qsib qkv (node n2 c2 l2 kv2 r2)).addrs,
      x ∈ (up.plug (node q qc qsib qkv (node n2 c2 l2 kv2 r2))).addrs :=
    fun x hx => memR.mpr (Or.inl hx)
  have hupR : ∀ x ∈ up.addrs,
      x ∈ (up.plug (node q qc qsib qkv (node n2 c2 l2 kv2 r2))).addrs :=
    fun x hx => memR.mpr (Or.inr hx)
  have hRX : ∀ x ∈ (up.plug (node q qc qsib qkv (node n2 c2 l2 kv2 r2))).addrs,
      x ∈ (node n1 c1 (up.plug (node q qc qsib qkv (node n2 c2 l2 kv2 r2))) kv1 r).addrs :=
    fun x hx => Tree.mem_addrs_node.mpr (Or.inr (Or.inl hx))
  have hrX : ∀ x ∈ r.addrs, x ∈ (node n1 c1
        (up.plug (node q qc qsib qkv (node n2 c2 l2 kv2 r2))) kv1 r).addrs :=
    fun x hx => Tree.mem_addrs_node.mpr (Or.inr (Or.inr hx))
  have hn1X : n1 ∈ (node n1 c1
        (up.plug (node q qc qsib qkv (node n2 c2 l2 kv2 r2))) kv1 r).addrs :=
    Tree.mem_addrs_node.mpr (Or.inl rfl)
  have hn2R := hSqR n2 (hN2Sq n2 hn2N2)
  have hqR := hSqR q hqSq
  -- the root of the left subtree
  have hRroot : (up = Path.top ∧
        (up.plug (node q qc qsib qkv (node n2 c2 l2 kv2 r2))).root = some q) ∨
      (up ≠ Path.top ∧ ∃ z ∈ up.addrs,
        (up.plug (node q qc qsib qkv (node n2 c2 l2 kv2 r2))).root = some z) := by
    rcases Path.root_plug up (node q qc qsib qkv (node n2 c2 l2 kv2 r2)) with ⟨e, h⟩ | ⟨z, hz, h⟩
    · exact Or.inl ⟨e, h⟩
    · refine Or.inr ⟨?_, z, hz, h⟩
      rintro rfl
      cases hz
  have hRroot_ne : ∀ x ∈ (node n2 c2 l2 kv2 r2).addrs,
      (up.plug (node q qc qsib qkv (node n2 c2 l2 kv2 r2))).root ≠ some x := by
    intro x hx
    rcases hRroot with ⟨-, h⟩ | ⟨-, z, hz, h⟩
    · rw [h]
      simp only [ne_eq, Option.some.injEq]
      exact fun e => hqN2 (e ▸ hx)
    · rw [h]
      simp only [ne_eq, Option.some.injEq]
      exact fun e => hSqup x (hN2Sq x hx) (e ▸ hz)
  -- distinctness
  have n12 : n1 ≠ n2 := fun e => hn1R (e ▸ hn2R)
  have hp1 : p1 ≠ n1 := fun e => hp (e ▸ hn1X)
  have hp2 : p1 ≠ n2 := fun e => hp (e ▸ hRX n2 hn2R)
  have hq1 : q ≠ n1 := fun e => hn1R (e ▸ hqR)
  have hq2 : q ≠ n2 := fun e => hqN2 (e ▸ hn2N2)
  have hpq : p1 ≠ q := fun e => hp (e ▸ hRX q hqR)
  have hR1 : ∀ a, r.root = some a → (∃ n, rd m a = some n) ∧ a ≠ n1 ∧ a ≠ n2 ∧ a ≠ p1 := by
    intro a ha
    have hal := Tree.root_mem ha
    exact ⟨hX.2.2.root_cell ha, fun e => hn1r (e ▸ hal), fun e => hRr n2 hn2R (e ▸ hal),
      fun e => hp (e ▸ hrX a hal)⟩
  have hL1 : ∀ a, (up.plug (node q qc qsib qkv (node n2 c2 l2 kv2 r2))).root = some a →
      (∃ n, rd m a = some n) ∧ a ≠ n1 ∧ a ≠ n2 ∧ a ≠ p1 := by
    intro a ha
    have hal := Tree.root_mem ha
    exact ⟨hR.root_cell ha, fun e => hn1R (e ▸ hal),
      fun e => hRroot_ne n2 hn2N2 (e ▸ ha), fun e => hp (e ▸ hRX a hal)⟩
  have hsub : ∀ a ∈ (node n2 c2 l2 kv2 r2).addrs, a ≠ n2 →
      a ≠ n1 ∧ a ≠ n2 ∧ a ≠ p1 ∧ a ≠ q ∧
      (up.plug (node q qc qsib qkv (node n2 c2 l2 kv2 r2))).root ≠ some a ∧
      r.root ≠ some a := by
    intro a ha han2
    have haR := hSqR a (hN2Sq a ha)
    exact ⟨fun e => hn1R (e ▸ haR), han2, fun e => hp (e ▸ hRX a haR),
      fun e => hqN2 (e ▸ ha), hRroot_ne a ha, fun e => hRr a haR (Tree.root_mem e)⟩
  have hL2 : ∀ a, l2.root = some a → (∃ n, rd m a = some n) ∧ a ≠ n1 ∧ a ≠ n2 ∧ a ≠ p1 ∧
      a ≠ q ∧ (up.plug (node q qc qsib qkv (node n2 c2 l2 kv2 r2))).root ≠ some a ∧
      r.root ≠ some a := by
    intro a ha
    have hal := Tree.root_mem ha
    exact ⟨hSq.2.2.2.1.root_cell ha, hsub a (hl2N2 a hal) (fun e => hn2l2 (e ▸ hal))⟩
  have hR2 : ∀ a, r2.root = some a → (∃ n, rd m a = some n) ∧ a ≠ n1 ∧ a ≠ n2 ∧ a ≠ p1 ∧
      a ≠ q ∧ (up.plug (node q qc qsib qkv (node n2 c2 l2 kv2 r2))).root ≠ some a ∧
      r.root ≠ some a := by
    intro a ha
    have hal := Tree.root_mem ha
    exact ⟨hSq.2.2.2.2.root_cell ha, hsub a (hr2N2 a hal) (fun e => hn2r2 (e ▸ hal))⟩
  obtain ⟨m', e, hlen, hsz, c1', c2', cp, cq, cA, cB, cF⟩ :=
    swapNodes_far h1 h2 hpn hq n12 hp1 hp2 hq1 hq2 hpq hL1 hR1 hL2 hR2
  -- cells that do not change
  have frame : ∀ x, x ≠ n1 → x ≠ n2 → x ≠ p1 → x ≠ q →
      (up.plug (node q qc qsib qkv (node n2 c2 l2 kv2 r2))).root ≠ some x →
      r.root ≠ some x →
      l2.root ≠ some x → r2.root ≠ some x → rd m' x = rd m x := cF
  have hr' : Rep m' (some n2) r := by
    refine Rep.reparent hX.2.2 hndr (fun a ha => ?_) (fun x hx hne => ?_)
    · exact cA a (Or.inr ha) (fun e => hRr q hqR (e ▸ Tree.root_mem ha))
    · have hxR : x ∉ (up.plug (node q qc qsib qkv (node n2 c2 l2 kv2 r2))).addrs :=
        fun h => hRr x h hx
      exact frame x (fun e => hn1r (e ▸ hx)) (fun e => hxR (e ▸ hn2R))
        (fun e => hp (e ▸ hrX x hx)) (fun e => hxR (e ▸ hqR))
        (Tree.root_ne_of_not_mem hxR) hne
        (Tree.root_ne_of_not_mem fun h => hxR (hSqR x (hN2Sq x (hl2N2 x h))))
        (Tree.root_ne_of_not_mem fun h => hxR (hSqR x (hN2Sq x (hr2N2 x h))))
  have hinner : ∀ x ∈ (node n2 c2 l2 kv2 r2).addrs, x ≠ n2 → l2.root ≠ some x →
      r2.root ≠ some x → rd m' x = rd m x := by
    intro x hx hxn2 h3 h4
    obtain ⟨a1, a2, a3, a4, a5, a6⟩ := hsub x hx hxn2
    exact frame x a1 a2 a3 a4 a5 a6 h3 h4
  have hl2' : Rep m' (some n1) l2 := by
    refine Rep.reparent hSq.2.2.2.1 hndl2 (fun a ha => cB a (Or.inl ha)) (fun x hx hne => ?_)
    exact hinner x (hl2N2 x hx) (fun e => hn2l2 (e ▸ hx)) hne
      (Tree.root_ne_of_not_mem (hl2r2 x hx))
  have hr2' : Rep m' (some n1) r2 := by
    refine Rep.reparent hSq.2.2.2.2 hndr2 (fun a ha => cB a (Or.inr ha)) (fun x hx hne => ?_)
    exact hinner x (hr2N2 x hx) (fun e => hn2r2 (e ▸ hx))
      (Tree.root_ne_of_not_mem fun h => hl2r2 x h hx) hne
  have hsib' : Rep m' (some q) qsib := by
    refine hSq.2.1.frame fun x hx => ?_
    have hxR := hSqR x (hsibSq x hx)
    have hxN2 : x ∉ (node n2 c2 l2 kv2 r2).addrs := fun h => hsibN2 x hx h
    refine frame x (fun e => hn1R (e ▸ hxR)) (fun e => hxN2 (e ▸ hn2N2))
      (fun e => hp (e ▸ hRX x hxR)) (fun e => hqsib (e ▸ hx)) ?_
      (fun e => hRr x hxR (Tree.root_mem e))
      (Tree.root_ne_of_not_mem fun h => hxN2 (hl2N2 x h))
      (Tree.root_ne_of_not_mem fun h => hxN2 (hr2N2 x h))
    rcases hRroot with ⟨-, h⟩ | ⟨-, z, hz, h⟩
    · rw [h]
      simp only [ne_eq, Option.some.injEq]
      exact fun e => hqsib (e ▸ hx)
    · rw [h]
      simp only [ne_eq, Option.some.injEq]
      exact fun e => hSqup x (hsibSq x hx) (e ▸ hz)
  -- the cell of the former parent of `n2`
  have hqsibn2 : qsib.root ≠ some n2 :=
    Tree.root_ne_of_not_mem fun h => hsibN2 n2 h hn2N2
  have hpar : up.parentOr n1 ≠ n2 := by
    cases up with
    | top => exact n12
    | left a _ _ _ _ =>
      exact fun e => hSqup n2 (hN2Sq n2 hn2N2) (by simp [Path.addrs, Path.parentOr] at e ⊢; exact Or.inl e.symm)
    | right a _ _ _ _ =>
      exact fun e => hSqup n2 (hN2Sq n2 hn2N2) (by simp [Path.addrs, Path.parentOr] at e ⊢; exact Or.inl e.symm)
  have hred : redirect n2 n1 (⟨qkv, some (up.parentOr n1), qsib.root, some n2, qc⟩ :
      RB_Node K V) = ⟨qkv, some (up.parentOr n1), qsib.root, some n1, qc⟩ := by
    simp [redirect, hpar, hqsibn2]
  rw [hred] at cq
  have hq' : rd m' q = some ⟨qkv, some (up.parentOr n2), qsib.root, some n1, qc⟩ := by
    rw [cq]
    rcases hRroot with ⟨rfl, h⟩ | ⟨hne, z, hz, h⟩
    · rw [if_pos (Or.inl h)]
      rfl
    · have h5 : r.root ≠ some q := fun e => hRr q hqR (Tree.root_mem e)
      have h6 : (up.plug (node q qc qsib qkv (node n2 c2 l2 kv2 r2))).root ≠ some q := by
        rw [h]
        simp only [ne_eq, Option.some.injEq]
        exact fun e => hSqup q hqSq (e ▸ hz)
      rw [if_neg (by simp [h5, h6])]
      cases up with
      | top => exact absurd rfl hne
      | left _ _ _ _ _ => rfl
      | right _ _ _ _ _ => rfl
  have hSq' : Rep m' (some (up.parentOr n2)) (node q qc qsib qkv (node n1 c2 l2 kv1 r2)) :=
    ⟨hq', hsib', ⟨c1', hl2', hr2'⟩⟩
  have hR' : Rep m' (some n2) (up.plug (node q qc qsib qkv (node n1 c2 l2 kv1 r2))) := by
    refine Path.rep_rebase up hR hndR hSq' rfl (fun hup a ha => ?_) (fun x hx hne => ?_)
    · refine cA a (Or.inl ha) ?_
      rcases hRroot with ⟨e, -⟩ | ⟨-, z, hz, h⟩
      · exact absurd e hup
      · rw [h] at ha
        cases ha
        exact fun e => hSqup q hqSq (e ▸ hz)
    · have hxR := hupR x hx
      have hxSq : x ∉ (node q qc qsib qkv (node n2 c2 l2 kv2 r2)).addrs :=
        fun h => hSqup x h hx
      have hxN2 : x ∉ (node n2 c2 l2 kv2 r2).addrs := fun h => hxSq (hN2Sq x h)
      exact frame x (fun e => hn1R (e ▸ hxR)) (fun e => hxN2 (e ▸ hn2N2))
        (fun e => hp (e ▸ hRX x hxR)) (fun e => hxSq (e ▸ hqSq)) hne
        (fun e => hRr x hxR (Tree.root_mem e))
        (Tree.root_ne_of_not_mem fun h => hxN2 (hl2N2 x h))
        (Tree.root_ne_of_not_mem fun h => hxN2 (hr2N2 x h))
  refine ⟨m', e, hlen, hsz, ⟨?_, hR', hr'⟩, cp, fun x hx hxp => ?_⟩
  · rw [c2', @Path.root_plug_eq K V up (node q qc qsib qkv (node n2 c2 l2 kv2 r2))
      (node q qc qsib qkv (node n1 c2 l2 kv1 r2)) rfl]
  · have hxR : x ∉ (up.plug (node q qc qsib qkv (node n2 c2 l2 kv2 r2))).addrs :=
      fun h => hx (hRX x h)
    have hxN2 : x ∉ (node n2 c2 l2 kv2 r2).addrs := fun h => hxR (hSqR x (hN2Sq x h))
    exact frame x (fun e => hx (e ▸ hn1X)) (fun e => hxR (e ▸ hn2R)) hxp
      (fun e => hxR (e ▸ hqR)) (Tree.root_ne_of_not_mem hxR)
      (Tree.root_ne_of_not_mem fun h => hx (hrX x h))
      (Tree.root_ne_of_not_mem fun h => hxN2 (hl2N2 x h))
      (Tree.root_ne_of_not_mem fun h => hxN2 (hr2N2 x h))

/-- `swapNodes(n1, n2)` for the right child `n2` of `n1`. -/
theorem swap_succ_near {m : Map K V} {p1 n1 n2 : Nat} {c1 c2 : Color}
    {l l2 r2 : Tree K V} {kv1 kv2 : K × V} {pn : RB_Node K V}
    (hX : Rep m (some p1) (node n1 c1 l kv1 (node n2 c2 l2 kv2 r2)))
    (hnd : (node n1 c1 l kv1 (node n2 c2 l2 kv2 r2)).addrs.Nodup)
    (hp : p1 ∉ (node n1 c1 l kv1 (node n2 c2 l2 kv2 r2)).addrs)
    (hpn : rd m p1 = some pn) :
    ∃ m', swapNodes m n1 n2 = some m' ∧ m'.mem.length = m.mem.length ∧ m'._size = m._size ∧
      Rep m' (some p1) (node n2 c1 l kv2 (node n1 c2 l2 kv1 r2)) ∧
      rd m' p1 = some (redirect n1 n2 pn) ∧
      ∀ x, x ∉ (node n1 c1 l kv1 (node n2 c2 l2 kv2 r2)).addrs → x ≠ p1 →
        rd m' x = rd m x := by
  obtain ⟨hn1l, hn1N2, hlN2, hndl, hndN2⟩ := Tree.nodup_node.mp hnd
  obtain ⟨hn2l2, hn2r2, hl2r2, hndl2, hndr2⟩ := Tree.nodup_node.mp hndN2
  have h1 := hX.1
  have h2 := hX.2.2.1
  simp only [Tree.root_node] at h1
  have hn2N2 : n2 ∈ (node n2 c2 l2 kv2 r2).addrs := Tree.mem_addrs_node.mpr (Or.inl rfl)
  have hl2N2 : ∀ x ∈ l2.addrs, x ∈ (node n2 c2 l2 kv2 r2).addrs :=
    fun x hx => Tree.mem_addrs_node.mpr (Or.inr (Or.inl hx))
  have hr2N2 : ∀ x ∈ r2.addrs, x ∈ (node n2 c2 l2 kv2 r2).addrs :=
    fun x hx => Tree.mem_addrs_node.mpr (Or.inr (Or.inr hx))
  have hN2X : ∀ x ∈ (node n2 c2 l2 kv2 r2).addrs,
      x ∈ (node n1 c1 l kv1 (node n2 c2 l2 kv2 r2)).addrs :=
    fun x hx => Tree.mem_addrs_node.mpr (Or.inr (Or.inr hx))
  have hlX : ∀ x ∈ l.addrs, x ∈ (node n1 c1 l kv1 (node n2 c2 l2 kv2 r2)).addrs :=
    fun x hx => Tree.mem_addrs_node.mpr (Or.inr (Or.inl hx))
  have hn1X : n1 ∈ (node n1 c1 l kv1 (node n2 c2 l2 kv2 r2)).addrs :=
    Tree.mem_addrs_node.mpr (Or.inl rfl)
  have n12 : n1 ≠ n2 := fun e => hn1N2 (e ▸ hn2N2)
  have hp1 : p1 ≠ n1 := fun e => hp (e ▸ hn1X)
  have hp2 : p1 ≠ n2 := fun e => hp (e ▸ hN2X n2 hn2N2)
  have hL1 : ∀ a, l.root = some a → (∃ n, rd m a = some n) ∧ a ≠ n1 ∧ a ≠ n2 ∧ a ≠ p1 := by
    intro a ha
    have hal := Tree.root_mem ha
    exact ⟨hX.2.1.root_cell ha, fun e => hn1l (e ▸ hal), fun e => hlN2 a hal (e ▸ hn2N2),
      fun e => hp (e ▸ hlX a hal)⟩
  have hsub : ∀ a ∈ (node n2 c2 l2 kv2 r2).addrs, a ≠ n2 →
      a ≠ n1 ∧ a ≠ n2 ∧ a ≠ p1 ∧ l.root ≠ some a := by
    intro a ha han2
    exact ⟨fun e => hn1N2 (e ▸ ha), han2, fun e => hp (e ▸ hN2X a ha),
      fun e => hlN2 a (Tree.root_mem e) ha⟩
  have hL2 : ∀ a, l2.root = some a → (∃ n, rd m a = some n) ∧ a ≠ n1 ∧ a ≠ n2 ∧ a ≠ p1 ∧
      l.root ≠ some a := by
    intro a ha
    have hal := Tree.root_mem ha
    exact ⟨hX.2.2.2.1.root_cell ha, hsub a (hl2N2 a hal) (fun e => hn2l2 (e ▸ hal))⟩
  have hR2 : ∀ a, r2.root = some a → (∃ n, rd m a = some n) ∧ a ≠ n1 ∧ a ≠ n2 ∧ a ≠ p1 ∧
      l.root ≠ some a := by
    intro a ha
    have hal := Tree.root_mem ha
    exact ⟨hX.2.2.2.2.root_cell ha, hsub a (hr2N2 a hal) (fun e => hn2r2 (e ▸ hal))⟩
  obtain ⟨m', e, hlen, hsz, c1', c2', cp, cA, cB, cF⟩ :=
    swapNodes_near_right h1 h2 hpn n12 hp1 hp2 hL1 hL2 hR2
  have hl' : Rep m' (some n2) l := by
    refine Rep.reparent hX.2.1 hndl (fun a ha => cA a ha) (fun x hx hne => ?_)
    have hxN2 := hlN2 x hx
    exact cF x (fun e => hn1l (e ▸ hx)) (fun e => hxN2 (e ▸ hn2N2))
      (fun e => hp (e ▸ hlX x hx)) hne
      (Tree.root_ne_of_not_mem fun h => hxN2 (hl2N2 x h))
      (Tree.root_ne_of_not_mem fun h => hxN2 (hr2N2 x h))
  have hinner : ∀ x ∈ (node n2 c2 l2 kv2 r2).addrs, x ≠ n2 → l2.root ≠ some x →
      r2.root ≠ some x → rd m' x = rd m x := by
    intro x hx hxn2 h3 h4
    obtain ⟨a1, a2, a3, a4⟩ := hsub x hx hxn2
    exact cF x a1 a2 a3 a4 h3 h4
  have hl2' : Rep m' (some n1) l2 := by
    refine Rep.reparent hX.2.2.2.1 hndl2 (fun a ha => cB a (Or.inl ha)) (fun x hx hne => ?_)
    exact hinner x (hl2N2 x hx) (fun e => hn2l2 (e ▸ hx)) hne
      (Tree.root_ne_of_not_mem (hl2r2 x hx))
  have hr2' : Rep m' (some n1) r2 := by
    refine Rep.reparent hX.2.2.2.2 hndr2 (fun a ha => cB a (Or.inr ha)) (fun x hx hne => ?_)
    exact hinner x (hr2N2 x hx) (fun e => hn2r2 (e ▸ hx))
      (Tree.root_ne_of_not_mem fun h => hl2r2 x h hx) hne
  refine ⟨m', e, hlen, hsz, ⟨c2', hl', c1', hl2', hr2'⟩, cp, fun x hx hxp => ?_⟩
  have hxN2 : x ∉ (node n2 c2 l2 kv2 r2).addrs := fun h => hx (hN2X x h)
  exact cF x (fun e => hx (e ▸ hn1X)) (fun e => hxN2 (e ▸ hn2N2)) hxp
    (Tree.root_ne_of_not_mem fun h => hx (hlX x h))
    (Tree.root_ne_of_not_mem fun h => hxN2 (hl2N2 x h))
    (Tree.root_ne_of_not_mem fun h => hxN2 (hr2N2 x h))

/-- `swapNodes(n1, n2)` for the left child `n2` of `n1`. -/
theorem swap_pred_near {m : Map K V} {p1 n1 n2 : Nat} {c1 c2 : Color}
    {r l2 r2 : Tree K V} {kv1 kv2 : K × V} {pn : RB_Node K V}
    (hX : Rep m (some p1) (node n1 c1 (node n2 c2 l2 kv2 r2) kv1 r))
    (hnd : (node n1 c1 (node n2 c2 l2 kv2 r2) kv1 r).addrs.Nodup)
    (hp : p1 ∉ (node n1 c1 (node n2 c2 l2 kv2 r2) kv1 r).addrs)
    (hpn : rd m p1 = some pn) :
    ∃ m', swapNodes m n1 n2 = some m' ∧ m'.mem.length = m.mem.length ∧ m'._size = m._size ∧
      Rep m' (some p1) (node n2 c1 (node n1 c2 l2 kv1 r2) kv2 r) ∧
      rd m' p1 = some (redirect n1 n2 pn) ∧
      ∀ x, x ∉ (node n1 c1 (node n2 c2 l2 kv2 r2) kv1 r).addrs → x ≠ p1 →
        rd m' x = rd m x := by
  obtain ⟨hn1N2, hn1r, hN2r, hndN2, hndr⟩ := Tree.nodup_node.mp hnd
  obtain ⟨hn2l2, hn2r2, hl2r2, hndl2, hndr2⟩ := Tree.nodup_node.mp hndN2
  have h1 := hX.1
  have h2 := hX.2.1.1
  simp only [Tree.root_node] at h1
  have hn2N2 : n2 ∈ (node n2 c2 l2 kv2 r2).addrs := Tree.mem_addrs_node.mpr (Or.inl rfl)
  have hl2N2 : ∀ x ∈ l2.addrs, x ∈ (node n2 c2 l2 kv2 r2).addrs :=
    fun x hx => Tree.mem_addrs_node.mpr (Or.inr (Or.inl hx))
  have hr2N2 : ∀ x ∈ r2.addrs, x ∈ (node n2 c2 l2 kv2 r2).addrs :=
    fun x hx => Tree.mem_addrs_node.mpr (Or.inr (Or.inr hx))
  have hN2X : ∀ x ∈ (node n2 c2 l2 kv2 r2).addrs,
      x ∈ (node n1 c1 (node n2 c2 l2 kv2 r2) kv1 r).addrs :=
    fun x hx => Tree.mem_addrs_node.mpr (Or.inr (Or.inl hx))
  have hrX : ∀ x ∈ r.addrs, x ∈ (node n1 c1 (node n2 c2 l2 kv2 r2) kv1 r).addrs :=
    fun x hx => Tree.mem_addrs_node.mpr (Or.inr (Or.inr hx))
  have hn1X : n1 ∈ (node n1 c1 (node n2 c2 l2 kv2 r2) kv1 r).addrs :=
    Tree.mem_addrs_node.mpr (Or.inl rfl)
  have n12 : n1 ≠ n2 := fun e => hn1N2 (e ▸ hn2N2)
  have hp1 : p1 ≠ n1 := fun e => hp (e ▸ hn1X)
  have hp2 : p1 ≠ n2 := fun e => hp (e ▸ hN2X n2 hn2N2)
  have hR1 : ∀ a, r.root = some a → (∃ n, rd m a = some n) ∧ a ≠ n1 ∧ a ≠ n2 ∧ a ≠ p1 := by
    intro a ha
    have hal := Tree.root_mem ha
    exact ⟨hX.2.2.root_cell ha, fun e => hn1r (e ▸ hal), fun e => hN2r n2 hn2N2 (e ▸ hal),
      fun e => hp (e ▸ hrX a hal)⟩
  have hsub : ∀ a ∈ (node n2 c2 l2 kv2 r2).addrs, a ≠ n2 →
      a ≠ n1 ∧ a ≠ n2 ∧ a ≠ p1 ∧ r.root ≠ some a := by
    intro a ha han2
    exact ⟨fun e => hn1N2 (e ▸ ha), han2, fun e => hp (e ▸ hN2X a ha),
      fun e => hN2r a ha (Tree.root_mem e)⟩
  have hL2 : ∀ a, l2.root = some a → (∃ n, rd m a = some n) ∧ a ≠ n1 ∧ a ≠ n2 ∧ a ≠ p1 ∧
      r.root ≠ some a := by
    intro a ha
    have hal := Tree.root_mem ha
    exact ⟨hX.2.1.2.1.root_cell ha, hsub a (hl2N2 a hal) (fun e => hn2l2 (e ▸ hal))⟩
  have hR2 : ∀ a, r2.root = some a → (∃ n, rd m a = some n) ∧ a ≠ n1 ∧ a ≠ n2 ∧ a ≠ p1 ∧
      r.root ≠ some a := by
    intro a ha
    have hal := Tree.root_mem ha
    exact ⟨hX.2.1.2.2.root_cell ha, hsub a (hr2N2 a hal) (fun e => hn2r2 (e ▸ hal))⟩
  obtain ⟨m', e, hlen, hsz, c1', c2', cp, cA, cB, cF⟩ :=
    swapNodes_near_left h1 h2 hpn n12 hp1 hp2 hR1 hL2 hR2
  have hr' : Rep m' (some n2) r := by
    refine Rep.reparent hX.2.2 hndr (fun a ha => cA a ha) (fun x hx hne => ?_)
    have hxN2 : x ∉ (node n2 c2 l2 kv2 r2).addrs := fun h => hN2r x h hx
    exact cF x (fun e => hn1r (e ▸ hx)) (fun e => hxN2 (e ▸ hn2N2))
      (fun e => hp (e ▸ hrX x hx)) hne
      (Tree.root_ne_of_not_mem fun h => hxN2 (hl2N2 x h))
      (Tree.root_ne_of_not_mem fun h => hxN2 (hr2N2 x h))
  have hinner : ∀ x ∈ (node n2 c2 l2 kv2 r2).addrs, x ≠ n2 → l2.root ≠ some x →
      r2.root ≠ some x → rd m' x = rd m x := by
    intro x hx hxn2 h3 h4
    obtain ⟨a1, a2, a3, a4⟩ := hsub x hx hxn2
    exact cF x a1 a2 a3 a4 h3 h4
  have hl2' : Rep m' (some n1) l2 := by
    refine Rep.reparent hX.2.1.2.1 hndl2 (fun a ha => cB a (Or.inl ha)) (fun x hx hne => ?_)
    exact hinner x (hl2N2 x hx) (fun e => hn2l2 (e ▸ hx)) hne
      (Tree.root_ne_of_not_mem (hl2r2 x hx))
  have hr2' : Rep m' (some n1) r2 := by
    refine Rep.reparent hX.2.1.2.2 hndr2 (fun a ha => cB a (Or.inr ha)) (fun x hx hne => ?_)
    exact hinner x (hr2N2 x hx) (fun e => hn2r2 (e ▸ hx))
      (Tree.root_ne_of_not_mem fun h => hl2r2 x h hx) hne
  refine ⟨m', e, hlen, hsz, ⟨c2', ⟨c1', hl2', hr2'⟩, hr'⟩, cp, fun x hx hxp => ?_⟩
  have hxN2 : x ∉ (node n2 c2 l2 kv2 r2).addrs := fun h => hx (hN2X x h)
  exact cF x (fun e => hx (e ▸ hn1X)) (fun e => hxN2 (e ▸ hn2N2)) hxp
    (Tree.root_ne_of_not_mem fun h => hx (hrX x h))
    (Tree.root_ne_of_not_mem fun h => hxN2 (hl2N2 x h))
    (Tree.root_ne_of_not_mem fun h => hxN2 (hr2N2 x h))

/-! ## `swapNodes` on the tree -/

/-- A subtree is replaced by a tree on the same cells with another root, the
link of its parent is redirected, and no cell outside the subtree changes
otherwise: the store holds the tree with the new subtree. -/
theorem Shape.swap_sub {m m' : Map K V} {P : Path K V} {X X' : Tree K V} {a b : Nat}
    {pn h : RB_Node K V}
    (hs : Shape m (P.plug X)) (hroot : X.root = some a) (hroot' : X'.root = some b)
    (hperm : X'.addrs.Perm X.addrs) (hX' : Rep m' (some P.parent) X')
    (hpn : rd m P.parent = some pn) (hp' : rd m' P.parent = some (redirect a b pn))
    (hframe : ∀ x, x ∉ X.addrs → x ≠ P.parent → rd m' x = rd m x)
    (hlen : m'.mem.length = m.mem.length) (hsz : m'._size = m._size)
    (hh : rd m 0 = some h) :
    Shape m' (P.plug X') ∧
      rd m' 0 = some (if (P.plug X).root = some a then redirect a b h else h) := by
  have haX := Tree.root_mem hroot
  obtain ⟨hndX, hndP, hdisj⟩ := Path.nodup_plug hs.nodup
  have h0X : 0 ∉ X.addrs := fun hx => hs.notHead (Path.mem_plug.mpr (Or.inl hx))
  have ha0 : a ≠ 0 := fun e => h0X (e ▸ haX)
  cases P with
  | top =>
    simp only [Path.parent] at hpn hp' hX'
    have e : h = pn := Option.some.inj (hh.symm.trans hpn)
    subst e
    obtain ⟨h', hh', hhp⟩ := hs.head
    have e' : h = h' := Option.some.inj (hh.symm.trans hh')
    subst e'
    have hhp' : h.parent = some a := hhp.trans hroot
    refine ⟨⟨⟨_, hp', ?_⟩, hX', hperm.nodup_iff.mpr hs.nodup,
      fun hx => hs.notHead (hperm.mem_iff.mp hx)⟩, ?_⟩
    · simp [redirect, hhp', Path.plug, hroot']
    · rw [hp', if_pos (show (Path.top.plug X).root = some a from hroot)]
  | left p c kv sib up =>
    simp only [Path.parent] at hpn hp' hX' hframe
    have hs' : Shape m (up.plug (node p c X kv sib)) := hs
    have hS := Path.rep_hole up hs'.rep
    obtain ⟨hndS, -, hdisjS⟩ := Path.nodup_plug hs'.nodup
    obtain ⟨hpX, hpsib, hXsib, -, -⟩ := Tree.nodup_node.mp hndS
    rw [hS.1] at hpn
    cases hpn
    have hpa : up.parent ≠ a := by
      intro e
      cases up with
      | top => exact ha0 e.symm
      | left _ _ _ _ _ =>
        exact hdisjS a (Tree.mem_addrs_node.mpr (Or.inr (Or.inl haX)))
          (by simp [Path.addrs, Path.parent] at e ⊢; exact Or.inl e.symm)
      | right _ _ _ _ _ =>
        exact hdisjS a (Tree.mem_addrs_node.mpr (Or.inr (Or.inl haX)))
          (by simp [Path.addrs, Path.parent] at e ⊢; exact Or.inl e.symm)
    have hsiba : sib.root ≠ some a := Tree.root_ne_of_not_mem fun h => hXsib a haX h
    have hcell : rd m' p = some ⟨kv, some up.parent, some b, sib.root, c⟩ := by
      rw [hp']
      simp [redirect, hroot, hpa, hsiba]
    have hsib' : Rep m' (some p) sib := hS.2.2.frame fun x hx =>
      hframe x (fun h => hXsib x h hx) (fun e => hpsib (e ▸ hx))
    have hS' : Rep m' (some up.parent) (node p c X' kv sib) := ⟨by rw [hcell, hroot'], hX', hsib'⟩
    have hsame : Same m m' (node p c X kv sib).addrs := ⟨hlen, hsz, fun x hx =>
      hframe x (fun h => hx (Tree.mem_addrs_node.mpr (Or.inr (Or.inl h))))
        (fun e => hx (e ▸ Tree.mem_addrs_node.mpr (Or.inl rfl)))⟩
    have hpermS : (node p c X' kv sib).addrs.Perm (node p c X kv sib).addrs := by
      simp only [Tree.addrs]
      exact hperm.append_right _
    refine ⟨@Shape.replace K V m m' up (node p c X kv sib) (node p c X' kv sib) _ hs' hS' rfl
      hpermS hsame (fun x hx => hx), ?_⟩
    have hrootne : ((Path.left p c kv sib up).plug X).root ≠ some a := by
      rcases Path.root_plug (Path.left p c kv sib up) X with ⟨e, -⟩ | ⟨z, hz, e⟩
      · cases e
      · rw [e]
        intro e'
        cases e'
        exact hdisj a haX hz
    rw [if_neg hrootne, hframe 0 h0X, hh]
    intro e
    exact hs.notHead (Path.mem_plug.mpr (Or.inr (by simp [Path.addrs, ← e])))
  | right p c kv sib up =>
    simp only [Path.parent] at hpn hp' hX' hframe
    have hs' : Shape m (up.plug (node p c sib kv X)) := hs
    have hS := Path.rep_hole up hs'.rep
    obtain ⟨hndS, -, hdisjS⟩ := Path.nodup_plug hs'.nodup
    obtain ⟨hpsib, hpX, hsibX, -, -⟩ := Tree.nodup_node.mp hndS
    rw [hS.1] at hpn
    cases hpn
    have hpa : up.parent ≠ a := by
      intro e
      cases up with
      | top => exact ha0 e.symm
      | left _ _ _ _ _ =>
        exact hdisjS a (Tree.mem_addrs_node.mpr (Or.inr (Or.inr haX)))
          (by simp [Path.addrs, Path.parent] at e ⊢; exact Or.inl e.symm)
      | right _ _ _ _ _ =>
        exact hdisjS a (Tree.mem_addrs_node.mpr (Or.inr (Or.inr haX)))
          (by simp [Path.addrs, Path.parent] at e ⊢; exact Or.inl e.symm)
    have hsiba : sib.root ≠ some a := Tree.root_ne_of_not_mem fun h => hsibX a h haX
    have hcell : rd m' p = some ⟨kv, some up.parent, sib.root, some b, c⟩ := by
      rw [hp']
      simp [redirect, hroot, hpa, hsiba]
    have hsib' : Rep m' (some p) sib := hS.2.1.frame fun x hx =>
      hframe x (fun h => hsibX x hx h) (fun e => hpsib (e ▸ hx))
    have hS' : Rep m' (some up.parent) (node p c sib kv X') := ⟨by rw [hcell, hroot'], hsib', hX'⟩
    have hsame : Same m m' (node p c sib kv X).addrs := ⟨hlen, hsz, fun x hx =>
      hframe x (fun h => hx (Tree.mem_addrs_node.mpr (Or.inr (Or.inr h))))
        (fun e => hx (e ▸ Tree.mem_addrs_node.mpr (Or.inl rfl)))⟩
    have hpermS : (node p c sib kv X').addrs.Perm (node p c sib kv X).addrs := by
      simp only [Tree.addrs]
      exact (hperm.cons p).append_left _
    refine ⟨@Shape.replace K V m m' up (node p c sib kv X) (node p c sib kv X') _ hs' hS' rfl
      hpermS hsame (fun x hx => hx), ?_⟩
    have hrootne : ((Path.right p c kv sib up).plug X).root ≠ some a := by
      rcases Path.root_plug (Path.right p c kv sib up) X with ⟨e, -⟩ | ⟨z, hz, e⟩
      · cases e
      · rw [e]
        intro e'
        cases e'
        exact hdisj a haX hz
    rw [if_neg hrootne, hframe 0 h0X, hh]
    intro e
    exact hs.notHead (Path.mem_plug.mpr (Or.inr (by simp [Path.addrs, ← e])))

theorem Path.perm_swap_right (Q : Path K V) (n1 n2 : Nat) (c1 c2 : Color)
    (l l2 r2 : Tree K V) (kv1 kv2 : K × V) :
    (node n2 c1 l kv2 (Q.plug (node n1 c2 l2 kv1 r2))).addrs.Perm
      (node n1 c1 l kv1 (Q.plug (node n2 c2 l2 kv2 r2))).addrs := by
  rw [List.perm_iff_count]
  intro a
  have e1 := (Q.plug_perm (node n1 c2 l2 kv1 r2)).count_eq a
  have e2 := (Q.plug_perm (node n2 c2 l2 kv2 r2)).count_eq a
  simp only [Tree.addrs, List.count_append, List.count_cons] at e1 e2 ⊢
  omega

theorem Path.perm_swap_left (Q : Path K V) (n1 n2 : Nat) (c1 c2 : Color)
    (r l2 r2 : Tree K V) (kv1 kv2 : K × V) :
    (node n2 c1 (Q.plug (node n1 c2 l2 kv1 r2)) kv2 r).addrs.Perm
      (node n1 c1 (Q.plug (node n2 c2 l2 kv2 r2)) kv1 r).addrs := by
  rw [List.perm_iff_count]
  intro a
  have e1 := (Q.plug_perm (node n1 c2 l2 kv1 r2)).count_eq a
  have e2 := (Q.plug_perm (node n2 c2 l2 kv2 r2)).count_eq a
  simp only [Tree.addrs, List.count_append, List.count_cons] at e1 e2 ⊢
  omega

/-- `swapNodes(n1, n2)` for a node `n2` of the right subtree of `n1` that is
the right child of `n1` or a left child: the map holds the tree with the two
nodes exchanged, every position with the colour it had; the sentinel's links
that referred to `n1` refer to `n2` if `n1` was the root; no cell outside the
tree changes. -/
theorem swap_succ {m : Map K V} {P Q : Path K V} {n1 n2 : Nat} {c1 c2 : Color}
    {l l2 r2 : Tree K V} {kv1 kv2 : K × V} {h : RB_Node K V}
    (hs : Shape m (P.plug (node n1 c1 l kv1 (Q.plug (node n2 c2 l2 kv2 r2)))))
    (hQ : Q.hangsLeft) (hh : rd m 0 = some h) :
    ∃ m', swapNodes m n1 n2 = some m' ∧
      Shape m' (P.plug (node n2 c1 l kv2 (Q.plug (node n1 c2 l2 kv1 r2)))) ∧
      rd m' 0 = some (if (P.plug (node n1 c1 l kv1 (Q.plug (node n2 c2 l2 kv2 r2)))).root
        = some n1 then redirect n1 n2 h else h) ∧
      (∀ x, x ∉ (P.plug (node n1 c1 l kv1 (Q.plug (node n2 c2 l2 kv2 r2)))).addrs → x ≠ 0 →
        rd m' x = rd m x) ∧
      m'.mem.length = m.mem.length ∧ m'._size = m._size := by
  obtain ⟨pn, hpn, -, hp⟩ := Path.parent_cell hs rfl
  have hX := Path.rep_hole P hs.rep
  have hndX := (Path.nodup_plug hs.nodup).1
  have hPpar : ∀ x, x ∉ (P.plug (node n1 c1 l kv1 (Q.plug (node n2 c2 l2 kv2 r2)))).addrs →
      x ≠ 0 → x ≠ P.parent := by
    intro x hx hx0 e
    cases P with
    | top => exact hx0 e
    | left _ _ _ _ _ => exact hx (Path.mem_plug.mpr (Or.inr (by simp [Path.addrs, e, Path.parent])))
    | right _ _ _ _ _ => exact hx (Path.mem_plug.mpr (Or.inr (by simp [Path.addrs, e, Path.parent])))
  cases Q with
  | right _ _ _ _ _ => exact absurd hQ (by simp [Path.hangsLeft])
  | top =>
    obtain ⟨m', e, hlen, hsz, hX', hp', hframe⟩ := swap_succ_near hX hndX hp hpn
    obtain ⟨hs', hh'⟩ := @Shape.swap_sub K V m m' P
      (node n1 c1 l kv1 (node n2 c2 l2 kv2 r2)) (node n2 c1 l kv2 (node n1 c2 l2 kv1 r2))
      n1 n2 pn h hs rfl rfl
      (Path.perm_swap_right Path.top n1 n2 c1 c2 l l2 r2 kv1 kv2) hX' hpn hp' hframe hlen hsz hh
    exact ⟨m', e, hs', hh', fun x hx hx0 =>
      hframe x (fun h => hx (Path.mem_plug.mpr (Or.inl h))) (hPpar x hx hx0), hlen, hsz⟩
  | left q qc qkv qsib up =>
    obtain ⟨m', e, hlen, hsz, hX', hp', hframe⟩ := swap_succ_far hX hndX hp hpn
    obtain ⟨hs', hh'⟩ := @Shape.swap_sub K V m m' P
      (node n1 c1 l kv1 (up.plug (node q qc (node n2 c2 l2 kv2 r2) qkv qsib)))
      (node n2 c1 l kv2 (up.plug (node q qc (node n1 c2 l2 kv1 r2) qkv qsib)))
      n1 n2 pn h hs rfl rfl
      (Path.perm_swap_right (Path.left q qc qkv qsib up) n1 n2 c1 c2 l l2 r2 kv1 kv2)
      hX' hpn hp' hframe hlen hsz hh
    exact ⟨m', e, hs', hh', fun x hx hx0 =>
      hframe x (fun h => hx (Path.mem_plug.mpr (Or.inl h))) (hPpar x hx hx0), hlen, hsz⟩

/-- `swapNodes(n1, n2)` for a node `n2` of the left subtree of `n1` that is
the left child of `n1` or a right child. -/
theorem swap_pred {m : Map K V} {P Q : Path K V} {n1 n2 : Nat} {c1 c2 : Color}
    {r l2 r2 : Tree K V} {kv1 kv2 : K × V} {h : RB_Node K V}
    (hs : Shape m (P.plug (node n1 c1 (Q.plug (node n2 c2 l2 kv2 r2)) kv1 r)))
    (hQ : Q.hangsRight) (hh : rd m 0 = some h) :
    ∃ m', swapNodes m n1 n2 = some m' ∧
      Shape m' (P.plug (node n2 c1 (Q.plug (node n1 c2 l2 kv1 r2)) kv2 r)) ∧
      rd m' 0 = some (if (P.plug (node n1 c1 (Q.plug (node n2 c2 l2 kv2 r2)) kv1 r)).root
        = some n1 then redirect n1 n2 h else h) ∧
      (∀ x, x ∉ (P.plug (node n1 c1 (Q.plug (node n2 c2 l2 kv2 r2)) kv1 r)).addrs → x ≠ 0 →
        rd m' x = rd m x) ∧
      m'.mem.length = m.mem.length ∧ m'._size = m._size := by
  obtain ⟨pn, hpn, -, hp⟩ := Path.parent_cell hs rfl
  have hX := Path.rep_hole P hs.rep
  have hndX := (Path.nodup_plug hs.nodup).1
  have hPpar : ∀ x, x ∉ (P.plug (node n1 c1 (Q.plug (node n2 c2 l2 kv2 r2)) kv1 r)).addrs →
      x ≠ 0 → x ≠ P.parent := by
    intro x hx hx0 e
    cases P with
    | top => exact hx0 e
    | left _ _ _ _ _ => exact hx (Path.mem_plug.mpr (Or.inr (by simp [Path.addrs, e, Path.parent])))
    | right _ _ _ _ _ => exact hx (Path.mem_plug.mpr (Or.inr (by simp [Path.addrs, e, Path.parent])))
  cases Q with
  | left _ _ _ _ _ => exact absurd hQ (by simp [Path.hangsRight])
  | top =>
    obtain ⟨m', e, hlen, hsz, hX', hp', hframe⟩ := swap_pred_near hX hndX hp hpn
    obtain ⟨hs', hh'⟩ := @Shape.swap_sub K V m m' P
      (node n1 c1 (node n2 c2 l2 kv2 r2) kv1 r) (node n2 c1 (node n1 c2 l2 kv1 r2) kv2 r)
      n1 n2 pn h hs rfl rfl
      (Path.perm_swap_left Path.top n1 n2 c1 c2 r l2 r2 kv1 kv2) hX' hpn hp' hframe hlen hsz hh
    exact ⟨m', e, hs', hh', fun x hx hx0 =>
      hframe x (fun h => hx (Path.mem_plug.mpr (Or.inl h))) (hPpar x hx hx0), hlen, hsz⟩
  | right q qc qkv qsib up =>
    obtain ⟨m', e, hlen, hsz, hX', hp', hframe⟩ := swap_pred_far hX hndX hp hpn
    obtain ⟨hs', hh'⟩ := @Shape.swap_sub K V m m' P
      (node n1 c1 (up.plug (node q qc qsib qkv (node n2 c2 l2 kv2 r2))) kv1 r)
      (node n2 c1 (up.plug (node q qc qsib qkv (node n1 c2 l2 kv1 r2))) kv2 r)
      n1 n2 pn h hs rfl rfl
      (Path.perm_swap_left (Path.right q qc qkv qsib up) n1 n2 c1 c2 r l2 r2 kv1 kv2)
      hX' hpn hp' hframe hlen hsz hh
    exact ⟨m', e, hs', hh', fun x hx hx0 =>
      hframe x (fun h => hx (Path.mem_plug.mpr (Or.inl h))) (hPpar x hx hx0), hlen, hsz⟩

/-! ## The leftmost and the rightmost node of a subtree -/

theorem Path.hangsLeft_append {Q : Path K V} (h : Q.hangsLeft) (a : Nat) (c : Color)
    (kv : K × V) (sib : Tree K V) :
    (Q.append (Path.left a c kv sib Path.top)).hangsLeft := by
  cases Q with
  | top => trivial
  | left _ _ _ _ _ => trivial
  | right _ _ _ _ _ => exact h

theorem Path.hangsRight_append {Q : Path K V} (h : Q.hangsRight) (a : Nat) (c : Color)
    (kv : K × V) (sib : Tree K V) :
    (Q.append (Path.right a c kv sib Path.top)).hangsRight := by
  cases Q with
  | top => trivial
  | left _ _ _ _ _ => exact h
  | right _ _ _ _ _ => trivial

/-- The leftmost node of a tree has no left child and is the root or a left child. -/
theorem Tree.first_path (r : Tree K V) : ∀ d : Nat, r ≠ nil →
    ∃ (Q : Path K V) (c2 : Color) (kv2 : K × V) (r2 : Tree K V),
      Q.hangsLeft ∧ r = Q.plug (node (r.first d) c2 nil kv2 r2) := by
  induction r with
  | nil => intro d h; exact absurd rfl h
  | node a c l kv rr ihl _ =>
    intro d _
    by_cases hl : l = nil
    · subst hl
      exact ⟨Path.top, c, kv, rr, trivial, rfl⟩
    · obtain ⟨Q, c2, kv2, r2, hQ, e⟩ := ihl a hl
      refine ⟨Q.append (Path.left a c kv rr Path.top), c2, kv2, r2,
        Path.hangsLeft_append hQ a c kv rr, ?_⟩
      rw [Path.plug_append]
      simp only [Tree.first, Path.plug]
      rw [← e]

/-- The rightmost node of a tree has no right child and is the root or a right child. -/
theorem Tree.last_path (l : Tree K V) : ∀ d : Nat, l ≠ nil →
    ∃ (Q : Path K V) (c2 : Color) (kv2 : K × V) (l2 : Tree K V),
      Q.hangsRight ∧ l = Q.plug (node (l.last d) c2 l2 kv2 nil) := by
  induction l with
  | nil => intro d h; exact absurd rfl h
  | node a c ll kv r _ ihr =>
    intro d _
    by_cases hr : r = nil
    · subst hr
      exact ⟨Path.top, c, kv, ll, trivial, rfl⟩
    · obtain ⟨Q, c2, kv2, l2, hQ, e⟩ := ihr a hr
      refine ⟨Q.append (Path.right a c kv ll Path.top), c2, kv2, l2,
        Path.hangsRight_append hQ a c kv ll, ?_⟩
      rw [Path.plug_append]
      simp only [Tree.last, Path.plug]
      rw [← e]

/-! ## The tree with two nodes exchanged -/

theorem Tree.exchange_of_not_mem {t : Tree K V} {a b : Nat} (kva kvb : K × V)
    (ha : a ∉ t.addrs) (hb : b ∉ t.addrs) : t.exchange a b kva kvb = t := by
  induction t with
  | nil => rfl
  | node x c l kv r ihl ihr =>
    simp only [Tree.mem_addrs_node, not_or] at ha hb
    simp only [Tree.exchange, if_neg (Ne.symm ha.1), if_neg (Ne.symm hb.1), ihl ha.2.1 hb.2.1,
      ihr ha.2.2 hb.2.2]

theorem Path.exchange_plug (P : Path K V) {a b : Nat} (kva kvb : K × V)
    (ha : a ∉ P.addrs) (hb : b ∉ P.addrs) : ∀ s : Tree K V,
    (P.plug s).exchange a b kva kvb = P.plug (s.exchange a b kva kvb) := by
  induction P with
  | top => intro s; rfl
  | left p c kv sib up ih =>
    intro s
    simp only [Path.addrs, List.mem_cons, List.mem_append, not_or] at ha hb
    simp only [Path.plug]
    rw [ih (fun h => ha.2.2 h) (fun h => hb.2.2 h)]
    simp only [Tree.exchange, if_neg (Ne.symm ha.1), if_neg (Ne.symm hb.1),
      Tree.exchange_of_not_mem kva kvb ha.2.1 hb.2.1]
  | right p c kv sib up ih =>
    intro s
    simp only [Path.addrs, List.mem_cons, List.mem_append, not_or] at ha hb
    simp only [Path.plug]
    rw [ih (fun h => ha.2.2 h) (fun h => hb.2.2 h)]
    simp only [Tree.exchange, if_neg (Ne.symm ha.1), if_neg (Ne.symm hb.1),
      Tree.exchange_of_not_mem kva kvb ha.2.1 hb.2.1]

theorem Tree.exchange_succ {P Q : Path K V} {n1 n2 : Nat} {c1 c2 : Color}
    {l l2 r2 : Tree K V} {kv1 kv2 : K × V}
    (hnd : (P.plug (node n1 c1 l kv1 (Q.plug (node n2 c2 l2 kv2 r2)))).addrs.Nodup) :
    (P.plug (node n1 c1 l kv1 (Q.plug (node n2 c2 l2 kv2 r2)))).exchange n1 n2 kv1 kv2 =
      P.plug (node n2 c1 l kv2 (Q.plug (node n1 c2 l2 kv1 r2))) := by
  obtain ⟨hndX, -, hXP⟩ := Path.nodup_plug hnd
  obtain ⟨hn1l, hn1R, hlR, -, hndR⟩ := Tree.nodup_node.mp hndX
  obtain ⟨hndN, -, hNQ⟩ := Path.nodup_plug hndR
  obtain ⟨hn2l2, hn2r2, -, -, -⟩ := Tree.nodup_node.mp hndN
  have hn2N : n2 ∈ (node n2 c2 l2 kv2 r2).addrs := Tree.mem_addrs_node.mpr (Or.inl rfl)
  have hn2R : n2 ∈ (Q.plug (node n2 c2 l2 kv2 r2)).addrs := Path.mem_plug.mpr (Or.inl hn2N)
  have hn1X : n1 ∈ (node n1 c1 l kv1 (Q.plug (node n2 c2 l2 kv2 r2))).addrs :=
    Tree.mem_addrs_node.mpr (Or.inl rfl)
  have hn2X : n2 ∈ (node n1 c1 l kv1 (Q.plug (node n2 c2 l2 kv2 r2))).addrs :=
    Tree.mem_addrs_node.mpr (Or.inr (Or.inr hn2R))
  have n12 : n1 ≠ n2 := fun e => hn1R (e ▸ hn2R)
  have hmemN : ∀ x ∈ (node n2 c2 l2 kv2 r2).addrs,
      x ∈ (Q.plug (node n2 c2 l2 kv2 r2)).addrs := fun x hx => Path.mem_plug.mpr (Or.inl hx)
  rw [Path.exchange_plug P kv1 kv2 (hXP n1 hn1X) (hXP n2 hn2X)]
  congr 1
  simp only [Tree.exchange, if_true]
  rw [Tree.exchange_of_not_mem kv1 kv2 hn1l (fun h => hlR n2 h hn2R),
    Path.exchange_plug Q kv1 kv2
      (fun h => hn1R (Path.mem_plug.mpr (Or.inr h))) (hNQ n2 hn2N)]
  simp only [Tree.exchange, if_neg (Ne.symm n12), if_true]
  rw [Tree.exchange_of_not_mem kv1 kv2
      (fun h => hn1R (hmemN n1 (Tree.mem_addrs_node.mpr (Or.inr (Or.inl h))))) hn2l2,
    Tree.exchange_of_not_mem kv1 kv2
      (fun h => hn1R (hmemN n1 (Tree.mem_addrs_node.mpr (Or.inr (Or.inr h))))) hn2r2]

theorem Tree.exchange_pred {P Q : Path K V} {n1 n2 : Nat} {c1 c2 : Color}
    {r l2 r2 : Tree K V} {kv1 kv2 : K × V}
    (hnd : (P.plug (node n1 c1 (Q.plug (node n2 c2 l2 kv2 r2)) kv1 r)).addrs.Nodup) :
    (P.plug (node n1 c1 (Q.plug (node n2 c2 l2 kv2 r2)) kv1 r)).exchange n1 n2 kv1 kv2 =
      P.plug (node n2 c1 (Q.plug (node n1 c2 l2 kv1 r2)) kv2 r) := by
  obtain ⟨hndX, -, hXP⟩ := Path.nodup_plug hnd
  obtain ⟨hn1R, hn1r, hRr, hndR, -⟩ := Tree.nodup_node.mp hndX
  obtain ⟨hndN, -, hNQ⟩ := Path.nodup_plug hndR
  obtain ⟨hn2l2, hn2r2, -, -, -⟩ := Tree.nodup_node.mp hndN
  have hn2N : n2 ∈ (node n2 c2 l2 kv2 r2).addrs := Tree.mem_addrs_node.mpr (Or.inl rfl)
  have hn2R : n2 ∈ (Q.plug (node n2 c2 l2 kv2 r2)).addrs := Path.mem_plug.mpr (Or.inl hn2N)
  have hn1X : n1 ∈ (node n1 c1 (Q.plug (node n2 c2 l2 kv2 r2)) kv1 r).addrs :=
    Tree.mem_addrs_node.mpr (Or.inl rfl)
  have hn2X : n2 ∈ (node n1 c1 (Q.plug (node n2 c2 l2 kv2 r2)) kv1 r).addrs :=
    Tree.mem_addrs_node.mpr (Or.inr (Or.inl hn2R))
  have n12 : n1 ≠ n2 := fun e => hn1R (e ▸ hn2R)
  have hmemN : ∀ x ∈ (node n2 c2 l2 kv2 r2).addrs,
      x ∈ (Q.plug (node n2 c2 l2 kv2 r2)).addrs := fun x hx => Path.mem_plug.mpr (Or.inl hx)
  rw [Path.exchange_plug P kv1 kv2 (hXP n1 hn1X) (hXP n2 hn2X)]
  congr 1
  simp only [Tree.exchange, if_true]
  rw [Tree.exchange_of_not_mem kv1 kv2 hn1r (fun h => hRr n2 hn2R h),
    Path.exchange_plug Q kv1 kv2
      (fun h => hn1R (Path.mem_plug.mpr (Or.inr h))) (hNQ n2 hn2N)]
  simp only [Tree.exchange, if_neg (Ne.symm n12), if_true]
  rw [Tree.exchange_of_not_mem kv1 kv2
      (fun h => hn1R (hmemN n1 (Tree.mem_addrs_node.mpr (Or.inr (Or.inl h))))) hn2l2,
    Tree.exchange_of_not_mem kv1 kv2
      (fun h => hn1R (hmemN n1 (Tree.mem_addrs_node.mpr (Or.inr (Or.inr h))))) hn2r2]

/-- The in-order successor of a node with a right child is the leftmost node
of its right subtree. -/
theorem inorderSuccessor_of_right {m : Map K V} {par : Option Nat} {n1 : Nat} {c1 : Color}
    {l r : Tree K V} {kv1 : K × V} (h : Rep m par (node n1 c1 l kv1 r))
    (hnd : (node n1 c1 l kv1 r).addrs.Nodup) (hr : r ≠ nil) :
    inorderSuccessor m (fuelOf m) n1 = some (r.first n1) := by
  cases r with
  | nil => exact absurd rfl hr
  | node ra rc rl rkv rr =>
    have hf := h.2.2.height_lt_fuel (Tree.nodup_node.mp hnd).2.2.2.2
    simp only [inorderSuccessor, h.1, Tree.root_node, Option.bind_eq_bind, Option.some_bind]
    exact leftmost_spec n1 _ m (some n1) (fuelOf m) ra h.2.2 rfl (Nat.le_of_lt hf)

/-- The in-order predecessor of a node with a left child is the rightmost
node of its left subtree. -/
theorem inorderPredecessor_of_left {m : Map K V} {par : Option Nat} {n1 : Nat} {c1 : Color}
    {l r : Tree K V} {kv1 : K × V} (h : Rep m par (node n1 c1 l kv1 r))
    (hnd : (node n1 c1 l kv1 r).addrs.Nodup) (hl : l ≠ nil) :
    inorderPredecessor m (fuelOf m) n1 = some (l.last n1) := by
  cases l with
  | nil => exact absurd rfl hl
  | node la lc ll lkv lr =>
    have hf := h.2.1.height_lt_fuel (Tree.nodup_node.mp hnd).2.2.2.1
    simp only [inorderPredecessor, h.1, Tree.root_node, Option.bind_eq_bind, Option.some_bind]
    exact rightmost_spec n1 _ m (some n1) (fuelOf m) la h.2.1 rfl (Nat.le_of_lt hf)

/-- C34: relocation by `swapNodes`.  In a map that holds a tree, for a node
`n1` of the tree and the node `n2` that `eraseHelper` exchanges it with (the
in-order successor of `n1` if `n1` has a right child, else the in-order
predecessor of `n1` if `n1` has a left child; `n2` may be a child of `n1`),
`swapNodes(n1, n2)` returns, and the map then holds the tree in which the two
nodes have exchanged their positions: all parent and child links are
consistent, the sentinel's root slot refers to the new root, every position has
the colour it had, and every other node is where it was with its value and
colour.  The sentinel's links that referred to `n1` refer to `n2` if `n1` was
the root, and are as before otherwise; no cell outside the tree changes. -/
theorem C34_swapNodes_exchanges_positions {m : Map K V} {t : Tree K V} {n1 n2 : Nat}
    {h nn1 nn2 : RB_Node K V}
    (hs : Shape m t) (hh : rd m 0 = some h) (hn1 : n1 ∈ t.addrs)
    (hc1 : rd m n1 = some nn1) (hc2 : rd m n2 = some nn2)
    (hrepl : (nn1.right.isSome ∧ inorderSuccessor m (fuelOf m) n1 = some n2) ∨
      (nn1.right = none ∧ nn1.left.isSome ∧
        inorderPredecessor m (fuelOf m) n1 = some n2)) :
    ∃ m', swapNodes m n1 n2 = some m' ∧
      Shape m' (t.exchange n1 n2 nn1.value nn2.value) ∧
      rd m' 0 = some (if t.root = some n1 then redirect n1 n2 h else h) ∧
      (∀ x, x ∉ t.addrs → x ≠ 0 → rd m' x = rd m x) ∧
      m'.mem.length = m.mem.length ∧ m'._size = m._size := by
  obtain ⟨P, X, rfl, hXroot⟩ := Tree.exists_path hn1
  cases X with
  | nil => cases hXroot
  | node a c1 l kv1 r =>
  simp only [Tree.root_node, Option.some.injEq] at hXroot
  subst hXroot
  have hX := Path.rep_hole P hs.rep
  have hndX := (Path.nodup_plug hs.nodup).1
  have e1 := hX.1
  rw [hc1] at e1
  cases e1
  simp only at hrepl ⊢
  rcases hrepl with ⟨hr, hsucc⟩ | ⟨hr, hl, hpred⟩
  · have hrne : r ≠ nil := by
      rintro rfl
      cases hr
    rw [inorderSuccessor_of_right hX hndX hrne] at hsucc
    obtain ⟨Q, c2, kv2, r2, hQ, er⟩ := Tree.first_path r a hrne
    simp only [Option.some.injEq] at hsucc
    rw [hsucc] at er
    subst er
    have e2 := (Path.rep_hole_at Q hX.2.2).1
    rw [hc2] at e2
    cases e2
    obtain ⟨m', e, hs', hh', hframe, hlen, hsz⟩ := swap_succ hs hQ hh
    exact ⟨m', e, by rw [Tree.exchange_succ hs.nodup]; exact hs', hh', hframe, hlen, hsz⟩
  · have hre : r = nil := by
      cases r with
      | nil => rfl
      | node _ _ _ _ _ => cases hr
    subst hre
    have hlne : l ≠ nil := by
      rintro rfl
      cases hl
    rw [inorderPredecessor_of_left hX hndX hlne] at hpred
    obtain ⟨Q, c2, kv2, l2, hQ, el⟩ := Tree.last_path l a hlne
    simp only [Option.some.injEq] at hpred
    rw [hpred] at el
    subst el
    have e2 := (Path.rep_hole_at Q hX.2.1).1
    rw [hc2] at e2
    cases e2
    obtain ⟨m', e, hs', hh', hframe, hlen, hsz⟩ := swap_pred hs hQ hh
    exact ⟨m', e, by rw [Tree.exchange_pred hs.nodup]; exact hs', hh', hframe, hlen, hsz⟩

theorem leftPair_shape : Shape leftPairMap leftPairTree :=
  ⟨⟨_, rfl, rfl⟩, ⟨rfl, ⟨rfl, trivial, trivial⟩, trivial⟩, by decide, by decide⟩

theorem C34_witness :
    (Shape leftPairMap leftPairTree ∧ 2 ∈ leftPairTree.addrs ∧
      inorderPredecessor leftPairMap (fuelOf leftPairMap) 2 = some 1) ∧
    ∃ m', swapNodes leftPairMap 2 1 = some m' ∧
      Shape m' (leftPairTree.exchange 2 1 (2, 20) (1, 10)) ∧
      rd m' 0 = some (if leftPairTree.root = some 2
        then redirect 2 1 ⟨(0, 0), some 2, some 1, some 2, Color.Red⟩
        else ⟨(0, 0), some 2, some 1, some 2, Color.Red⟩) ∧
      (∀ x, x ∉ leftPairTree.addrs → x ≠ 0 → rd m' x = rd leftPairMap x) ∧
      m'.mem.length = leftPairMap.mem.length ∧ m'._size = leftPairMap._size :=
  ⟨⟨leftPair_shape, by decide, by decide⟩,
    C34_swapNodes_exchanges_positions leftPair_shape
      (show rd leftPairMap 0 = some ⟨(0, 0), some 2, some 1, some 2, Color.Red⟩ from rfl)
      (by decide)
      (show rd leftPairMap 2 = some ⟨(2, 20), some 0, some 1, none, Color.Black⟩ from rfl)
      (show rd leftPairMap 1 = some ⟨(1, 10), some 2, none, none, Color.Red⟩ from rfl)
      (Or.inr ⟨rfl, rfl, by decide⟩)⟩

/-! ## The node that `eraseHelper` deletes (C35) -/

/-- The observed removal of a Red leaf is the removal of `removeRedLeaf`. -/
theorem removeRedLeafObs_fst (m : Map K V) (node : Nat) :
    (removeRedLeafObs m node).map (fun r => (r.1, r.2.1)) = removeRedLeaf m node := by
  simp only [removeRedLeafObs, removeRedLeaf, Option.bind_eq_bind, Option.pure_def]
  cases h1 : rd m node with
  | none => rfl
  | some n =>
    simp only [Option.some_bind]
    cases h2 : n.parent with
    | none => rfl
    | some p =>
      simp only [Option.some_bind]
      cases h3 : rd m p with
      | none => rfl
      | some pn =>
        simp only [Option.some_bind]
        split_ifs
        · cases h5 : setLeft m p none with
          | none => rfl
          | some m1 =>
            simp only [Option.some_bind, free]
            cases h4 : rd m1 node <;> rfl
        · cases h5 : setRight m p none with
          | none => rfl
          | some m1 =>
            simp only [Option.some_bind, free]
            cases h4 : rd m1 node <;> rfl
        · cases h5 : setParent m p none with
          | none => rfl
          | some m1 =>
            simp only [Option.some_bind, free]
            cases h4 : rd m1 node <;> rfl

/-- The observed removal of a Black leaf is the removal of `removeBlackLeaf`. -/
theorem removeBlackLeafObs_fst (m : Map K V) (node : Nat) :
    (removeBlackLeafObs m node).map (fun r => (r.1, r.2.1)) = removeBlackLeaf m node := by
  simp only [removeBlackLeafObs, removeBlackLeaf, Option.bind_eq_bind, Option.pure_def]
  cases h0 : resolveDB (fuelOf m) m node with
  | none => rfl
  | some m0 =>
    simp only [Option.some_bind]
    cases h1 : rd m0 node with
    | none => rfl
    | some n =>
      simp only [Option.some_bind]
      cases h2 : n.parent with
      | none => rfl
      | some p =>
        simp only [Option.some_bind]
        cases h3 : rd m0 p with
        | none => rfl
        | some pn =>
          simp only [Option.some_bind]
          split_ifs
          · cases h5 : setLeft m0 p none with
            | none => rfl
            | some m1 =>
              simp only [Option.some_bind, free]
              cases h4 : rd m1 node <;> rfl
          · cases h5 : setRight m0 p none with
            | none => rfl
            | some m1 =>
              simp only [Option.some_bind, free]
              cases h4 : rd m1 node <;> rfl

/-- The map and the flag of the observed `eraseHelper` are those of
`eraseHelper`: the observations change nothing. -/
theorem eraseHelperObs_fst (comp : K → K → Bool) (x : K) : ∀ (fuel : Nat) (m : Map K V)
    (node : Option Nat) (k : Nat),
    (eraseHelperObs comp fuel m node x k).map (fun r => (r.1, r.2.1)) =
      eraseHelper comp fuel m node x := by
  intro fuel
  induction fuel with
  | zero => intro m node k; rfl
  | succ fuel ih =>
    intro m node k
    cases node with
    | none => rfl
    | some a =>
      rw [eraseHelperObs, eraseHelper]
      by_cases h1 : m._size = 1
      · rw [if_pos h1, if_pos h1, Option.map_map]
        cases eraseLast comp m a x <;> rfl
      rw [if_neg h1, if_neg h1]
      cases hn : rd m a with
      | none => rfl
      | some n =>
        simp only [Option.some_bind]
        by_cases h2 : comp x n.value.1 = true
        · rw [if_pos h2, if_pos h2]
          exact ih _ _ _
        rw [if_neg h2, if_neg h2]
        by_cases h3 : comp n.value.1 x = true
        · rw [if_pos h3, if_pos h3]
          exact ih _ _ _
        rw [if_neg h3, if_neg h3]
        cases hm1 : updateMin m a with
        | none => rfl
        | some m1 =>
          simp only [Option.some_bind]
          cases hm2 : updateMax m1 a with
          | none => rfl
          | some m2 =>
            simp only [Option.some_bind]
            cases hn2 : rd m2 a with
            | none => rfl
            | some n2 =>
              simp only [Option.some_bind]
              by_cases h4 : n2.right.isSome = true
              · rw [if_pos h4, if_pos h4]
                cases hsw : swapWithSuccessor m2 a with
                | none => rfl
                | some m3 => simp only [Option.some_bind]; exact ih _ _ _
              rw [if_neg h4, if_neg h4]
              by_cases h5 : n2.left.isSome = true
              · rw [if_pos h5, if_pos h5]
                cases hsw : swapWithPredecessor m2 a with
                | none => rfl
                | some m3 => simp only [Option.some_bind]; exact ih _ _ _
              rw [if_neg h5, if_neg h5]
              by_cases h6 : n2.color = Color.Red
              · rw [if_pos h6, if_pos h6, Option.map_map]
                exact removeRedLeafObs_fst m2 a
              · rw [if_neg h6, if_neg h6, Option.map_map]
                exact removeBlackLeafObs_fst m2 a

/-- The in-order predecessor of a node of a subtree is found, differs from the
node, and is a node of the subtree or the node that precedes the subtree,
provided the climb from the root of the subtree ends at that node. -/
theorem predecessor_subtree (t : Tree K V) : ∀ (m : Map K V) (pr before B : Nat),
    Rep m (some pr) t → t.addrs.Nodup → before ∉ t.addrs → B + t.height ≤ fuelOf m →
    (∀ s, t.root = some s → ∀ fuel, B ≤ fuel →
      (climbLeft m fuel s pr).bind (afterClimbLeft m) = some before) →
    ∀ a ∈ t.addrs, ∃ s, inorderPredecessor m (fuelOf m) a = some s ∧ s ≠ a ∧
      (s ∈ t.addrs ∨ s = before) := by
  induction t with
  | nil => intro m pr before B _ _ _ _ _ a ha; cases ha
  | node s c l kv r ihl ihr =>
    intro m pr before B hrep hnd h0 hB hexit a ha
    obtain ⟨hs, hl, hr⟩ := hrep
    obtain ⟨hsl, hsr, hdis, hndl, hndr⟩ := Tree.nodup_node.mp hnd
    simp only [Tree.mem_addrs_node, not_or] at h0
    simp only [Tree.height] at hB
    have hlh : l.height ≤ max l.height r.height := le_max_left _ _
    have hrh : r.height ≤ max l.height r.height := le_max_right _ _
    rcases Tree.mem_addrs_node.mp ha with rfl | ha | ha
    · -- the root of the subtree
      have hdec : inorderPredecessor m (fuelOf m) a = some (l.last before) := by
        simp only [inorderPredecessor, hs, Option.bind_eq_bind, Option.some_bind]
        cases l with
        | nil =>
          simp only [Tree.root_nil, Tree.last]
          exact hexit a rfl (fuelOf m) (by omega)
        | node la lc ll lkv lr =>
          simp only [Tree.root_node]
          exact rightmost_spec before _ m (some a) (fuelOf m) la hl rfl (by omega)
      refine ⟨_, hdec, ?_, ?_⟩
      · cases l with
        | nil => exact fun e => h0.1 e
        | node la lc ll lkv lr =>
          intro e
          have hm := @Tree.last_mem K V (node la lc ll lkv lr) la rfl before
          exact hsl (e ▸ hm)
      · cases l with
        | nil => exact Or.inr rfl
        | node la lc ll lkv lr =>
          exact Or.inl (Tree.mem_addrs_node.mpr (Or.inr (Or.inl
            (@Tree.last_mem K V (node la lc ll lkv lr) la rfl before))))
    · -- the left subtree
      obtain ⟨p, hp, hne, hmem⟩ := ihl m s before (B + 1) hl hndl h0.2.1 (by omega) (by
        intro ll hll fuel hfuel
        obtain ⟨k, rfl⟩ : ∃ k, fuel = k + 1 := ⟨fuel - 1, by omega⟩
        rw [climbLeft_step k hs hll rfl]
        exact hexit s rfl k (by omega)) a ha
      refine ⟨p, hp, hne, ?_⟩
      rcases hmem with hmem | hmem
      · exact Or.inl (Tree.mem_addrs_node.mpr (Or.inr (Or.inl hmem)))
      · exact Or.inr hmem
    · -- the right subtree
      obtain ⟨p, hp, hne, hmem⟩ := ihr m s s 1 hr hndr hsr (by omega) (by
        intro rr hrr fuel hfuel
        obtain ⟨k, rfl⟩ : ∃ k, fuel = k + 1 := ⟨fuel - 1, by omega⟩
        have hne : (⟨kv, some pr, l.root, r.root, c⟩ : RB_Node K V).left ≠ some rr := by
          intro e
          exact hdis rr (Tree.root_mem e) (Tree.root_mem hrr)
        rw [climbLeft_stop k hs hne]
        cases r with
        | nil => cases hrr
        | node ra rc rl rkv rr' =>
          simp only [Tree.root_node, Option.some.injEq] at hrr
          subst hrr
          have hne' : rl.root ≠ some s := fun e =>
            hsr (Tree.mem_addrs_node.mpr (Or.inr (Or.inl (Tree.root_mem e))))
          simp [afterClimbLeft, hr.1, hne']) a ha
      refine ⟨p, hp, hne, Or.inl ?_⟩
      rcases hmem with hmem | hmem
      · exact Tree.mem_addrs_node.mpr (Or.inr (Or.inr hmem))
      · exact Tree.mem_addrs_node.mpr (Or.inl hmem)

/-- In a map that holds a tree `inorderPredecessor` returns at every node of the
tree, and what it returns is not the node. -/
theorem predecessor_returns {m : Map K V} {t : Tree K V} {a : Nat} (hs : Shape m t)
    (ha : a ∈ t.addrs) : ∃ s, inorderPredecessor m (fuelOf m) a = some s ∧ s ≠ a := by
  have hsize := hs.rep.size_le hs.nodup
  have hheight := t.height_le_size
  obtain ⟨s, h1, h2, -⟩ := predecessor_subtree t m 0 0 2 hs.rep hs.nodup hs.notHead
    (by simp only [fuelOf]; omega)
    (fun s hroot fuel hf => climbLeft_root_exit hs hroot fuel hf) a ha
  exact ⟨s, h1, h2⟩

/-- In a map that holds a tree `inorderSuccessor` returns at every node of the
tree, and what it returns is not the node. -/
theorem successor_returns {m : Map K V} {t : Tree K V} {a : Nat} (hs : Shape m t)
    (ha : a ∈ t.addrs) : ∃ s, inorderSuccessor m (fuelOf m) a = some s ∧ s ≠ a := by
  have hc : a ∈ t.cells.map Prod.fst := by rw [Tree.cells_map_fst]; exact ha
  obtain ⟨⟨a', x⟩, hx, rfl⟩ := List.mem_map.mp hc
  obtain ⟨l1, l2, e⟩ := List.append_of_mem hx
  refine ⟨_, increment_spec hs e, ?_⟩
  have hnd : (t.cells.map Prod.fst).Nodup := by rw [Tree.cells_map_fst]; exact hs.nodup
  cases l2 with
  | nil =>
    intro e0
    simp only [List.map_nil, List.headD_nil, endIt] at e0
    exact hs.notHead (e0 ▸ ha)
  | cons q l2 =>
    intro e0
    simp only [List.map_cons, List.headD_cons] at e0
    rw [e, List.map_append, List.map_cons, List.map_cons, List.nodup_append] at hnd
    have := (List.nodup_cons.mp hnd.2.1).1
    exact this (by rw [e0]; exact List.mem_cons_self _ _)

/-- A store that differs from a map holding a tree only in the sentinel, and
there not in the root slot, holds the same tree. -/
theorem Shape.of_head {m m' : Map K V} {t : Tree K V} {h h' : RB_Node K V} (hs : Shape m t)
    (hh : rd m 0 = some h) (hh' : rd m' 0 = some h') (hp : h'.parent = h.parent)
    (hf : ∀ x, x ≠ 0 → rd m' x = rd m x) : Shape m' t := by
  obtain ⟨h0, hh0, hp0⟩ := hs.head
  have e : h0 = h := Option.some.inj (hh0.symm.trans hh)
  subst e
  exact ⟨⟨h', hh', hp.trans hp0⟩,
    hs.rep.frame (fun x hx => hf x (fun e => hs.notHead (e ▸ hx))), hs.nodup, hs.notHead⟩

/-- The two statements of `eraseHelper` that move the sentinel's links to the
leftmost and to the rightmost node away from the node found: in a map that
holds a tree both return, only the sentinel's `left` and `right` links may
change, and afterwards neither refers to the node. -/
theorem updates_spec {m : Map K V} {t : Tree K V} {a : Nat} (hs : Shape m t)
    (ha : a ∈ t.addrs) :
    ∃ m2 h2, (updateMin m a).bind (fun m1 => updateMax m1 a) = some m2 ∧ Shape m2 t ∧
      rd m2 0 = some h2 ∧ h2.left ≠ some a ∧ h2.right ≠ some a ∧
      (∀ x, x ≠ 0 → rd m2 x = rd m x) ∧
      m2.mem.length = m.mem.length ∧ m2._size = m._size := by
  obtain ⟨h, hh, hp⟩ := hs.head
  -- the first statement
  have step1 : ∃ m1 h1, updateMin m a = some m1 ∧ Shape m1 t ∧ rd m1 0 = some h1 ∧
      h1.left ≠ some a ∧ h1.right = h.right ∧ (∀ x, x ≠ 0 → rd m1 x = rd m x) ∧
      m1.mem.length = m.mem.length ∧ m1._size = m._size := by
    by_cases hl : h.left = some a
    · obtain ⟨s, hsucc, hne⟩ := successor_returns hs ha
      have hrd := rd_wr_same { h with left := some s } hh
      refine ⟨wr m 0 { h with left := some s }, _, ?_, ?_, hrd, ?_, rfl, ?_, ?_, rfl⟩
      · simp only [updateMin, hh, hl, hsucc, Option.bind_eq_bind, Option.some_bind, if_true]
        exact setLeft_eq hh _
      · exact hs.of_head hh hrd rfl (fun x hx => rd_wr_ne m _ hx)
      · simpa using hne
      · exact fun x hx => rd_wr_ne m _ hx
      · simp [wr]
    · refine ⟨m, h, ?_, hs, hh, hl, rfl, fun _ _ => rfl, rfl, rfl⟩
      simp [updateMin, hh, hl]
  obtain ⟨m1, h1, e1, hs1, hh1, hl1, hr1, hf1, hlen1, hsz1⟩ := step1
  rw [e1, Option.some_bind]
  by_cases hr : h1.right = some a
  · obtain ⟨s, hpred, hne⟩ := predecessor_returns hs1 ha
    have hrd := rd_wr_same { h1 with right := some s } hh1
    refine ⟨wr m1 0 { h1 with right := some s }, _, ?_, ?_, hrd, hl1, ?_, ?_, ?_, hsz1⟩
    · simp only [updateMax, hh1, hr, hpred, Option.bind_eq_bind, Option.some_bind, if_true]
      exact setRight_eq hh1 _
    · exact hs1.of_head hh1 hrd rfl (fun x hx => rd_wr_ne m1 _ hx)
    · simpa using hne
    · exact fun x hx => (rd_wr_ne m1 _ hx).trans (hf1 x hx)
    · rw [← hlen1]; simp [wr]
  · refine ⟨m1, h1, ?_, hs1, hh1, hl1, hr, hf1, hlen1, hsz1⟩
    simp [updateMax, hh1, hr]

/-- A tree without Black node on its paths and without Red root is empty. -/
theorem Tree.nil_of_blackHeight_zero {t : Tree K V} (h1 : t.isRed = false)
    (h2 : t.blackHeight 0) : t = nil := by
  cases t with
  | nil => rfl
  | node a c l kv r =>
    cases c with
    | Red => simp [Tree.isRed] at h1
    | Black =>
      obtain ⟨k, hk, -⟩ := h2
      omega

/-- A tree without Black node on its paths and without Red-Red conflict is
empty or a single Red node. -/
theorem Tree.leaf_of_blackHeight_zero {t : Tree K V} (h1 : t.noRedRed)
    (h2 : t.blackHeight 0) : t = nil ∨ ∃ a kv, t = node a Color.Red nil kv nil := by
  cases t with
  | nil => exact Or.inl rfl
  | node a c l kv r =>
    cases c with
    | Black =>
      obtain ⟨k, hk, -⟩ := h2
      omega
    | Red =>
      have hl := Tree.nil_of_blackHeight_zero (h1.1 rfl).1 h2.1
      have hr := Tree.nil_of_blackHeight_zero (h1.1 rfl).2 h2.2
      subst hl hr
      exact Or.inr ⟨a, kv, rfl⟩

/-- In a tree with the colour invariants, the only child of a node with one
child is a Red leaf: the case of an absent left child. -/
theorem Tree.right_of_nil_left {a : Nat} {c : Color} {kv : K × V} {r : Tree K V} {j : Nat}
    (h1 : (node a c nil kv r).noRedRed) (h2 : (node a c nil kv r).blackHeight j) :
    r = nil ∨ ∃ b kvb, r = node b Color.Red nil kvb nil := by
  cases c with
  | Red =>
    have e : j = 0 := h2.1
    subst e
    exact Tree.leaf_of_blackHeight_zero h1.2.2 h2.2
  | Black =>
    obtain ⟨k, -, hk, hr⟩ := h2
    have e : k = 0 := hk
    subst e
    exact Tree.leaf_of_blackHeight_zero h1.2.2 hr

/-- In a tree with the colour invariants, the only child of a node with one
child is a Red leaf: the case of an absent right child. -/
theorem Tree.left_of_nil_right {a : Nat} {c : Color} {kv : K × V} {l : Tree K V} {j : Nat}
    (h1 : (node a c l kv nil).noRedRed) (h2 : (node a c l kv nil).blackHeight j) :
    l = nil ∨ ∃ b kvb, l = node b Color.Red nil kvb nil := by
  cases c with
  | Red =>
    have e : j = 0 := h2.2
    subst e
    exact Tree.leaf_of_blackHeight_zero h1.2.1 h2.1
  | Black =>
    obtain ⟨k, -, hl, hk⟩ := h2
    have e : k = 0 := hk
    subst e
    exact Tree.leaf_of_blackHeight_zero h1.2.1 hl

/-- The colour invariants and the size of a tree below a path depend on the
subtree at the end of the path only through the colour of its root, its size
and its own colour invariants. -/
theorem Path.alike_plug (p : Path K V) : ∀ {s s' : Tree K V},
    s'.isRed = s.isRed → s'.size = s.size → (s.noRedRed → s'.noRedRed) →
    (∀ j, s.blackHeight j → s'.blackHeight j) →
    (p.plug s').isRed = (p.plug s).isRed ∧ (p.plug s').size = (p.plug s).size ∧
      ((p.plug s).noRedRed → (p.plug s').noRedRed) ∧
      ∀ j, (p.plug s).blackHeight j → (p.plug s').blackHeight j := by
  induction p with
  | top => intro s s' h1 h2 h3 h4; exact ⟨h1, h2, h3, h4⟩
  | left a c kv sib up ih =>
    intro s s' h1 h2 h3 h4
    refine @ih (node a c s kv sib) (node a c s' kv sib) ?_ ?_ ?_ ?_
    · cases c <;> rfl
    · simp only [Tree.size, h2]
    · intro h
      exact ⟨fun hc => ⟨h1 ▸ (h.1 hc).1, (h.1 hc).2⟩, h3 h.2.1, h.2.2⟩
    · intro j h
      cases c with
      | Red => exact ⟨h4 _ h.1, h.2⟩
      | Black =>
        obtain ⟨k, hk, hl, hr⟩ := h
        exact ⟨k, hk, h4 _ hl, hr⟩
  | right a c kv sib up ih =>
    intro s s' h1 h2 h3 h4
    refine @ih (node a c sib kv s) (node a c sib kv s') ?_ ?_ ?_ ?_
    · cases c <;> rfl
    · simp only [Tree.size, h2]
    · intro h
      exact ⟨fun hc => ⟨(h.1 hc).1, h1 ▸ (h.1 hc).2⟩, h.2.1, h3 h.2.2⟩
    · intro j h
      cases c with
      | Red => exact ⟨h.1, h4 _ h.2⟩
      | Black =>
        obtain ⟨k, hk, hl, hr⟩ := h
        exact ⟨k, hk, hl, h4 _ hr⟩

/-- One activation of the observed `eraseHelper` at the node with an equivalent
key, in a map with more than one element: what is left to do after the two
statements on the sentinel's links. -/
theorem eraseHelperObs_found {comp : K → K → Bool} {x : K} {m m2 : Map K V} {a : Nat}
    {n n2 : RB_Node K V} (h1 : m._size ≠ 1) (hn : rd m a = some n)
    (hx1 : comp x n.value.1 = false) (hx2 : comp n.value.1 x = false)
    (hupd : (updateMin m a).bind (fun m1 => updateMax m1 a) = some m2)
    (hn2 : rd m2 a = some n2) (fuel k : Nat) :
    eraseHelperObs comp (fuel + 1) m (some a) x k =
      if n2.right.isSome then
        (swapWithSuccessor m2 a).bind fun m => eraseHelperObs comp fuel m (some a) x (k + 1)
      else if n2.left.isSome then
        (swapWithPredecessor m2 a).bind fun m => eraseHelperObs comp fuel m (some a) x (k + 1)
      else if n2.color = Color.Red then
        (removeRedLeafObs m2 a).map fun (r : Map K V × Bool × Bool) =>
          (r.1, r.2.1, k, some r.2.2)
      else (removeBlackLeafObs m2 a).map fun (r : Map K V × Bool × Bool) =>
        (r.1, r.2.1, k, some r.2.2) := by
  rw [eraseHelperObs, if_neg h1, hn]
  simp only [Option.some_bind]
  rw [if_neg (by simp [hx1]), if_neg (by simp [hx2])]
  cases hm1 : updateMin m a with
  | none => rw [hm1] at hupd; cases hupd
  | some m1 =>
    rw [hm1, Option.some_bind] at hupd
    simp only [Option.some_bind, hupd, hn2]

/-- The observed removal of a Red node without children returns, and the
observation is that the node has no child. -/
theorem removeRedLeafObs_leaf {m : Map K V} {a p : Nat} {n pn : RB_Node K V}
    (hn : rd m a = some n) (hp : n.parent = some p) (hl : n.left = none)
    (hr : n.right = none) (hpn : rd m p = some pn) (hne : a ≠ p) :
    ∃ m', removeRedLeafObs m a = some (m', true, true) := by
  have e : ∀ y : RB_Node K V, rd (wr m p y) a = some n := fun y => by
    rw [rd_wr_ne m y hne, hn]
  simp only [removeRedLeafObs, hn, hp, hpn, Option.bind_eq_bind, Option.some_bind,
    Option.pure_def]
  split_ifs
  · simp [setLeft_eq hpn, e, free, hl, hr]
  · simp [setRight_eq hpn, e, free, hl, hr]
  · simp [setParent_eq hpn, e, free, hl, hr]

/-- The observed removal of a Black node without children returns when
`resolveDB` returns and leaves the cell of the node as it is and the cell of its
parent allocated; the observation is that the node has no child. -/
theorem removeBlackLeafObs_leaf {m m0 : Map K V} {a p : Nat} {n pn : RB_Node K V}
    (hdb : resolveDB (fuelOf m) m a = some m0)
    (hn : rd m0 a = some n) (hp : n.parent = some p) (hl : n.left = none)
    (hr : n.right = none) (hpn : rd m0 p = some pn) (hne : a ≠ p) :
    ∃ m', removeBlackLeafObs m a = some (m', true, true) := by
  have e : ∀ y : RB_Node K V, rd (wr m0 p y) a = some n := fun y => by
    rw [rd_wr_ne m0 y hne, hn]
  simp only [removeBlackLeafObs, hdb, hn, hp, hpn, Option.bind_eq_bind, Option.some_bind,
    Option.pure_def]
  split_ifs
  · simp [setLeft_eq hpn, e, free, hl, hr]
  · simp [setRight_eq hpn, e, free, hl, hr]

theorem Path.size_le_plug (p : Path K V) : ∀ s : Tree K V, s.size ≤ (p.plug s).size := by
  induction p with
  | top => intro s; exact le_rfl
  | left a c kv sib up ih =>
    intro s
    have := ih (node a c s kv sib)
    simp only [Path.plug, Tree.size] at this ⊢
    omega
  | right a c kv sib up ih =>
    intro s
    have := ih (node a c sib kv s)
    simp only [Path.plug, Tree.size] at this ⊢
    omega

/-- The activation of `eraseHelper` at a node without children that holds an
equivalent key, in a map with at least two elements whose tree has the colour
invariants: the node is unlinked and deleted without a call of `swapNodes`,
and it has no child when it is deleted. -/
theorem erase_leaf {comp : K → K → Bool} {x : K} {m : Map K V} {P : Path K V} {a : Nat}
    {c : Color} {kv : K × V} {n : Nat}
    (hs : Shape m (P.plug (node a c nil kv nil)))
    (hnrr : (P.plug (node a c nil kv nil)).noRedRed)
    (hbh : (P.plug (node a c nil kv nil)).blackHeight n)
    (hsz : m._size = (P.plug (node a c nil kv nil)).size)
    (h2 : 2 ≤ (P.plug (node a c nil kv nil)).size)
    (hx1 : comp x kv.1 = false) (hx2 : comp kv.1 x = false) (fuel k : Nat) :
    ∃ m', eraseHelperObs comp (fuel + 1) m (some a) x k = some (m', true, k, some true) := by
  have ha : a ∈ (P.plug (node a c nil kv nil)).addrs :=
    Path.mem_plug.mpr (Or.inl (Tree.mem_addrs_node.mpr (Or.inl rfl)))
  obtain ⟨m2, h2', hupd, hs2, hh2, -, -, hf, hlen, hsz2⟩ := updates_spec hs ha
  have hcell := (Path.rep_hole P hs.rep).1
  have hcell2 := (Path.rep_hole P hs2.rep).1
  obtain ⟨pn, hpn, -, hpar⟩ := Path.parent_cell hs2 rfl
  have hne : a ≠ P.parent := fun e =>
    hpar (e ▸ Tree.mem_addrs_node.mpr (Or.inl rfl))
  rw [eraseHelperObs_found (by omega) hcell hx1 hx2 hupd hcell2 fuel k]
  simp only [Tree.root_nil, Option.isSome_none, Bool.false_eq_true, if_false]
  cases c with
  | Red =>
    obtain ⟨m', hm'⟩ := removeRedLeafObs_leaf hcell2 rfl rfl rfl hpn hne
    exact ⟨m', by simp [hm']⟩
  | Black =>
    have hbh1 : (node a Color.Black (nil : Tree K V) kv nil).blackHeight 1 :=
      ⟨0, rfl, rfl, rfl⟩
    have haround := Path.around_of_valid P hnrr hbh hbh1
    have hdepth := Path.depth_add_height_le P (node a Color.Black (nil : Tree K V) kv nil)
    simp only [Tree.height] at hdepth
    have hfuel := hs2.rep.height_lt_fuel hs2.nodup
    obtain ⟨m0, -, hdb, -, -, -, -, hfr, hpar0, -, -⟩ :=
      resolveDB_spec P hs2 rfl haround le_rfl
        (fuelOf m2) (by
          have := (P.plug (node a Color.Black (nil : Tree K V) kv nil)).height_le_size
          have := hs2.rep.size_le hs2.nodup
          simp only [fuelOf] at hfuel ⊢
          omega)
    have hcell0 := (hfr a (Tree.mem_addrs_node.mpr (Or.inl rfl))).trans hcell2
    obtain ⟨pn0, hpn0⟩ := Option.isSome_iff_exists.mp hpar0
    obtain ⟨m', hm'⟩ := removeBlackLeafObs_leaf hdb hcell0 rfl rfl rfl hpn0 hne
    exact ⟨m', by simp [hm']⟩

/-- The activation at the node found, when the node has a right child. -/
theorem eraseHelperObs_found_right {comp : K → K → Bool} {x : K} {m m2 : Map K V} {a : Nat}
    {n n2 : RB_Node K V} (h1 : m._size ≠ 1) (hn : rd m a = some n)
    (hx1 : comp x n.value.1 = false) (hx2 : comp n.value.1 x = false)
    (hupd : (updateMin m a).bind (fun m1 => updateMax m1 a) = some m2)
    (hn2 : rd m2 a = some n2) (hright : n2.right.isSome = true) (fuel k : Nat) :
    eraseHelperObs comp (fuel + 1) m (some a) x k =
      (swapWithSuccessor m2 a).bind fun m => eraseHelperObs comp fuel m (some a) x (k + 1) := by
  rw [eraseHelperObs_found h1 hn hx1 hx2 hupd hn2 fuel k, if_pos hright]

/-- The activation at the node found, when the node has a left child only. -/
theorem eraseHelperObs_found_left {comp : K → K → Bool} {x : K} {m m2 : Map K V} {a : Nat}
    {n n2 : RB_Node K V} (h1 : m._size ≠ 1) (hn : rd m a = some n)
    (hx1 : comp x n.value.1 = false) (hx2 : comp n.value.1 x = false)
    (hupd : (updateMin m a).bind (fun m1 => updateMax m1 a) = some m2)
    (hn2 : rd m2 a = some n2) (hright : n2.right.isSome = false)
    (hleft : n2.left.isSome = true) (fuel k : Nat) :
    eraseHelperObs comp (fuel + 1) m (some a) x k =
      (swapWithPredecessor m2 a).bind fun m =>
        eraseHelperObs comp fuel m (some a) x (k + 1) := by
  rw [eraseHelperObs_found h1 hn hx1 hx2 hupd hn2 fuel k, if_neg (by simp [hright]),
    if_pos hleft]

/-- The activation of `eraseHelper` at a node with a right child that holds an
equivalent key: the node is exchanged with its in-order successor and the
recursive activation runs at the node in its new position, where it has no left
child and a right subtree smaller than before; the tree keeps its colour
invariants and its size. -/
theorem erase_swap_right {comp : K → K → Bool} {x : K} {m : Map K V} {P : Path K V}
    {a : Nat} {c : Color} {l r : Tree K V} {kv : K × V} {n : Nat}
    (hs : Shape m (P.plug (node a c l kv r)))
    (hnrr : (P.plug (node a c l kv r)).noRedRed)
    (hbh : (P.plug (node a c l kv r)).blackHeight n)
    (hsz : m._size = (P.plug (node a c l kv r)).size)
    (h2 : 2 ≤ (P.plug (node a c l kv r)).size)
    (hx1 : comp x kv.1 = false) (hx2 : comp kv.1 x = false) (hr : r ≠ nil) (fuel k : Nat) :
    ∃ (m3 : Map K V) (P' : Path K V) (c2 : Color) (r2 : Tree K V),
      eraseHelperObs comp (fuel + 1) m (some a) x k =
        eraseHelperObs comp fuel m3 (some a) x (k + 1) ∧
      Shape m3 (P'.plug (node a c2 nil kv r2)) ∧
      (P'.plug (node a c2 nil kv r2)).noRedRed ∧
      (P'.plug (node a c2 nil kv r2)).blackHeight n ∧
      m3._size = (P'.plug (node a c2 nil kv r2)).size ∧
      2 ≤ (P'.plug (node a c2 nil kv r2)).size ∧ r2.size < r.size := by
  have ha : a ∈ (P.plug (node a c l kv r)).addrs :=
    Path.mem_plug.mpr (Or.inl (Tree.mem_addrs_node.mpr (Or.inl rfl)))
  obtain ⟨m2, h2', hupd, hs2, hh2, -, -, hf, hlen, hsz2⟩ := updates_spec hs ha
  have hcell := (Path.rep_hole P hs.rep).1
  have hcell2 := (Path.rep_hole P hs2.rep).1
  have hroot : r.root.isSome = true := by
    cases r with
    | nil => exact absurd rfl hr
    | node _ _ _ _ _ => rfl
  have hsucc := inorderSuccessor_of_right (Path.rep_hole P hs2.rep)
    (Path.nodup_plug hs2.nodup).1 hr
  obtain ⟨Q, c2, kv2, r2, hQ, er⟩ := Tree.first_path r a hr
  generalize r.first a = n2 at er hsucc
  subst er
  obtain ⟨m3, hsw, hs3, -, -, hlen3, hsz3⟩ := swap_succ hs2 hQ hh2
  have hswap : swapWithSuccessor m2 a = some m3 := by
    simp only [swapWithSuccessor, hsucc, Option.bind_eq_bind, Option.some_bind, hsw]
  have hplug : (Q.append (Path.right n2 c kv2 l P)).plug (node a c2 nil kv r2) =
      P.plug (node n2 c l kv2 (Q.plug (node a c2 nil kv r2))) := by
    rw [Path.plug_append]
    rfl
  have inner := @Path.alike_plug K V Q (node n2 c2 nil kv2 r2) (node a c2 nil kv r2)
    (by cases c2 <;> rfl) rfl (fun h => h) (fun j h => by cases c2 <;> exact h)
  have outer := @Path.alike_plug K V P (node a c l kv (Q.plug (node n2 c2 nil kv2 r2)))
    (node n2 c l kv2 (Q.plug (node a c2 nil kv r2)))
    (by cases c <;> rfl) (by simp only [Tree.size, inner.2.1])
    (fun h => ⟨fun hc => ⟨(h.1 hc).1, inner.1.trans (h.1 hc).2⟩, h.2.1, inner.2.2.1 h.2.2⟩)
    (fun j h => by
      cases c with
      | Red => exact ⟨h.1, inner.2.2.2 _ h.2⟩
      | Black =>
        obtain ⟨i, hi, hl, hr⟩ := h
        exact ⟨i, hi, hl, inner.2.2.2 _ hr⟩)
  have hsize := Path.size_le_plug Q (node n2 c2 nil kv2 r2)
  simp only [Tree.size] at hsize
  refine ⟨m3, Q.append (Path.right n2 c kv2 l P), c2, r2, ?_, ?_, ?_, ?_, ?_, ?_, by omega⟩
  · rw [eraseHelperObs_found_right (by omega) hcell hx1 hx2 hupd hcell2 hroot fuel k, hswap,
      Option.some_bind]
  · rw [hplug]; exact hs3
  · rw [hplug]; exact outer.2.2.1 hnrr
  · rw [hplug]; exact outer.2.2.2 _ hbh
  · rw [hplug, outer.2.1, hsz3, hsz2, hsz]
  · rw [hplug, outer.2.1]; exact h2

/-- The activation of `eraseHelper` at a node with a left child and no right
child that holds an equivalent key: the node is exchanged with its in-order
predecessor and the recursive activation runs at the node in its new position,
where it has no right child and a left subtree smaller than before; the tree
keeps its colour invariants and its size. -/
theorem erase_swap_left {comp : K → K → Bool} {x : K} {m : Map K V} {P : Path K V}
    {a : Nat} {c : Color} {l : Tree K V} {kv : K × V} {n : Nat}
    (hs : Shape m (P.plug (node a c l kv nil)))
    (hnrr : (P.plug (node a c l kv nil)).noRedRed)
    (hbh : (P.plug (node a c l kv nil)).blackHeight n)
    (hsz : m._size = (P.plug (node a c l kv nil)).size)
    (h2 : 2 ≤ (P.plug (node a c l kv nil)).size)
    (hx1 : comp x kv.1 = false) (hx2 : comp kv.1 x = false) (hl : l ≠ nil) (fuel k : Nat) :
    ∃ (m3 : Map K V) (P' : Path K V) (c2 : Color) (l2 : Tree K V),
      eraseHelperObs comp (fuel + 1) m (some a) x k =
        eraseHelperObs comp fuel m3 (some a) x (k + 1) ∧
      Shape m3 (P'.plug (node a c2 l2 kv nil)) ∧
      (P'.plug (node a c2 l2 kv nil)).noRedRed ∧
      (P'.plug (node a c2 l2 kv nil)).blackHeight n ∧
      m3._size = (P'.plug (node a c2 l2 kv nil)).size ∧
      2 ≤ (P'.plug (node a c2 l2 kv nil)).size ∧ l2.size < l.size := by
  have ha : a ∈ (P.plug (node a c l kv nil)).addrs :=
    Path.mem_plug.mpr (Or.inl (Tree.mem_addrs_node.mpr (Or.inl rfl)))
  obtain ⟨m2, h2', hupd, hs2, hh2, -, -, hf, hlen, hsz2⟩ := updates_spec hs ha
  have hcell := (Path.rep_hole P hs.rep).1
  have hcell2 := (Path.rep_hole P hs2.rep).1
  have hroot : l.root.isSome = true := by
    cases l with
    | nil => exact absurd rfl hl
    | node _ _ _ _ _ => rfl
  have hpred := inorderPredecessor_of_left (Path.rep_hole P hs2.rep)
    (Path.nodup_plug hs2.nodup).1 hl
  obtain ⟨Q, c2, kv2, l2, hQ, el⟩ := Tree.last_path l a hl
  generalize l.last a = n2 at el hpred
  subst el
  obtain ⟨m3, hsw, hs3, -, -, hlen3, hsz3⟩ := swap_pred hs2 hQ hh2
  have hswap : swapWithPredecessor m2 a = some m3 := by
    simp only [swapWithPredecessor, hpred, Option.bind_eq_bind, Option.some_bind, hsw]
  have hplug : (Q.append (Path.left n2 c kv2 nil P)).plug (node a c2 l2 kv nil) =
      P.plug (node n2 c (Q.plug (node a c2 l2 kv nil)) kv2 nil) := by
    rw [Path.plug_append]
    rfl
  have inner := @Path.alike_plug K V Q (node n2 c2 l2 kv2 nil) (node a c2 l2 kv nil)
    (by cases c2 <;> rfl) rfl (fun h => h) (fun j h => by cases c2 <;> exact h)
  have outer := @Path.alike_plug K V P (node a c (Q.plug (node n2 c2 l2 kv2 nil)) kv nil)
    (node n2 c (Q.plug (node a c2 l2 kv nil)) kv2 nil)
    (by cases c <;> rfl) (by simp only [Tree.size, inner.2.1])
    (fun h => ⟨fun hc => ⟨inner.1.trans (h.1 hc).1, (h.1 hc).2⟩, inner.2.2.1 h.2.1, h.2.2⟩)
    (fun j h => by
      cases c with
      | Red => exact ⟨inner.2.2.2 _ h.1, h.2⟩
      | Black =>
        obtain ⟨i, hi, hl, hr⟩ := h
        exact ⟨i, hi, inner.2.2.2 _ hl, hr⟩)
  have hsize := Path.size_le_plug Q (node n2 c2 l2 kv2 nil)
  simp only [Tree.size] at hsize
  refine ⟨m3, Q.append (Path.left n2 c kv2 nil P), c2, l2, ?_, ?_, ?_, ?_, ?_, ?_, by omega⟩
  · rw [eraseHelperObs_found_left (by omega) hcell hx1 hx2 hupd hcell2 rfl hroot fuel k,
      hswap, Option.some_bind]
  · rw [hplug]; exact hs3
  · rw [hplug]; exact outer.2.2.1 hnrr
  · rw [hplug]; exact outer.2.2.2 _ hbh
  · rw [hplug, outer.2.1, hsz3, hsz2, hsz]
  · rw [hplug, outer.2.1]; exact h2

/-- The activation of `eraseHelper` at the node that holds an equivalent key,
in a map with at least two elements whose tree has the colour invariants: the
node is unlinked and deleted after at most two calls of `swapNodes`, and it
has no child when it is deleted. -/
theorem erase_found {comp : K → K → Bool} {x : K} {m : Map K V} {P : Path K V}
    {a : Nat} {c : Color} {l r : Tree K V} {kv : K × V} {n : Nat}
    (hs : Shape m (P.plug (node a c l kv r)))
    (hnrr : (P.plug (node a c l kv r)).noRedRed)
    (hbh : (P.plug (node a c l kv r)).blackHeight n)
    (hsz : m._size = (P.plug (node a c l kv r)).size)
    (h2 : 2 ≤ (P.plug (node a c l kv r)).size)
    (hx1 : comp x kv.1 = false) (hx2 : comp kv.1 x = false) (fuel k : Nat) :
    ∃ m' j, j ≤ 2 ∧
      eraseHelperObs comp (fuel + 3) m (some a) x k = some (m', true, k + j, some true) := by
  by_cases hr : r = nil
  · subst hr
    by_cases hl : l = nil
    · subst hl
      obtain ⟨m', e⟩ := erase_leaf hs hnrr hbh hsz h2 hx1 hx2 (fuel + 2) k
      exact ⟨m', 0, by omega, e⟩
    · obtain ⟨hXn, j, hXj⟩ := Path.valid_hole P hnrr hbh
      obtain ⟨m3, P', c2, l2, e, hs3, hnrr3, hbh3, hsz3, h23, hlt⟩ :=
        erase_swap_left hs hnrr hbh hsz h2 hx1 hx2 hl (fuel + 2) k
      rcases Tree.left_of_nil_right hXn hXj with rfl | ⟨b, kvb, rfl⟩
      · exact absurd rfl hl
      · have e2 : l2 = nil := Tree.eq_nil_of_size (by
          simp only [Tree.size] at hlt
          omega)
        subst e2
        obtain ⟨m', e'⟩ := erase_leaf hs3 hnrr3 hbh3 hsz3 h23 hx1 hx2 (fuel + 1) (k + 1)
        exact ⟨m', 1, by omega, by rw [e, e']⟩
  · obtain ⟨m3, P', c2, r2, e, hs3, hnrr3, hbh3, hsz3, h23, -⟩ :=
      erase_swap_right hs hnrr hbh hsz h2 hx1 hx2 hr (fuel + 2) k
    obtain ⟨hXn, j, hXj⟩ := Path.valid_hole P' hnrr3 hbh3
    rcases Tree.right_of_nil_left hXn hXj with rfl | ⟨b, kvb, rfl⟩
    · obtain ⟨m', e'⟩ := erase_leaf hs3 hnrr3 hbh3 hsz3 h23 hx1 hx2 (fuel + 1) (k + 1)
      exact ⟨m', 1, by omega, by rw [e, e']⟩
    · obtain ⟨m4, P'', c3, r3, e4, hs4, hnrr4, hbh4, hsz4, h24, hlt⟩ :=
        erase_swap_right hs3 hnrr3 hbh3 hsz3 h23 hx1 hx2 (fun h => by cases h) (fuel + 1)
          (k + 1)
      have e3 : r3 = nil := Tree.eq_nil_of_size (by
        simp only [Tree.size] at hlt
        omega)
      subst e3
      obtain ⟨m', e'⟩ := erase_leaf hs4 hnrr4 hbh4 hsz4 h24 hx1 hx2 fuel (k + 1 + 1)
      exact ⟨m', 2, le_rfl, by rw [e, e4, e']⟩

/-- The search of `eraseHelper` from a subtree of a map with at least two
elements whose tree has the colour invariants, for any comparator and any
key: either it ends at an absent child and nothing is changed or deleted, or
it ends at a node, which is unlinked and deleted after at most two calls of
`swapNodes` and has no child when it is deleted. -/
theorem erase_search (comp : K → K → Bool) (x : K) (s : Tree K V) :
    ∀ (P : Path K V) (m : Map K V) (n fuel k : Nat),
    Shape m (P.plug s) → (P.plug s).noRedRed → (P.plug s).blackHeight n →
    m._size = (P.plug s).size → 2 ≤ (P.plug s).size → s.height + 3 ≤ fuel →
    eraseHelperObs comp fuel m s.root x k = some (m, false, k, none) ∨
    ∃ m' j, j ≤ 2 ∧
      eraseHelperObs comp fuel m s.root x k = some (m', true, k + j, some true) := by
  induction s with
  | nil =>
    intro P m n fuel k _ _ _ _ _ hf
    obtain ⟨f, rfl⟩ : ∃ f, fuel = f + 1 := ⟨fuel - 1, by simp only [Tree.height] at hf; omega⟩
    exact Or.inl rfl
  | node a c l kv r ihl ihr =>
    intro P m n fuel k hs hnrr hbh hsz h2 hf
    simp only [Tree.height] at hf
    have hlh : l.height ≤ max l.height r.height := le_max_left _ _
    have hrh : r.height ≤ max l.height r.height := le_max_right _ _
    obtain ⟨f, rfl⟩ : ∃ f, fuel = f + 3 := ⟨fuel - 3, by omega⟩
    have hcell := (Path.rep_hole P hs.rep).1
    have hne : m._size ≠ 1 := by omega
    by_cases h1 : comp x kv.1 = true
    · have e : eraseHelperObs comp (f + 3) m (node a c l kv r).root x k =
          eraseHelperObs comp (f + 2) m l.root x k := by
        rw [Tree.root_node, eraseHelperObs, if_neg hne, hcell]
        simp only [Option.some_bind]
        rw [if_pos h1]
      rw [e]
      exact ihl (Path.left a c kv r P) m n (f + 2) k hs hnrr hbh hsz h2 (by omega)
    by_cases h3 : comp kv.1 x = true
    · have e : eraseHelperObs comp (f + 3) m (node a c l kv r).root x k =
          eraseHelperObs comp (f + 2) m r.root x k := by
        rw [Tree.root_node, eraseHelperObs, if_neg hne, hcell]
        simp only [Option.some_bind]
        rw [if_neg h1, if_pos h3]
      rw [e]
      exact ihr (Path.right a c kv l P) m n (f + 2) k hs hnrr hbh hsz h2 (by omega)
    exact Or.inr (erase_found hs hnrr hbh hsz h2 (by simpa using h1) (by simpa using h3) f k)

/-- C35: the node that `eraseHelper` deletes is a leaf.  In a map with at least
two elements that holds a tree with the colours of a red-black tree, for every
comparator and every key, `eraseHelper` called as `erase` calls it (at the
root, with the fuel of the member functions) returns, and the copy of it that
also reports the number of calls of `swapNodes` and the state of the deleted
node returns the same map and flag together with these observations: either no
node has an equivalent key, the map is returned as it is, the flag is false
and `swapNodes` was never called; or the flag is true, `swapNodes` was called
at most two times, and the node that was unlinked and deleted had neither a
left nor a right child when `delete node` was reached. -/
theorem C35_deleted_node_is_leaf (comp : K → K → Bool) (x : K) {m : Map K V} {t : Tree K V}
    (hs : Shape m t) (hrb : t.RedBlack) (hsz : m._size = t.size) (h2 : 2 ≤ t.size) :
    ∃ m' b k leaf, eraseHelperObs comp (fuelOf m) m t.root x 0 = some (m', b, k, leaf) ∧
      eraseHelper comp (fuelOf m) m t.root x = some (m', b) ∧ k ≤ 2 ∧
      ((b = false ∧ m' = m ∧ k = 0 ∧ leaf = none) ∨ (b = true ∧ leaf = some true)) := by
  obtain ⟨-, hnrr, n, hbh⟩ := hrb
  have hfuel : t.height + 3 ≤ fuelOf m := by
    have := t.height_le_size
    have := hs.rep.size_le hs.nodup
    simp only [fuelOf]
    omega
  have hfst := eraseHelperObs_fst comp x (fuelOf m) m t.root 0
  rcases erase_search comp x t Path.top m n (fuelOf m) 0 hs hnrr hbh hsz h2 hfuel with
    e | ⟨m', j, hj, e⟩
  · rw [e] at hfst
    exact ⟨m, false, 0, none, e, hfst.symm, by omega, Or.inl ⟨rfl, rfl, rfl, rfl⟩⟩
  · rw [e] at hfst
    exact ⟨m', true, 0 + j, some true, e, hfst.symm, by omega, Or.inr ⟨rfl, rfl⟩⟩

theorem C35_witness :
    (Shape blackTripleMap blackTripleTree ∧ blackTripleTree.RedBlack ∧
      blackTripleMap._size = blackTripleTree.size ∧ 2 ≤ blackTripleTree.size) ∧
    ∃ m' b k leaf,
      eraseHelperObs natLess (fuelOf blackTripleMap) blackTripleMap blackTripleTree.root 2 0 =
        some (m', b, k, leaf) ∧
      eraseHelper natLess (fuelOf blackTripleMap) blackTripleMap blackTripleTree.root 2 =
        some (m', b) ∧ k ≤ 2 ∧
      ((b = false ∧ m' = blackTripleMap ∧ k = 0 ∧ leaf = none) ∨
        (b = true ∧ leaf = some true)) :=
  ⟨⟨blackTriple_shape, blackTriple_redBlack, rfl, by decide⟩,
    C35_deleted_node_is_leaf natLess 2 blackTriple_shape blackTriple_redBlack rfl
      (by decide)⟩

/-! ## Maps with equivalent keys that are not equal

Under the strict weak ordering `lessTens`, which compares keys by their tens,
`insertHelper`, `findHelper` and `boundHelper` tell keys apart with `==` where
`eraseHelper` and `equal_range` use the equivalence of the comparator.  The
evaluations below are at maps built by `insert` alone. -/

/-- C2: under the comparator `lessTens` the keys 15 and 12 are equivalent, and
the map built from the list (15, 150), (12, 120) has size 2 and is walked from
`begin()` to `end()` as (15, 150), (12, 120): the keys visited are not strictly
increasing under the comparator. -/
theorem C2_walk_of_equivalent_keys_not_increasing :
    (lessTens 15 12, lessTens 12 15) = (false, false) ∧
    (ofList lessTens [(15, 150), (12, 120)]).bind (fun m =>
      (toList m).map fun l => (l, size m))
      = some ([(15, 150), (12, 120)], 2) := by
  decide

/-- C8: in the map built by `insert` of the keys 15, 25, 12 under the
comparator `lessTens`, whose walk visits the key 15, the call
`insert((15, 7))` returns the flag true and the iterator at a new node, and
`size()` goes from 3 to 4: the walk then visits the key 15 two times. -/
theorem C8_insert_of_present_key_adds_node :
    (ofList lessTens [(15, 150), (25, 250), (12, 120)]).bind (fun m =>
      (toList m).bind fun l => (insert lessTens m (15, 7)).bind fun r =>
        (toList r.1).map fun l2 => (l, size m, r.2.2, size r.1, l2))
      = some ([(15, 150), (12, 120), (25, 250)], 3, true, 4,
          [(15, 150), (12, 120), (15, 7), (25, 250)]) := by
  decide

/-- C11: in the map built by `insert` of the keys 15, 25, 12 under the
comparator `lessTens`, whose walk visits the key 15, `at(15)` throws
`std::out_of_range`. -/
theorem C11_at_throws_at_present_key :
    (ofList lessTens [(15, 150), (25, 250), (12, 120)]).bind (fun m =>
      (toList m).map fun l => (l, at_ lessTens m 15))
      = some ([(15, 150), (12, 120), (25, 250)], some none) := by
  decide

/-- C12: in the map built by `insert` of the keys 15, 25, 12 under the
comparator `lessTens`, whose walk visits the key 15, `operator[](15)` adds a
node with the default value and returns its slot, and `size()` goes from 3 to
4. -/
theorem C12_index_of_present_key_adds_node :
    (ofList lessTens [(15, 150), (25, 250), (12, 120)]).bind (fun m =>
      (toList m).bind fun l => (operatorIndex lessTens m 15).bind fun r =>
        (toList r.1).map fun l2 => (l, size m, size r.1, l2))
      = some ([(15, 150), (12, 120), (25, 250)], 3, 4,
          [(15, 150), (12, 120), (15, 0), (25, 250)]) ∧
    (ofList lessTens [(15, 150), (25, 250), (12, 120)]).bind (fun m =>
      (operatorIndex lessTens m 15).bind fun r => deref r.1 r.2)
      = some (15, 0) := by
  decide

/-- C14: in the map built by `insert` of the keys 15 and 25 under the
comparator `lessTens`, the key 15 does not compare less than 17, and
`lower_bound(17)` returns the iterator at the key 25, which is not the first
element whose key does not compare less than 17. -/
theorem C14_lower_bound_skips_equivalent_key :
    lessTens 15 17 = false ∧
    (ofList lessTens [(15, 150), (25, 250)]).bind (fun m =>
      (toList m).map fun l => (l, (lower_bound lessTens m 17).bind (deref m)))
      = some ([(15, 150), (25, 250)], some (25, 250)) := by
  decide

/-- C24: in the map built by `insert` of the keys 15 and 12 under the
comparator `lessTens`, the walk from `begin()` to `end()` visits (15, 150),
(12, 120) and the walk from `rbegin()` to `rend()` visits (15, 150) only. -/
theorem C24_reverse_walk_misses_element :
    (ofList lessTens [(15, 150), (12, 120)]).bind (fun m =>
      (toList m).bind fun l => (rtoList m).map fun r => (l, r))
      = some ([(15, 150), (12, 120)], [(15, 150)]) := by
  decide

/-- C39: in the map built by `insert` of the keys 15 and 25 under the
comparator `lessTens`, the key 15 does not compare less than 17, and both
iterators of `equal_range(17)` are at the key 25: the first is not at the first
element whose key is not less than 17. -/
theorem C39_equal_range_skips_equivalent_key :
    lessTens 15 17 = false ∧
    (ofList lessTens [(15, 150), (25, 250)]).bind (fun m =>
      (toList m).bind fun l => (equal_range lessTens m 17).map fun p =>
        (l, deref m p.1, deref m p.2))
      = some ([(15, 150), (25, 250)], some (25, 250), some (25, 250)) := by
  decide

/-- C40: in the map built by `insert` of the keys 15 and 12 under the
comparator `lessTens`, the root holds the key 15 and its right child holds the
key 12, although 15 does not compare less than 12: the keys of the right
subtree do not all compare greater than the key of the node. -/
theorem C40_equivalent_key_in_right_subtree :
    lessTens 15 12 = false ∧
    (ofList lessTens [(15, 150), (12, 120)]).bind (fun m =>
      (rd m 0).bind fun h => h.parent.bind fun r => (rd m r).bind fun rn =>
        rn.right.bind fun c => (rd m c).map fun cn => (rn.value.1, cn.value.1))
      = some (15, 12) := by
  decide

end StdMap
